import Mathlib

/-!
RISC-V multi-core simulator: register file, caches and memory hierarchy.

A shallow embedding of the Phase 3 sources (`pipelined_core.cpp`, `cache.cpp`,
`cache.hpp`, `cache_system.hpp`, `memory_hierarchy.cpp`, `sync_mechanism.hpp`).

Conventions.
* C++ `int` values are `Int`; `uint32_t` addresses are `Nat` reduced modulo `2^32`
  where the source performs unsigned arithmetic; `uint8_t` bytes are `Nat`.
* A call that throws, runs into undefined behaviour or does not return yields
  `Except.error` with the matching `SimError`.
* The simulator is single-threaded. The only effect of its `std::mutex` guards in such a run
  is on a call that re-enters `Cache::read` / `Cache::write` of the cache it is already in;
  that is modelled (see `Cache.read`). The console output is not modelled.
-/

namespace RiscvSim

/-- Ways in which a call can fail to return normally. -/
inductive SimError where
  /-- Models `std::out_of_range`. -/
  | outOfRange
  /-- Models `std::invalid_argument`. -/
  | invalidArgument
  /-- Models `std::runtime_error("No next level cache or memory configured")` and "No L2 cache!". -/
  | noNextLevel
  /-- Models `std::runtime_error("Invalid SPM memory access ...")`. -/
  | invalidSpmAccess
  /-- Models `front()` / `pop_front()` on an empty `std::deque` (undefined behaviour). -/
  | emptyFifo
  /-- Models signed overflow in the constructor arithmetic (undefined behaviour). -/
  | overflow
  /-- Models a second `lock()` of a non-recursive `std::mutex` by the thread that holds it
  (undefined behaviour; in practice the call never returns). -/
  | deadlock
  /-- Models the use of a null `std::shared_ptr` (undefined behaviour). -/
  | nullPointer
  /-- Models `operator[]` of a `std::vector` outside its bounds (undefined behaviour). -/
  | outOfBounds
  deriving DecidableEq, Repr

deriving instance DecidableEq for Except

/-! ## Register file of `PipelinedCore` -/

/-- Value of `PipelinedCore::NUM_REGISTERS`. -/
def NUM_REGISTERS : Int := 32

/-- The part of `PipelinedCore` that the register paths read and write. -/
structure CoreRegs where
  coreId : Int
  registers : List Int
  forwarding : Bool
  cycleCount : Int
  pendingWrites : List (Int × Int)
  registerAvailableCycle : List (Int × Int)
  deriving DecidableEq, Repr

/-- Assignment `m[k] = v` on a `std::unordered_map<int,int>` kept as an association list. -/
def mapInsert (m : List (Int × Int)) (k v : Int) : List (Int × Int) :=
  (k, v) :: m.filter (fun e => e.1 != k)

/-- `PipelinedCore::getRegister`. -/
def getRegister (s : CoreRegs) (index : Int) : Except SimError Int :=
  if index < 0 ∨ index ≥ NUM_REGISTERS then .error .outOfRange
  else if index = 31 then .ok s.coreId
  else if index = 0 then .ok 0
  else .ok (s.registers.getD index.toNat 0)

/-- `PipelinedCore::setRegister`. -/
def setRegister (s : CoreRegs) (index value : Int) : Except SimError CoreRegs :=
  if index < 0 ∨ index ≥ NUM_REGISTERS then .error .outOfRange
  else if index ≠ 0 ∧ index ≠ 31 then
    .ok { s with registers := s.registers.set index.toNat value }
  else .ok s

/-- The early register write of `PipelinedCore::execute` for an arithmetic instruction:
`if (forwarding && inst.rd > 0) { setRegister(rd, result); registerAvailableCycle[rd] = cycleCount; }`. -/
def executeArithmeticWrite (s : CoreRegs) (rd resultValue : Int) : Except SimError CoreRegs :=
  if s.forwarding ∧ rd > 0 then do
    let s1 ← setRegister s rd resultValue
    pure { s1 with registerAvailableCycle := mapInsert s1.registerAvailableCycle rd s1.cycleCount }
  else .ok s

/-- The register commit of `PipelinedCore::writeback`
(`if (inst.hasResult && inst.rd >= 0) { if (inst.rd != 0 && inst.rd != 31) {...} }`). -/
def writebackCommit (s : CoreRegs) (hasResult : Bool) (rd resultValue : Int) :
    Except SimError CoreRegs :=
  if hasResult ∧ rd ≥ 0 then
    if rd ≠ 0 ∧ rd ≠ 31 then
      if s.forwarding then do
        let s1 ← setRegister s rd resultValue
        pure { s1 with
          registerAvailableCycle := mapInsert s1.registerAvailableCycle rd (s1.cycleCount + 1) }
      else .ok { s with pendingWrites := mapInsert s.pendingWrites rd resultValue }
    else .ok s
  else .ok s

/-! ## Cache geometry -/

/-- `enum class ReplacementPolicy`. -/
inductive ReplacementPolicy where
  | LRU
  | FIFO
  deriving DecidableEq, Repr

/-- `struct CacheBlock`. -/
structure CacheBlock where
  tag : Nat
  valid : Bool
  dirty : Bool
  data : List Nat
  timestamp : Int
  deriving DecidableEq, Repr

/-- `struct CacheSet`. -/
structure CacheSet where
  blocks : List CacheBlock
  fifoQueue : List Nat
  deriving DecidableEq, Repr

/-- `class Cache` (without the name, the mutex and the next-level pointer, which is
passed to the operations separately). -/
structure Cache where
  cacheSize : Nat
  blockSize : Nat
  associativity : Nat
  accessLatency : Int
  policy : ReplacementPolicy
  numSets : Nat
  setIndexBits : Nat
  blockOffsetBits : Nat
  tagBits : Int
  accesses : Nat
  hits : Nat
  misses : Nat
  sets : List CacheSet
  globalTimestamp : Int
  deriving DecidableEq, Repr

/-- `CacheBlock::CacheBlock(int blockSize)`. -/
def CacheBlock.new (blockSize : Nat) : CacheBlock :=
  { tag := 0, valid := false, dirty := false, data := List.replicate blockSize 0, timestamp := 0 }

/-- `CacheSet::CacheSet(int associativity, int blockSize)`. -/
def CacheSet.new (associativity blockSize : Nat) : CacheSet :=
  { blocks := List.replicate associativity (CacheBlock.new blockSize), fifoQueue := [] }

/-- Halving loop behind `floorLog2`; the first argument bounds the number of steps. -/
def floorLog2Aux : Nat → Nat → Nat
  | 0, _ => 0
  | fuel + 1, n => if 2 ≤ n then floorLog2Aux fuel (n / 2) + 1 else 0

/-- The value of `static_cast<int>(std::log2(n))` for a positive `int`: the floor of the
binary logarithm. -/
def floorLog2 (n : Nat) : Nat := floorLog2Aux n n

/-- `Cache::Cache`. The arguments are C++ `int`s. -/
def Cache.new (cacheSize blockSize associativity accessLatency : Int)
    (policy : ReplacementPolicy) : Except SimError Cache :=
  if cacheSize ≤ 0 ∨ blockSize ≤ 0 ∨ associativity ≤ 0 then .error .invalidArgument
  else if cacheSize % blockSize ≠ 0 then .error .invalidArgument
  else if blockSize * associativity ≥ 2 ^ 31 then .error .overflow
  else
    let numSets := cacheSize / (blockSize * associativity)
    if numSets ≤ 0 then .error .invalidArgument
    else
      let blockOffsetBits := floorLog2 blockSize.toNat
      let setIndexBits := floorLog2 numSets.toNat
      .ok { cacheSize := cacheSize.toNat
            blockSize := blockSize.toNat
            associativity := associativity.toNat
            accessLatency := accessLatency
            policy := policy
            numSets := numSets.toNat
            setIndexBits := setIndexBits
            blockOffsetBits := blockOffsetBits
            tagBits := 32 - (setIndexBits : Int) - (blockOffsetBits : Int)
            accesses := 0
            hits := 0
            misses := 0
            sets := List.replicate numSets.toNat (CacheSet.new associativity.toNat blockSize.toNat)
            globalTimestamp := 0 }

/-- `Cache::getTag`. -/
def Cache.getTag (c : Cache) (address : Nat) : Nat :=
  address >>> (c.blockOffsetBits + c.setIndexBits)

/-- `Cache::getSetIndex`. -/
def Cache.getSetIndex (c : Cache) (address : Nat) : Nat :=
  (address >>> c.blockOffsetBits) &&& ((1 <<< c.setIndexBits) - 1)

/-- `Cache::getBlockOffset`. -/
def Cache.getBlockOffset (c : Cache) (address : Nat) : Nat :=
  address &&& ((1 <<< c.blockOffsetBits) - 1)

/-- `Cache::getAddress` (a `uint32_t` result). -/
def Cache.getAddress (c : Cache) (tag setIndex : Nat) : Nat :=
  ((tag <<< (c.blockOffsetBits + c.setIndexBits)) % 2 ^ 32 |||
    (setIndex <<< c.blockOffsetBits) % 2 ^ 32)

/-! ## Cache operations -/

/-- Bitwise complement of a `uint32_t`. -/
def not32 (x : Nat) : Nat := 2 ^ 32 - 1 - x % 2 ^ 32

/-- The virtual interface `CacheSystem` (`read` and `write`) of the level below a cache,
acting on the state `σ` of everything below. -/
structure NextLevel (σ : Type) where
  read : σ → Nat → Nat → Except SimError ((Int × List Nat) × σ)
  write : σ → Nat → List Nat → Except SimError (Int × σ)

instance : Inhabited CacheBlock := ⟨CacheBlock.new 0⟩

instance : Inhabited CacheSet := ⟨{ blocks := [], fifoQueue := [] }⟩

/-- The set `sets[setIndex]`. -/
def Cache.getSet (c : Cache) (setIndex : Nat) : CacheSet := c.sets.getD setIndex default

/-- The block `sets[setIndex].blocks[blockIndex]`. -/
def Cache.getBlock (c : Cache) (setIndex blockIndex : Nat) : CacheBlock :=
  (c.getSet setIndex).blocks.getD blockIndex default

/-- Assignment to `sets[setIndex].blocks[blockIndex]`. -/
def Cache.setBlock (c : Cache) (setIndex blockIndex : Nat) (b : CacheBlock) : Cache :=
  let set := c.getSet setIndex
  { c with sets := c.sets.set setIndex ({ set with blocks := set.blocks.set blockIndex b }) }

/-- `Cache::findBlockInSet`; `none` stands for the result `-1`. -/
def Cache.findBlockInSet (c : Cache) (tag setIndex : Nat) : Option Nat :=
  (c.getSet setIndex).blocks.findIdx? (fun b => b.valid && b.tag == tag)

/-- The LRU scan of `Cache::selectVictim`: `i` is the loop index, `lruIndex` and
`minTimestamp` the running minimum. -/
def lruScan : List CacheBlock → Nat → Nat → Int → Nat
  | [], _, lruIndex, _ => lruIndex
  | b :: bs, i, lruIndex, minTimestamp =>
    if b.timestamp < minTimestamp then lruScan bs (i + 1) i b.timestamp
    else lruScan bs (i + 1) lruIndex minTimestamp

/-- `Cache::selectVictim`: the chosen index and the cache with the rotated FIFO queue. -/
def Cache.selectVictim (c : Cache) (setIndex : Nat) : Except SimError (Nat × Cache) :=
  let set := c.getSet setIndex
  match set.blocks.findIdx? (fun b => !b.valid) with
  | some i => .ok (i, c)
  | none =>
    match c.policy with
    | .LRU =>
      match set.blocks with
      | [] => .ok (0, c)
      | b0 :: bs => .ok (lruScan bs 1 0 b0.timestamp, c)
    | .FIFO =>
      match set.fifoQueue with
      | [] => .error .emptyFifo
      | fifoIndex :: rest =>
        .ok (fifoIndex,
          { c with sets := c.sets.set setIndex ({ set with fifoQueue := rest ++ [fifoIndex] }) })

/-- `Cache::updateReplacementInfo`. -/
def Cache.updateReplacementInfo (c : Cache) (setIndex blockIndex : Nat) : Cache :=
  match c.policy with
  | .LRU =>
    { c.setBlock setIndex blockIndex
        { c.getBlock setIndex blockIndex with timestamp := c.globalTimestamp } with
      globalTimestamp := c.globalTimestamp + 1 }
  | .FIFO =>
    if !(c.getBlock setIndex blockIndex).valid then
      let set := c.getSet setIndex
      { c with sets := c.sets.set setIndex ({ set with fifoQueue := set.fifoQueue ++ [blockIndex] }) }
    else c

/-- The bytes `data[off], ..., data[off + n - 1]`. -/
def sliceBytes (data : List Nat) (off n : Nat) : List Nat :=
  (List.range n).map (fun i => data.getD (off + i) 0)

/-- The loop `blk[off + i] = data[i]` for every `i < data.size()`. -/
def storeBytes : List Nat → Nat → List Nat → List Nat
  | blk, _, [] => blk
  | blk, off, d :: ds => storeBytes (blk.set off d) (off + 1) ds

/-- `Cache::readFromNextLevel`. -/
def Cache.readFromNextLevel {σ : Type} (c : Cache) (nl : Option (NextLevel σ)) (s : σ)
    (address : Nat) : Except SimError (List Nat × σ) :=
  match nl with
  | none => .error .noNextLevel
  | some n => do
    let r ← n.read s address c.blockSize
    pure (r.1.2, r.2)

/-- `Cache::writeToNextLevel`: read the block below, merge the bytes, write it back. -/
def Cache.writeToNextLevel {σ : Type} (c : Cache) (nl : Option (NextLevel σ)) (s : σ)
    (address : Nat) (data : List Nat) : Except SimError σ :=
  match nl with
  | none => .error .noNextLevel
  | some n => do
    let blockAddress := address &&& not32 (c.blockSize - 1)
    let offset := (address + 2 ^ 32 - blockAddress) % 2 ^ 32
    let r ← n.read s blockAddress c.blockSize
    let merged := storeBytes r.1.2 offset (data.take (c.blockSize - offset))
    let w ← n.write r.2 blockAddress merged
    pure w.2

/-- The write-back of a victim (`if (block.valid && block.dirty) writeToNextLevel(...)`). -/
def Cache.writeBackVictim {σ : Type} (c : Cache) (nl : Option (NextLevel σ)) (s : σ)
    (setIndex : Nat) (block : CacheBlock) : Except SimError σ :=
  if block.valid && block.dirty then
    c.writeToNextLevel nl s (c.getAddress block.tag setIndex) block.data
  else .ok s

/-- `Cache::read(address, size)`. The call holds `cacheMutex` (a non-recursive `std::mutex`,
locked by the `lock_guard` in its first line) for its whole duration. When the requested bytes
run past the end of the block, the loop calls `read(address + i, size - i)` on the same cache,
which locks the same mutex again: undefined behaviour, a self-deadlock in practice. That case
is `SimError.deadlock`. -/
def Cache.read {σ : Type} (nl : Option (NextLevel σ)) (c0 : Cache) (s : σ)
    (address size : Nat) : Except SimError ((Int × List Nat) × Cache × σ) :=
  let tag := c0.getTag address
  let setIndex := c0.getSetIndex address
  let blockOffset := c0.getBlockOffset address
  let c1 := { c0 with accesses := c0.accesses + 1 }
  let inBlock := c1.blockSize - blockOffset
  match c1.findBlockInSet tag setIndex with
  | some blockIndex =>
    let c2 := { c1 with hits := c1.hits + 1 }
    let c3 := c2.updateReplacementInfo setIndex blockIndex
    let block := c3.getBlock setIndex blockIndex
    if size ≤ inBlock then
      .ok ((c3.accessLatency, sliceBytes block.data blockOffset size), c3, s)
    else .error .deadlock
  | none => do
    let c2 := { c1 with misses := c1.misses + 1 }
    let blockAddress := address &&& not32 ((1 <<< c2.blockOffsetBits) - 1)
    let fetched ← (match nl with
      | some n => n.read s blockAddress c2.blockSize
      | none => .ok (((0 : Int), List.replicate c2.blockSize 0), s))
    let nextLevelLatency := fetched.1.1
    let blockData := fetched.1.2
    let v ← c2.selectVictim setIndex
    let blockIndex := v.1
    let c3 := v.2
    let victim := c3.getBlock setIndex blockIndex
    let s2 ← c3.writeBackVictim nl fetched.2 setIndex victim
    let c4 := c3.setBlock setIndex blockIndex
      { victim with tag := tag, valid := true, dirty := false, data := blockData }
    let c5 := c4.updateReplacementInfo setIndex blockIndex
    let block := c5.getBlock setIndex blockIndex
    if size ≤ inBlock then
      pure ((c5.accessLatency + nextLevelLatency, sliceBytes block.data blockOffset size), c5, s2)
    else .error .deadlock

/-- `Cache::write(address, data)`. As in `Cache::read`, the recursive call for bytes past the
end of the block re-locks the `cacheMutex` this call holds and is `SimError.deadlock`. -/
def Cache.write {σ : Type} (nl : Option (NextLevel σ)) (c0 : Cache) (s : σ)
    (address : Nat) (data : List Nat) : Except SimError (Int × Cache × σ) :=
  let tag := c0.getTag address
  let setIndex := c0.getSetIndex address
  let blockOffset := c0.getBlockOffset address
  let c1 := { c0 with accesses := c0.accesses + 1 }
  let inBlock := c1.blockSize - blockOffset
  match c1.findBlockInSet tag setIndex with
  | some blockIndex =>
    let c2 := { c1 with hits := c1.hits + 1 }
    let c3 := c2.updateReplacementInfo setIndex blockIndex
    let block := c3.getBlock setIndex blockIndex
    let c4 := c3.setBlock setIndex blockIndex
      { block with dirty := true, data := storeBytes block.data blockOffset (data.take inBlock) }
    if data.length ≤ inBlock then
      .ok (c4.accessLatency, c4, s)
    else .error .deadlock
  | none => do
    let c2 := { c1 with misses := c1.misses + 1 }
    let blockAddress := address &&& not32 ((1 <<< c2.blockOffsetBits) - 1)
    let fetched ← c2.readFromNextLevel nl s blockAddress
    let blockData := fetched.1
    let v ← c2.selectVictim setIndex
    let blockIndex := v.1
    let c3 := v.2
    let victim := c3.getBlock setIndex blockIndex
    let s2 ← c3.writeBackVictim nl fetched.2 setIndex victim
    let c4 := c3.setBlock setIndex blockIndex
      { victim with tag := tag, valid := true, dirty := true,
                    data := storeBytes blockData blockOffset (data.take inBlock) }
    if data.length ≤ inBlock then
      pure (c4.accessLatency, c4.updateReplacementInfo setIndex blockIndex, s2)
    else .error .deadlock

/-- `Cache::invalidateAll` (clears `valid` and `dirty` of every block). -/
def Cache.invalidateAll (c : Cache) : Cache :=
  { c with sets := c.sets.map (fun set =>
      { set with blocks := set.blocks.map (fun b => { b with valid := false, dirty := false }) }) }

/-- `Cache::invalidateBlock`. -/
def Cache.invalidateBlock {σ : Type} (nl : Option (NextLevel σ)) (c : Cache) (s : σ)
    (address : Nat) : Except SimError (Cache × σ) :=
  let tag := c.getTag address
  let setIndex := c.getSetIndex address
  match c.findBlockInSet tag setIndex with
  | some blockIndex => do
    let block := c.getBlock setIndex blockIndex
    let s2 ← (if block.dirty then
        c.writeToNextLevel nl s (c.getAddress block.tag setIndex) block.data
      else .ok s)
    pure (c.setBlock setIndex blockIndex { block with valid := false }, s2)
  | none => .ok (c, s)

/-- One iteration of the write-back loops of `flushCache` / `writeBackAndInvalidate`:
`if (blk.valid && blk.dirty) { next->write(getAddress(blk.tag, setIdx), blk.data); blk.dirty = false; }`. -/
def Cache.flushBlock {σ : Type} (n : NextLevel σ) (cs : Cache × σ) (setIdx blockIdx : Nat) :
    Except SimError (Cache × σ) :=
  let blk := cs.1.getBlock setIdx blockIdx
  if blk.valid && blk.dirty then do
    let w ← n.write cs.2 (cs.1.getAddress blk.tag setIdx) blk.data
    pure (cs.1.setBlock setIdx blockIdx { blk with dirty := false }, w.2)
  else .ok cs

/-- The inner loop `for (auto &blk : sets[setIdx].blocks)`. -/
def Cache.flushSet {σ : Type} (n : NextLevel σ) (cs : Cache × σ) (setIdx : Nat) :
    Except SimError (Cache × σ) :=
  (List.range (cs.1.getSet setIdx).blocks.length).foldlM
    (fun acc blockIdx => Cache.flushBlock n acc setIdx blockIdx) cs

/-- The outer loop `for (int setIdx = 0; setIdx < numSets; ++setIdx)`. -/
def Cache.flushLoop {σ : Type} (n : NextLevel σ) (c : Cache) (s : σ) :
    Except SimError (Cache × σ) :=
  (List.range c.numSets).foldlM (fun acc setIdx => Cache.flushSet n acc setIdx) (c, s)

/-- `Cache::flushCache`. -/
def Cache.flushCache {σ : Type} (nl : Option (NextLevel σ)) (c : Cache) (s : σ) :
    Except SimError (Cache × σ) :=
  match nl with
  | none => .ok (c, s)
  | some n => Cache.flushLoop n c s

/-- `L1DCache::invalidateAll` (clears only `valid`). -/
def L1DCache.invalidateAll (c : Cache) : Cache :=
  { c with sets := c.sets.map (fun set =>
      { set with blocks := set.blocks.map (fun b => { b with valid := false }) }) }

/-- `L1DCache::writeBackAndInvalidate`. -/
def L1DCache.writeBackAndInvalidate {σ : Type} (nl : Option (NextLevel σ)) (c : Cache) (s : σ) :
    Except SimError (Cache × σ) :=
  match nl with
  | none => .error .noNextLevel
  | some n => do
    let r ← Cache.flushLoop n c s
    pure (L1DCache.invalidateAll r.1, r.2)

/-- `L1ICache::writeBackAndInvalidate` (its `invalidateAll` is `Cache::invalidateAll`). -/
def L1ICache.writeBackAndInvalidate {σ : Type} (nl : Option (NextLevel σ)) (c : Cache) (s : σ) :
    Except SimError (Cache × σ) :=
  match nl with
  | none => .error .noNextLevel
  | some n => do
    let r ← Cache.flushLoop n c s
    pure (Cache.invalidateAll r.1, r.2)

/-- `L1DCache::write`: allocate by a read, write into L1, then write the same bytes to L2. -/
def L1DCache.write {σ : Type} (nl : Option (NextLevel σ)) (c : Cache) (s : σ)
    (addr : Nat) (data : List Nat) : Except SimError (Int × Cache × σ) := do
  let r1 ← Cache.read nl c s addr data.length
  let r2 ← Cache.write nl r1.2.1 r1.2.2 addr data
  match nl with
  | some l2 => do
    let w ← l2.write r2.2.2 addr data
    pure (r2.1, r2.2.1, w.2)
  | none => pure (r2.1, r2.2.1, r2.2.2)

/-! ## Main memory and scratchpad -/

/-- `class MainMemory`. -/
structure MainMemory where
  memory : List Nat
  accessLatency : Int
  deriving DecidableEq, Repr

/-- `MainMemory::MainMemory(size, accessLatency)`. -/
def MainMemory.new (size : Nat) (accessLatency : Int) : MainMemory :=
  { memory := List.replicate size 0, accessLatency := accessLatency }

/-- `MainMemory::read`; in `address + i` the `int` index is converted to `uint32_t`. -/
def MainMemory.read (m : MainMemory) (address size : Nat) : Int × List Nat :=
  (m.accessLatency,
    (List.range size).map (fun i =>
      if (address + i) % 2 ^ 32 < m.memory.length then m.memory.getD ((address + i) % 2 ^ 32) 0
      else 0))

/-- The loop of `MainMemory::write` and `ScratchpadMemory::write`; the index is a `size_t`,
so `address + i` does not wrap. -/
def checkedStore : List Nat → Nat → List Nat → List Nat
  | mem, _, [] => mem
  | mem, a, d :: ds => checkedStore (if a < mem.length then mem.set a d else mem) (a + 1) ds

/-- `MainMemory::write`. -/
def MainMemory.write (m : MainMemory) (address : Nat) (data : List Nat) : Int × MainMemory :=
  (m.accessLatency, { m with memory := checkedStore m.memory address data })

/-- `class MemorySystem` wrapping the main memory. -/
def memorySystem : NextLevel MainMemory :=
  { read := fun m address size => .ok (m.read address size, m)
    write := fun m address data => .ok (m.write address data) }

/-- `class MemorySystem` wrapping the shared L2 cache, whose own next level is the main memory. -/
def l2System : NextLevel (Cache × MainMemory) :=
  { read := fun s address size => do
      let r ← Cache.read (some memorySystem) s.1 s.2 address size
      pure (r.1, r.2)
    write := fun s address data => do
      let r ← Cache.write (some memorySystem) s.1 s.2 address data
      pure (r.1, r.2) }

/-- Conversion of a bit pattern to `int32_t`. -/
def toInt32 (n : Nat) : Int :=
  if n % 2 ^ 32 < 2 ^ 31 then ((n % 2 ^ 32 : Nat) : Int) else ((n % 2 ^ 32 : Nat) : Int) - 2 ^ 32

/-- The byte `(value >> (i * 8)) & 0xFF` of a signed word. -/
def byteOf (value : Int) (i : Nat) : Nat := ((value >>> (i * 8)) % 256).toNat

/-- The four bytes of a word, least significant first. -/
def wordToBytes (value : Int) : List Nat := (List.range 4).map (byteOf value)

/-- The word `data[0] | data[1] << 8 | data[2] << 16 | data[3] << 24` as an `int32_t`. -/
def bytesToWord (data : List Nat) : Int :=
  toInt32 (data.getD 0 0 ||| (data.getD 1 0 <<< 8) ||| (data.getD 2 0 <<< 16) |||
    (data.getD 3 0 <<< 24))

/-- `class ScratchpadMemory`. -/
structure ScratchpadMemory where
  memory : List Nat
  size : Nat
  accessLatency : Int
  deriving DecidableEq, Repr

/-- `ScratchpadMemory::ScratchpadMemory(size, accessLatency)`. -/
def ScratchpadMemory.new (size : Nat) (accessLatency : Int) : ScratchpadMemory :=
  { memory := List.replicate size 0, size := size, accessLatency := accessLatency }

/-- `ScratchpadMemory::loadWord`; the elements `memory[address]`, ..., `memory[address + 3]`
are read with `operator[]`, so a position outside the vector is undefined behaviour. -/
def ScratchpadMemory.loadWord (m : ScratchpadMemory) (address : Nat) : Except SimError Int :=
  if address % 4 ≠ 0 ∨ address ≥ m.size % 2 ^ 32 then .error .invalidSpmAccess
  else if address + 3 < m.memory.length then .ok (bytesToWord (sliceBytes m.memory address 4))
  else .error .outOfBounds

/-- `ScratchpadMemory::storeWord`; as in `loadWord` the four elements are accessed with
`operator[]`. -/
def ScratchpadMemory.storeWord (m : ScratchpadMemory) (address : Nat) (value : Int) :
    Except SimError ScratchpadMemory :=
  if address % 4 ≠ 0 ∨ address ≥ m.size % 2 ^ 32 then .error .invalidSpmAccess
  else if address + 3 < m.memory.length then
    .ok { m with memory := storeBytes m.memory address (wordToBytes value) }
  else .error .outOfBounds

/-! ## Memory hierarchy -/

instance : Inhabited Cache :=
  ⟨{ cacheSize := 0, blockSize := 0, associativity := 0, accessLatency := 0, policy := .LRU,
     numSets := 0, setIndexBits := 0, blockOffsetBits := 0, tagBits := 32, accesses := 0,
     hits := 0, misses := 0, sets := [], globalTimestamp := 0 }⟩

instance : Inhabited ScratchpadMemory := ⟨ScratchpadMemory.new 0 0⟩

/-- `class MemoryHierarchy`. -/
structure MemoryHierarchy where
  numCores : Int
  mainMemory : MainMemory
  l2Cache : Cache
  l1ICaches : List Cache
  l1DCaches : List Cache
  scratchpads : List ScratchpadMemory
  deriving DecidableEq, Repr

/-- The values read from the cache configuration file by `loadConfiguration`. -/
structure CacheConfig where
  l1iSize : Int := 16 * 1024
  l1dSize : Int := 16 * 1024
  l2Size : Int := 256 * 1024
  l1iBlockSize : Int := 64
  l1dBlockSize : Int := 64
  l2BlockSize : Int := 64
  l1iAssoc : Int := 2
  l1dAssoc : Int := 4
  l2Assoc : Int := 8
  l1iLatency : Int := 1
  l1dLatency : Int := 1
  l2Latency : Int := 10
  memLatency : Int := 100
  spmSize : Nat := 16 * 1024
  spmLatency : Int := 1
  l1iPolicy : ReplacementPolicy := .LRU
  l1dPolicy : ReplacementPolicy := .LRU
  l2Policy : ReplacementPolicy := .LRU

/-- `MemoryHierarchy::MemoryHierarchy` with `setupMemoryHierarchy`. -/
def MemoryHierarchy.new (numCores : Int) (cfg : CacheConfig) : Except SimError MemoryHierarchy := do
  let l2 ← Cache.new cfg.l2Size cfg.l2BlockSize cfg.l2Assoc cfg.l2Latency cfg.l2Policy
  if numCores ≤ 0 then
    pure { numCores := numCores, mainMemory := MainMemory.new (4 * 1024) cfg.memLatency,
           l2Cache := l2, l1ICaches := [], l1DCaches := [], scratchpads := [] }
  else do
    let l1i ← Cache.new cfg.l1iSize cfg.l1iBlockSize cfg.l1iAssoc cfg.l1iLatency cfg.l1iPolicy
    let l1d ← Cache.new cfg.l1dSize cfg.l1dBlockSize cfg.l1dAssoc cfg.l1dLatency cfg.l1dPolicy
    pure { numCores := numCores, mainMemory := MainMemory.new (4 * 1024) cfg.memLatency,
           l2Cache := l2
           l1ICaches := List.replicate numCores.toNat l1i
           l1DCaches := List.replicate numCores.toNat l1d
           scratchpads := List.replicate numCores.toNat
             (ScratchpadMemory.new cfg.spmSize cfg.spmLatency) }

/-- `MemoryHierarchy::loadWord`. -/
def MemoryHierarchy.loadWord (h : MemoryHierarchy) (coreId : Int) (address : Nat) :
    Except SimError ((Int × Int) × MemoryHierarchy) :=
  if coreId < 0 ∨ coreId ≥ h.numCores then .error .outOfRange
  else do
    let address := address &&& not32 3
    let r ← Cache.read (some l2System) (h.l1DCaches.getD coreId.toNat default)
      (h.l2Cache, h.mainMemory) address 4
    pure ((r.1.1, bytesToWord r.1.2),
      { h with l1DCaches := h.l1DCaches.set coreId.toNat r.2.1
               l2Cache := r.2.2.1, mainMemory := r.2.2.2 })

/-- `MemoryHierarchy::storeWord`. -/
def MemoryHierarchy.storeWord (h : MemoryHierarchy) (coreId : Int) (address : Nat) (value : Int) :
    Except SimError (Int × MemoryHierarchy) :=
  if coreId < 0 ∨ coreId ≥ h.numCores then .error .outOfRange
  else do
    let address := address &&& not32 3
    let r ← L1DCache.write (some l2System) (h.l1DCaches.getD coreId.toNat default)
      (h.l2Cache, h.mainMemory) address (wordToBytes value)
    pure (r.1,
      { h with l1DCaches := h.l1DCaches.set coreId.toNat r.2.1
               l2Cache := r.2.2.1, mainMemory := r.2.2.2 })

/-- `MemoryHierarchy::loadWordFromSPM`. -/
def MemoryHierarchy.loadWordFromSPM (h : MemoryHierarchy) (coreId : Int) (address : Nat) :
    Except SimError ((Int × Int) × MemoryHierarchy) :=
  if coreId < 0 ∨ coreId ≥ h.numCores then .error .outOfRange
  else do
    let address := address &&& not32 3
    let spm := h.scratchpads.getD coreId.toNat default
    let value ← spm.loadWord address
    pure ((spm.accessLatency, value), h)

/-- `MemoryHierarchy::storeWordToSPM`. -/
def MemoryHierarchy.storeWordToSPM (h : MemoryHierarchy) (coreId : Int) (address : Nat)
    (value : Int) : Except SimError (Int × MemoryHierarchy) :=
  if coreId < 0 ∨ coreId ≥ h.numCores then .error .outOfRange
  else do
    let address := address &&& not32 3
    let spm := h.scratchpads.getD coreId.toNat default
    let spm2 ← spm.storeWord address value
    pure (spm2.accessLatency, { h with scratchpads := h.scratchpads.set coreId.toNat spm2 })

/-- `MemoryHierarchy::flushL1D`. -/
def MemoryHierarchy.flushL1D (h : MemoryHierarchy) (coreId : Int) :
    Except SimError MemoryHierarchy :=
  if coreId < 0 ∨ coreId ≥ h.numCores then .error .outOfRange
  else do
    let r ← L1DCache.writeBackAndInvalidate (some l2System)
      (h.l1DCaches.getD coreId.toNat default) (h.l2Cache, h.mainMemory)
    pure { h with l1DCaches := h.l1DCaches.set coreId.toNat r.1
                  l2Cache := r.2.1, mainMemory := r.2.2 }

/-- `MemoryHierarchy::invalidateL1D`. -/
def MemoryHierarchy.invalidateL1D (h : MemoryHierarchy) (coreId : Int) : MemoryHierarchy :=
  if coreId ≥ 0 ∧ coreId < h.numCores then
    let l1d := L1DCache.invalidateAll (h.l1DCaches.getD coreId.toNat default)
    { h with l1DCaches := h.l1DCaches.set coreId.toNat l1d }
  else h

/-! ## SYNC barrier -/

/-- `class SyncMechanism` (the hierarchy it points to is passed to `retire`). -/
structure SyncMechanism where
  numCores : Int
  arrived : List Bool
  retired : List Bool
  arriveCount : Int
  retireCount : Int
  deriving DecidableEq, Repr

/-- `SyncMechanism::SyncMechanism(n, mem)`. -/
def SyncMechanism.new (n : Int) : SyncMechanism :=
  { numCores := n, arrived := List.replicate n.toNat false,
    retired := List.replicate n.toNat false, arriveCount := 0, retireCount := 0 }

/-- `SyncMechanism::arrive`. -/
def SyncMechanism.arrive (b : SyncMechanism) (coreId : Nat) : SyncMechanism :=
  if !(b.arrived.getD coreId false) then
    { b with arrived := b.arrived.set coreId true, arriveCount := b.arriveCount + 1 }
  else b

/-- `SyncMechanism::canProceed` (that is `allArrived`). -/
def SyncMechanism.canProceed (b : SyncMechanism) (_coreId : Nat) : Bool :=
  b.arriveCount == b.numCores

/-- `SyncMechanism::reset`. -/
def SyncMechanism.reset (b : SyncMechanism) : SyncMechanism :=
  { b with arrived := b.arrived.map (fun _ => false), retired := b.retired.map (fun _ => false),
           arriveCount := 0, retireCount := 0 }

/-- The loop `for (int c = 0; c < numCores; ++c) memoryHierarchy->flushL1D(c)`. -/
def flushAllL1D (numCores : Int) (h : MemoryHierarchy) : Except SimError MemoryHierarchy :=
  (List.range numCores.toNat).foldlM
    (fun (acc : MemoryHierarchy) (c : Nat) => acc.flushL1D (c : Int)) h

/-- `SyncMechanism::retire`. -/
def SyncMechanism.retire (b : SyncMechanism) (h : MemoryHierarchy) (coreId : Nat) :
    Except SimError (SyncMechanism × MemoryHierarchy) :=
  let b1 := if !(b.retired.getD coreId false) then
      { b with retired := b.retired.set coreId true, retireCount := b.retireCount + 1 }
    else b
  if b1.retireCount = b1.numCores then do
    let h2 ← flushAllL1D b1.numCores h
    pure (b1.reset, h2)
  else .ok (b1, h)

/-- A core with id 1 and forwarding enabled, used to instantiate the register theorems. -/
def sampleCore : CoreRegs :=
  { coreId := 1, registers := List.replicate 31 0 ++ [1], forwarding := true, cycleCount := 5,
    pendingWrites := [], registerAvailableCycle := [] }

/-- A 2-way cache of 32 bytes with 4-byte blocks (4 sets), as built by the constructor. -/
def sampleCache : Cache :=
  { cacheSize := 32, blockSize := 4, associativity := 2, accessLatency := 1, policy := .LRU,
    numSets := 4, setIndexBits := 2, blockOffsetBits := 2, tagBits := 28, accesses := 0,
    hits := 0, misses := 0, sets := List.replicate 4 (CacheSet.new 2 4), globalTimestamp := 0 }

/-- A two-core hierarchy with the default configuration. -/
def sampleHierarchy : MemoryHierarchy :=
  { numCores := 2, mainMemory := MainMemory.new (4 * 1024) 100,
    l2Cache := default, l1ICaches := [], l1DCaches := [],
    scratchpads := List.replicate 2 (ScratchpadMemory.new 16 1) }

/-- The block in slot `bi` of set `si`, if both indices are in range. -/
def Cache.blockAt (c : Cache) (si bi : Nat) : Option CacheBlock :=
  (c.sets[si]?).bind (fun set => set.blocks[bi]?)

/-- Every set holds at most one valid block for any given tag. -/
def Cache.UniqueTags (c : Cache) : Prop :=
  ∀ (si i j : Nat) (bi bj : CacheBlock), c.blockAt si i = some bi → c.blockAt si j = some bj →
    bi.valid = true → bj.valid = true → bi.tag = bj.tag → i = j

/-- The caches that arise from a freshly constructed one by `read`, `write`, `invalidateBlock`,
`invalidateAll` and `flushCache` calls that return, whatever the level below does. -/
inductive Cache.Reachable {σ : Type} (nl : Option (NextLevel σ)) : Cache → Prop
  | fresh {cs bs as lat : Int} {pol : ReplacementPolicy} {c : Cache} :
      Cache.new cs bs as lat pol = .ok c → Cache.Reachable nl c
  | read {c : Cache} {s : σ} {a n : Nat} {r : (Int × List Nat) × Cache × σ} :
      Cache.Reachable nl c → Cache.read nl c s a n = .ok r → Cache.Reachable nl r.2.1
  | write {c : Cache} {s : σ} {a : Nat} {d : List Nat} {r : Int × Cache × σ} :
      Cache.Reachable nl c → Cache.write nl c s a d = .ok r → Cache.Reachable nl r.2.1
  | invalidateBlock {c : Cache} {s : σ} {a : Nat} {r : Cache × σ} :
      Cache.Reachable nl c → Cache.invalidateBlock nl c s a = .ok r → Cache.Reachable nl r.1
  | invalidateAll {c : Cache} : Cache.Reachable nl c → Cache.Reachable nl c.invalidateAll
  | flushCache {c : Cache} {s : σ} {r : Cache × σ} :
      Cache.Reachable nl c → Cache.flushCache nl c s = .ok r → Cache.Reachable nl r.1

/-- The fields of a block other than its LRU timestamp. -/
def CacheBlock.core (b : CacheBlock) : Nat × Bool × Bool × List Nat :=
  (b.tag, b.valid, b.dirty, b.data)

/-- The contents (without the timestamp) of slot `bi` of set `si`. -/
def Cache.coreAt (c : Cache) (si bi : Nat) : Option (Nat × Bool × Bool × List Nat) :=
  (c.blockAt si bi).map CacheBlock.core

/-- The configuration of a cache: everything the constructor fixes. -/
def Cache.geom (c : Cache) : Nat × Nat × Nat × Int × ReplacementPolicy × Nat × Nat × Nat × Int :=
  (c.cacheSize, c.blockSize, c.associativity, c.accessLatency, c.policy, c.numSets,
    c.setIndexBits, c.blockOffsetBits, c.tagBits)

/-- A 16-byte main memory holding the bytes 0, 1, ..., 15. -/
def sampleMemory : MainMemory := { memory := List.range 16, accessLatency := 100 }

/-- The sample cache after a read of two bytes at address 5 from the sample memory. -/
def sampleCacheRead : (Int × List Nat) × Cache × MainMemory :=
  match Cache.read (some memorySystem) sampleCache sampleMemory 5 2 with
  | .ok r => r
  | .error _ => ((0, []), sampleCache, sampleMemory)

/-- A configuration with small caches: 128-byte 2-way L1 caches and a 256-byte 2-way L2, all
with 64-byte blocks and LRU replacement. -/
def smallCfg : CacheConfig :=
  { l1iSize := 128, l1dSize := 128, l2Size := 256, l1iAssoc := 2, l1dAssoc := 2, l2Assoc := 2 }

/-- Two stores of core 0 to address 0 on a fresh one-core hierarchy with the default
configuration: whether the block is valid in L1D before the second store, and the first four
bytes of the L2 copy of the block before and after the second store. -/
def c9Scenario : Except SimError (Bool × List Nat × List Nat) := do
  let h0 ← MemoryHierarchy.new 1 {}
  let r1 ← h0.storeWord 0 0 1
  let r2 ← r1.2.storeWord 0 0 2
  pure ((r1.2.l1DCaches.getD 0 default).findBlockInSet 0 0 == some 0,
    sliceBytes (r1.2.l2Cache.getBlock 0 0).data 0 4,
    sliceBytes (r2.2.l2Cache.getBlock 0 0).data 0 4)

/-- A one-core hierarchy with the small configuration after core 0 stored 1 at address 0. -/
def c9Hierarchy : MemoryHierarchy :=
  match (do
    let h0 ← MemoryHierarchy.new 1 smallCfg
    let r1 ← h0.storeWord 0 0 1
    pure r1.2 : Except SimError MemoryHierarchy) with
  | .ok h => h
  | .error _ =>
    { numCores := 0, mainMemory := MainMemory.new 0 0, l2Cache := default, l1ICaches := [],
      l1DCaches := [], scratchpads := [] }

/-- The result of writing the bytes of the word 2 at address 0 to the L2 of `c9Hierarchy`. -/
def c9Write : Int × Cache × MainMemory :=
  match l2System.write (c9Hierarchy.l2Cache, c9Hierarchy.mainMemory) 0 (wordToBytes 2) with
  | .ok w => w
  | .error _ => (0, c9Hierarchy.l2Cache, c9Hierarchy.mainMemory)

/-- Structural well-formedness of a cache: the offset field fits the block, every set index
the address decomposition can produce names a set, every set has a slot, every FIFO entry names
a slot, and every block carries `blockSize` bytes. -/
def Cache.WF (c : Cache) : Prop :=
  2 ^ c.blockOffsetBits ≤ c.blockSize ∧ c.blockSize < 2 ^ 31 ∧
  2 ^ c.setIndexBits ≤ c.sets.length ∧
  ∀ set ∈ c.sets, set.blocks ≠ [] ∧ (∀ q ∈ set.fifoQueue, q < set.blocks.length) ∧
    ∀ b ∈ set.blocks, b.data.length = c.blockSize

/-- A write miss with a dirty victim in a cache with 3-byte blocks over a 16-byte memory: the
victim's bytes, the address rebuilt from its tag and set index, and the three bytes the memory
holds at that address after the eviction. -/
def c10Scenario : Except SimError (List Nat × Nat × List Nat) := do
  let c ← Cache.new 3 3 1 1 .LRU
  let r1 ← Cache.write (some memorySystem) c (MainMemory.new 16 100) 6 [1, 2, 3]
  let victim := r1.2.1.getBlock 0 0
  let r2 ← Cache.write (some memorySystem) r1.2.1 r1.2.2 4 [7]
  pure (victim.data, r1.2.1.getAddress victim.tag 0, sliceBytes r2.2.2.memory 6 3)

/-- One core, L1D of 128 bytes, 2-way, 64-byte blocks (a single set) with the given policy:
loads of addresses 0 and 64 fill the set; the inner result is that of `storeWord(0, 128, 7)`
followed by `loadWord(0, 128)`. -/
def c2Scenario (policy : ReplacementPolicy) : Except SimError (Except SimError Int) := do
  let h0 ← MemoryHierarchy.new 1 { l1dSize := 128, l1dAssoc := 2, l1dPolicy := policy }
  let r1 ← h0.loadWord 0 0
  let r2 ← r1.2.loadWord 0 64
  pure (do
    let r3 ← r2.2.storeWord 0 128 7
    let l ← r3.2.loadWord 0 128
    pure l.1.2)

/-- Two cores, default configuration. If `neighbour` is set, core 1 first stores 7 at address
104 (same 64-byte block as address 100). Core 0 stores 42 at address 100, both cores arrive at
and retire the barrier, and core 1 loads address 100. The result is the loaded word together
with the barrier's `arriveCount` and `retireCount` after the last retirement. -/
def c4Scenario (neighbour : Bool) : Except SimError (Int × Int × Int) := do
  let h0 ← MemoryHierarchy.new 2 {}
  let h1 ← (if neighbour then (h0.storeWord 1 104 7).map (fun r => r.2) else pure h0)
  let r2 ← h1.storeWord 0 100 42
  let b := ((SyncMechanism.new 2).arrive 0).arrive 1
  let s1 ← b.retire r2.2 0
  let s2 ← s1.1.retire s1.2 1
  let l ← s2.2.loadWord 1 100
  pure (l.1.2, s2.1.arriveCount, s2.1.retireCount)

/-- A cache of 8 bytes, 2-way, 4-byte blocks (a single set) with the given policy over the
sample memory: reads of addresses 0 and 4 fill the set; the inner result is that of the read
of four bytes at address 8. -/
def c8Scenario (policy : ReplacementPolicy) :
    Except SimError (Except SimError (Int × List Nat)) := do
  let c ← Cache.new 8 4 2 1 policy
  let r1 ← Cache.read (some memorySystem) c sampleMemory 0 4
  let r2 ← Cache.read (some memorySystem) r1.2.1 r1.2.2 4 4
  pure ((Cache.read (some memorySystem) r2.2.1 r2.2.2 8 4).map (fun r => r.1))

/-- The level below returns exactly as many bytes as it is asked for. -/
def NextLevel.ReadLen {σ : Type} (nl : Option (NextLevel σ)) : Prop :=
  ∀ n ∈ nl, ∀ (s : σ) (a k : Nat) (r : (Int × List Nat) × σ), n.read s a k = .ok r →
    r.1.2.length = k

/-- The states of a barrier for `n` cores that calls of `arrive`, `retire` and `reset` with core
ids in `0 .. n-1` can produce from the constructor; `retire` runs against any hierarchy. -/
inductive SyncMechanism.Reachable (n : Int) : SyncMechanism → Prop
  | fresh : SyncMechanism.Reachable n (SyncMechanism.new n)
  | arrive {b : SyncMechanism} (c : Nat) : SyncMechanism.Reachable n b → (c : Int) < n →
      SyncMechanism.Reachable n (b.arrive c)
  | retire {b : SyncMechanism} (c : Nat) (h : MemoryHierarchy)
      {r : SyncMechanism × MemoryHierarchy} : SyncMechanism.Reachable n b → (c : Int) < n →
      b.retire h c = .ok r → SyncMechanism.Reachable n r.1
  | reset {b : SyncMechanism} : SyncMechanism.Reachable n b → SyncMechanism.Reachable n b.reset

/-- The number of `true` entries of a flag vector. -/
def countTrue (l : List Bool) : Int := (l.count true : Nat)

/-- The counter invariant of the barrier, with the sizes the constructor fixes. -/
def SyncMechanism.Counted (n : Int) (b : SyncMechanism) : Prop :=
  b.numCores = n ∧ b.arrived.length = n.toNat ∧ b.retired.length = n.toNat ∧
  b.arriveCount = countTrue b.arrived ∧ b.retireCount = countTrue b.retired

/-- The step of `retire` before the completion test. -/
def SyncMechanism.markRetired (b : SyncMechanism) (coreId : Nat) : SyncMechanism :=
  if !(b.retired.getD coreId false) then
    { b with retired := b.retired.set coreId true, retireCount := b.retireCount + 1 }
  else b

/-- What the write-back loop does to one block: the dirty flag of a valid dirty block is
cleared, everything else stays. -/
def CacheBlock.cleaned (b : CacheBlock) : CacheBlock :=
  if b.valid && b.dirty then { b with dirty := false } else b

/-- A set with every block passed through `CacheBlock.cleaned`. -/
def CacheSet.cleaned (set : CacheSet) : CacheSet :=
  { set with blocks := set.blocks.map CacheBlock.cleaned }

/-- The cache with the dirty flag of every valid dirty block cleared. -/
def Cache.cleaned (c : Cache) : Cache :=
  { c with sets := c.sets.map CacheSet.cleaned }

/-- The write-backs a list of blocks of set `si` asks for: address `getAddress(tag, si)` and the
block bytes of every valid dirty block, in slot order. -/
def Cache.dirtyOf (c : Cache) (si : Nat) (blocks : List CacheBlock) : List (Nat × List Nat) :=
  blocks.filterMap (fun b =>
    if b.valid && b.dirty then some (c.getAddress b.tag si, b.data) else none)

/-- The write-backs of the valid dirty blocks of set `si`. -/
def Cache.dirtyInSet (c : Cache) (si : Nat) : List (Nat × List Nat) :=
  c.dirtyOf si (c.getSet si).blocks

/-- The write-backs of all valid dirty blocks, by set index and then by slot. -/
def Cache.dirtyBlocks (c : Cache) : List (Nat × List Nat) :=
  (List.range c.numSets).flatMap c.dirtyInSet

/-- The calls `next->write(addr, bytes)` for a list of (address, bytes) pairs, in order. -/
def NextLevel.writeAll {σ : Type} (n : NextLevel σ) (s : σ) (ws : List (Nat × List Nat)) :
    Except SimError σ :=
  ws.foldlM (fun acc w => (n.write acc w.1 w.2).map (fun r => r.2)) s

/-- The cache with the blocks of set `si` replaced. -/
def Cache.withBlocks (c : Cache) (si : Nat) (blocks : List CacheBlock) : Cache :=
  { c with sets := c.sets.set si { c.getSet si with blocks := blocks } }

/-- The sample cache after a two-byte write at address 5 over the sample memory. -/
def c12Cache : Cache :=
  match Cache.write (some memorySystem) sampleCache sampleMemory 5 [200, 201] with
  | .ok r => r.2.1
  | .error _ => sampleCache

/-- A one-core hierarchy over the sample memory whose L1D is the sample cache after a write and
whose L2 is the fresh sample cache. -/
def c13Hierarchy : MemoryHierarchy :=
  { numCores := 1, mainMemory := sampleMemory, l2Cache := sampleCache, l1ICaches := [sampleCache],
    l1DCaches := [c12Cache], scratchpads := [] }

/-- A 2-way cache with one set and 3-byte blocks over the sample memory: a read of address 6
brings in the block whose bytes start at address 6, a write puts 99 at address 7, and reads of
addresses 0 and 2 fill the set with other tags. The result lists the block's bytes before the
eviction, whether a block with its tag is still valid afterwards, and the three bytes main
memory holds from address 6 after the eviction. -/
def c11Scenario : Except SimError (List Nat × Bool × List Nat) := do
  let c ← Cache.new 6 3 2 1 .LRU
  let r1 ← Cache.read (some memorySystem) c sampleMemory 6 1
  let r2 ← Cache.write (some memorySystem) r1.2.1 r1.2.2 7 [99]
  let blk := r2.2.1.getBlock 0 0
  let r3 ← Cache.read (some memorySystem) r2.2.1 r2.2.2 0 1
  let r4 ← Cache.read (some memorySystem) r3.2.1 r3.2.2 2 1
  pure (blk.data, (r4.2.1.findBlockInSet (c.getTag 6) 0).isSome, sliceBytes r4.2.2.memory 6 3)

/-- The eviction of the block held in slot `bi` of set `si` with tag `t` and bytes `D`, by an
access (a `read` or a `write`) to cache `c` over main memory `m` after which no valid block with
tag `t` is found in the set: main memory then holds `D` at the address rebuilt from `t` and
`si`, and every byte outside that block is as before. -/
def Cache.EvictionWritesBack (c : Cache) (m : MainMemory) (si t : Nat) (D : List Nat) : Prop :=
  (∀ a2 n2 r, Cache.read (some memorySystem) c m a2 n2 = .ok r →
    r.2.1.findBlockInSet t si = none →
    sliceBytes r.2.2.memory (c.getAddress t si) c.blockSize = D ∧
    ∀ i, (i < c.getAddress t si ∨ c.getAddress t si + c.blockSize ≤ i) →
      r.2.2.memory.getD i 0 = m.memory.getD i 0) ∧
  (∀ a2 d2 r, Cache.write (some memorySystem) c m a2 d2 = .ok r →
    r.2.1.findBlockInSet t si = none →
    sliceBytes r.2.2.memory (c.getAddress t si) c.blockSize = D ∧
    ∀ i, (i < c.getAddress t si ∨ c.getAddress t si + c.blockSize ≤ i) →
      r.2.2.memory.getD i 0 = m.memory.getD i 0)

/-- A sample cache with one set of two 4-byte blocks over the sample memory: the block of
address 4 is read, bytes 5 and 6 are written, and reads of addresses 8 and 12 fill the set. The
result lists the block's bytes before the eviction and the bytes of main memory afterwards. -/
def c11Eviction : Except SimError (List Nat × List Nat) := do
  let c ← Cache.new 8 4 2 1 .LRU
  let r1 ← Cache.read (some memorySystem) c sampleMemory 4 4
  let r2 ← Cache.write (some memorySystem) r1.2.1 r1.2.2 5 [200, 201]
  let r3 ← Cache.read (some memorySystem) r2.2.1 r2.2.2 8 4
  let r4 ← Cache.read (some memorySystem) r3.2.1 r3.2.2 12 4
  pure ((r2.2.1.getBlock 0 0).data, r4.2.2.memory)

/-- Modelled from the spec: `struct Instruction` of the Phase 3 `pipeline.hpp`, which is not
among the sources. The fields are those the Phase 3 code reads and writes; the defaults are
those of the Phase 2 declaration (`rd`, `rs1`, `rs2` and `targetPC` are -1, `shouldExecute` is
true, `executeLatency` is 1, every flag is false). -/
structure Instruction where
  id : Int := -1
  raw : String := ""
  opcode : String := ""
  rd : Int := -1
  rs1 : Int := -1
  rs2 : Int := -1
  immediate : Int := 0
  isBranch : Bool := false
  isJump : Bool := false
  isMemory : Bool := false
  isArithmetic : Bool := false
  targetPC : Int := -1
  coreId : Int := -1
  shouldExecute : Bool := true
  label : String := ""
  useCID : Bool := false
  cyclesInExecute : Int := 0
  executeLatency : Int := 1
  resultValue : Int := 0
  hasResult : Bool := false
  waitingForMemory : Bool := false
  memoryLatency : Int := 0
  isSPM : Bool := false
  isSync : Bool := false
  isHalt : Bool := false
  isInvalidateL1D : Bool := false
  deriving DecidableEq, Repr

/-- `std::isspace` in the "C" locale; also the class `\s` of `std::regex`. -/
def isSpaceC (c : Char) : Bool :=
  c == ' ' || c == Char.ofNat 9 || c == Char.ofNat 10 || c == Char.ofNat 11 ||
    c == Char.ofNat 12 || c == Char.ofNat 13

/-- Membership in the set `" \t\n\r"` used by `InstructionParser::trim`. -/
def isTrimChar (c : Char) : Bool :=
  c == ' ' || c == Char.ofNat 9 || c == Char.ofNat 10 || c == Char.ofNat 13

/-- `InstructionParser::trim`. -/
def trim (s : List Char) : List Char :=
  ((s.dropWhile isTrimChar).reverse.dropWhile isTrimChar).reverse

/-- `iss >> opcode`: skips leading white space and reads up to the next white space; the second
component is what is left in the stream. -/
def readToken (s : List Char) : List Char × List Char :=
  ((s.dropWhile isSpaceC).takeWhile (fun c => !isSpaceC c),
   (s.dropWhile isSpaceC).dropWhile (fun c => !isSpaceC c))

/-- `std::getline(iss, rest)`: the rest of the stream up to the first newline. -/
def getLine (s : List Char) : List Char := s.takeWhile (fun c => c != Char.ofNat 10)

/-- `std::stoi`: optional white space, optional sign, decimal digits; `invalid_argument` when
there is no digit, `out_of_range` when the value does not fit an `int`. -/
def stoi (s : List Char) : Except SimError Int :=
  let s1 := s.dropWhile isSpaceC
  let neg := s1.head? == some '-'
  let s2 := if s1.head? == some '-' || s1.head? == some '+' then s1.tail else s1
  let ds := s2.takeWhile Char.isDigit
  if ds.isEmpty then .error .invalidArgument
  else
    let v : Int := (ds.foldl (fun acc c => acc * 10 + (c.toNat - 48)) 0 : Nat)
    let r : Int := if neg then -v else v
    if r < -2147483648 ∨ r > 2147483647 then .error .outOfRange else .ok r

/-- `InstructionParser::parseRegister`. -/
def parseRegister (reg : List Char) : Except SimError Int :=
  if reg.length ≥ 2 ∧ reg.head? == some 'x' then stoi reg.tail else .ok (-1)

/-- The tokens between the matches of the regular expression `,\s*`; `skipping` is set while
the white space after a comma is being consumed, `cur` is the current token reversed. -/
def splitComma : List Char → Bool → List Char → List (List Char)
  | [], _, cur => [cur.reverse]
  | c :: cs, skipping, cur =>
    if skipping && isSpaceC c then splitComma cs true cur
    else if c == ',' then cur.reverse :: splitComma cs true []
    else splitComma cs false (c :: cur)

/-- `InstructionParser::parseOperands`: cut at `#`, split at `,\s*`, trim, drop empty tokens. -/
def parseOperands (rest : List Char) : List (List Char) :=
  ((splitComma (rest.takeWhile (fun c => c != '#')) false []).map trim).filter
    (fun t => !t.isEmpty)

/-- The text of a label operand with a leading `.` removed. -/
def stripDot (lab : List Char) : List Char :=
  if lab.head? == some '.' then lab.tail else lab

/-- The split of `offset(base)` in `parseLoadInstruction` and `parseStoreInstruction`: the
immediate and the base register when both parentheses are found. -/
def parseOffsetBase (offsetBase : List Char) : Except SimError (Option (Int × Int)) :=
  if offsetBase.contains '(' ∧ offsetBase.contains ')' then
    let openParen := offsetBase.indexOf '('
    let closeParen := offsetBase.indexOf ')'
    let offsetStr := offsetBase.take openParen
    let baseReg :=
      if openParen < closeParen then (offsetBase.drop (openParen + 1)).take (closeParen - openParen - 1)
      else offsetBase.drop (openParen + 1)
    do
      let imm ← (if offsetStr.isEmpty then .ok 0 else stoi offsetStr)
      let rs1 ← parseRegister baseReg
      pure (some (imm, rs1))
  else .ok none

/-- `InstructionParser::parseRTypeInstruction`. -/
def parseRTypeInstruction (inst : Instruction) (rest : List Char) : Except SimError Instruction :=
  match parseOperands rest with
  | o0 :: o1 :: o2 :: _ => do
    let rd ← parseRegister o0
    let rs1 ← parseRegister o1
    let rs2 ← parseRegister o2
    pure { inst with rd := rd, rs1 := rs1, rs2 := rs2 }
  | _ => .ok inst

/-- `InstructionParser::parseITypeInstruction`. -/
def parseITypeInstruction (inst : Instruction) (rest : List Char) : Except SimError Instruction :=
  match parseOperands rest with
  | o0 :: o1 :: o2 :: _ => do
    let rd ← parseRegister o0
    let rs1 ← parseRegister o1
    let imm ← stoi o2
    pure { inst with rd := rd, rs1 := rs1, immediate := imm }
  | _ => .ok inst

/-- `InstructionParser::parseLoadInstruction`. -/
def parseLoadInstruction (inst0 : Instruction) (rest : List Char) : Except SimError Instruction :=
  let inst := { inst0 with rd := -1, rs1 := -1, rs2 := -1, immediate := 0 }
  match parseOperands rest with
  | o0 :: o1 :: _ => do
    let rd ← parseRegister o0
    let ob ← parseOffsetBase o1
    match ob with
    | some (imm, rs1) => pure { inst with rd := rd, immediate := imm, rs1 := rs1 }
    | none => pure { inst with rd := rd }
  | _ => .ok inst

/-- `InstructionParser::parseStoreInstruction`. -/
def parseStoreInstruction (inst : Instruction) (rest : List Char) : Except SimError Instruction :=
  match parseOperands rest with
  | o0 :: o1 :: _ => do
    let rs2 ← parseRegister o0
    let ob ← parseOffsetBase o1
    match ob with
    | some (imm, rs1) => pure { inst with rs2 := rs2, immediate := imm, rs1 := rs1 }
    | none => pure { inst with rs2 := rs2 }
  | _ => .ok inst

/-- `InstructionParser::parseBranchInstruction`. -/
def parseBranchInstruction (inst : Instruction) (rest : List Char) : Except SimError Instruction :=
  match parseOperands rest with
  | o0 :: o1 :: o2 :: _ => do
    let rs1 ← parseRegister o0
    if inst.opcode == "beq" && rs1 == 31 then do
      let rs2 ← stoi o1
      pure { inst with rs1 := rs1, useCID := true, rs2 := rs2, label := String.mk o2,
                       targetPC := -1 }
    else do
      let rs2 ← parseRegister o1
      pure { inst with rs1 := rs1, rs2 := rs2, label := String.mk o2, targetPC := -1 }
  | _ => .ok inst

/-- `InstructionParser::parseJumpInstruction`. -/
def parseJumpInstruction (inst : Instruction) (rest : List Char) : Except SimError Instruction :=
  match parseOperands (trim rest) with
  | [] => .ok inst
  | [o0] => .ok { inst with rd := -1, label := String.mk (stripDot o0), targetPC := -1 }
  | o0 :: o1 :: _ => do
    let rd ← parseRegister o0
    pure { inst with rd := rd, label := String.mk (stripDot o1), targetPC := -1 }

/-- `InstructionParser::parseLoadAddressInstruction`; the operands hold no comma after the
split, so `stripComma` leaves them as they are. -/
def parseLoadAddressInstruction (inst0 : Instruction) (rest : List Char) :
    Except SimError Instruction :=
  let inst := { inst0 with rd := -1, rs1 := -1, rs2 := -1, immediate := 0, label := "" }
  match parseOperands rest with
  | o0 :: o1 :: _ => do
    let rd ← parseRegister o0
    pure { inst with rd := rd, label := String.mk (stripDot o1) }
  | _ => .ok inst

/-- `InstructionParser::parseInstruction`. -/
def parseInstruction (raw : String) (coreId : Int) : Except SimError Instruction :=
  let opcode := String.mk (readToken raw.data).1
  let rest := getLine (readToken raw.data).2
  let inst : Instruction := { raw := raw, coreId := coreId, opcode := opcode }
  if opcode == "add" || opcode == "sub" || opcode == "slt" || opcode == "mul" then
    parseRTypeInstruction { inst with isArithmetic := true } rest
  else if opcode == "addi" then
    parseITypeInstruction { inst with isArithmetic := true } rest
  else if opcode == "lw" || opcode == "lw_spm" then do
    let i ← parseLoadInstruction { inst with isMemory := true } rest
    pure (if opcode == "lw_spm" then { i with isSPM := true } else i)
  else if opcode == "sw" || opcode == "sw_spm" then do
    let i ← parseStoreInstruction { inst with isMemory := true } rest
    pure (if opcode == "sw_spm" then { i with isSPM := true } else i)
  else if opcode == "bne" || opcode == "blt" || opcode == "beq" then
    parseBranchInstruction { inst with isBranch := true } rest
  else if opcode == "jal" then
    parseJumpInstruction { inst with isJump := true } rest
  else if opcode == "la" then
    parseLoadAddressInstruction inst rest
  else if opcode == "sync" then
    .ok { inst with opcode := "sync", isSync := true, shouldExecute := true }
  else if opcode == "invld1" then
    .ok { opcode := "invld1", isInvalidateL1D := true }
  else .ok inst


/-- `MemoryHierarchy::fetchInstruction`. -/
def MemoryHierarchy.fetchInstruction (h : MemoryHierarchy) (coreId : Int) (address : Nat) :
    Except SimError ((Int × Int) × MemoryHierarchy) :=
  if coreId < 0 ∨ coreId ≥ h.numCores then .error .outOfRange
  else do
    let address := address &&& not32 3
    let r ← Cache.read (some l2System) (h.l1ICaches.getD coreId.toNat default)
      (h.l2Cache, h.mainMemory) address 4
    pure ((r.1.1, bytesToWord r.1.2),
      { h with l1ICaches := h.l1ICaches.set coreId.toNat r.2.1
               l2Cache := r.2.2.1, mainMemory := r.2.2.2 })

/-- One step of the loops of `MemoryHierarchy::flushCache` over the L1 caches: the cache at
position `i` of the list selected by `data` runs `writeBackAndInvalidate`. -/
def MemoryHierarchy.flushL1At (data : Bool) (h : MemoryHierarchy) (i : Nat) :
    Except SimError MemoryHierarchy :=
  if data then do
    let r ← L1DCache.writeBackAndInvalidate (some l2System) (h.l1DCaches.getD i default)
      (h.l2Cache, h.mainMemory)
    pure { h with l1DCaches := h.l1DCaches.set i r.1, l2Cache := r.2.1, mainMemory := r.2.2 }
  else do
    let r ← L1ICache.writeBackAndInvalidate (some l2System) (h.l1ICaches.getD i default)
      (h.l2Cache, h.mainMemory)
    pure { h with l1ICaches := h.l1ICaches.set i r.1, l2Cache := r.2.1, mainMemory := r.2.2 }

/-- `MemoryHierarchy::flushCache`. -/
def MemoryHierarchy.flushCache (h : MemoryHierarchy) : Except SimError MemoryHierarchy := do
  let h1 ← (List.range h.l1ICaches.length).foldlM (MemoryHierarchy.flushL1At false) h
  let h2 ← (List.range h1.l1DCaches.length).foldlM (MemoryHierarchy.flushL1At true) h1
  let r ← Cache.flushCache (some memorySystem) h2.l2Cache h2.mainMemory
  pure { h2 with l2Cache := r.1, mainMemory := r.2 }

/-- `Cache::resetStatistics`. -/
def Cache.resetStatistics (c : Cache) : Cache := { c with accesses := 0, hits := 0, misses := 0 }

/-- `MemoryHierarchy::resetStatistics`. -/
def MemoryHierarchy.resetStatistics (h : MemoryHierarchy) : MemoryHierarchy :=
  { h with l1ICaches := h.l1ICaches.map Cache.resetStatistics
           l1DCaches := h.l1DCaches.map Cache.resetStatistics
           l2Cache := h.l2Cache.resetStatistics }

/-- `struct FetchEntry`. -/
structure FetchEntry where
  fetchId : Int
  rawInst : String
  deriving DecidableEq, Repr

/-- `class PipelinedCore`. The register paths are in `regs`; `regs.forwarding` is the flag of
the member `pipeline`, whose latency table and memory-stall counter are the fields
`instructionLatencies` and `memoryStallCycles`. The members `memoryHierarchy` and
`syncMechanism` point to objects shared by the cores, which the operations take as `Shared`. -/
structure PipelinedCore where
  regs : CoreRegs
  pc : Int
  instructionLatencies : List (String × Int)
  memoryStallCycles : Int
  fetchQueue : List FetchEntry
  decodeQueue : List Instruction
  executeQueue : List Instruction
  memoryQueue : List Instruction
  writebackQueue : List Instruction
  labels : List (String × Int)
  pipelineRecord : List (Int × List String)
  stallCount : Int
  instructionCount : Int
  cycleStallOccurred : Bool
  halted : Bool
  fetchCounter : Int
  deriving DecidableEq, Repr

/-- The objects the cores share: the memory hierarchy (a null pointer when its construction
failed) and the barrier. -/
structure Shared where
  hierarchy : Option MemoryHierarchy
  sync : SyncMechanism
  deriving DecidableEq, Repr

/-- Modelled from the spec: the latency table the constructor of `Pipeline` builds (the Phase 3
`pipeline.hpp` is not among the sources; these are the entries of the Backup version). -/
def defaultLatencies : List (String × Int) :=
  [("add", 1), ("addi", 1), ("sub", 1), ("slt", 1), ("mul", 3), ("lw", 1), ("sw", 1),
   ("lw_spm", 1), ("sw_spm", 1)]

/-- `PipelinedCore::PipelinedCore(id, enableForwarding)`. The constructor leaves
`cycleStallOccurred` uninitialised; its value is the parameter `stall0`. -/
def PipelinedCore.new (id : Int) (enableForwarding : Bool) (stall0 : Bool) : PipelinedCore :=
  { regs := { coreId := id, registers := (List.replicate 32 (0 : Int)).set 31 id,
              forwarding := enableForwarding, cycleCount := 0, pendingWrites := [],
              registerAvailableCycle := [] }
    pc := 0, instructionLatencies := defaultLatencies, memoryStallCycles := 0
    fetchQueue := [], decodeQueue := [], executeQueue := [], memoryQueue := []
    writebackQueue := [], labels := [], pipelineRecord := [], stallCount := 0
    instructionCount := 0, cycleStallOccurred := stall0, halted := false, fetchCounter := 0 }

/-- `PipelinedCore::reset` (with `Pipeline::reset`, which clears the counters of `pipeline`). -/
def PipelinedCore.reset (c : PipelinedCore) : PipelinedCore :=
  { c with
    regs := { c.regs with
      registers := (c.regs.registers.map (fun _ => (0 : Int))).set 31 c.regs.coreId
      pendingWrites := [], cycleCount := 0 }
    pc := 0, labels := [], fetchQueue := [], decodeQueue := [], executeQueue := []
    memoryQueue := [], writebackQueue := [], stallCount := 0, instructionCount := 0
    memoryStallCycles := 0 }

/-- Assignment `m[k] = v` on a map with string keys kept as an association list. -/
def mapInsertStr (m : List (String × Int)) (k : String) (v : Int) : List (String × Int) :=
  (k, v) :: m.filter (fun e => e.1 != k)

/-- `PipelinedCore::setInstructionLatency`. -/
def PipelinedCore.setInstructionLatency (c : PipelinedCore) (instruction : String)
    (latency : Int) : PipelinedCore :=
  { c with instructionLatencies := mapInsertStr c.instructionLatencies instruction latency }

/-- Modelled from the spec: `Pipeline::getInstructionLatency` (the Phase 3 `pipeline.hpp` is not
among the sources): the entry of the latency table, 1 for an opcode without entry. -/
def PipelinedCore.getInstructionLatency (c : PipelinedCore) (instruction : String) : Int :=
  (c.instructionLatencies.lookup instruction).getD 1

/-- `PipelinedCore::recordStageForInstruction`. -/
def PipelinedCore.recordStageForInstruction (c : PipelinedCore) (instId : Int)
    (stage : String) : PipelinedCore :=
  match c.pipelineRecord.lookup instId with
  | some _ =>
    { c with pipelineRecord := c.pipelineRecord.map (fun e =>
        if e.1 == instId then (e.1, e.2 ++ [stage]) else e) }
  | none =>
    { c with pipelineRecord :=
        (instId, List.replicate c.regs.cycleCount.toNat "" ++ [stage]) :: c.pipelineRecord }

/-- `PipelinedCore::isPipelineStalled`. -/
def PipelinedCore.isPipelineStalled (c : PipelinedCore) : Bool :=
  c.cycleStallOccurred || decide (c.fetchQueue.length ≥ 2) || decide (c.decodeQueue.length ≥ 2) ||
    decide (c.memoryQueue.length ≥ 2) || decide (c.writebackQueue.length ≥ 2)

/-- `PipelinedCore::isPipelineEmpty`. -/
def PipelinedCore.isPipelineEmpty (c : PipelinedCore) : Bool :=
  c.fetchQueue.isEmpty && c.decodeQueue.isEmpty && c.executeQueue.isEmpty &&
    c.memoryQueue.isEmpty && c.writebackQueue.isEmpty

/-- The first entry of a queue with `hasResult && rd == reg`. -/
def findResult (q : List Instruction) (reg : Int) : Option Int :=
  (q.find? (fun i => i.hasResult && i.rd == reg)).map (fun i => i.resultValue)

/-- `PipelinedCore::getForwardedValue`. -/
def PipelinedCore.getForwardedValue (c : PipelinedCore) (reg : Int) : Except SimError Int :=
  if !c.regs.forwarding then getRegister c.regs reg
  else match findResult c.writebackQueue reg with
    | some v => .ok v
    | none => match findResult c.memoryQueue reg with
      | some v => .ok v
      | none => match findResult c.executeQueue reg with
        | some v => .ok v
        | none => getRegister c.regs reg

/-- The element access `registers[index]` of the register vector. -/
def PipelinedCore.registerAt (c : PipelinedCore) (index : Int) : Except SimError Int :=
  if 0 ≤ index ∧ index.toNat < c.regs.registers.length then
    .ok (c.regs.registers.getD index.toNat 0)
  else .error .outOfBounds

/-- `PipelinedCore::operandsReadyForUse`. -/
def PipelinedCore.operandsReadyForUse (c : PipelinedCore) (inst : Instruction) : Bool :=
  [inst.rs1, inst.rs2].all (fun reg =>
    reg == 0 ||
      match c.regs.registerAvailableCycle.lookup reg with
      | some cyc => !decide (c.regs.cycleCount < cyc)
      | none => true)

/-- The lambdas `checkQueue` (`forward = false`) and `checkQueueForward` of
`PipelinedCore::operandsAvailable`. -/
def checkQueue (forward : Bool) (consumer : Instruction) (q : List Instruction) : Bool :=
  q.all (fun inst =>
    inst.id == consumer.id || decide (inst.rd < 0) || inst.rd == 0 ||
      !((!forward || !inst.hasResult) &&
        ((consumer.rs1 != 0 && inst.rd == consumer.rs1) ||
         (consumer.rs2 != 0 && inst.rd == consumer.rs2))))

/-- `PipelinedCore::operandsAvailable`. -/
def PipelinedCore.operandsAvailable (c : PipelinedCore) (consumer : Instruction) : Bool :=
  if !c.regs.forwarding then
    if (c.regs.pendingWrites.lookup consumer.rs1).isSome ||
        (c.regs.pendingWrites.lookup consumer.rs2).isSome then false
    else checkQueue false consumer c.decodeQueue && checkQueue false consumer c.executeQueue &&
      checkQueue false consumer c.memoryQueue && checkQueue false consumer c.writebackQueue
  else checkQueue true consumer c.decodeQueue && checkQueue true consumer c.executeQueue &&
      checkQueue true consumer c.memoryQueue && checkQueue true consumer c.writebackQueue

/-- The `int` value a sum, difference or product has in the compiled code: the exact result
wrapped to 32 bits in two's complement (signed overflow is undefined behaviour in the source). -/
def wrapInt32 (x : Int) : Int := (x + 2147483648) % 4294967296 - 2147483648

/-- `PipelinedCore::executeArithmetic`. -/
def executeArithmetic (op1 op2 imm : Int) (opcode : String) : Int :=
  if opcode == "add" then wrapInt32 (op1 + op2)
  else if opcode == "sub" then wrapInt32 (op1 - op2)
  else if opcode == "slt" then (if op1 < op2 then 1 else 0)
  else if opcode == "mul" then wrapInt32 (op1 * op2)
  else if opcode == "addi" then wrapInt32 (op1 + imm)
  else 0

/-- `PipelinedCore::executeJump`. -/
def PipelinedCore.executeJump (c : PipelinedCore) (inst : Instruction) : Int :=
  if inst.rd == 0 then -1 else c.pc + 1


/-- The stall bookkeeping shared by the stages: trace entry "S", `cycleStallOccurred = true`,
`stallCount++`. -/
def PipelinedCore.stall (c : PipelinedCore) (instId : Int) : PipelinedCore :=
  let c1 := c.recordStageForInstruction instId "S"
  { c1 with cycleStallOccurred := true, stallCount := c1.stallCount + 1 }

/-- The clearing of the fetch, decode, execute and memory queues on a control transfer or
`halt`. -/
def PipelinedCore.flushYounger (c : PipelinedCore) : PipelinedCore :=
  { c with fetchQueue := [], decodeQueue := [], executeQueue := [], memoryQueue := [] }

/-- `memoryQueue.push_back(inst)`. -/
def PipelinedCore.pushMemory (c : PipelinedCore) (inst : Instruction) : PipelinedCore :=
  { c with memoryQueue := c.memoryQueue ++ [inst] }

/-- `PipelinedCore::decode`. -/
def PipelinedCore.decode (c : PipelinedCore) : Except SimError PipelinedCore :=
  if c.halted then .ok c
  else match c.fetchQueue with
    | [] => .ok c
    | entry :: restQ =>
      if c.cycleStallOccurred then .ok c
      else if c.decodeQueue.length ≥ 2 then .ok (c.stall entry.fetchId)
      else if entry.rawInst.data.contains ':' then
        .ok { c with pc := c.pc + 1, fetchQueue := restQ }
      else do
        let inst ← parseInstruction entry.rawInst c.regs.coreId
        if !c.regs.forwarding && !c.operandsReadyForUse inst then .ok (c.stall entry.fetchId)
        else
          let inst1 := { inst with id := entry.fetchId, shouldExecute := true }
          let inst2 :=
            if inst1.opcode == "beq" && inst1.rs1 == (31 : Int) && c.regs.coreId != inst1.rs2 then
              { inst1 with shouldExecute := false }
            else inst1
          let inst3 :=
            if inst2.isArithmetic then
              { inst2 with executeLatency := c.getInstructionLatency inst2.opcode }
            else inst2
          let c1 := { c with fetchQueue := restQ, decodeQueue := c.decodeQueue ++ [inst3] }
          .ok (c1.recordStageForInstruction inst3.id "D")

/-- The end of `PipelinedCore::execute`: the instruction goes to the memory queue unless that
already holds two entries. -/
def PipelinedCore.finishExecute (c : PipelinedCore) (inst : Instruction) : PipelinedCore :=
  if c.memoryQueue.length ≥ 2 then c.stall inst.id else c.pushMemory inst

/-- Resolution of `inst.label` in the label map, when `unresolved` holds and the label is not
empty. -/
def PipelinedCore.resolveTarget (c : PipelinedCore) (inst : Instruction) (unresolved : Bool) :
    Instruction :=
  if unresolved && !inst.label.isEmpty then
    match c.labels.lookup inst.label with
    | some t => { inst with targetPC := t }
    | none => inst
  else inst

/-- `syncMechanism->arrive(coreId)`; an id outside `arrived` indexes the vector out of bounds. -/
def SyncMechanism.arriveChecked (b : SyncMechanism) (coreId : Int) :
    Except SimError SyncMechanism :=
  if 0 ≤ coreId ∧ coreId.toNat < b.arrived.length then .ok (b.arrive coreId.toNat)
  else .error .outOfBounds

/-- `syncMechanism->retire(coreId)` on the hierarchy pointer held by the barrier. -/
def SyncMechanism.retireChecked (b : SyncMechanism) (h : Option MemoryHierarchy) (coreId : Int) :
    Except SimError (SyncMechanism × Option MemoryHierarchy) :=
  if 0 ≤ coreId ∧ coreId.toNat < b.retired.length then
    match h with
    | some hier => do
      let r ← b.retire hier coreId.toNat
      pure (r.1, some r.2)
    | none =>
      if (b.markRetired coreId.toNat).retireCount = b.numCores then
        if b.numCores > 0 then .error .nullPointer
        else .ok ((b.markRetired coreId.toNat).reset, none)
      else .ok (b.markRetired coreId.toNat, none)
  else .error .outOfBounds

/-- The branch decision of `PipelinedCore::execute`: whether the branch is taken, and the
instruction with `shouldExecute` cleared for a core-dispatch `beq` of another core. -/
def PipelinedCore.branchDecision (c : PipelinedCore) (inst : Instruction) :
    Except SimError (Bool × Instruction) :=
  if inst.opcode == "beq" && inst.rs1 == (31 : Int) then
    if c.regs.coreId == inst.rs2 then .ok (true, inst)
    else .ok (false, { inst with shouldExecute := false })
  else do
    let op1 ← c.getForwardedValue inst.rs1
    let op2 ← c.getForwardedValue inst.rs2
    pure (if inst.opcode == "beq" then decide (op1 = op2)
      else if inst.opcode == "bne" then decide (op1 ≠ op2)
      else if inst.opcode == "blt" then decide (op1 < op2)
      else if inst.opcode == "bge" then decide (op1 ≥ op2)
      else false, inst)

/-- The `isSync` case of `PipelinedCore::execute`. -/
def PipelinedCore.executeSync (c : PipelinedCore) (sh : Shared) (inst : Instruction) :
    Except SimError (PipelinedCore × Shared) := do
  let b ← sh.sync.arriveChecked c.regs.coreId
  let sh1 := { sh with sync := b }
  if !b.canProceed c.regs.coreId.toNat then
    let c1 := c.recordStageForInstruction inst.id "S"
    pure ({ c1 with cycleStallOccurred := true, executeQueue := inst :: c1.executeQueue }, sh1)
  else pure ((c.recordStageForInstruction inst.id "E").pushMemory inst, sh1)

/-- The end of the `isArithmetic` case of `PipelinedCore::execute`, once the result has been
computed and written: an instruction with `executeLatency > 1` counts one more cycle and goes
back to the execute queue until it has spent `executeLatency` cycles. -/
def PipelinedCore.finishArithmetic (c : PipelinedCore) (inst : Instruction) : PipelinedCore :=
  if inst.executeLatency > (1 : Int) then
    if inst.cyclesInExecute + 1 < inst.executeLatency then
      { c with executeQueue :=
                 c.executeQueue ++ [{ inst with cyclesInExecute := inst.cyclesInExecute + 1 }]
               stallCount := c.stallCount + 1 }
    else c.finishExecute { inst with cyclesInExecute := inst.cyclesInExecute + 1 }
  else c.finishExecute inst

/-- The `isArithmetic` case of `PipelinedCore::execute`. -/
def PipelinedCore.executeArith (c : PipelinedCore) (inst : Instruction) (fromDecode : Bool) :
    Except SimError PipelinedCore := do
  let op1 ← (if fromDecode then c.getForwardedValue inst.rs1 else c.registerAt inst.rs1)
  let op2 ← (if inst.opcode == "addi" then .ok inst.immediate
    else if fromDecode then c.getForwardedValue inst.rs2 else c.registerAt inst.rs2)
  let result := executeArithmetic op1 op2 inst.immediate inst.opcode
  let regs ← executeArithmeticWrite c.regs inst.rd result
  pure (PipelinedCore.finishArithmetic { c with regs := regs }
    { inst with resultValue := result, hasResult := true })

/-- The `lw` / `lw_spm` case of `PipelinedCore::execute`. -/
def PipelinedCore.executeLoad (c : PipelinedCore) (inst : Instruction) :
    Except SimError PipelinedCore := do
  let base ← c.getForwardedValue inst.rs1
  pure (c.finishExecute { inst with resultValue := base + inst.immediate })

/-- The `sw` / `sw_spm` case of `PipelinedCore::execute`; for `sw` the debug output reads
`registers[inst.rs2]` and `registers[inst.rs1]`. -/
def PipelinedCore.executeStore (c : PipelinedCore) (inst : Instruction) :
    Except SimError PipelinedCore := do
  let _ ← (if inst.opcode == "sw" then do
      let v ← c.registerAt inst.rs2
      let _ ← c.registerAt inst.rs1
      pure v
    else .ok 0)
  let base ← c.getForwardedValue inst.rs1
  let valueToStore ← c.getForwardedValue inst.rs2
  pure (c.finishExecute { inst with rs1 := base + inst.immediate, rs2 := valueToStore })

/-- The `isBranch` case of `PipelinedCore::execute`. -/
def PipelinedCore.executeBranch (c : PipelinedCore) (inst : Instruction) :
    Except SimError PipelinedCore := do
  let d ← c.branchDecision inst
  if d.1 then
    let inst2 := c.resolveTarget d.2 (decide (d.2.targetPC < 0))
    let c1 := { c.flushYounger with pc := inst2.targetPC }
    pure (if inst2.shouldExecute then c1.pushMemory inst2 else c1)
  else pure (if d.2.shouldExecute then c.pushMemory d.2 else c)

/-- The instruction a jump sends to the memory queue: the target resolved, and the return
address `executeJump` gives as its result unless that is -1. -/
def PipelinedCore.jumpResult (c : PipelinedCore) (inst : Instruction) : Instruction :=
  let inst1 := c.resolveTarget inst (inst.targetPC == -1)
  if c.executeJump inst1 != -1 then
    { inst1 with resultValue := c.executeJump inst1, hasResult := true }
  else { inst1 with hasResult := false }

/-- The `isJump` case of `PipelinedCore::execute`. -/
def PipelinedCore.executeJumpInst (c : PipelinedCore) (inst : Instruction) : PipelinedCore :=
  let inst2 := c.jumpResult inst
  let c1 := { c.flushYounger with pc := inst2.targetPC }
  (c1.pushMemory inst2).recordStageForInstruction inst2.id "E"

/-- The `la` case of `PipelinedCore::execute`. -/
def PipelinedCore.executeLa (c : PipelinedCore) (inst : Instruction) : PipelinedCore :=
  let v : Int := if !inst.label.isEmpty then (c.labels.lookup inst.label).getD 0 else 0
  c.finishExecute { inst with resultValue := v, hasResult := true }

/-- The `invld1` case of `PipelinedCore::execute`. -/
def PipelinedCore.executeInvld (c : PipelinedCore) (sh : Shared) (inst : Instruction) :
    Except SimError (PipelinedCore × Shared) :=
  match sh.hierarchy with
  | none => .error .nullPointer
  | some h =>
    .ok ((c.recordStageForInstruction inst.id "E").pushMemory inst,
      { sh with hierarchy := some (h.invalidateL1D c.regs.coreId) })

/-- The `halt` case of `PipelinedCore::execute`. -/
def PipelinedCore.executeHalt (c : PipelinedCore) (inst : Instruction) : PipelinedCore :=
  ({ c.flushYounger with halted := true }).recordStageForInstruction inst.id "M"

/-- The part of `PipelinedCore::execute` after the instruction has been taken from its queue
and its "E" has been recorded. -/
def PipelinedCore.executeInst (c : PipelinedCore) (sh : Shared) (inst : Instruction)
    (fromDecode : Bool) : Except SimError (PipelinedCore × Shared) :=
  if !inst.shouldExecute then .ok (c.pushMemory inst, sh)
  else if inst.opcode == "halt" then .ok (c.executeHalt inst, sh)
  else if inst.isSync then c.executeSync sh inst
  else if inst.isArithmetic then (c.executeArith inst fromDecode).map (fun c1 => (c1, sh))
  else if inst.isMemory && (inst.opcode == "lw" || inst.opcode == "lw_spm") then
    (c.executeLoad inst).map (fun c1 => (c1, sh))
  else if inst.isMemory && (inst.opcode == "sw" || inst.opcode == "sw_spm") then
    (c.executeStore inst).map (fun c1 => (c1, sh))
  else if inst.isBranch then (c.executeBranch inst).map (fun c1 => (c1, sh))
  else if inst.isJump then .ok (c.executeJumpInst inst, sh)
  else if inst.opcode == "la" then .ok (c.executeLa inst, sh)
  else if inst.opcode == "invld1" then c.executeInvld sh inst
  else .ok (c.finishExecute inst, sh)

/-- `PipelinedCore::execute`. -/
def PipelinedCore.execute (c : PipelinedCore) (sh : Shared) :
    Except SimError (PipelinedCore × Shared) :=
  match c.executeQueue with
  | inst :: q =>
    ({ c with executeQueue := q }.recordStageForInstruction inst.id "E").executeInst sh inst false
  | [] =>
    match c.decodeQueue with
    | [] => .ok (c, sh)
    | inst :: q =>
      if !c.regs.forwarding && !c.operandsAvailable inst then .ok (c.stall inst.id, sh)
      else
        ({ c with decodeQueue := q }.recordStageForInstruction inst.id "E").executeInst sh inst true


/-- Conversion of an `int` argument to the `uint32_t` parameter of the hierarchy calls. -/
def toUInt32 (x : Int) : Nat := (x % 4294967296).toNat

/-- The stall of the memory stage on an access whose latency exceeds one cycle:
`memoryLatency = latency - 1`, `waitingForMemory = true`, trace "S", the instruction back at
the head of the queue; `countMemoryStall` tells whether `pipeline.incrementMemoryStallCycles`
is called (it is for `lw` and `sw`). -/
def PipelinedCore.waitForMemory (c : PipelinedCore) (inst : Instruction) (latency : Int)
    (countMemoryStall : Bool) : PipelinedCore :=
  let inst1 := { inst with memoryLatency := latency - 1, waitingForMemory := true }
  let c1 := c.recordStageForInstruction inst1.id "S"
  { c1 with memoryQueue := inst1 :: c1.memoryQueue, stallCount := c1.stallCount + 1,
            cycleStallOccurred := true,
            memoryStallCycles := if countMemoryStall then c1.memoryStallCycles + 1
                                 else c1.memoryStallCycles }

/-- The end of `PipelinedCore::memoryAccess`: the instruction goes to the writeback queue,
or back to the head of the memory queue when the writeback queue holds two entries. -/
def PipelinedCore.finishMemory (c : PipelinedCore) (inst : Instruction) : PipelinedCore :=
  if c.writebackQueue.length ≥ 2 then
    let c1 := c.stall inst.id
    { c1 with memoryQueue := inst :: c1.memoryQueue }
  else
    ({ c with writebackQueue := c.writebackQueue ++ [inst] }).recordStageForInstruction inst.id "M"

/-- The memory instructions of `PipelinedCore::memoryAccess`, for an instruction already taken
from the queue: the result is the core, the hierarchy and whether the stage is finished for
this cycle (the access stalled). -/
def PipelinedCore.accessMemory (c : PipelinedCore) (sh : Shared) (inst : Instruction) :
    Except SimError ((PipelinedCore × Instruction × Bool) × Shared) :=
  if inst.opcode == "lw" then
    match sh.hierarchy with
    | some h => do
      let r ← h.loadWord c.regs.coreId (toUInt32 inst.resultValue)
      let inst1 := { inst with resultValue := r.1.2, hasResult := true }
      let sh1 := { sh with hierarchy := some r.2 }
      if r.1.1 > (1 : Int) then pure ((c.waitForMemory inst1 r.1.1 true, inst1, true), sh1)
      else pure ((c, inst1, false), sh1)
    | none => .error .nullPointer
  else if inst.opcode == "sw" then
    match sh.hierarchy with
    | some h => do
      let r ← h.storeWord c.regs.coreId (toUInt32 inst.rs1) inst.rs2
      let sh1 := { sh with hierarchy := some r.2 }
      if r.1 > (1 : Int) then pure ((c.waitForMemory inst r.1 true, inst, true), sh1)
      else pure ((c, inst, false), sh1)
    | none =>
      if inst.rs1 ≥ c.regs.coreId * 1024 ∧ inst.rs1 ≤ (c.regs.coreId + 1) * 1024 - 4 then
        .error .nullPointer
      else .ok ((c, inst, false), sh)
  else if inst.opcode == "lw_spm" then
    match sh.hierarchy with
    | some h => do
      let r ← h.loadWordFromSPM c.regs.coreId (toUInt32 inst.resultValue)
      let inst1 := { inst with resultValue := r.1.2, hasResult := true }
      let sh1 := { sh with hierarchy := some r.2 }
      if r.1.1 > (1 : Int) then pure ((c.waitForMemory inst1 r.1.1 false, inst1, true), sh1)
      else pure ((c, inst1, false), sh1)
    | none => .ok ((c, { inst with resultValue := 0, hasResult := true }, false), sh)
  else if inst.opcode == "sw_spm" then
    match sh.hierarchy with
    | some h => do
      let r ← h.storeWordToSPM c.regs.coreId (toUInt32 inst.rs1) inst.rs2
      let sh1 := { sh with hierarchy := some r.2 }
      if r.1 > (1 : Int) then pure ((c.waitForMemory inst r.1 false, inst, true), sh1)
      else pure ((c, inst, false), sh1)
    | none => .ok ((c, inst, false), sh)
  else .ok ((c, inst, false), sh)

/-- `PipelinedCore::memoryAccess`. -/
def PipelinedCore.memoryAccess (c : PipelinedCore) (sh : Shared) :
    Except SimError (PipelinedCore × Shared) :=
  match c.memoryQueue with
  | [] => .ok (c, sh)
  | inst :: q =>
    if inst.waitingForMemory then
      if inst.memoryLatency > (0 : Int) then
        let c1 := c.recordStageForInstruction inst.id "S"
        .ok ({ c1 with stallCount := c1.stallCount + 1
                       memoryQueue := { inst with memoryLatency := inst.memoryLatency - 1 } :: q
                       memoryStallCycles := c1.memoryStallCycles + 1 }, sh)
      else
        let c1 := { c with memoryQueue := q, writebackQueue := c.writebackQueue ++ [inst] }
        .ok (c1.recordStageForInstruction inst.id "M", sh)
    else if inst.isMemory then do
      let r ← PipelinedCore.accessMemory { c with memoryQueue := q } sh inst
      if r.1.2.2 then pure (r.1.1, r.2)
      else pure (r.1.1.finishMemory r.1.2.1, r.2)
    else .ok (PipelinedCore.finishMemory { c with memoryQueue := q } inst, sh)

/-- The four calls `memoryHierarchy->flushL1D(c)` for `c = 0 .. 3` in the `halt` path of
`PipelinedCore::writeback`, followed by `memoryHierarchy->flushCache()`. -/
def flushOnHalt (h : Option MemoryHierarchy) : Except SimError (Option MemoryHierarchy) :=
  match h with
  | none => .error .nullPointer
  | some hier => do
    let h1 ← [0, 1, 2, 3].foldlM (fun (acc : MemoryHierarchy) (k : Int) => acc.flushL1D k) hier
    let h2 ← h1.flushCache
    pure (some h2)

/-- `PipelinedCore::writeback`. -/
def PipelinedCore.writeback (c : PipelinedCore) (sh : Shared) :
    Except SimError (PipelinedCore × Shared) :=
  match c.writebackQueue with
  | [] => .ok (c, sh)
  | inst :: q =>
    let c0 := { c with writebackQueue := q }
    if inst.opcode == "halt" then do
      let c1 := ({ c0.flushYounger with writebackQueue := [] }).recordStageForInstruction
        inst.id "W"
      let h ← flushOnHalt sh.hierarchy
      pure ({ c1 with halted := true }, { sh with hierarchy := h })
    else if !inst.shouldExecute then .ok (c0, sh)
    else do
      let regs ← writebackCommit c0.regs inst.hasResult inst.rd inst.resultValue
      let c1 := { c0 with regs := regs, instructionCount := c0.instructionCount + 1 }
      let c2 := c1.recordStageForInstruction inst.id "W"
      if inst.isSync then do
        let r ← sh.sync.retireChecked sh.hierarchy c2.regs.coreId
        pure (c2, { sync := r.1, hierarchy := r.2 })
      else pure (c2, sh)

/-- `PipelinedCore::checkHaltCondition`. -/
def PipelinedCore.checkHaltCondition (c : PipelinedCore) : Bool :=
  match c.writebackQueue with
  | [] => false
  | inst :: _ => inst.opcode == "halt"

/-- The loop at the start of `PipelinedCore::clockCycle` that pads the trace rows: a row that
is not empty, does not end in "W" and is shorter than `cycleCount + 1` gets an "S". -/
def PipelinedCore.padRecord (c : PipelinedCore) : PipelinedCore :=
  { c with pipelineRecord := c.pipelineRecord.map (fun e =>
      if !e.2.isEmpty && e.2.getLast? != some "W" &&
          decide (e.2.length < (c.regs.cycleCount + 1).toNat) then (e.1, e.2 ++ ["S"])
      else e) }

/-- The loop at the end of `PipelinedCore::clockCycle` over `pendingWrites`. -/
def commitPendingWrites (s : CoreRegs) : List (Int × Int) → Except SimError CoreRegs
  | [] => .ok s
  | e :: es => do
    let s1 ← setRegister s e.1 e.2
    commitPendingWrites
      { s1 with registerAvailableCycle := mapInsert s1.registerAvailableCycle e.1 s1.cycleCount }
      es

/-- The `cycleCount++` and the `checkHaltCondition` test of `PipelinedCore::clockCycle`. -/
def PipelinedCore.countCycle (c : PipelinedCore) : PipelinedCore :=
  let c5 := { c with regs := { c.regs with cycleCount := c.regs.cycleCount + 1 } }
  if c5.checkHaltCondition then { c5 with halted := true } else c5

/-- The end of `PipelinedCore::clockCycle`: without forwarding the pending writes are
committed and cleared. -/
def PipelinedCore.commitPending (c : PipelinedCore) : Except SimError PipelinedCore :=
  if !c.regs.forwarding then do
    let regs ← commitPendingWrites c.regs c.regs.pendingWrites
    pure { c with regs := { regs with pendingWrites := [] } }
  else pure c

/-- `PipelinedCore::clockCycle`. -/
def PipelinedCore.clockCycle (c : PipelinedCore) (sh : Shared) :
    Except SimError (PipelinedCore × Shared) :=
  if c.halted then .ok (c, sh)
  else do
    let c0 := PipelinedCore.padRecord { c with cycleStallOccurred := false }
    let r1 ← c0.writeback sh
    let r2 ← r1.1.memoryAccess r1.2
    let r3 ← r2.1.execute r2.2
    let c4 ← r3.1.decode
    let c7 ← c4.countCycle.commitPending
    pure (c7, r3.2)


/-- The body of the loop of `centralizedFetch` for one core. The comparison
`currentPC >= program.size()` converts the `int` to `size_t`, so a negative `pc` is skipped. -/
def fetchForCore (program : List String) (c : PipelinedCore) (sh : Shared) :
    Except SimError (PipelinedCore × Shared) :=
  if c.halted then .ok (c, sh)
  else if c.fetchQueue.length ≥ 2 then .ok (c, sh)
  else if c.isPipelineStalled then .ok (c, sh)
  else if c.pc < 0 ∨ c.pc ≥ program.length then .ok (c, sh)
  else do
    let rawInst := program.getD c.pc.toNat ""
    let sh1 ← (match sh.hierarchy with
      | some h => do
        let r ← h.fetchInstruction c.regs.coreId (toUInt32 (c.pc * 4))
        pure { sh with hierarchy := some r.2 }
      | none => pure sh)
    let entry : FetchEntry := { fetchId := c.fetchCounter, rawInst := rawInst }
    let c1 := { c with fetchCounter := c.fetchCounter + 1, fetchQueue := c.fetchQueue ++ [entry]
                       pc := c.pc + 1 }
    pure (c1.recordStageForInstruction c.fetchCounter "F", sh1)

/-- `centralizedFetch`: the cores in order, on the shared hierarchy. -/
def centralizedFetch (program : List String) :
    List PipelinedCore → Shared → Except SimError (List PipelinedCore × Shared)
  | [], sh => .ok ([], sh)
  | c :: cs, sh => do
    let r ← fetchForCore program c sh
    let rs ← centralizedFetch program cs r.2
    pure (r.1 :: rs.1, rs.2)

/-- `class PipelinedSimulator`. -/
structure PipelinedSimulator where
  cores : List PipelinedCore
  shared : Shared
  program : List String
  labelMap : List (String × Int)
  instructionLatencies : List (String × Int)
  forwardingEnabled : Bool
  deriving DecidableEq, Repr

/-- `PipelinedSimulator::PipelinedSimulator(numCores, enableForwarding)`. The configuration
read from `cache_config.txt` is the parameter `cfg`; when the construction of the hierarchy
throws, the simulator keeps a null pointer. `stall0` is the uninitialised
`cycleStallOccurred` of the cores. -/
def PipelinedSimulator.new (numCores : Int) (enableForwarding : Bool) (cfg : CacheConfig)
    (stall0 : Bool) : Except SimError PipelinedSimulator :=
  if numCores ≤ 0 ∨ numCores > 16 then .error .invalidArgument
  else
    let hierarchy := match MemoryHierarchy.new numCores cfg with
      | .ok h => some h
      | .error _ => none
    .ok { cores := (List.range numCores.toNat).map (fun i =>
            PipelinedCore.new (i : Int) enableForwarding stall0)
          shared := { hierarchy := hierarchy, sync := SyncMechanism.new numCores }
          program := [], labelMap := []
          instructionLatencies := [("add", 1), ("addi", 1), ("sub", 1), ("slt", 1), ("mul", 1)]
          forwardingEnabled := enableForwarding }

/-- `PipelinedSimulator::setInstructionLatency`. -/
def PipelinedSimulator.setInstructionLatency (sim : PipelinedSimulator) (instruction : String)
    (latency : Int) : Except SimError PipelinedSimulator :=
  if latency < 1 then .error .invalidArgument
  else .ok { sim with
    instructionLatencies := mapInsertStr sim.instructionLatencies instruction latency
    cores := sim.cores.map (fun c => c.setInstructionLatency instruction latency) }

/-- The end of `PipelinedSimulator::loadProgram`, once the assembly text has been split into
the instruction lines `program` and the label map: every core is reset and receives the labels
and the latency table, and the barrier is reset. -/
def PipelinedSimulator.loadLines (sim : PipelinedSimulator) (program : List String)
    (labelMap : List (String × Int)) : PipelinedSimulator :=
  { sim with
    program := program, labelMap := labelMap
    cores := sim.cores.map (fun c =>
      sim.instructionLatencies.foldl (fun core e => core.setInstructionLatency e.1 e.2)
        { c.reset with labels := labelMap })
    shared := { sim.shared with sync := sim.shared.sync.reset } }

/-- The `for` loop over the cores in the cycle loop of `PipelinedSimulator::run`: every core
whose `coreHalted` flag is not set runs one `clockCycle`; the flag is set when the core is
halted or its pipeline is empty. The last component is `allCoresHalted`. -/
def clockCores : List PipelinedCore → List Bool → Shared →
    Except SimError (List PipelinedCore × List Bool × Shared × Bool)
  | c :: cs, done :: ds, sh =>
    if done then do
      let rs ← clockCores cs ds sh
      pure (c :: rs.1, true :: rs.2.1, rs.2.2.1, rs.2.2.2)
    else do
      let r ← c.clockCycle sh
      let rs ← clockCores cs ds r.2
      if r.1.halted || r.1.isPipelineEmpty then
        pure (r.1 :: rs.1, true :: rs.2.1, rs.2.2.1, rs.2.2.2)
      else pure (r.1 :: rs.1, false :: rs.2.1, rs.2.2.1, false)
  | cs, _, sh => .ok (cs, [], sh, true)

/-- The cycle loop of `PipelinedSimulator::run`, for at most `fuel` iterations; the flag of
the result tells whether the loop has ended (`break`), and the state is the one reached. -/
def PipelinedSimulator.runLoop : Nat → PipelinedSimulator → List Bool →
    Except SimError (PipelinedSimulator × Bool)
  | 0, sim, _ => .ok (sim, false)
  | fuel + 1, sim, coreHalted => do
    let r ← clockCores sim.cores coreHalted sim.shared
    let f ← centralizedFetch sim.program r.1 r.2.2.1
    let sim1 := { sim with cores := f.1, shared := f.2 }
    if r.2.2.2 then pure (sim1, true) else PipelinedSimulator.runLoop fuel sim1 r.2.1

/-- The start of `PipelinedSimulator::run` (statistics reset, first `centralizedFetch`)
followed by at most `fuel` iterations of the cycle loop. -/
def PipelinedSimulator.runCycles (fuel : Nat) (sim : PipelinedSimulator) :
    Except SimError (PipelinedSimulator × Bool) := do
  let h0 := sim.shared.hierarchy.map MemoryHierarchy.resetStatistics
  let f ← centralizedFetch sim.program sim.cores { sim.shared with hierarchy := h0 }
  PipelinedSimulator.runLoop fuel { sim with cores := f.1, shared := f.2 }
    (List.replicate sim.cores.length false)

/-- `PipelinedSimulator::run`, with the cycle loop bounded by `fuel` (`none` when the loop has
not ended by then); after the loop the hierarchy is flushed, and `printState` uses the
hierarchy pointer without a test. -/
def PipelinedSimulator.run (fuel : Nat) (sim : PipelinedSimulator) :
    Except SimError (Option PipelinedSimulator) := do
  let r ← sim.runCycles fuel
  if r.2 then
    match r.1.shared.hierarchy with
    | none => .error .nullPointer
    | some h => do
      let h1 ← h.flushCache
      pure (some { r.1 with shared := { r.1.shared with hierarchy := some h1 } })
  else pure none


/-- The core states that arise from a constructed or reset core by `centralizedFetch` steps and
`clockCycle` calls that return, whatever the program and the shared objects are. -/
inductive PipelinedCore.Reachable : PipelinedCore → Prop
  | fresh (id : Int) (enableForwarding stall0 : Bool) :
      PipelinedCore.Reachable (PipelinedCore.new id enableForwarding stall0)
  | reset (c : PipelinedCore) : PipelinedCore.Reachable c.reset
  | fetch {c : PipelinedCore} (program : List String) (sh : Shared)
      {r : PipelinedCore × Shared} : PipelinedCore.Reachable c →
      fetchForCore program c sh = .ok r → PipelinedCore.Reachable r.1
  | clock {c : PipelinedCore} (sh : Shared) {r : PipelinedCore × Shared} :
      PipelinedCore.Reachable c → c.clockCycle sh = .ok r → PipelinedCore.Reachable r.1

/-- The fields of a core other than its trace. -/
def PipelinedCore.untraced (c : PipelinedCore) : PipelinedCore := { c with pipelineRecord := [] }

/-- The cycle counter and the retired-instruction counter of a core. -/
def PipelinedCore.counts (c : PipelinedCore) : Int × Int := (c.regs.cycleCount, c.instructionCount)

/-- One core with forwarding and the small caches of `smallCfg` runs a load followed by
branches that are not taken: the lengths of the fetch, decode, execute, memory and writeback
queues after `k` iterations of the cycle loop. -/
def c18Scenario (k : Nat) : Except SimError (List Nat) := do
  let s ← PipelinedSimulator.new 1 true smallCfg false
  let r ← (s.loadLines ["lw x1, 0(x0)", "bne x0, x0, L", "bne x0, x0, L", "halt"] []).runCycles k
  let c := r.1.cores.getD 0 (PipelinedCore.new 0 true false)
  pure [c.fetchQueue.length, c.decodeQueue.length, c.executeQueue.length, c.memoryQueue.length,
    c.writebackQueue.length]

/-- Two cores with forwarding and the small caches of `smallCfg` run
`sync; sync; addi x1, x0, 1; halt`: the `arrived` and
`retired` flags of the barrier after `k` iterations of the cycle loop. -/
def c17Scenario (k : Nat) : Except SimError (List Bool × List Bool) := do
  let s ← PipelinedSimulator.new 2 true smallCfg false
  let r ← (s.loadLines ["sync", "sync", "addi x1, x0, 1", "halt"] []).runCycles k
  pure (r.1.shared.sync.arrived, r.1.shared.sync.retired)

/-- A halted core: the constructed core 0 with its `halted` flag set. -/
def c20Core : PipelinedCore := { PipelinedCore.new 0 true false with halted := true }

/-- The shared objects of a one-core system without hierarchy. -/
def c20Shared : Shared := { hierarchy := none, sync := SyncMechanism.new 1 }

/-- One core with forwarding runs
`lw x1, 0(x0); addi x1, x0, 7; beq x1, x0, skip; addi x2, x0, 1; addi x5, x0, 0;
addi x5, x0, 0; skip: halt` for three iterations of the cycle loop: the fetch id, `hasResult`,
`rd` and `resultValue` of the entries of the writeback, memory and execute queues, and
`getForwardedValue(1)`. -/
def c23Scenario : Except SimError (List (Int × Bool × Int × Int) × Except SimError Int) := do
  let s ← PipelinedSimulator.new 1 true smallCfg false
  let r ← (s.loadLines ["lw x1, 0(x0)", "addi x1, x0, 7", "beq x1, x0, skip", "addi x2, x0, 1",
    "addi x5, x0, 0", "addi x5, x0, 0", "halt"] [("skip", 6)]).runCycles 3
  let c := r.1.cores.getD 0 (PipelinedCore.new 0 true false)
  pure ((c.writebackQueue ++ c.memoryQueue ++ c.executeQueue).map
    (fun i => (i.id, i.hasResult, i.rd, i.resultValue)), c.getForwardedValue 1)

/-- The run of the program of `c23Scenario` on one core, with or without forwarding, with at
most 60 iterations of the cycle loop: registers x1 and x2 when the run has ended. -/
def c23Run (enableForwarding : Bool) : Except SimError (Option (List Int)) := do
  let s ← PipelinedSimulator.new 1 enableForwarding smallCfg false
  let r ← (s.loadLines ["lw x1, 0(x0)", "addi x1, x0, 7", "beq x1, x0, skip", "addi x2, x0, 1",
    "addi x5, x0, 0", "addi x5, x0, 0", "halt"] [("skip", 6)]).run 60
  pure (r.map (fun sim =>
    ((sim.cores.getD 0 (PipelinedCore.new 0 enableForwarding false)).regs.registers.drop 1).take
      2))

/-- The opcodes held by the fetch (as raw lines), decode, execute, memory and writeback queues
of a core. -/
def PipelinedCore.queueView (c : PipelinedCore) : List (List String) :=
  [c.fetchQueue.map (fun e => e.rawInst), c.decodeQueue.map (fun i => i.opcode),
    c.executeQueue.map (fun i => i.opcode), c.memoryQueue.map (fun i => i.opcode),
    c.writebackQueue.map (fun i => i.opcode)]

/-- Core 0 of a one-core simulator with the small caches of `smallCfg` after `k` iterations
of the cycle loop on `program`, together with the shared hierarchy and barrier. -/
def coreAfter (enableForwarding : Bool) (program : List String) (labelMap : List (String × Int))
    (k : Nat) : Except SimError (PipelinedCore × Shared) := do
  let s ← PipelinedSimulator.new 1 enableForwarding smallCfg false
  let r ← (s.loadLines program labelMap).runCycles k
  pure (r.1.cores.getD 0 (PipelinedCore.new 0 enableForwarding false), r.1.shared)

/-- One core with forwarding runs `addi x1, x0, 5; halt`: the third `clockCycle`, in which
`halt` is executed. The result lists `halted` before and after the cycle, the queues before and
after the cycle, and `instructionCount` and the trace row of the `halt` after it. -/
def c21Scenario : Except SimError
    (List Bool × List (List (List String)) × Int × Option (List String)) := do
  let r ← coreAfter true ["addi x1, x0, 5", "halt"] [] 2
  let r1 ← r.1.clockCycle r.2
  pure ([r.1.halted, r1.1.halted], [r.1.queueView, r1.1.queueView], r1.1.instructionCount,
    r1.1.pipelineRecord.lookup 1)

/-- The run of `addi x1, x0, 5; add x2, x1, x1; halt` on one core without forwarding, with
at most 30 iterations of the cycle loop: registers x0, x1 and x2, `halted`, and the opcodes
left in the writeback queue followed by the trace row of the `add`, when the run has ended. -/
def c25Scenario : Except SimError (Option (List Int × Bool × List (List String))) := do
  let s ← PipelinedSimulator.new 1 false smallCfg false
  let r ← (s.loadLines ["addi x1, x0, 5", "add x2, x1, x1", "halt"] []).run 30
  pure (r.map (fun sim =>
    let c := sim.cores.getD 0 (PipelinedCore.new 0 false false)
    (c.regs.registers.take 3, c.halted,
      [c.writebackQueue.map (fun i => i.opcode), (c.pipelineRecord.lookup 1).getD []])))

/-- One core with forwarding runs `beq x0, x0, nowhere; addi x1, x0, 1; halt` with an empty
label map: the second `clockCycle`, in which the branch is executed. The result lists pc and
the queues before the cycle, and pc and the queues after it. -/
def c27Scenario : Except SimError (Int × List (List String) × Int × List (List String)) := do
  let r ← coreAfter true ["beq x0, x0, nowhere", "addi x1, x0, 1", "halt"] [] 1
  let r1 ← r.1.clockCycle r.2
  pure (r.1.pc, r.1.queueView, r1.1.pc, r1.1.queueView)

/-- One core with forwarding runs `beq x0, x0, L; halt; addi x1, x0, 1; halt` with `L` at
index 2: the second `clockCycle`, in which the branch is executed and taken. The result lists
pc and the queues after it. -/
def c19Scenario : Except SimError (Int × List (List String)) := do
  let r ← coreAfter true ["beq x0, x0, L", "halt", "addi x1, x0, 1", "halt"] [("L", 2)] 1
  let r1 ← r.1.clockCycle r.2
  pure (r1.1.pc, r1.1.queueView)

/-- The run of `addi x1, x0, 3; addi x2, x0, 4; mul x3, x1, x2; halt` on one core, with or
without forwarding, and the latency of `mul` set to 3, with at most 30 iterations of the cycle
loop: register x3 and the trace row of the `mul` when the run has ended. `stall0` is the value
the uninitialised member `cycleStallOccurred` has after construction. -/
def c24Scenario (enableForwarding stall0 : Bool) :
    Except SimError (Option (Int × Option (List String))) := do
  let s0 ← PipelinedSimulator.new 1 enableForwarding smallCfg stall0
  let s ← s0.setInstructionLatency "mul" 3
  let r ← (s.loadLines ["addi x1, x0, 3", "addi x2, x0, 4", "mul x3, x1, x2", "halt"] []).run 30
  pure (r.map (fun sim =>
    let c := sim.cores.getD 0 (PipelinedCore.new 0 enableForwarding false)
    (c.regs.registers.getD 3 0, c.pipelineRecord.lookup 2)))

/-- The start of `PipelinedCore::execute`: the instruction the stage takes (from the execute
queue, else from the decode queue unless the operands are not available without forwarding),
whether it comes from the decode queue, and the core once the instruction is removed and its
"E" recorded. -/
def PipelinedCore.takeForExecute (c : PipelinedCore) :
    Option (Instruction × Bool × PipelinedCore) :=
  match c.executeQueue with
  | inst :: q =>
    some (inst, false, { c with executeQueue := q }.recordStageForInstruction inst.id "E")
  | [] =>
    match c.decodeQueue with
    | [] => none
    | inst :: q =>
      if !c.regs.forwarding && !c.operandsAvailable inst then none
      else some (inst, true, { c with decodeQueue := q }.recordStageForInstruction inst.id "E")

/-- The instruction `inst`, processed by `PipelinedCore::execute` in the core `cx`, reaches the
branch path with the branch taken, or the jump path; `inst2` is the instruction after the
resolution of its label (and, for a jump, with its return address). -/
def PipelinedCore.takesControlTransfer (cx : PipelinedCore) (inst inst2 : Instruction) : Bool :=
  inst.shouldExecute && inst.opcode != "halt" && !inst.isSync && !inst.isArithmetic &&
    !(inst.isMemory && (inst.opcode == "lw" || inst.opcode == "lw_spm")) &&
    !(inst.isMemory && (inst.opcode == "sw" || inst.opcode == "sw_spm")) &&
    (if inst.isBranch then
      decide (cx.branchDecision inst = .ok (true, inst)) &&
        decide (inst2 = cx.resolveTarget inst (decide (inst.targetPC < 0)))
    else inst.isJump && decide (inst2 = cx.jumpResult inst))

/-- The queues younger than writeback and the program counter of a core. -/
def PipelinedCore.flow (c : PipelinedCore) :
    List FetchEntry × List Instruction × List Instruction × List Instruction × Int :=
  (c.fetchQueue, c.decodeQueue, c.executeQueue, c.memoryQueue, c.pc)

/-- The decoded branch `beq x0, x0, L` with fetch id 0. -/
def c19Branch : Instruction :=
  { id := 0, raw := "beq x0, x0, L", opcode := "beq", rs1 := 0, rs2 := 0, isBranch := true,
    label := "L", coreId := 0 }

/-- A core with the branch in its decode queue, `halt` in its fetch queue and `L` at index 2. -/
def c19Core : PipelinedCore :=
  { PipelinedCore.new 0 true false with
    decodeQueue := [c19Branch], fetchQueue := [{ fetchId := 1, rawInst := "halt" }]
    labels := [("L", 2)], pc := 2, fetchCounter := 2 }

/-- The core `c19Core` at the start of its execute stage. -/
def c19Staged : PipelinedCore := PipelinedCore.padRecord { c19Core with cycleStallOccurred := false }

/-- The core `c19Staged` once the branch has been taken from the decode queue. -/
def c19Taken : PipelinedCore :=
  { c19Staged with decodeQueue := [] }.recordStageForInstruction 0 "E"

/-- The result of `clockCycle` on `c19Core`. -/
def c19Result : PipelinedCore × Shared :=
  match c19Core.clockCycle c20Shared with
  | .ok r => r
  | .error _ => (c19Core, c20Shared)

/-- The instruction an arithmetic instruction becomes in `execute` when its result is `v`. -/
def Instruction.withResult (inst : Instruction) (v : Int) : Instruction :=
  { inst with resultValue := v, hasResult := true }

/-- The instruction after `cyclesInExecute++`. -/
def Instruction.nextCycle (inst : Instruction) : Instruction :=
  { inst with cyclesInExecute := inst.cyclesInExecute + 1 }

/-- The characters of an operand token: no white space, no comma, no `#`. -/
def operandChar (c : Char) : Bool := !isSpaceC c && c != ',' && c != '#'

/-- The decimal digits of a register number below 100. -/
def regDigits (n : Nat) : List Char :=
  if n < 10 then [Char.ofNat (48 + n)] else [Char.ofNat (48 + n / 10), Char.ofNat (48 + n % 10)]

/-- The line `op t0, t1, t2`. -/
def line3 (op t0 t1 t2 : List Char) : String :=
  String.mk (op ++ ' ' :: (t0 ++ ',' :: ' ' :: (t1 ++ ',' :: ' ' :: t2)))

/-- The line `op t0, t1`. -/
def line2 (op t0 t1 : List Char) : String :=
  String.mk (op ++ ' ' :: (t0 ++ ',' :: ' ' :: t1))

/-- The line `op t0`. -/
def line1 (op t0 : List Char) : String := String.mk (op ++ ' ' :: t0)

/-- An operand token: not empty and made of operand characters. -/
def IsToken (t : List Char) : Prop := t ≠ [] ∧ ∀ c ∈ t, operandChar c = true

/-- A next level whose `read` and `write` never raise `std::out_of_range`. -/
def NextLevel.NoRangeError {σ : Type} (n : NextLevel σ) : Prop :=
  (∀ s a k, n.read s a k ≠ .error .outOfRange) ∧ (∀ s a d, n.write s a d ≠ .error .outOfRange)

/-- The same for an optional next level. -/
def NoRangeError {σ : Type} (nl : Option (NextLevel σ)) : Prop :=
  ∀ n, nl = some n → n.NoRangeError

/-- A hierarchy record for two cores without caches. -/
def c28Hierarchy : MemoryHierarchy :=
  { numCores := 2, mainMemory := MainMemory.new 16 1, l2Cache := default, l1ICaches := []
    l1DCaches := [], scratchpads := [] }

/-- A core that is halted or whose decode, execute, memory and writeback queues are empty. -/
def PipelinedCore.finished (c : PipelinedCore) : Bool :=
  c.halted || (c.decodeQueue.isEmpty && c.executeQueue.isEmpty && c.memoryQueue.isEmpty &&
    c.writebackQueue.isEmpty)

/-- Every core whose `coreHalted` flag is set is finished. -/
def Marked (cores : List PipelinedCore) (coreHalted : List Bool) : Prop :=
  List.Forall₂ (fun c d => d = true → c.finished = true) cores coreHalted

/-- The run of `program` on one core with forwarding and the small caches of `smallCfg`, with
at most 30 iterations of the cycle loop; `stall0` is the value the uninitialised member
`cycleStallOccurred` has after construction. The result lists `halted`, then pc, the size of the
program, `cycleCount` and `instructionCount`, and the queues of the core when the run has
ended. -/
def c29Scenario (program : List String) (stall0 : Bool) :
    Except SimError (Option (Bool × List Int × List (List String))) := do
  let s ← PipelinedSimulator.new 1 true smallCfg stall0
  let r ← (s.loadLines program []).run 30
  pure (r.map (fun sim =>
    let c := sim.cores.getD 0 (PipelinedCore.new 0 true false)
    (c.halted, [c.pc, (program.length : Int), c.regs.cycleCount, c.instructionCount],
      c.queueView)))

/-- The timestamp of slot `j` of a list of blocks. -/
def stampAt (l : List CacheBlock) (j : Nat) : Int := (l.getD j default).timestamp

/-- Every valid block carries a timestamp below `globalTimestamp`. -/
def Cache.Stamped (c : Cache) : Prop :=
  ∀ (si bi : Nat) (b : CacheBlock), c.blockAt si bi = some b → b.valid = true →
    b.timestamp < c.globalTimestamp

/-- The same, except possibly for the slot `(si0, bi0)`. -/
def Cache.StampedExcept (c : Cache) (si0 bi0 : Nat) : Prop :=
  ∀ (si bi : Nat) (b : CacheBlock), ¬ (si = si0 ∧ bi = bi0) → c.blockAt si bi = some b →
    b.valid = true → b.timestamp < c.globalTimestamp

/-- The sample cache after the read of address 5 followed by a read of address 6, a hit. -/
def c30Hit : (Int × List Nat) × Cache × MainMemory :=
  match Cache.read (some memorySystem) sampleCacheRead.2.1 sampleCacheRead.2.2 6 1 with
  | .ok r => r
  | .error _ => sampleCacheRead

/-- A cache of 8 bytes, 2-way, 4-byte blocks (a single set) with FIFO replacement over the
sample memory: a read miss at address 0 fills slot 0, a write miss at address 4 fills slot 1,
a read of address 0 hits. The result lists the FIFO queue of the set after each of the three
calls, the `valid` flags of the two blocks at the end, and the result of `selectVictim` on the
set at the end. -/
def c31Scenario : Except SimError (List (List Nat) × List Bool × Except SimError Nat) := do
  let c ← Cache.new 8 4 2 1 .FIFO
  let r1 ← Cache.read (some memorySystem) c sampleMemory 0 4
  let r2 ← Cache.write (some memorySystem) r1.2.1 r1.2.2 4 [9]
  let r3 ← Cache.read (some memorySystem) r2.2.1 r2.2.2 0 4
  pure ([(r1.2.1.getSet 0).fifoQueue, (r2.2.1.getSet 0).fifoQueue, (r3.2.1.getSet 0).fifoQueue],
    (r3.2.1.getSet 0).blocks.map (fun b => b.valid),
    (r3.2.1.selectVictim 0).map (fun v => v.1))

/-- One core with forwarding runs `program` for two iterations of the cycle loop, when its
first instruction is in the memory queue with its result, and then to the end (at most 30
iterations): `getForwardedValue(0)`, `getForwardedValue(31)` and the core id after the two
iterations, and register x1 at the end of the run. -/
def c37Scenario (program : List String) :
    Except SimError (Except SimError Int × Except SimError Int × Int × Option Int) := do
  let r ← coreAfter true program [] 2
  let s ← PipelinedSimulator.new 1 true smallCfg false
  let e ← (s.loadLines program []).run 30
  pure (r.1.getForwardedValue 0, r.1.getForwardedValue 31, r.1.regs.coreId,
    e.map (fun sim => (sim.cores.getD 0 r.1).regs.registers.getD 1 0))

/-- Two cores with forwarding and the small caches of `smallCfg` run
`sync; sync; addi x1, x0, 1; halt` for three iterations of the cycle loop: for each core the
queues and the trace row of its second `sync` (fetch id 1), and the `arrived` flags. -/
def c38Scenario : Except SimError (List (List (List String) × List String) × List Bool) := do
  let s ← PipelinedSimulator.new 2 true smallCfg false
  let r ← (s.loadLines ["sync", "sync", "addi x1, x0, 1", "halt"] []).runCycles 3
  pure (r.1.cores.map (fun c => (c.queueView, (c.pipelineRecord.lookup 1).getD [])),
    r.1.shared.sync.arrived)

/-- A main memory of four bytes 7, 8, 9, 10: the bytes `read(0xFFFFFFFF, 2)` returns, and the
memory after `write(0xFFFFFFFF, {1, 2})`. -/
def c39Scenario : List Nat × List Nat :=
  let m : MainMemory := { memory := [7, 8, 9, 10], accessLatency := 100 }
  ((m.read (2 ^ 32 - 1) 2).2, (m.write (2 ^ 32 - 1) [1, 2]).2.memory)

/-- A one-core hierarchy with a scratchpad of 6 bytes (`SPM_SIZE = 6`): the results of
`loadWordFromSPM(0, 4)` and of `storeWordToSPM(0, 4, 1)`, and whether address 4 passes the test
`address % 4 != 0 || address >= size`. -/
def c40Scenario : Except SimError (Except SimError Int × Except SimError Int × Bool) := do
  let h ← MemoryHierarchy.new 1 { smallCfg with spmSize := 6 }
  pure ((h.loadWordFromSPM 0 4).map (fun r => r.1.2), (h.storeWordToSPM 0 4 1).map (fun r => r.1),
    !(decide (4 % 4 ≠ 0) || decide (4 ≥ (h.scratchpads.getD 0 default).size % 2 ^ 32)))

/-- One core with forwarding runs `lw x1, 0(x0); addi x1, x0, 7; add x2, x1, x0; halt`: the
sixth `clockCycle`, in which the `add` is executed while the memory queue holds the waiting
load and the `addi`. The result lists the queues before the cycle, the queues after it and the
trace row of the `add`. -/
def c36Scenario : Except SimError (List (List String) × List (List String) × List String) := do
  let r ← coreAfter true ["lw x1, 0(x0)", "addi x1, x0, 7", "add x2, x1, x0", "halt"] [] 4
  let r1 ← r.1.clockCycle r.2
  pure (r.1.queueView, r1.1.queueView, (r1.1.pipelineRecord.lookup 2).getD [])

/-- The caches that arise from a freshly constructed cache, or from any cache on which
`resetStatistics` has just been called, by `read` and `write` calls that return, whatever the
level below does. -/
inductive Cache.Counted {σ : Type} (nl : Option (NextLevel σ)) : Cache → Prop
  | fresh {cs bs as lat : Int} {pol : ReplacementPolicy} {c : Cache} :
      Cache.new cs bs as lat pol = .ok c → Cache.Counted nl c
  | reset (c : Cache) : Cache.Counted nl c.resetStatistics
  | read {c : Cache} {s : σ} {a n : Nat} {r : (Int × List Nat) × Cache × σ} :
      Cache.Counted nl c → Cache.read nl c s a n = .ok r → Cache.Counted nl r.2.1
  | write {c : Cache} {s : σ} {a : Nat} {d : List Nat} {r : Int × Cache × σ} :
      Cache.Counted nl c → Cache.write nl c s a d = .ok r → Cache.Counted nl r.2.1

/-- One core without forwarding runs `program` for three iterations of the cycle loop and then
the `clockCycle` in which `writeback` retires the first instruction. The result lists
`cycleCount` when that cycle starts with the `rd` and the result of the instruction at the head
of the writeback queue, the `hasResult` flag of that instruction, and, when the cycle returns,
register `rd`, the number of entries of `pendingWrites` and `registerAvailableCycle[rd]`. -/
def c32Scenario (program : List String) :
    Except SimError (List Int × List Bool × Except SimError (List Int)) := do
  let r ← coreAfter false program [] 3
  let rd := ((r.1.writebackQueue.head?).map (fun i => i.rd)).getD 0
  pure (r.1.regs.cycleCount ::
      (r.1.writebackQueue.take 1).flatMap (fun i => [i.rd, i.resultValue]),
    (r.1.writebackQueue.take 1).map (fun i => i.hasResult),
    (do
      let r1 ← r.1.clockCycle r.2
      let v ← getRegister r1.1.regs rd
      pure [v, (r1.1.regs.pendingWrites.length : Int),
        (r1.1.regs.registerAvailableCycle.lookup rd).getD (-1)]))

/-- An `addi x1, x0, 7` that has been executed, as it stands in the writeback queue. -/
def c32Inst : Instruction :=
  { id := 0, raw := "addi x1, x0, 7", opcode := "addi", rd := 1, rs1 := 0, immediate := 7,
    isArithmetic := true, shouldExecute := true, hasResult := true, resultValue := 7, coreId := 0 }

/-- A core without forwarding in cycle 3 with `c32Inst` at the head of its writeback queue. -/
def c32Core : PipelinedCore :=
  { PipelinedCore.new 0 false false with
    regs := { (PipelinedCore.new 0 false false).regs with cycleCount := 3 }
    writebackQueue := [c32Inst], pc := 1, fetchCounter := 1 }

/-- The result of `clockCycle` on `c32Core`. -/
def c32Result : PipelinedCore × Shared :=
  match c32Core.clockCycle c20Shared with
  | .ok r => r
  | .error _ => (c32Core, c20Shared)

/-- One core with forwarding runs `program` for `k` iterations of the cycle loop and then one
more `clockCycle`. The result lists pc and the queues before that cycle and after it. -/
def c33Scenario (program : List String) (k : Nat) :
    Except SimError (Int × List (List String) × Int × List (List String)) := do
  let r ← coreAfter true program [] k
  let r1 ← r.1.clockCycle r.2
  pure (r.1.pc, r.1.queueView, r1.1.pc, r1.1.queueView)

/-- `MainMemory::setWord`; the test `address + 3 < memory.size()` is computed in `uint32_t`,
and an element access outside the vector is `outOfBounds`. -/
def MainMemory.setWord (m : MainMemory) (address : Nat) (value : Int) :
    Except SimError MainMemory :=
  if (address + 3) % 2 ^ 32 < m.memory.length then
    if address + 3 < m.memory.length then
      .ok { m with memory := storeBytes m.memory address (wordToBytes value) }
    else .error .outOfBounds
  else .ok m

/-- `MainMemory::getWord`. -/
def MainMemory.getWord (m : MainMemory) (address : Nat) : Except SimError Int :=
  if (address + 3) % 2 ^ 32 < m.memory.length then
    if address + 3 < m.memory.length then .ok (bytesToWord (sliceBytes m.memory address 4))
    else .error .outOfBounds
  else .ok 0

/-- `k` calls of `clockCycle` in a row. -/
def PipelinedCore.clockCycles (c : PipelinedCore) (sh : Shared) :
    Nat → Except SimError (PipelinedCore × Shared)
  | 0 => .ok (c, sh)
  | k + 1 => do
    let r ← c.clockCycle sh
    r.1.clockCycles r.2 k

/-- The result of `retire(0)` on a barrier for one core over the hierarchy `c13Hierarchy`,
whose L1D holds a dirty block. -/
def c16Result : SyncMechanism × MemoryHierarchy :=
  match (SyncMechanism.new 1).retire c13Hierarchy 0 with
  | .ok r => r
  | .error _ => (SyncMechanism.new 1, c13Hierarchy)

/-- Power-of-two geometry: the block size is the power of two the offset field is sized for,
and the offset and index fields fit a 32-bit address. -/
def Cache.PowerOfTwo (c : Cache) : Prop :=
  c.blockSize = 2 ^ c.blockOffsetBits ∧ c.blockOffsetBits + c.setIndexBits ≤ 32

/-- Every valid block sits in a set that the index field of an address can name and carries a
tag that the tag field of a 32-bit address can hold. -/
def Cache.TagBound (c : Cache) : Prop :=
  ∀ si bi b, c.blockAt si bi = some b → b.valid = true →
    si < 2 ^ c.setIndexBits ∧ b.tag < 2 ^ (32 - (c.blockOffsetBits + c.setIndexBits))

/-- The byte of address `x` as seen through cache `c` over main memory `m`: the byte of the
valid block that holds the address, or the byte of main memory (0 beyond its end). -/
def Cache.view (c : Cache) (m : MainMemory) (x : Nat) : Nat :=
  match c.findBlockInSet (c.getTag x) (c.getSetIndex x) with
  | some bi => (c.getBlock (c.getSetIndex x) bi).data.getD (c.getBlockOffset x) 0
  | none => m.memory.getD x 0

/-- Every valid block that is not dirty holds the bytes of main memory, as far as the block
lies inside main memory. -/
def Cache.Coherent (c : Cache) (m : MainMemory) : Prop :=
  ∀ x bi, x < 2 ^ 32 → x < m.memory.length →
    c.findBlockInSet (c.getTag x) (c.getSetIndex x) = some bi →
    (c.getBlock (c.getSetIndex x) bi).dirty = false →
    (c.getBlock (c.getSetIndex x) bi).data.getD (c.getBlockOffset x) 0 = m.memory.getD x 0

/-- The state of a write-back cache over main memory in which reads through the cache are
well defined. -/
def Cache.Sound (c : Cache) (m : MainMemory) : Prop :=
  c.WF ∧ c.UniqueTags ∧ c.PowerOfTwo ∧ c.TagBound ∧ c.Coherent m

/-- One core with a one-set 2-way L1D of 64-byte blocks over a single-block L2: core 0 stores 7
at address 0 and 9 at address 64 (both inside the 4096-byte main memory), then `flushL1D(0)`
runs, whose second write-back evicts the first from L2. The result lists the first four bytes
L1D[0] held for the two addresses before the flush, and the bytes 4-byte reads of the two
addresses issued to L2 return after the flush. -/
def c13InRange : Except SimError (List Nat × List Nat × List Nat × List Nat) := do
  let h0 ← MemoryHierarchy.new 1 { l1dSize := 128, l1dAssoc := 2, l2Size := 64, l2Assoc := 1 }
  let r1 ← h0.storeWord 0 0 7
  let r2 ← r1.2.storeWord 0 64 9
  let l1d := r2.2.l1DCaches.getD 0 default
  let h3 ← r2.2.flushL1D 0
  let rd1 ← l2System.read (h3.l2Cache, h3.mainMemory) 0 4
  let rd2 ← l2System.read (rd1.2.1, rd1.2.2) 64 4
  pure (sliceBytes (l1d.getBlock 0 0).data 0 4, sliceBytes (l1d.getBlock 0 1).data 0 4,
    rd1.1.2, rd2.1.2)

/-! # Theorems -/

/-! ## Register file -/

theorem getRegister_zero (s : CoreRegs) : getRegister s 0 = .ok 0 := by
  simp [getRegister, NUM_REGISTERS]

theorem getRegister_coreId (s : CoreRegs) : getRegister s 31 = .ok s.coreId := by
  simp [getRegister, NUM_REGISTERS]

theorem setRegister_coreId {s s' : CoreRegs} {i v : Int} (h : setRegister s i v = .ok s') :
    s'.coreId = s.coreId := by
  unfold setRegister at h
  split at h
  · cases h
  · split at h <;> cases h <;> rfl

/-! ## Geometry lemmas -/

theorem floorLog2Aux_spec : ∀ (fuel n : Nat), n ≤ fuel → n ≠ 0 →
    2 ^ floorLog2Aux fuel n ≤ n ∧ n < 2 ^ (floorLog2Aux fuel n + 1)
  | 0, n, h, h0 => by omega
  | fuel + 1, n, h, h0 => by
    unfold floorLog2Aux
    split
    · rename_i h2
      have ih := floorLog2Aux_spec fuel (n / 2) (by omega) (by omega)
      rw [pow_succ, pow_succ]
      omega
    · simp; omega

theorem floorLog2_spec {n : Nat} (h : n ≠ 0) :
    2 ^ floorLog2 n ≤ n ∧ n < 2 ^ (floorLog2 n + 1) :=
  floorLog2Aux_spec n n (le_refl n) h

theorem floorLog2_two_pow (k : Nat) : floorLog2 (2 ^ k) = k := by
  have h := floorLog2_spec (n := 2 ^ k) (by positivity)
  have h3 := (Nat.pow_le_pow_iff_right (by norm_num : 1 < 2)).1 h.1
  have h4 := (Nat.pow_lt_pow_iff_right (by norm_num : 1 < 2)).1 h.2
  omega

/-- What a successful construction looks like. -/
theorem Cache.new_ok {cs bs as lat : Int} {pol : ReplacementPolicy} {c : Cache}
    (h : Cache.new cs bs as lat pol = .ok c) :
    0 < cs ∧ 0 < bs ∧ 0 < as ∧ cs % bs = 0 ∧ 0 < cs / (bs * as) ∧
    c.cacheSize = cs.toNat ∧ c.blockSize = bs.toNat ∧ c.associativity = as.toNat ∧
    c.numSets = (cs / (bs * as)).toNat ∧
    c.blockOffsetBits = floorLog2 c.blockSize ∧ c.setIndexBits = floorLog2 c.numSets ∧
    c.tagBits = 32 - (c.setIndexBits : Int) - (c.blockOffsetBits : Int) ∧
    c.policy = pol ∧ c.accessLatency = lat ∧
    c.sets = List.replicate c.numSets (CacheSet.new c.associativity c.blockSize) := by
  unfold Cache.new at h
  split at h
  · cases h
  · rename_i h1
    split at h
    · cases h
    · rename_i h2
      split at h
      · cases h
      · simp only at h
        split at h
        · cases h
        · rename_i h4
          injection h with h
          subst h
          push_neg at h1 h2 h4
          simp only [and_true, true_and]
          refine ⟨h1.1, h1.2.1, h1.2.2, ?_, h4⟩
          simpa using h2

/-- Natural-number reading of a successful construction. -/
theorem Cache.new_geometry {cs bs as lat : Int} {pol : ReplacementPolicy} {c : Cache}
    (h : Cache.new cs bs as lat pol = .ok c) :
    0 < c.blockSize ∧ 0 < c.associativity ∧ 0 < c.numSets ∧
    c.numSets = c.cacheSize / (c.blockSize * c.associativity) := by
  obtain ⟨h1, h2, h3, _, h5, e1, e2, e3, e4, _⟩ := Cache.new_ok h
  rw [e1, e2, e3, e4]
  refine ⟨by omega, by omega, by omega, ?_⟩
  obtain ⟨n, rfl⟩ := Int.eq_ofNat_of_zero_le h1.le
  obtain ⟨b, rfl⟩ := Int.eq_ofNat_of_zero_le h2.le
  obtain ⟨a, rfl⟩ := Int.eq_ofNat_of_zero_le h3.le
  norm_cast

theorem getBlockOffset_eq (c : Cache) (a : Nat) : c.getBlockOffset a = a % 2 ^ c.blockOffsetBits := by
  simp [Cache.getBlockOffset, Nat.one_shiftLeft]

theorem getSetIndex_eq (c : Cache) (a : Nat) :
    c.getSetIndex a = (a / 2 ^ c.blockOffsetBits) % 2 ^ c.setIndexBits := by
  simp [Cache.getSetIndex, Nat.one_shiftLeft, Nat.shiftRight_eq_div_pow]

theorem getTag_eq (c : Cache) (a : Nat) :
    c.getTag a = a / (2 ^ c.blockOffsetBits * 2 ^ c.setIndexBits) := by
  simp [Cache.getTag, Nat.shiftRight_eq_div_pow, pow_add]

/-! ## Words and bytes -/

theorem and_mask_eq (a k : Nat) (ha : a < 2 ^ 32) (hk : k ≤ 32) :
    a &&& (2 ^ 32 - 2 ^ k) = a - a % 2 ^ k := by
  have hM : 2 ^ 32 - 2 ^ k = 2 ^ k * (2 ^ (32 - k) - 1) := by
    rw [Nat.mul_sub, ← pow_add, Nat.add_sub_cancel' hk, mul_one]
  have hA : a - a % 2 ^ k = 2 ^ k * (a / 2 ^ k) := by
    have := Nat.div_add_mod a (2 ^ k)
    omega
  rw [hM, hA]
  apply Nat.eq_of_testBit_eq
  intro i
  rw [Nat.testBit_and, Nat.testBit_mul_pow_two, Nat.testBit_mul_pow_two,
    Nat.testBit_two_pow_sub_one]
  by_cases hik : k ≤ i
  · simp only [ge_iff_le, hik, decide_True, Bool.true_and]
    have hs : (a / 2 ^ k).testBit (i - k) = a.testBit i := by
      rw [← Nat.shiftRight_eq_div_pow, Nat.testBit_shiftRight, Nat.add_sub_cancel' hik]
    by_cases hi : i < 32
    · have : i - k < 32 - k := by omega
      simp [this, hs]
    · have h1 : a.testBit i = false :=
        Nat.testBit_lt_two_pow (lt_of_lt_of_le ha (Nat.pow_le_pow_right (by norm_num) (by omega)))
      have h2 : (a / 2 ^ k).testBit (i - k) = false := by
        rw [← Nat.shiftRight_eq_div_pow, Nat.testBit_shiftRight, Nat.add_sub_cancel' hik]
        exact h1
      simp [h1, h2]
  · simp [hik]

theorem and_not32_three (a : Nat) (ha : a < 2 ^ 32) : a &&& not32 3 = a - a % 4 := by
  have := and_mask_eq a 2 ha (by norm_num)
  simpa [not32] using this

theorem byteOf_eq (v : Int) (i : Nat) : byteOf v i = ((v / 2 ^ (i * 8)) % 256).toNat := by
  simp [byteOf, Int.shiftRight_eq_div_pow]

theorem lor_bytes (b0 b1 b2 b3 : Nat) (h0 : b0 < 256) (h1 : b1 < 256) (h2 : b2 < 256) :
    b0 ||| (b1 <<< 8) ||| (b2 <<< 16) ||| (b3 <<< 24) =
      b0 + b1 * 256 + b2 * 65536 + b3 * 16777216 := by
  have e1 : b0 ||| (b1 <<< 8) = b0 + b1 * 256 := by
    rw [Nat.lor_comm, Nat.shiftLeft_eq, Nat.mul_comm,
      ← Nat.mul_add_lt_is_or (i := 8) (by simpa using h0) b1]
    omega
  have e2 : (b0 + b1 * 256) ||| (b2 <<< 16) = b0 + b1 * 256 + b2 * 65536 := by
    rw [Nat.lor_comm, Nat.shiftLeft_eq, Nat.mul_comm,
      ← Nat.mul_add_lt_is_or (i := 16) (by norm_num; omega) b2]
    omega
  have e3 : (b0 + b1 * 256 + b2 * 65536) ||| (b3 <<< 24) =
      b0 + b1 * 256 + b2 * 65536 + b3 * 16777216 := by
    rw [Nat.lor_comm, Nat.shiftLeft_eq, Nat.mul_comm,
      ← Nat.mul_add_lt_is_or (i := 24) (by norm_num; omega) b3]
    omega
  rw [e1, e2, e3]

theorem bytesToWord_wordToBytes (v : Int) (hv : -2 ^ 31 ≤ v ∧ v < 2 ^ 31) :
    bytesToWord (wordToBytes v) = v := by
  have hb : ∀ i, byteOf v i < 256 := by
    intro i
    rw [byteOf_eq]
    have := Int.emod_lt_of_pos (v / 2 ^ (i * 8)) (by norm_num : (0 : Int) < 256)
    have := Int.emod_nonneg (v / 2 ^ (i * 8)) (by norm_num : (256 : Int) ≠ 0)
    omega
  have e : wordToBytes v = [byteOf v 0, byteOf v 1, byteOf v 2, byteOf v 3] := by
    simp [wordToBytes, List.range_succ]
  rw [e]
  simp only [bytesToWord, List.getD_cons_zero, List.getD_cons_succ]
  rw [lor_bytes _ _ _ _ (hb 0) (hb 1) (hb 2)]
  simp only [byteOf_eq, toInt32]
  norm_num
  omega

/-! ## Byte ranges of a block -/

@[simp] theorem length_storeBytes : ∀ (ds blk : List Nat) (off : Nat),
    (storeBytes blk off ds).length = blk.length
  | [], _, _ => rfl
  | d :: ds, blk, off => by
    simp [storeBytes, length_storeBytes ds]

theorem getElem?_storeBytes : ∀ (ds blk : List Nat) (off j : Nat),
    (storeBytes blk off ds)[j]? =
      if off ≤ j ∧ j < off + ds.length ∧ j < blk.length then ds[j - off]? else blk[j]?
  | [], blk, off, j => by
    have : ¬ (off ≤ j ∧ j < off + ([] : List Nat).length ∧ j < blk.length) := by
      simp only [List.length_nil]; omega
    rw [if_neg this]; rfl
  | d :: ds, blk, off, j => by
    simp only [storeBytes, getElem?_storeBytes ds, List.length_set, List.length_cons]
    by_cases h1 : off + 1 ≤ j
    · have e : j - off = (j - (off + 1)) + 1 := by omega
      by_cases h2 : j < off + 1 + ds.length ∧ j < blk.length
      · rw [if_pos ⟨h1, h2⟩, if_pos ⟨by omega, by omega, h2.2⟩, e, List.getElem?_cons_succ]
      · rw [if_neg (by tauto), if_neg (by intro h; apply h2; omega),
          List.getElem?_set_ne (by omega)]
    · rw [if_neg (by tauto)]
      by_cases h3 : off = j
      · subst h3
        by_cases h4 : off < blk.length
        · rw [if_pos ⟨le_refl _, by omega, h4⟩]
          simp [h4]
        · rw [if_neg (by tauto)]
          rw [List.getElem?_eq_none (by simpa using h4), List.getElem?_eq_none (by simpa using h4)]
      · rw [if_neg (by omega), List.getElem?_set_ne h3]

theorem sliceBytes_length (data : List Nat) (off n : Nat) : (sliceBytes data off n).length = n := by
  simp [sliceBytes]

theorem sliceBytes_storeBytes (ds blk : List Nat) (off : Nat) (h : off + ds.length ≤ blk.length) :
    sliceBytes (storeBytes blk off ds) off ds.length = ds := by
  apply List.ext_getElem?
  intro i
  simp only [sliceBytes, List.getElem?_map, List.getD_eq_getElem?_getD, getElem?_storeBytes]
  by_cases hi : i < ds.length
  · rw [List.getElem?_range hi]
    simp only [Option.map_some']
    rw [if_pos ⟨by omega, by omega, by omega⟩]
    simp [hi]
  · rw [List.getElem?_eq_none (by simpa using hi), List.getElem?_eq_none (by simpa using hi)]
    rfl

theorem wordToBytes_length (v : Int) : (wordToBytes v).length = 4 := by
  simp [wordToBytes]

/-! ## Claims on the register file and the cache geometry -/

/-- C1: register 0 reads 0 and register 31 reads the core id in every core state; writes to
either of them through `setRegister` leave the state unchanged; the writeback commit and the
early write of `execute` for an instruction with `rd` in `{0, 31}` leave the register file
unchanged; and after any `setRegister` call (the only way a clock cycle writes a register)
registers 0 and 31 still read 0 and the core id. -/
theorem C1_registers_zero_and_coreId (s : CoreRegs) (v : Int) (hasResult : Bool) (rd : Int)
    (hrd : rd = 0 ∨ rd = 31) :
    getRegister s 0 = .ok 0 ∧ getRegister s 31 = .ok s.coreId ∧
    setRegister s 0 v = .ok s ∧ setRegister s 31 v = .ok s ∧
    writebackCommit s hasResult rd v = .ok s ∧
    (∃ s', executeArithmeticWrite s rd v = .ok s' ∧ s'.registers = s.registers ∧
      s'.pendingWrites = s.pendingWrites ∧
      getRegister s' 0 = .ok 0 ∧ getRegister s' 31 = .ok s.coreId) ∧
    (∀ (i w : Int) (s' : CoreRegs), setRegister s i w = .ok s' →
      getRegister s' 0 = .ok 0 ∧ getRegister s' 31 = .ok s.coreId) := by
  refine ⟨getRegister_zero s, getRegister_coreId s, by simp [setRegister, NUM_REGISTERS],
    by simp [setRegister, NUM_REGISTERS], ?_, ?_, ?_⟩
  · rcases hrd with rfl | rfl <;> simp [writebackCommit]
  · rcases hrd with rfl | rfl
    · exact ⟨s, by simp [executeArithmeticWrite], rfl, rfl, getRegister_zero s,
        getRegister_coreId s⟩
    · by_cases hf : s.forwarding = true
      · refine ⟨{ s with registerAvailableCycle := mapInsert s.registerAvailableCycle 31 s.cycleCount },
          ?_, rfl, rfl, getRegister_zero _, getRegister_coreId _⟩
        simp [executeArithmeticWrite, hf, setRegister, NUM_REGISTERS, bind, Except.bind, pure,
          Except.pure]
      · exact ⟨s, by simp [executeArithmeticWrite, hf], rfl, rfl, getRegister_zero s,
          getRegister_coreId s⟩
  · intro i w s' h
    rw [← setRegister_coreId h]
    exact ⟨getRegister_zero s', getRegister_coreId s'⟩

/-- C1 at core 1 retiring an instruction with `rd = 31` and result 7. -/
theorem C1_registers_witness :
    ((31 : Int) = 0 ∨ (31 : Int) = 31) ∧
    writebackCommit sampleCore true 31 7 = .ok sampleCore ∧
    getRegister sampleCore 31 = .ok 1 :=
  ⟨Or.inr rfl, (C1_registers_zero_and_coreId sampleCore 7 true 31 (Or.inr rfl)).2.2.2.2.1,
    (C1_registers_zero_and_coreId sampleCore 7 true 31 (Or.inr rfl)).2.1⟩

/-- C6 as stated fails: the constructor accepts a 96-byte cache with 48-byte blocks, for which
`getBlockOffset 40` is `8` while `40 mod blockSize` is `40`. -/
theorem C6_counterexample :
    (Cache.new 96 48 1 1 .LRU).map (fun c => (c.getBlockOffset 40, 40 % c.blockSize)) =
      .ok (8, 40) := by
  decide

/-- C6 amended: for every cache accepted by the constructor the offset, set index and tag are
the remainder and quotients by `2 ^ floor(log2 blockSize)` and `2 ^ floor(log2 numSets)`; they
are the remainder and quotients by `blockSize` and `numSets` themselves whenever both are
powers of two. -/
theorem C6_address_decomposition {cs bs as lat : Int} {pol : ReplacementPolicy} {c : Cache}
    (h : Cache.new cs bs as lat pol = .ok c) (addr : Nat) :
    c.getBlockOffset addr = addr % 2 ^ floorLog2 c.blockSize ∧
    c.getSetIndex addr = (addr / 2 ^ floorLog2 c.blockSize) % 2 ^ floorLog2 c.numSets ∧
    c.getTag addr = addr / (2 ^ floorLog2 c.blockSize * 2 ^ floorLog2 c.numSets) ∧
    ((∃ j, c.blockSize = 2 ^ j) → (∃ k, c.numSets = 2 ^ k) →
      c.getBlockOffset addr = addr % c.blockSize ∧
      c.getSetIndex addr = (addr / c.blockSize) % c.numSets ∧
      c.getTag addr = addr / (c.blockSize * c.numSets)) := by
  obtain ⟨_, _, _, _, _, _, _, _, _, e1, e2, _⟩ := Cache.new_ok h
  have a1 := getBlockOffset_eq c addr
  have a2 := getSetIndex_eq c addr
  have a3 := getTag_eq c addr
  rw [e1, e2] at a2 a3
  rw [e1] at a1
  refine ⟨a1, a2, a3, ?_⟩
  rintro ⟨j, hj⟩ ⟨k, hk⟩
  rw [hj, floorLog2_two_pow] at a1 a2 a3
  rw [hk, floorLog2_two_pow] at a2 a3
  rw [hj, hk]
  exact ⟨a1, a2, a3⟩

theorem sampleCache_new : Cache.new 32 4 2 1 .LRU = .ok sampleCache := by decide

/-- C6 amended, at address 27 of the sample cache. -/
theorem C6_address_decomposition_witness :
    Cache.new 32 4 2 1 .LRU = .ok sampleCache ∧
    sampleCache.getBlockOffset 27 = 27 % 2 ^ floorLog2 sampleCache.blockSize ∧
    sampleCache.getSetIndex 27 =
      (27 / 2 ^ floorLog2 sampleCache.blockSize) % 2 ^ floorLog2 sampleCache.numSets :=
  ⟨sampleCache_new, (C6_address_decomposition sampleCache_new 27).1,
    (C6_address_decomposition sampleCache_new 27).2.1⟩

/-- C7 as stated fails: the constructor accepts size 100, block size 10, associativity 3; the
cache has 3 sets, `blockSize * associativity * numSets` is 90, and the block size 10 differs
from `2 ^ blockOffsetBits = 8`, so it is not a power of two. -/
theorem C7_counterexample :
    (Cache.new 100 10 3 1 .LRU).map
      (fun c => (c.cacheSize, c.blockSize * c.associativity * c.numSets, c.blockSize,
        2 ^ c.blockOffsetBits)) = .ok (100, 90, 10, 8) := by
  decide

/-- C7 amended: every cache the constructor builds has positive block size, associativity and
set count, `numSets = cacheSize div (blockSize * associativity)` (so the product is at most
`cacheSize`, with equality when it divides `cacheSize`), offset and index widths that are the
floors of the binary logarithms of `blockSize` and `numSets`, and widths adding up to 32. -/
theorem C7_constructor_invariants {cs bs as lat : Int} {pol : ReplacementPolicy} {c : Cache}
    (h : Cache.new cs bs as lat pol = .ok c) :
    0 < c.blockSize ∧ 0 < c.associativity ∧ 0 < c.numSets ∧
    c.numSets = c.cacheSize / (c.blockSize * c.associativity) ∧
    c.blockSize * c.associativity * c.numSets ≤ c.cacheSize ∧
    (c.blockSize * c.associativity ∣ c.cacheSize →
      c.cacheSize = c.blockSize * c.associativity * c.numSets) ∧
    2 ^ c.blockOffsetBits ≤ c.blockSize ∧ c.blockSize < 2 ^ (c.blockOffsetBits + 1) ∧
    2 ^ c.setIndexBits ≤ c.numSets ∧ c.numSets < 2 ^ (c.setIndexBits + 1) ∧
    (c.blockOffsetBits : Int) + c.setIndexBits + c.tagBits = 32 := by
  obtain ⟨hb, ha, hn, hdiv⟩ := Cache.new_geometry h
  obtain ⟨_, _, _, _, _, _, _, _, _, e1, e2, e3, _⟩ := Cache.new_ok h
  have l1 := floorLog2_spec (n := c.blockSize) (by omega)
  have l2 := floorLog2_spec (n := c.numSets) (by omega)
  rw [← e1] at l1
  rw [← e2] at l2
  refine ⟨hb, ha, hn, hdiv, ?_, ?_, l1.1, l1.2, l2.1, l2.2, by rw [e3]; ring⟩
  · rw [hdiv]; exact Nat.mul_div_le _ _
  · intro hd
    rw [hdiv]; exact (Nat.mul_div_cancel' hd).symm

/-- C7 amended, at the sample cache. -/
theorem C7_constructor_invariants_witness :
    Cache.new 32 4 2 1 .LRU = .ok sampleCache ∧
    sampleCache.numSets = sampleCache.cacheSize / (sampleCache.blockSize * sampleCache.associativity) ∧
    (sampleCache.blockOffsetBits : Int) + sampleCache.setIndexBits + sampleCache.tagBits = 32 :=
  ⟨sampleCache_new, (C7_constructor_invariants sampleCache_new).2.2.2.1,
    (C7_constructor_invariants sampleCache_new).2.2.2.2.2.2.2.2.2.2⟩


/-! ## Scratchpad -/

theorem getD_set_self {α : Type} (l : List α) (i : Nat) (x d : α) (h : i < l.length) :
    (l.set i x).getD i d = x := by
  simp [List.getD_eq_getElem?_getD, h]

theorem getD_set_ne {α : Type} (l : List α) (i j : Nat) (x d : α) (h : i ≠ j) :
    (l.set i x).getD j d = l.getD j d := by
  simp [List.getD_eq_getElem?_getD, List.getElem?_set_ne h]

/-- Store then load on one scratchpad. -/
theorem ScratchpadMemory.load_store (m : ScratchpadMemory) (a : Nat) (v : Int)
    (ha4 : a % 4 = 0) (ha : a + 3 < m.size) (hsz : m.size < 2 ^ 31)
    (hmem : m.size ≤ m.memory.length) (hv : -2 ^ 31 ≤ v ∧ v < 2 ^ 31) :
    ∃ m', m.storeWord a v = .ok m' ∧ m'.loadWord a = .ok v ∧ m'.size = m.size ∧
      m'.accessLatency = m.accessLatency ∧ m'.memory.length = m.memory.length := by
  have hmod : m.size % 2 ^ 32 = m.size := Nat.mod_eq_of_lt (by omega)
  have hchk : ¬ (a % 4 ≠ 0 ∨ a ≥ m.size % 2 ^ 32) := by rw [hmod]; omega
  refine ⟨{ m with memory := storeBytes m.memory a (wordToBytes v) }, ?_, ?_, rfl, rfl, ?_⟩
  · simp only [ScratchpadMemory.storeWord, if_neg hchk, if_pos (show a + 3 < m.memory.length by omega)]
  · have hlen : a + 3 < (storeBytes m.memory a (wordToBytes v)).length := by
      rw [length_storeBytes]; omega
    simp only [ScratchpadMemory.loadWord, if_neg hchk, if_pos hlen]
    have := sliceBytes_storeBytes (wordToBytes v) m.memory a (by rw [wordToBytes_length]; omega)
    rw [wordToBytes_length] at this
    rw [this, bytesToWord_wordToBytes v hv]
  · simp

/-- C3: for a valid core id `c`, a 4-byte-aligned address `a` with `a + 3` inside the
scratchpad and a signed 32-bit value `v`, `storeWordToSPM(c, a, v)` succeeds, the following
`loadWordFromSPM(c, a)` returns `v` (with the scratchpad latency, leaving the hierarchy as it
is), and every other core's scratchpad is unchanged. -/
theorem C3_spm_store_load (h : MemoryHierarchy) (c : Int) (a : Nat) (v : Int)
    (hc : 0 ≤ c ∧ c < h.numCores) (hlen : c.toNat < h.scratchpads.length)
    (ha4 : a % 4 = 0) (ha : a + 3 < (h.scratchpads.getD c.toNat default).size)
    (hsz : (h.scratchpads.getD c.toNat default).size < 2 ^ 31)
    (hmem : (h.scratchpads.getD c.toNat default).size ≤
      (h.scratchpads.getD c.toNat default).memory.length)
    (hv : -2 ^ 31 ≤ v ∧ v < 2 ^ 31) :
    ∃ lat h', h.storeWordToSPM c a v = .ok (lat, h') ∧
      h'.loadWordFromSPM c a = .ok ((lat, v), h') ∧
      h'.scratchpads.length = h.scratchpads.length ∧
      ∀ d : Nat, d ≠ c.toNat → h'.scratchpads.getD d default = h.scratchpads.getD d default := by
  obtain ⟨m', hst, hld, _, hlat, _⟩ :=
    ScratchpadMemory.load_store _ a v ha4 ha hsz hmem hv
  have hrange : ¬ (c < 0 ∨ c ≥ h.numCores) := by omega
  have haddr : a &&& not32 3 = a := by
    rw [and_not32_three a (by omega)]; omega
  refine ⟨m'.accessLatency, { h with scratchpads := h.scratchpads.set c.toNat m' }, ?_, ?_, ?_, ?_⟩
  · simp only [MemoryHierarchy.storeWordToSPM, if_neg hrange, haddr, hst, bind, Except.bind,
      pure, Except.pure]
  · simp only [MemoryHierarchy.loadWordFromSPM, if_neg hrange, haddr,
      getD_set_self _ _ _ _ hlen, hld, bind, Except.bind, pure, Except.pure]
  · simp
  · intro d hd
    exact getD_set_ne _ _ _ _ _ (Ne.symm hd)

/-- C3 at core 1, address 8, value `-5`. -/
theorem C3_spm_store_load_witness :
    ((0 : Int) ≤ 1 ∧ (1 : Int) < sampleHierarchy.numCores) ∧
    ∃ lat h', sampleHierarchy.storeWordToSPM 1 8 (-5) = .ok (lat, h') ∧
      h'.loadWordFromSPM 1 8 = .ok ((lat, -5), h') ∧
      h'.scratchpads.length = sampleHierarchy.scratchpads.length ∧
      ∀ d : Nat, d ≠ (1 : Int).toNat →
        h'.scratchpads.getD d default = sampleHierarchy.scratchpads.getD d default :=
  ⟨by decide, C3_spm_store_load sampleHierarchy 1 8 (-5) (by decide) (by decide) (by decide)
    (by decide) (by decide) (by decide) (by decide)⟩


/-! ## Blocks of a cache, slot by slot -/

theorem getD_eq_of_getElem? {α : Type} {l : List α} {i : Nat} {a d : α} (h : l[i]? = some a) :
    l.getD i d = a := by
  simp [List.getD_eq_getElem?_getD, h]

theorem Cache.getBlock_of_blockAt {c : Cache} {si bi : Nat} {b : CacheBlock}
    (h : c.blockAt si bi = some b) : c.getBlock si bi = b := by
  unfold Cache.blockAt at h
  cases hs : c.sets[si]? with
  | none => simp [hs] at h
  | some set =>
    simp only [hs, Option.some_bind] at h
    simp only [Cache.getBlock, Cache.getSet, getD_eq_of_getElem? hs, getD_eq_of_getElem? h]

theorem Cache.blockAt_setBlock (c : Cache) (si bi : Nat) (b : CacheBlock) (si' bi' : Nat) :
    (c.setBlock si bi b).blockAt si' bi' =
      if si' = si ∧ bi' = bi ∧ (c.blockAt si bi).isSome then some b else c.blockAt si' bi' := by
  unfold Cache.blockAt Cache.setBlock Cache.getSet
  simp only [List.getElem?_set]
  by_cases h1 : si = si'
  · subst h1
    cases hs : c.sets[si]? with
    | none =>
      have : ¬ si < c.sets.length := by
        intro hlt
        rw [List.getElem?_eq_getElem hlt] at hs
        cases hs
      simp [this]
    | some set =>
      have hlt : si < c.sets.length := by
        by_contra hlt
        rw [List.getElem?_eq_none (by omega)] at hs
        cases hs
      simp only [if_pos hlt, if_true, Option.some_bind, getD_eq_of_getElem? hs,
        List.getElem?_set, true_and]
      by_cases h2 : bi = bi'
      · subst h2
        by_cases h3 : bi < set.blocks.length
        · simp [h3]
        · have hn : set.blocks[bi]? = none := List.getElem?_eq_none (by omega)
          simp [h3, hn]
      · have : ¬ bi' = bi := fun h => h2 h.symm
        simp [h2, this]
  · have : ¬ si' = si := fun h => h1 h.symm
    simp [h1, this]

theorem Cache.blockAt_setFifo (c : Cache) (si : Nat) (q : List Nat) (si' bi' : Nat) :
    Cache.blockAt { c with sets := c.sets.set si ({ c.getSet si with fifoQueue := q }) } si' bi' =
      c.blockAt si' bi' := by
  unfold Cache.blockAt Cache.getSet
  simp only [List.getElem?_set]
  by_cases h1 : si = si'
  · subst h1
    cases hs : c.sets[si]? with
    | none =>
      have : ¬ si < c.sets.length := by
        intro hlt
        rw [List.getElem?_eq_getElem hlt] at hs
        cases hs
      simp [this]
    | some set =>
      have hlt : si < c.sets.length := by
        by_contra hlt
        rw [List.getElem?_eq_none (by omega)] at hs
        cases hs
      simp only [if_pos hlt, if_true, Option.some_bind, getD_eq_of_getElem? hs]
  · simp [h1]


theorem Cache.blockAt_none_of_getBlock (c : Cache) (si bi : Nat) (h : c.blockAt si bi = none) :
    c.getBlock si bi = default := by
  unfold Cache.blockAt at h
  unfold Cache.getBlock Cache.getSet
  cases hs : c.sets[si]? with
  | none =>
    simp only [List.getD_eq_getElem?_getD, hs, Option.getD_none]
    rfl
  | some set =>
    simp only [hs, Option.some_bind] at h
    simp only [List.getD_eq_getElem?_getD, hs, Option.getD_some, h, Option.getD_none]

theorem Cache.coreAt_setBlock (c : Cache) (si bi : Nat) (b : CacheBlock) (si' bi' : Nat) :
    (c.setBlock si bi b).coreAt si' bi' =
      if si' = si ∧ bi' = bi ∧ (c.coreAt si bi).isSome then some b.core else c.coreAt si' bi' := by
  unfold Cache.coreAt
  rw [Cache.blockAt_setBlock]
  by_cases h : si' = si ∧ bi' = bi ∧ (c.blockAt si bi).isSome
  · rw [if_pos h, if_pos ⟨h.1, h.2.1, by simpa using h.2.2⟩]; rfl
  · rw [if_neg h, if_neg (by simpa using h)]

/-- Overwriting a slot with a block of the same contents changes no contents. -/
theorem Cache.coreAt_setBlock_same (c : Cache) (si bi : Nat) (b : CacheBlock)
    (h : b.core = (c.getBlock si bi).core) (si' bi' : Nat) :
    (c.setBlock si bi b).coreAt si' bi' = c.coreAt si' bi' := by
  rw [Cache.coreAt_setBlock]
  by_cases h1 : si' = si ∧ bi' = bi ∧ (c.coreAt si bi).isSome
  · rw [if_pos h1]
    obtain ⟨rfl, rfl, h3⟩ := h1
    unfold Cache.coreAt at h3 ⊢
    cases hb : c.blockAt si' bi' with
    | none => simp [hb] at h3
    | some b0 =>
      rw [Cache.getBlock_of_blockAt hb] at h
      simp [h]
  · rw [if_neg h1]

theorem Cache.coreAt_updateReplacementInfo (c : Cache) (si bi si' bi' : Nat) :
    (c.updateReplacementInfo si bi).coreAt si' bi' = c.coreAt si' bi' := by
  unfold Cache.updateReplacementInfo
  cases hp : c.policy with
  | LRU =>
    simp only
    have := Cache.coreAt_setBlock_same c si bi
      { c.getBlock si bi with timestamp := c.globalTimestamp } rfl si' bi'
    rw [← this]
    rfl
  | FIFO =>
    simp only
    split
    · exact congrArg (Option.map CacheBlock.core) (Cache.blockAt_setFifo c si _ si' bi')
    · rfl

theorem Cache.geom_updateReplacementInfo (c : Cache) (si bi : Nat) :
    (c.updateReplacementInfo si bi).geom = c.geom := by
  unfold Cache.updateReplacementInfo
  cases hp : c.policy with
  | LRU => simp [Cache.geom, Cache.setBlock, hp]
  | FIFO =>
    simp only
    split
    · simp [Cache.geom, hp]
    · rfl

theorem Cache.selectVictim_spec {c : Cache} {si : Nat} {v : Nat × Cache}
    (h : c.selectVictim si = .ok v) :
    v.2.geom = c.geom ∧ (∀ si' bi', v.2.coreAt si' bi' = c.coreAt si' bi') ∧
    v.2.accesses = c.accesses ∧ v.2.hits = c.hits ∧ v.2.misses = c.misses ∧
    v.2.globalTimestamp = c.globalTimestamp := by
  unfold Cache.selectVictim at h
  simp only at h
  split at h
  · cases h; exact ⟨rfl, fun _ _ => rfl, rfl, rfl, rfl, rfl⟩
  · split at h
    · split at h <;> (cases h; exact ⟨rfl, fun _ _ => rfl, rfl, rfl, rfl, rfl⟩)
    · split at h
      · cases h
      · cases h
        refine ⟨rfl, fun si' bi' => ?_, rfl, rfl, rfl, rfl⟩
        exact congrArg (Option.map CacheBlock.core) (Cache.blockAt_setFifo c si _ si' bi')


theorem Cache.blockAt_eq (c : Cache) (si bi : Nat) : c.blockAt si bi = (c.getSet si).blocks[bi]? := by
  unfold Cache.blockAt Cache.getSet
  cases hs : c.sets[si]? with
  | none =>
    simp only [Option.none_bind, List.getD_eq_getElem?_getD, hs, Option.getD_none]
    rfl
  | some set =>
    simp only [Option.some_bind, List.getD_eq_getElem?_getD, hs, Option.getD_some]

theorem Cache.coreAt_eq (c : Cache) (si bi : Nat) :
    c.coreAt si bi = ((c.getSet si).blocks.map CacheBlock.core)[bi]? := by
  simp [Cache.coreAt, Cache.blockAt_eq]

theorem Cache.findBlockInSet_eq (c : Cache) (tag si : Nat) :
    c.findBlockInSet tag si =
      ((c.getSet si).blocks.map CacheBlock.core).findIdx? (fun k => k.2.1 && k.1 == tag) := by
  rw [Cache.findBlockInSet, List.findIdx?_map]
  rfl

/-- `findBlockInSet` only looks at the contents of the set. -/
theorem Cache.findBlockInSet_congr {c c' : Cache} {si : Nat}
    (h : ∀ bi, c'.coreAt si bi = c.coreAt si bi) (tag : Nat) :
    c'.findBlockInSet tag si = c.findBlockInSet tag si := by
  rw [Cache.findBlockInSet_eq, Cache.findBlockInSet_eq]
  congr 1
  apply List.ext_getElem?
  intro bi
  rw [← Cache.coreAt_eq, ← Cache.coreAt_eq]
  exact h bi

theorem Cache.findBlockInSet_some {c : Cache} {tag si bi : Nat}
    (h : c.findBlockInSet tag si = some bi) :
    ∃ b, c.blockAt si bi = some b ∧ b.valid = true ∧ b.tag = tag := by
  rw [Cache.findBlockInSet, List.findIdx?_eq_some_iff_getElem] at h
  obtain ⟨hlt, hp, _⟩ := h
  refine ⟨(c.getSet si).blocks[bi], ?_, ?_⟩
  · rw [Cache.blockAt_eq, List.getElem?_eq_getElem hlt]
  · simpa using hp

theorem Cache.findBlockInSet_none {c : Cache} {tag si : Nat}
    (h : c.findBlockInSet tag si = none) (bi : Nat) (b : CacheBlock)
    (hb : c.blockAt si bi = some b) : ¬ (b.valid = true ∧ b.tag = tag) := by
  rw [Cache.findBlockInSet, List.findIdx?_eq_none_iff] at h
  rw [Cache.blockAt_eq] at hb
  have := h b (List.mem_iff_getElem?.2 ⟨bi, hb⟩)
  simpa using this

/-- The first valid block with the tag is the only one when tags are unique. -/
theorem Cache.findBlockInSet_of_unique {c : Cache} (hu : c.UniqueTags) {tag si bi : Nat}
    {b : CacheBlock} (hb : c.blockAt si bi = some b) (hv : b.valid = true) (ht : b.tag = tag) :
    c.findBlockInSet tag si = some bi := by
  cases hf : c.findBlockInSet tag si with
  | none => exact absurd ⟨hv, ht⟩ (Cache.findBlockInSet_none hf bi b hb)
  | some j =>
    obtain ⟨b', hb', hv', ht'⟩ := Cache.findBlockInSet_some hf
    rw [hu si j bi b' b hb' hb hv' hv (by rw [ht', ht])]


/-! ## One valid block per tag -/

theorem Cache.uniqueTags_iff (c : Cache) :
    c.UniqueTags ↔ ∀ (si i j : Nat) (ki kj : Nat × Bool × Bool × List Nat),
      c.coreAt si i = some ki → c.coreAt si j = some kj →
      ki.2.1 = true → kj.2.1 = true → ki.1 = kj.1 → i = j := by
  constructor
  · intro h si i j ki kj hi hj vi vj ht
    unfold Cache.coreAt at hi hj
    cases hbi : c.blockAt si i with
    | none => simp [hbi] at hi
    | some bi =>
      cases hbj : c.blockAt si j with
      | none => simp [hbj] at hj
      | some bj =>
        simp only [hbi, hbj, Option.map_some', Option.some.injEq] at hi hj
        subst hi hj
        exact h si i j bi bj hbi hbj vi vj ht
  · intro h si i j bi bj hi hj vi vj ht
    exact h si i j bi.core bj.core (by simp [Cache.coreAt, hi]) (by simp [Cache.coreAt, hj])
      vi vj ht

theorem Cache.uniqueTags_of_same {c c' : Cache}
    (h : ∀ si bi, c'.coreAt si bi = c.coreAt si bi) (hu : c.UniqueTags) : c'.UniqueTags := by
  rw [Cache.uniqueTags_iff] at hu ⊢
  intro si i j ki kj hi hj
  rw [h] at hi hj
  exact hu si i j ki kj hi hj

theorem Cache.uniqueTags_setBlock {c : Cache} (hu : c.UniqueTags) (si bi : Nat) (b : CacheBlock)
    (hb : b.valid = false ∨
      (b.tag = (c.getBlock si bi).tag ∧ b.valid = (c.getBlock si bi).valid) ∨
      c.findBlockInSet b.tag si = none) :
    (c.setBlock si bi b).UniqueTags := by
  intro si' i j bi' bj' hi hj vi vj ht
  rw [Cache.blockAt_setBlock] at hi hj
  by_cases h1 : si' = si ∧ i = bi ∧ (c.blockAt si bi).isSome
  · rw [if_pos h1] at hi
    obtain ⟨rfl, rfl, hsome⟩ := h1
    cases hi
    by_cases h2 : si' = si' ∧ j = i ∧ (c.blockAt si' i).isSome
    · exact h2.2.1.symm
    · rw [if_neg h2] at hj
      rcases hb with hb | ⟨hb1, hb2⟩ | hb
      · rw [hb] at vi; cases vi
      · obtain ⟨b0, hb0⟩ := Option.isSome_iff_exists.1 hsome
        rw [Cache.getBlock_of_blockAt hb0] at hb1 hb2
        exact hu si' i j b0 bj' hb0 hj (by rw [← hb2]; exact vi) vj (by rw [← hb1]; exact ht)
      · exact absurd ⟨vj, ht.symm⟩ (Cache.findBlockInSet_none hb j bj' hj)
  · rw [if_neg h1] at hi
    by_cases h2 : si' = si ∧ j = bi ∧ (c.blockAt si bi).isSome
    · rw [if_pos h2] at hj
      obtain ⟨rfl, rfl, hsome⟩ := h2
      cases hj
      rcases hb with hb | ⟨hb1, hb2⟩ | hb
      · rw [hb] at vj; cases vj
      · obtain ⟨b0, hb0⟩ := Option.isSome_iff_exists.1 hsome
        rw [Cache.getBlock_of_blockAt hb0] at hb1 hb2
        exact hu si' i j bi' b0 hi hb0 vi (by rw [← hb2]; exact vj) (by rw [hb1] at ht; exact ht)
      · exact absurd ⟨vi, ht⟩ (Cache.findBlockInSet_none hb i bi' hi)
    · rw [if_neg h2] at hj
      exact hu si' i j bi' bj' hi hj vi vj ht

theorem Cache.uniqueTags_updateReplacementInfo {c : Cache} (hu : c.UniqueTags) (si bi : Nat) :
    (c.updateReplacementInfo si bi).UniqueTags :=
  Cache.uniqueTags_of_same (Cache.coreAt_updateReplacementInfo c si bi) hu

theorem Cache.uniqueTags_selectVictim {c : Cache} (hu : c.UniqueTags) {si : Nat} {v : Nat × Cache}
    (h : c.selectVictim si = .ok v) : v.2.UniqueTags :=
  Cache.uniqueTags_of_same (Cache.selectVictim_spec h).2.1 hu

theorem Cache.findBlockInSet_selectVictim {c : Cache} {si : Nat} {v : Nat × Cache}
    (h : c.selectVictim si = .ok v) (tag si' : Nat) :
    v.2.findBlockInSet tag si' = c.findBlockInSet tag si' :=
  Cache.findBlockInSet_congr (fun bi => (Cache.selectVictim_spec h).2.1 si' bi) tag

/-- `Cache::read` keeps tags unique. -/
theorem Cache.read_uniqueTags {σ : Type} {nl : Option (NextLevel σ)} {c : Cache} {s : σ}
    {a n : Nat} {r : (Int × List Nat) × Cache × σ}
    (h : Cache.read nl c s a n = .ok r) (hu : c.UniqueTags) : r.2.1.UniqueTags := by
  unfold Cache.read at h
  simp only at h
  split at h
  · split at h
    · cases h
      exact Cache.uniqueTags_updateReplacementInfo (c := { c with accesses := c.accesses + 1, hits := c.hits + 1 }) hu _ _
    · cases h
  · rename_i hfind
    simp only [bind, Except.bind] at h
    split at h
    · cases h
    · rename_i fetched _
      split at h
      · cases h
      · rename_i v hv
        split at h
        · cases h
        · rename_i s2 _
          split at h
          · simp only [pure, Except.pure] at h
            cases h
            apply Cache.uniqueTags_updateReplacementInfo
            apply Cache.uniqueTags_setBlock (Cache.uniqueTags_selectVictim (c := { c with accesses := c.accesses + 1, misses := c.misses + 1 }) hu hv)
            right; right
            rw [Cache.findBlockInSet_selectVictim hv]
            exact hfind
          · cases h


/-- `Cache::write` keeps tags unique. -/
theorem Cache.write_uniqueTags {σ : Type} {nl : Option (NextLevel σ)} {c : Cache} {s : σ}
    {a : Nat} {d : List Nat} {r : Int × Cache × σ}
    (h : Cache.write nl c s a d = .ok r) (hu : c.UniqueTags) : r.2.1.UniqueTags := by
  unfold Cache.write at h
  simp only at h
  split at h
  · split at h
    · cases h
      apply Cache.uniqueTags_setBlock
        (Cache.uniqueTags_updateReplacementInfo
          (c := { c with accesses := c.accesses + 1, hits := c.hits + 1 }) hu _ _)
      right; left
      exact ⟨rfl, rfl⟩
    · cases h
  · rename_i hfind
    simp only [bind, Except.bind] at h
    split at h
    · cases h
    · rename_i fetched _
      split at h
      · cases h
      · rename_i v hv
        split at h
        · cases h
        · rename_i s2 _
          split at h
          · simp only [pure, Except.pure] at h
            cases h
            apply Cache.uniqueTags_updateReplacementInfo
            apply Cache.uniqueTags_setBlock (Cache.uniqueTags_selectVictim
              (c := { c with accesses := c.accesses + 1, misses := c.misses + 1 }) hu hv)
            right; right
            rw [Cache.findBlockInSet_selectVictim hv]
            exact hfind
          · cases h

/-- `Cache::invalidateBlock` keeps tags unique. -/
theorem Cache.invalidateBlock_uniqueTags {σ : Type} {nl : Option (NextLevel σ)} {c : Cache}
    {s : σ} {a : Nat} {r : Cache × σ}
    (h : Cache.invalidateBlock nl c s a = .ok r) (hu : c.UniqueTags) : r.1.UniqueTags := by
  unfold Cache.invalidateBlock at h
  simp only at h
  split at h
  · simp only [bind, Except.bind] at h
    split at h
    · cases h
    · simp only [pure, Except.pure] at h
      cases h
      exact Cache.uniqueTags_setBlock hu _ _ _ (Or.inl rfl)
  · cases h
    exact hu

theorem Cache.blockAt_invalidateAll (c : Cache) (si bi : Nat) :
    c.invalidateAll.blockAt si bi =
      (c.blockAt si bi).map (fun b => { b with valid := false, dirty := false }) := by
  unfold Cache.blockAt Cache.invalidateAll
  simp only [List.getElem?_map]
  cases c.sets[si]? with
  | none => rfl
  | some set => simp [List.getElem?_map]

/-- `Cache::invalidateAll` leaves no valid block. -/
theorem Cache.invalidateAll_uniqueTags (c : Cache) : c.invalidateAll.UniqueTags := by
  intro si i j bi bj hi _ vi
  rw [Cache.blockAt_invalidateAll] at hi
  cases hb : c.blockAt si i with
  | none => simp [hb] at hi
  | some b =>
    simp only [hb, Option.map_some', Option.some.injEq] at hi
    subst hi
    cases vi

theorem Cache.flushBlock_uniqueTags {σ : Type} {n : NextLevel σ} {cs r : Cache × σ}
    {si bi : Nat} (h : Cache.flushBlock n cs si bi = .ok r) (hu : cs.1.UniqueTags) :
    r.1.UniqueTags := by
  unfold Cache.flushBlock at h
  simp only at h
  split at h
  · simp only [bind, Except.bind] at h
    split at h
    · cases h
    · simp only [pure, Except.pure] at h
      cases h
      exact Cache.uniqueTags_setBlock hu _ _ _ (Or.inr (Or.inl ⟨rfl, rfl⟩))
  · cases h
    exact hu

/-- A property kept by every step of a loop is kept by the loop. -/
theorem foldlM_preserves {α β : Type} (P : β → Prop) (f : β → α → Except SimError β)
    (hf : ∀ b a b', P b → f b a = .ok b' → P b') :
    ∀ (l : List α) (b b' : β), P b → l.foldlM f b = .ok b' → P b'
  | [], b, b', hb, h => by
    simp only [List.foldlM, pure, Except.pure] at h
    cases h
    exact hb
  | a :: l, b, b', hb, h => by
    simp only [List.foldlM, bind, Except.bind] at h
    split at h
    · cases h
    · rename_i b1 hb1
      exact foldlM_preserves P f hf l b1 b' (hf b a b1 hb hb1) h

theorem Cache.flushLoop_uniqueTags {σ : Type} {n : NextLevel σ} {c : Cache} {s : σ}
    {r : Cache × σ} (h : Cache.flushLoop n c s = .ok r) (hu : c.UniqueTags) :
    r.1.UniqueTags := by
  unfold Cache.flushLoop at h
  refine foldlM_preserves (fun cs : Cache × σ => cs.1.UniqueTags) _ ?_ _ _ _ hu h
  intro cs si cs' hcs hstep
  unfold Cache.flushSet at hstep
  refine foldlM_preserves (fun cs : Cache × σ => cs.1.UniqueTags) _ ?_ _ _ _ hcs hstep
  intro b bi b' hb hbstep
  exact Cache.flushBlock_uniqueTags hbstep hb

/-- `Cache::flushCache` keeps tags unique. -/
theorem Cache.flushCache_uniqueTags {σ : Type} {nl : Option (NextLevel σ)} {c : Cache} {s : σ}
    {r : Cache × σ} (h : Cache.flushCache nl c s = .ok r) (hu : c.UniqueTags) :
    r.1.UniqueTags := by
  unfold Cache.flushCache at h
  split at h
  · cases h; exact hu
  · exact Cache.flushLoop_uniqueTags h hu

/-- A freshly constructed cache has no valid block. -/
theorem Cache.new_uniqueTags {cs bs as lat : Int} {pol : ReplacementPolicy} {c : Cache}
    (h : Cache.new cs bs as lat pol = .ok c) : c.UniqueTags := by
  have hsets := (Cache.new_ok h).2.2.2.2.2.2.2.2.2.2.2.2.2.2
  intro si i j bi bj hi _ vi
  rw [Cache.blockAt_eq] at hi
  have hmem : bi ∈ (c.getSet si).blocks := List.mem_iff_getElem?.2 ⟨i, hi⟩
  unfold Cache.getSet at hmem
  rw [hsets] at hmem
  by_cases hlt : si < c.numSets
  · simp only [List.getD_eq_getElem?_getD, List.getElem?_replicate, if_pos hlt,
      Option.getD_some, CacheSet.new] at hmem
    have := List.eq_of_mem_replicate hmem
    subst this
    cases vi
  · simp only [List.getD_eq_getElem?_getD, List.getElem?_replicate, if_neg hlt,
      Option.getD_none] at hmem
    cases hmem

/-- C5: in every cache reachable from a freshly constructed one by `read`, `write`,
`invalidateBlock`, `invalidateAll` and `flushCache` calls (over any next level), each set holds
at most one valid block for any given tag. -/
theorem C5_unique_valid_tag_per_set {σ : Type} (nl : Option (NextLevel σ)) (c : Cache)
    (hc : Cache.Reachable nl c) : c.UniqueTags := by
  induction hc with
  | fresh h => exact Cache.new_uniqueTags h
  | read _ h ih => exact Cache.read_uniqueTags h ih
  | write _ h ih => exact Cache.write_uniqueTags h ih
  | invalidateBlock _ h ih => exact Cache.invalidateBlock_uniqueTags h ih
  | invalidateAll _ _ => exact Cache.invalidateAll_uniqueTags _
  | flushCache _ h ih => exact Cache.flushCache_uniqueTags h ih


theorem sampleCacheRead_ok :
    Cache.read (some memorySystem) sampleCache sampleMemory 5 2 = .ok sampleCacheRead := by
  decide

/-- C5 at the sample cache after one read miss. -/
theorem C5_unique_valid_tag_per_set_witness :
    Cache.Reachable (some memorySystem) sampleCacheRead.2.1 ∧ sampleCacheRead.2.1.UniqueTags :=
  ⟨Cache.Reachable.read (Cache.Reachable.fresh sampleCache_new) sampleCacheRead_ok,
    C5_unique_valid_tag_per_set (some memorySystem) sampleCacheRead.2.1
      (Cache.Reachable.read (Cache.Reachable.fresh sampleCache_new) sampleCacheRead_ok)⟩

example : sampleCacheRead.1 = (101, [5, 6]) := by decide


/-! ## Hits -/

theorem Cache.getBlock_core_congr {c c' : Cache} {si bi : Nat}
    (h : c'.coreAt si bi = c.coreAt si bi) : (c'.getBlock si bi).core = (c.getBlock si bi).core := by
  unfold Cache.coreAt at h
  cases hb : c.blockAt si bi with
  | none =>
    cases hb' : c'.blockAt si bi with
    | none => rw [Cache.blockAt_none_of_getBlock _ _ _ hb, Cache.blockAt_none_of_getBlock _ _ _ hb']
    | some b' => simp [hb, hb'] at h
  | some b =>
    cases hb' : c'.blockAt si bi with
    | none => simp [hb, hb'] at h
    | some b' =>
      rw [Cache.getBlock_of_blockAt hb, Cache.getBlock_of_blockAt hb']
      simpa [hb, hb'] using h

theorem Cache.getBlock_updateReplacementInfo_core (c : Cache) (si bi si' bi' : Nat) :
    ((c.updateReplacementInfo si bi).getBlock si' bi').core = (c.getBlock si' bi').core :=
  Cache.getBlock_core_congr (Cache.coreAt_updateReplacementInfo c si bi si' bi')

theorem CacheBlock.core_data {b b' : CacheBlock} (h : b.core = b'.core) : b.data = b'.data := by
  simp only [CacheBlock.core, Prod.mk.injEq] at h
  exact h.2.2.2

theorem Cache.counters_updateReplacementInfo (c : Cache) (si bi : Nat) :
    (c.updateReplacementInfo si bi).accesses = c.accesses ∧
    (c.updateReplacementInfo si bi).hits = c.hits ∧
    (c.updateReplacementInfo si bi).misses = c.misses := by
  unfold Cache.updateReplacementInfo
  cases hp : c.policy with
  | LRU => exact ⟨rfl, rfl, rfl⟩
  | FIFO =>
    simp only
    split <;> exact ⟨rfl, rfl, rfl⟩

/-- `Cache::read` on a hit that stays within the block. -/
theorem Cache.read_hit {σ : Type} (nl : Option (NextLevel σ)) (c : Cache) (s : σ) (a n bi : Nat)
    (hf : c.findBlockInSet (c.getTag a) (c.getSetIndex a) = some bi)
    (hn : n ≤ c.blockSize - c.getBlockOffset a) :
    ∃ c', Cache.read nl c s a n =
        .ok ((c.accessLatency,
              sliceBytes (c.getBlock (c.getSetIndex a) bi).data (c.getBlockOffset a) n), c', s) ∧
      c'.geom = c.geom ∧ (∀ si' bi', c'.coreAt si' bi' = c.coreAt si' bi') ∧
      c'.accesses = c.accesses + 1 ∧ c'.hits = c.hits + 1 ∧ c'.misses = c.misses := by
  refine ⟨Cache.updateReplacementInfo
    { c with accesses := c.accesses + 1, hits := c.hits + 1 } (c.getSetIndex a) bi, ?_, ?_, ?_, ?_⟩
  · have hf' : Cache.findBlockInSet { c with accesses := c.accesses + 1 } (c.getTag a)
        (c.getSetIndex a) = some bi := hf
    unfold Cache.read
    simp only [Cache.getTag, Cache.getSetIndex, Cache.getBlockOffset] at hf' hn ⊢
    simp only [hf', if_pos hn]
    have hd := CacheBlock.core_data (Cache.getBlock_updateReplacementInfo_core
      { c with accesses := c.accesses + 1, hits := c.hits + 1 } (c.getSetIndex a) bi
      (c.getSetIndex a) bi)
    simp only [Cache.getSetIndex] at hd
    rw [hd]
    have hl : (Cache.updateReplacementInfo
      { c with accesses := c.accesses + 1, hits := c.hits + 1 }
        ((a >>> c.blockOffsetBits) &&& ((1 <<< c.setIndexBits) - 1)) bi).accessLatency
        = c.accessLatency := by
      have := Cache.geom_updateReplacementInfo
        { c with accesses := c.accesses + 1, hits := c.hits + 1 }
        ((a >>> c.blockOffsetBits) &&& ((1 <<< c.setIndexBits) - 1)) bi
      simp only [Cache.geom, Prod.mk.injEq] at this
      exact this.2.2.2.1
    rw [hl]
    rfl
  · exact Cache.geom_updateReplacementInfo _ _ _
  · intro si' bi'
    exact Cache.coreAt_updateReplacementInfo _ _ _ _ _
  · exact Cache.counters_updateReplacementInfo
      { c with accesses := c.accesses + 1, hits := c.hits + 1 } (c.getSetIndex a) bi


theorem Cache.geom_setBlock (c : Cache) (si bi : Nat) (b : CacheBlock) :
    (c.setBlock si bi b).geom = c.geom := rfl

theorem Cache.geom_accessLatency {c c' : Cache} (h : c'.geom = c.geom) :
    c'.accessLatency = c.accessLatency := by
  simp only [Cache.geom, Prod.mk.injEq] at h
  exact h.2.2.2.1

theorem Cache.geom_blockSize {c c' : Cache} (h : c'.geom = c.geom) :
    c'.blockSize = c.blockSize := by
  simp only [Cache.geom, Prod.mk.injEq] at h
  exact h.2.1

/-- `Cache::write` on a hit that stays within the block. -/
theorem Cache.write_hit {σ : Type} (nl : Option (NextLevel σ)) (c : Cache) (s : σ) (a bi : Nat)
    (d : List Nat)
    (hf : c.findBlockInSet (c.getTag a) (c.getSetIndex a) = some bi)
    (hn : d.length ≤ c.blockSize - c.getBlockOffset a) :
    ∃ c', Cache.write nl c s a d = .ok (c.accessLatency, c', s) ∧
      c'.geom = c.geom ∧
      c'.coreAt (c.getSetIndex a) bi =
        some (c.getTag a, true, true,
          storeBytes (c.getBlock (c.getSetIndex a) bi).data (c.getBlockOffset a) d) ∧
      (∀ si' bi', ¬ (si' = c.getSetIndex a ∧ bi' = bi) → c'.coreAt si' bi' = c.coreAt si' bi') ∧
      c'.accesses = c.accesses + 1 ∧ c'.hits = c.hits + 1 ∧ c'.misses = c.misses := by
  obtain ⟨b, hb, hv, ht⟩ := Cache.findBlockInSet_some hf
  let c2 : Cache := { c with accesses := c.accesses + 1, hits := c.hits + 1 }
  let c3 := c2.updateReplacementInfo (c.getSetIndex a) bi
  let block := c3.getBlock (c.getSetIndex a) bi
  have hcore : block.core = b.core := by
    have := Cache.getBlock_updateReplacementInfo_core c2 (c.getSetIndex a) bi (c.getSetIndex a) bi
    rw [show c2.getBlock (c.getSetIndex a) bi = c.getBlock (c.getSetIndex a) bi from rfl,
      Cache.getBlock_of_blockAt hb] at this
    exact this
  have hcore' := hcore
  simp only [CacheBlock.core, Prod.mk.injEq] at hcore'
  obtain ⟨e1, e2, _, e4⟩ := hcore'
  have htake : d.take (c.blockSize - c.getBlockOffset a) = d := List.take_of_length_le hn
  refine ⟨c3.setBlock (c.getSetIndex a) bi
      { block with dirty := true, data := storeBytes block.data (c.getBlockOffset a) d },
    ?_, ?_, ?_, ?_, ?_⟩
  · have hf' : Cache.findBlockInSet { c with accesses := c.accesses + 1 } (c.getTag a)
        (c.getSetIndex a) = some bi := hf
    unfold Cache.write
    simp only [Cache.getTag, Cache.getSetIndex, Cache.getBlockOffset] at hf' hn htake ⊢
    simp only [hf', if_pos hn, htake]
    have hl : c3.accessLatency = c.accessLatency :=
      Cache.geom_accessLatency (Cache.geom_updateReplacementInfo c2 _ _)
    have hl2 : (c3.setBlock (c.getSetIndex a) bi
      { block with dirty := true, data := storeBytes block.data (c.getBlockOffset a) d }).accessLatency =
        c.accessLatency := hl
    exact congrArg Except.ok (Prod.ext hl2 rfl)
  · exact Cache.geom_updateReplacementInfo c2 _ _
  · rw [Cache.coreAt_setBlock]
    have hsome : (c3.coreAt (c.getSetIndex a) bi).isSome := by
      rw [Cache.coreAt_updateReplacementInfo]
      simp [Cache.coreAt, show c2.blockAt (c.getSetIndex a) bi = c.blockAt (c.getSetIndex a) bi from rfl, hb]
    rw [if_pos ⟨rfl, rfl, hsome⟩, Cache.getBlock_of_blockAt hb]
    simp only [CacheBlock.core, e1, e4, ht, e2, hv]
  · intro si' bi' hne
    rw [Cache.coreAt_setBlock, if_neg (fun h => hne ⟨h.1, h.2.1⟩),
      Cache.coreAt_updateReplacementInfo]
    rfl
  · exact Cache.counters_updateReplacementInfo c2 (c.getSetIndex a) bi


theorem Cache.geom_addr {c c' : Cache} (h : c'.geom = c.geom) (a : Nat) :
    c'.getTag a = c.getTag a ∧ c'.getSetIndex a = c.getSetIndex a ∧
    c'.getBlockOffset a = c.getBlockOffset a := by
  simp only [Cache.geom, Prod.mk.injEq] at h
  obtain ⟨_, _, _, _, _, _, h7, h8, _⟩ := h
  simp only [Cache.getTag, Cache.getSetIndex, Cache.getBlockOffset, h7, h8, and_self]

/-- `L1DCache::write` when the block is already valid in this cache: both the allocating
read and the write hit, the next level is reached only by the final write-through. -/
theorem L1DCache.write_on_hit {σ : Type} (n : NextLevel σ) (c : Cache) (s : σ) (a bi : Nat)
    (d : List Nat) (w : Int × σ)
    (hf : c.findBlockInSet (c.getTag a) (c.getSetIndex a) = some bi)
    (hn : d.length ≤ c.blockSize - c.getBlockOffset a)
    (hw : n.write s a d = .ok w) :
    ∃ c', L1DCache.write (some n) c s a d = .ok (c.accessLatency, c', w.2) ∧
      c'.geom = c.geom ∧
      c'.coreAt (c.getSetIndex a) bi =
        some (c.getTag a, true, true,
          storeBytes (c.getBlock (c.getSetIndex a) bi).data (c.getBlockOffset a) d) ∧
      (∀ si' bi', ¬ (si' = c.getSetIndex a ∧ bi' = bi) → c'.coreAt si' bi' = c.coreAt si' bi') := by
  obtain ⟨c1, hr, hg1, hsame, _⟩ := Cache.read_hit (some n) c s a d.length bi hf hn
  obtain ⟨e1, e2, e3⟩ := Cache.geom_addr hg1 a
  have hf1 : c1.findBlockInSet (c1.getTag a) (c1.getSetIndex a) = some bi := by
    rw [e1, e2, Cache.findBlockInSet_congr (fun bi => hsame _ bi)]
    exact hf
  have hn1 : d.length ≤ c1.blockSize - c1.getBlockOffset a := by
    rw [e3, Cache.geom_blockSize hg1]; exact hn
  obtain ⟨c2, hwr, hg2, hslot, hothers, _⟩ := Cache.write_hit (some n) c1 s a bi d hf1 hn1
  refine ⟨c2, ?_, hg2.trans hg1, ?_, ?_⟩
  · simp only [L1DCache.write, hr, hwr, hw, bind, Except.bind, pure, Except.pure,
      Cache.geom_accessLatency hg1]
  · rw [e2] at hslot
    rw [hslot, e1, e3]
    have := CacheBlock.core_data (Cache.getBlock_core_congr (hsame (c.getSetIndex a) bi))
    rw [this]
  · intro si' bi' hne
    rw [e2] at hothers
    rw [hothers si' bi' hne, hsame]

/-- C9 amended: when the block holding the word is already valid in `L1D[c]`, `storeWord(c, a, v)`
updates that block in L1D (new bytes, dirty) and changes the shared L2 and the main memory
exactly as one `write` of the four bytes at the word address to L2 does (write-through); the
latency returned is the L1D access latency. -/
theorem C9_store_hit_writes_through (h : MemoryHierarchy) (c : Int) (a : Nat) (v : Int)
    (bi : Nat) (w : Int × Cache × MainMemory)
    (hc : 0 ≤ c ∧ c < h.numCores)
    (hhit : (h.l1DCaches.getD c.toNat default).findBlockInSet
      ((h.l1DCaches.getD c.toNat default).getTag (a &&& not32 3))
      ((h.l1DCaches.getD c.toNat default).getSetIndex (a &&& not32 3)) = some bi)
    (hin : 4 ≤ (h.l1DCaches.getD c.toNat default).blockSize -
      (h.l1DCaches.getD c.toNat default).getBlockOffset (a &&& not32 3))
    (hw : l2System.write (h.l2Cache, h.mainMemory) (a &&& not32 3) (wordToBytes v) = .ok w) :
    ∃ h', h.storeWord c a v = .ok ((h.l1DCaches.getD c.toNat default).accessLatency, h') ∧
      h'.l2Cache = w.2.1 ∧ h'.mainMemory = w.2.2 ∧
      (h'.l1DCaches.getD c.toNat default).coreAt
          ((h.l1DCaches.getD c.toNat default).getSetIndex (a &&& not32 3)) bi =
        some ((h.l1DCaches.getD c.toNat default).getTag (a &&& not32 3), true, true,
          storeBytes ((h.l1DCaches.getD c.toNat default).getBlock
            ((h.l1DCaches.getD c.toNat default).getSetIndex (a &&& not32 3)) bi).data
            ((h.l1DCaches.getD c.toNat default).getBlockOffset (a &&& not32 3))
            (wordToBytes v)) := by
  have hlen : c.toNat < h.l1DCaches.length := by
    by_contra hlt
    have hd : h.l1DCaches.getD c.toNat default = default := by
      simp [List.getD_eq_getElem?_getD, List.getElem?_eq_none (Nat.le_of_not_lt hlt)]
    rw [hd] at hhit
    simp [Cache.findBlockInSet, Cache.getSet, default] at hhit
  obtain ⟨c', hwrite, _, hslot, _⟩ := L1DCache.write_on_hit l2System _ (h.l2Cache, h.mainMemory)
    (a &&& not32 3) bi (wordToBytes v) w hhit (by rw [wordToBytes_length]; exact hin) hw
  have hrange : ¬ (c < 0 ∨ c ≥ h.numCores) := by omega
  refine ⟨{ h with l1DCaches := h.l1DCaches.set c.toNat c', l2Cache := w.2.1,
                   mainMemory := w.2.2 }, ?_, rfl, rfl, ?_⟩
  · simp only [MemoryHierarchy.storeWord, if_neg hrange, hwrite, bind, Except.bind, pure,
      Except.pure]
  · simp only [getD_set_self _ _ _ _ hlen]
    exact hslot

/-- C9 as stated fails: the second of two stores to the same word hits in L1D, yet the bytes
of the block in the shared L2 change from 1 to 2. -/
theorem C9_counterexample : c9Scenario = .ok (true, [1, 0, 0, 0], [2, 0, 0, 0]) := by
  decide!

theorem c9Write_ok :
    l2System.write (c9Hierarchy.l2Cache, c9Hierarchy.mainMemory) (0 &&& not32 3) (wordToBytes 2) =
      .ok c9Write := by
  decide!

/-- C9 amended, at a second store to address 0 of the small hierarchy. -/
theorem C9_store_hit_writes_through_witness :
    ((0 : Int) ≤ 0 ∧ (0 : Int) < c9Hierarchy.numCores) ∧
    ∃ h', c9Hierarchy.storeWord 0 0 2 = .ok (1, h') ∧ h'.l2Cache = c9Write.2.1 ∧
      h'.mainMemory = c9Write.2.2 ∧
      (h'.l1DCaches.getD 0 default).coreAt 0 0 =
        some (0, true, true, storeBytes ((c9Hierarchy.l1DCaches.getD 0 default).getBlock 0 0).data 0
          (wordToBytes 2)) :=
  ⟨by decide!, C9_store_hit_writes_through c9Hierarchy 0 0 2 0 c9Write (by decide!) (by decide!)
    (by decide!) c9Write_ok⟩


/-! ## Well-formed caches -/

/-- The constructor builds well-formed caches. -/
theorem Cache.new_wf {cs bs as lat : Int} {pol : ReplacementPolicy} {c : Cache}
    (h : Cache.new cs bs as lat pol = .ok c) : c.WF := by
  obtain ⟨hb, ha, hn, _⟩ := Cache.new_geometry h
  obtain ⟨h1, h2, h3, _, _, _, e2, e3, _, e5, e6, _, _, _, hsets⟩ := Cache.new_ok h
  have hlt : bs * as < 2 ^ 31 := by
    unfold Cache.new at h
    by_contra hge
    rw [if_neg (by omega), if_neg (by omega), if_pos (by omega)] at h
    cases h
  have l1 := floorLog2_spec (n := c.blockSize) (by omega)
  have l2 := floorLog2_spec (n := c.numSets) (by omega)
  refine ⟨by rw [e5]; exact l1.1, ?_, by rw [hsets, List.length_replicate, e6]; exact l2.1, ?_⟩
  · have : bs ≤ bs * as := le_mul_of_one_le_right h2.le (by omega)
    rw [e2]
    omega
  · intro set hset
    rw [hsets] at hset
    have := List.eq_of_mem_replicate hset
    subst this
    refine ⟨?_, by simp [CacheSet.new], ?_⟩
    · intro hnil
      have := congrArg List.length hnil
      simp [CacheSet.new] at this
      omega
    · intro b hb
      have := List.eq_of_mem_replicate (by simpa [CacheSet.new] using hb : b ∈ List.replicate c.associativity (CacheBlock.new c.blockSize))
      subst this
      simp [CacheBlock.new]

theorem Cache.getSetIndex_lt {c : Cache} (hw : c.WF) (a : Nat) : c.getSetIndex a < c.sets.length := by
  rw [getSetIndex_eq]
  exact lt_of_lt_of_le (Nat.mod_lt _ (by positivity)) hw.2.2.1

theorem Cache.getBlockOffset_lt {c : Cache} (hw : c.WF) (a : Nat) :
    c.getBlockOffset a < c.blockSize := by
  rw [getBlockOffset_eq]
  exact lt_of_lt_of_le (Nat.mod_lt _ (by positivity)) hw.1

theorem Cache.getSet_mem {c : Cache} {si : Nat} (h : si < c.sets.length) : c.getSet si ∈ c.sets := by
  unfold Cache.getSet
  rw [List.getD_eq_getElem?_getD, List.getElem?_eq_getElem h]
  exact List.getElem_mem h

theorem lruScan_lt : ∀ (bs : List CacheBlock) (i lru : Nat) (mn : Int), lru < i →
    lruScan bs i lru mn < i + bs.length
  | [], i, lru, mn, h => by simpa [lruScan] using h
  | b :: bs, i, lru, mn, h => by
    unfold lruScan
    split
    · have := lruScan_lt bs (i + 1) i b.timestamp (by omega)
      simp only [List.length_cons]; omega
    · have := lruScan_lt bs (i + 1) lru mn (by omega)
      simp only [List.length_cons]; omega

/-- In a well-formed cache the victim is a slot of the set. -/
theorem Cache.selectVictim_lt {c : Cache} (hw : c.WF) {si : Nat} (hsi : si < c.sets.length)
    {v : Nat × Cache} (h : c.selectVictim si = .ok v) : v.1 < (c.getSet si).blocks.length := by
  obtain ⟨hne, hq, _⟩ := hw.2.2.2 _ (Cache.getSet_mem hsi)
  unfold Cache.selectVictim at h
  simp only at h
  split at h
  · rename_i i hi
    cases h
    rw [List.findIdx?_eq_some_iff_getElem] at hi
    exact hi.1
  · split at h
    · split at h
      · rename_i hnil
        exact absurd hnil hne
      · rename_i b0 bs hbs
        cases h
        rw [hbs]
        have := lruScan_lt bs 1 0 b0.timestamp (by omega)
        simp only [List.length_cons]; omega
    · split at h
      · cases h
      · rename_i f rest hf
        cases h
        exact hq f (by rw [hf]; simp)

theorem Cache.coreAt_isSome {c : Cache} {si bi : Nat} (h : bi < (c.getSet si).blocks.length) :
    (c.coreAt si bi).isSome := by
  rw [Cache.coreAt_eq, List.getElem?_eq_getElem (by simpa using h)]
  rfl

theorem Cache.getBlock_data_length {c : Cache} (hw : c.WF) {si bi : Nat} {b : CacheBlock}
    (hb : c.blockAt si bi = some b) : b.data.length = c.blockSize := by
  unfold Cache.blockAt at hb
  cases hs : c.sets[si]? with
  | none => simp [hs] at hb
  | some set =>
    simp only [hs, Option.some_bind] at hb
    exact (hw.2.2.2 set (List.mem_iff_getElem?.2 ⟨si, hs⟩)).2.2 b
      (List.mem_iff_getElem?.2 ⟨bi, hb⟩)


/-! ## Misses -/

theorem Cache.getBlock_eq_blockAt (c : Cache) (si bi : Nat) :
    c.getBlock si bi = (c.blockAt si bi).getD default := by
  cases hb : c.blockAt si bi with
  | none => rw [Cache.blockAt_none_of_getBlock _ _ _ hb]; rfl
  | some b => rw [Cache.getBlock_of_blockAt hb]; rfl

theorem Cache.selectVictim_getBlock {c : Cache} {si : Nat} {v : Nat × Cache}
    (h : c.selectVictim si = .ok v) (si' bi' : Nat) :
    v.2.getBlock si' bi' = c.getBlock si' bi' := by
  rw [Cache.getBlock_eq_blockAt, Cache.getBlock_eq_blockAt]
  congr 1
  unfold Cache.selectVictim at h
  simp only at h
  split at h
  · cases h; rfl
  · split at h
    · split at h <;> (cases h; rfl)
    · split at h
      · cases h
      · cases h
        exact Cache.blockAt_setFifo c si _ si' bi'

theorem Cache.writeBackVictim_congr {σ : Type} {c c' : Cache} (h : c'.geom = c.geom)
    (nl : Option (NextLevel σ)) (s : σ) (si : Nat) (b : CacheBlock) :
    c'.writeBackVictim nl s si b = c.writeBackVictim nl s si b := by
  simp only [Cache.geom, Prod.mk.injEq] at h
  obtain ⟨_, h2, _, _, _, _, h7, h8, _⟩ := h
  simp only [Cache.writeBackVictim, Cache.writeToNextLevel, Cache.getAddress, h2, h7, h8]

/-- `Cache::write` on a miss that stays within the block, as the sequence of its steps. -/
theorem Cache.write_miss {σ : Type} (nx : NextLevel σ) (c : Cache) (s : σ) (a : Nat)
    (d : List Nat)
    (hf : c.findBlockInSet (c.getTag a) (c.getSetIndex a) = none)
    (hn : d.length ≤ c.blockSize - c.getBlockOffset a) :
    Cache.write (some nx) c s a d =
      (do
        let fetched ← nx.read s (a &&& not32 ((1 <<< c.blockOffsetBits) - 1)) c.blockSize
        let v ← Cache.selectVictim { c with accesses := c.accesses + 1, misses := c.misses + 1 }
          (c.getSetIndex a)
        let s2 ← c.writeBackVictim (some nx) fetched.2 (c.getSetIndex a)
          (c.getBlock (c.getSetIndex a) v.1)
        pure (c.accessLatency,
          (v.2.setBlock (c.getSetIndex a) v.1
            { c.getBlock (c.getSetIndex a) v.1 with
              tag := c.getTag a, valid := true, dirty := true,
              data := storeBytes fetched.1.2 (c.getBlockOffset a) d }).updateReplacementInfo
            (c.getSetIndex a) v.1, s2)) := by
  have hf' : Cache.findBlockInSet { c with accesses := c.accesses + 1 } (c.getTag a)
      (c.getSetIndex a) = none := hf
  have htake : d.take (c.blockSize - c.getBlockOffset a) = d := List.take_of_length_le hn
  unfold Cache.write
  simp only [Cache.getTag, Cache.getSetIndex, Cache.getBlockOffset] at hf' hn htake ⊢
  simp only [hf', if_pos hn, htake, Cache.readFromNextLevel, bind, Except.bind, pure, Except.pure]
  cases hrd : nx.read s (a &&& not32 ((1 <<< c.blockOffsetBits) - 1)) c.blockSize with
  | error e => rfl
  | ok fetched =>
    simp only
    cases hv : Cache.selectVictim { c with accesses := c.accesses + 1, misses := c.misses + 1 }
        ((a >>> c.blockOffsetBits) &&& ((1 <<< c.setIndexBits) - 1)) with
    | error e => rfl
    | ok v =>
      simp only
      have hg := (Cache.selectVictim_spec hv).1
      have hlat : ∀ (si bi : Nat) (b : CacheBlock), (v.2.setBlock si bi b).accessLatency =
          c.accessLatency := fun si bi b => Cache.geom_accessLatency hg
      rw [Cache.writeBackVictim_congr hg, Cache.selectVictim_getBlock hv]
      simp only [hlat]
      rfl


theorem storeBytes_full (ds blk : List Nat) (h : ds.length = blk.length) :
    storeBytes blk 0 ds = ds := by
  apply List.ext_getElem?
  intro j
  rw [getElem?_storeBytes]
  by_cases hj : j < ds.length
  · rw [if_pos ⟨Nat.zero_le _, by omega, by omega⟩]; rfl
  · rw [if_neg (by omega), List.getElem?_eq_none (by omega), List.getElem?_eq_none (by omega)]

theorem Cache.getAddress_aligned (c : Cache) (hob : c.blockOffsetBits ≤ 32) (tag si : Nat) :
    c.getAddress tag si < 2 ^ 32 ∧ c.getAddress tag si % 2 ^ c.blockOffsetBits = 0 := by
  unfold Cache.getAddress
  refine ⟨Nat.or_lt_two_pow (Nat.mod_lt _ (by positivity)) (Nat.mod_lt _ (by positivity)), ?_⟩
  have hd : 2 ^ c.blockOffsetBits ∣ 2 ^ 32 := Nat.pow_dvd_pow 2 hob
  apply Nat.eq_of_testBit_eq
  intro i
  rw [Nat.testBit_mod_two_pow, Nat.testBit_or]
  by_cases hi : i < c.blockOffsetBits
  · have h32 : i < 32 := by omega
    simp only [hi, decide_True, Bool.true_and, Nat.zero_testBit, Nat.testBit_mod_two_pow, h32,
      Nat.testBit_shiftLeft, ge_iff_le]
    have h1 : ¬ c.blockOffsetBits + c.setIndexBits ≤ i := by omega
    have h2 : ¬ c.blockOffsetBits ≤ i := by omega
    simp [h1, h2]
  · simp [hi]

/-- For a power-of-two block size, writing a whole block back at a block-aligned address is a
read of the block below followed by a write of exactly the given bytes at that address. -/
theorem Cache.writeToNextLevel_aligned {σ : Type} (nx : NextLevel σ) (c : Cache)
    (hpow : c.blockSize = 2 ^ c.blockOffsetBits) (hob : c.blockOffsetBits ≤ 32)
    (address : Nat) (ha : address < 2 ^ 32) (halign : address % 2 ^ c.blockOffsetBits = 0)
    (data : List Nat) (hd : data.length = c.blockSize) (s : σ) (rd : (Int × List Nat) × σ)
    (hr : nx.read s address c.blockSize = .ok rd) (hrl : rd.1.2.length = c.blockSize) :
    c.writeToNextLevel (some nx) s address data =
      (nx.write rd.2 address data).map (fun w => w.2) := by
  have hpos : 0 < 2 ^ c.blockOffsetBits := by positivity
  have hle : 2 ^ c.blockOffsetBits ≤ 2 ^ 32 := Nat.pow_le_pow_right (by norm_num) hob
  have hmask : not32 (c.blockSize - 1) = 2 ^ 32 - 2 ^ c.blockOffsetBits := by
    unfold not32
    rw [hpow, Nat.mod_eq_of_lt (by omega)]
    omega
  have hba : address &&& not32 (c.blockSize - 1) = address := by
    rw [hmask, and_mask_eq address _ ha hob, halign]
    rfl
  have hoff : (address + 2 ^ 32 - address) % 2 ^ 32 = 0 := by
    rw [Nat.add_sub_cancel_left]; exact Nat.mod_self _
  unfold Cache.writeToNextLevel
  simp only [hba, hoff, hr, bind, Except.bind, Nat.sub_zero, pure, Except.pure]
  rw [List.take_of_length_le (by omega), storeBytes_full data rd.1.2 (by omega)]
  cases nx.write rd.2 address data <;> rfl


theorem Cache.blockOffsetBits_lt {c : Cache} (hw : c.WF) : c.blockOffsetBits < 31 := by
  have h := lt_of_le_of_lt hw.1 hw.2.1
  exact (Nat.pow_lt_pow_iff_right (by norm_num : 1 < 2)).1 h

/-- The contents of the cache after a `write` miss that returned. -/
theorem Cache.write_miss_result {σ : Type} (nx : NextLevel σ) (c : Cache) (s : σ) (a : Nat)
    (d : List Nat) (hw : c.WF)
    (hf : c.findBlockInSet (c.getTag a) (c.getSetIndex a) = none)
    (hn : d.length ≤ c.blockSize - c.getBlockOffset a)
    (r : Int × Cache × σ) (h : Cache.write (some nx) c s a d = .ok r) :
    ∃ fetched v,
      nx.read s (a &&& not32 ((1 <<< c.blockOffsetBits) - 1)) c.blockSize = .ok fetched ∧
      Cache.selectVictim { c with accesses := c.accesses + 1, misses := c.misses + 1 }
        (c.getSetIndex a) = .ok v ∧
      c.writeBackVictim (some nx) fetched.2 (c.getSetIndex a)
        (c.getBlock (c.getSetIndex a) v.1) = .ok r.2.2 ∧
      r.1 = c.accessLatency ∧ r.2.1.geom = c.geom ∧
      (c.coreAt (c.getSetIndex a) v.1).isSome ∧
      r.2.1.coreAt (c.getSetIndex a) v.1 =
        some (c.getTag a, true, true, storeBytes fetched.1.2 (c.getBlockOffset a) d) ∧
      (∀ si' bi', ¬ (si' = c.getSetIndex a ∧ bi' = v.1) →
        r.2.1.coreAt si' bi' = c.coreAt si' bi') := by
  rw [Cache.write_miss nx c s a d hf hn] at h
  simp only [bind, Except.bind, pure, Except.pure] at h
  split at h
  · cases h
  · rename_i fetched hrd
    split at h
    · cases h
    · rename_i v hv
      split at h
      · cases h
      · rename_i s2 hs2
        cases h
        obtain ⟨hg, hcore, _⟩ := Cache.selectVictim_spec hv
        have hlt : v.1 < (c.getSet (c.getSetIndex a)).blocks.length :=
          Cache.selectVictim_lt (c := { c with accesses := c.accesses + 1, misses := c.misses + 1 })
            hw (Cache.getSetIndex_lt hw a) hv
        have hsome : (c.coreAt (c.getSetIndex a) v.1).isSome := Cache.coreAt_isSome hlt
        have hsome' : (v.2.coreAt (c.getSetIndex a) v.1).isSome := by rw [hcore]; exact hsome
        refine ⟨fetched, v, hrd, hv, hs2, rfl, ?_, hsome, ?_, ?_⟩
        · rw [Cache.geom_updateReplacementInfo, Cache.geom_setBlock]; exact hg
        · rw [Cache.coreAt_updateReplacementInfo, Cache.coreAt_setBlock,
            if_pos ⟨rfl, rfl, hsome'⟩]
          rfl
        · intro si' bi' hne
          rw [Cache.coreAt_updateReplacementInfo, Cache.coreAt_setBlock,
            if_neg (fun h => hne ⟨h.1, h.2.1⟩), hcore]
          rfl


theorem Cache.selectVictim_lru (c : Cache) (si : Nat) (h : c.policy = .LRU) :
    ∃ v, c.selectVictim si = .ok v := by
  unfold Cache.selectVictim
  simp only [h]
  split
  · exact ⟨_, rfl⟩
  · split <;> exact ⟨_, rfl⟩

/-- C10, on the code: in a cache with 3-byte blocks the dirty victim `[1, 2, 3]`, whose address
rebuilt from tag and set index is 6, is written back by the write miss on address 4, and the
next level then holds `[1, 0, 0]` at address 6. -/
theorem C10_victim_write_back_loses_bytes : c10Scenario = .ok ([1, 2, 3], 6, [1, 0, 0]) := by
  decide

/-- `Cache::write` within one block, for a well-formed cache and a `write(addr, data)` that
stays within one block.
On a hit the call returns the access latency, the matching block is dirty, its bytes at
`offset .. offset + len` are `data` and its other bytes are unchanged, and no other slot
changes. On a miss that returns, the block was read from the next level at the block address,
the victim slot holds `tag(addr)`, valid, dirty and the fetched bytes overwritten by `data` at
the offset, no other slot changes, and the next level is what `writeBackVictim` made of it: for
a valid dirty victim and a block size that is a power of two this is a read of the block at the
address rebuilt from the victim's tag and the set index followed by a write of the victim's
bytes at that address. A miss returns whenever the block read, the victim selection and the
write-back return, and the victim selection always returns under LRU. -/
theorem Cache.write_within_block {σ : Type} (nx : NextLevel σ) (c : Cache) (s : σ) (a : Nat)
    (d : List Nat) (hw : c.WF) (hn : d.length ≤ c.blockSize - c.getBlockOffset a) :
    (∀ bi, c.findBlockInSet (c.getTag a) (c.getSetIndex a) = some bi →
      ∃ c' newData, Cache.write (some nx) c s a d = .ok (c.accessLatency, c', s) ∧
        c'.coreAt (c.getSetIndex a) bi = some (c.getTag a, true, true, newData) ∧
        newData.length = c.blockSize ∧
        sliceBytes newData (c.getBlockOffset a) d.length = d ∧
        (∀ j, ¬ (c.getBlockOffset a ≤ j ∧ j < c.getBlockOffset a + d.length) →
          newData[j]? = (c.getBlock (c.getSetIndex a) bi).data[j]?) ∧
        (∀ si' bi', ¬ (si' = c.getSetIndex a ∧ bi' = bi) →
          c'.coreAt si' bi' = c.coreAt si' bi')) ∧
    (c.findBlockInSet (c.getTag a) (c.getSetIndex a) = none →
      ∀ r, Cache.write (some nx) c s a d = .ok r →
        ∃ fetched v,
          nx.read s (a &&& not32 ((1 <<< c.blockOffsetBits) - 1)) c.blockSize = .ok fetched ∧
          Cache.selectVictim { c with accesses := c.accesses + 1, misses := c.misses + 1 }
            (c.getSetIndex a) = .ok v ∧
          r.1 = c.accessLatency ∧
          r.2.1.coreAt (c.getSetIndex a) v.1 =
            some (c.getTag a, true, true, storeBytes fetched.1.2 (c.getBlockOffset a) d) ∧
          (∀ si' bi', ¬ (si' = c.getSetIndex a ∧ bi' = v.1) →
            r.2.1.coreAt si' bi' = c.coreAt si' bi') ∧
          c.writeBackVictim (some nx) fetched.2 (c.getSetIndex a)
            (c.getBlock (c.getSetIndex a) v.1) = .ok r.2.2 ∧
          (c.blockSize = 2 ^ c.blockOffsetBits →
            (c.getBlock (c.getSetIndex a) v.1).valid = true →
            (c.getBlock (c.getSetIndex a) v.1).dirty = true →
            ∀ rd, nx.read fetched.2
                (c.getAddress (c.getBlock (c.getSetIndex a) v.1).tag (c.getSetIndex a))
                c.blockSize = .ok rd → rd.1.2.length = c.blockSize →
              (nx.write rd.2
                (c.getAddress (c.getBlock (c.getSetIndex a) v.1).tag (c.getSetIndex a))
                (c.getBlock (c.getSetIndex a) v.1).data).map (fun w => w.2) = .ok r.2.2)) ∧
    (c.findBlockInSet (c.getTag a) (c.getSetIndex a) = none →
      ∀ fetched v s2,
        nx.read s (a &&& not32 ((1 <<< c.blockOffsetBits) - 1)) c.blockSize = .ok fetched →
        Cache.selectVictim { c with accesses := c.accesses + 1, misses := c.misses + 1 }
          (c.getSetIndex a) = .ok v →
        c.writeBackVictim (some nx) fetched.2 (c.getSetIndex a)
          (c.getBlock (c.getSetIndex a) v.1) = .ok s2 →
        ∃ c', Cache.write (some nx) c s a d = .ok (c.accessLatency, c', s2)) ∧
    (c.policy = .LRU → ∃ v,
      Cache.selectVictim { c with accesses := c.accesses + 1, misses := c.misses + 1 }
        (c.getSetIndex a) = .ok v) := by
  refine ⟨?_, ?_, ?_, ?_⟩
  · intro bi hf
    obtain ⟨b, hb, _, _⟩ := Cache.findBlockInSet_some hf
    have hlen : (c.getBlock (c.getSetIndex a) bi).data.length = c.blockSize := by
      rw [Cache.getBlock_of_blockAt hb]; exact Cache.getBlock_data_length hw hb
    have hoff := Cache.getBlockOffset_lt hw a
    obtain ⟨c', hwr, _, hslot, hothers, _⟩ := Cache.write_hit (some nx) c s a bi d hf hn
    refine ⟨c', _, hwr, hslot, by rw [length_storeBytes]; exact hlen,
      sliceBytes_storeBytes _ _ _ (by omega), ?_, hothers⟩
    intro j hj
    rw [getElem?_storeBytes, if_neg (fun h => hj ⟨h.1, h.2.1⟩)]
  · intro hf r hr
    obtain ⟨fetched, v, hrd, hv, hwb, hlat, _, hsome, hslot, hothers⟩ :=
      Cache.write_miss_result nx c s a d hw hf hn r hr
    refine ⟨fetched, v, hrd, hv, hlat, hslot, hothers, hwb, ?_⟩
    intro hpow hvalid hdirty rd hrd2 hrdlen
    obtain ⟨b, hb⟩ := Option.isSome_iff_exists.1
      (by simpa [Cache.coreAt] using hsome : (c.blockAt (c.getSetIndex a) v.1).isSome)
    have hlen : (c.getBlock (c.getSetIndex a) v.1).data.length = c.blockSize := by
      rw [Cache.getBlock_of_blockAt hb]; exact Cache.getBlock_data_length hw hb
    have hob : c.blockOffsetBits ≤ 32 := by have := Cache.blockOffsetBits_lt hw; omega
    obtain ⟨halt, halign⟩ := Cache.getAddress_aligned c hob
      (c.getBlock (c.getSetIndex a) v.1).tag (c.getSetIndex a)
    rw [← hwb]
    simp only [Cache.writeBackVictim, hvalid, hdirty, Bool.and_self, if_true]
    exact (Cache.writeToNextLevel_aligned nx c hpow hob _ halt halign _ hlen _ rd hrd2
      hrdlen).symm
  · intro hf fetched v s2 hrd hv hwb
    rw [Cache.write_miss nx c s a d hf hn]
    simp only [hrd, hv, hwb, bind, Except.bind, pure, Except.pure]
    exact ⟨_, rfl⟩
  · intro hp
    exact Cache.selectVictim_lru _ _ hp

theorem sampleCacheRead_wf : sampleCacheRead.2.1.WF := by
  refine ⟨by decide, by decide, by decide, ?_⟩
  decide

/-- C2 at the failing input: with FIFO replacement in L1D and the set full, `storeWord` runs
into `front()` on the empty FIFO queue, so the store-then-load pair returns nothing; the same
sequence under LRU returns the stored word. -/
theorem C2_fifo_store_then_load :
    c2Scenario .FIFO = .ok (.error .emptyFifo) ∧ c2Scenario .LRU = .ok (.ok 7) := by
  decide!

/-- C4 at the failing input: core 1 holds a dirty copy of the block (it stored to address 104
before core 0 stored 42 to address 100); the barrier flushes core 0 and then core 1, and the
load of address 100 by core 1 after the barrier returns 0. Without the earlier store of
core 1 the load returns 42. -/
theorem C4_barrier_flush_order :
    c4Scenario true = .ok (0, 0, 0) ∧ c4Scenario false = .ok (42, 0, 0) := by
  decide!

/-- C8 at the failing input: a read miss on a full set of a FIFO cache runs into `front()` on
the empty FIFO queue and returns nothing; the same read under LRU returns the access latency
plus the memory latency and the four bytes at address 8. -/
theorem C8_fifo_read_miss :
    c8Scenario .FIFO = .ok (.error .emptyFifo) ∧
    c8Scenario .LRU = .ok (.ok (101, [8, 9, 10, 11])) := by
  decide


/-! ## Well-formedness is kept by every operation -/

theorem forall_mem_set_getD {α : Type} (P : α → Prop) (l : List α) (i : Nat) (d y : α)
    (hl : ∀ x ∈ l, P x) (hy : i < l.length → P (l.getD i d) → P y) :
    ∀ x ∈ l.set i y, P x := by
  intro x hx
  rcases List.mem_or_eq_of_mem_set hx with h | h
  · exact hl x h
  · by_cases hi : i < l.length
    · subst h
      apply hy hi
      apply hl
      rw [List.getD_eq_getElem?_getD, List.getElem?_eq_getElem hi]
      exact List.getElem_mem hi
    · rw [List.set_eq_of_length_le (by omega)] at hx
      exact hl x hx

theorem Cache.wf_setBlock {c : Cache} (hw : c.WF) (si bi : Nat) (b : CacheBlock)
    (hb : b.data.length = c.blockSize) : (c.setBlock si bi b).WF := by
  obtain ⟨h1, h2, h3, h4⟩ := hw
  refine ⟨h1, h2, by simpa [Cache.setBlock] using h3, ?_⟩
  show ∀ set ∈ c.sets.set si _, _
  refine forall_mem_set_getD _ c.sets si default _ h4 ?_
  intro _ hP
  obtain ⟨g1, g2, g3⟩ := hP
  refine ⟨?_, fun q hq => by rw [List.length_set]; exact g2 q hq, ?_⟩
  · intro hnil
    have := congrArg List.length hnil
    simp only [List.length_set, List.length_nil] at this
    exact g1 (List.eq_nil_of_length_eq_zero this)
  · intro x hx
    rcases List.mem_or_eq_of_mem_set hx with h | h
    · exact g3 x h
    · rw [h]; exact hb

theorem Cache.wf_setFifo {c : Cache} (hw : c.WF) (si : Nat) (q : List Nat)
    (hq : si < c.sets.length → ∀ x ∈ q, x < (c.getSet si).blocks.length) :
    Cache.WF { c with sets := c.sets.set si ({ c.getSet si with fifoQueue := q }) } := by
  obtain ⟨h1, h2, h3, h4⟩ := hw
  refine ⟨h1, h2, by simpa using h3, ?_⟩
  show ∀ set ∈ c.sets.set si _, _
  refine forall_mem_set_getD _ c.sets si default _ h4 ?_
  intro hsi hP
  obtain ⟨g1, _, g3⟩ := hP
  exact ⟨g1, hq hsi, g3⟩

theorem Cache.getBlock_data_length_of_lt {c : Cache} (hw : c.WF) {si bi : Nat}
    (hbi : bi < (c.getSet si).blocks.length) :
    (c.getBlock si bi).data.length = c.blockSize := by
  have hb : c.blockAt si bi = some ((c.getSet si).blocks[bi]) := by
    rw [Cache.blockAt_eq, List.getElem?_eq_getElem hbi]
  rw [Cache.getBlock_of_blockAt hb]
  exact Cache.getBlock_data_length hw hb

theorem Cache.wf_updateReplacementInfo {c : Cache} (hw : c.WF) {si bi : Nat}
    (hbi : bi < (c.getSet si).blocks.length) :
    (c.updateReplacementInfo si bi).WF := by
  unfold Cache.updateReplacementInfo
  cases hp : c.policy with
  | LRU =>
    exact Cache.wf_setBlock hw si bi _ (Cache.getBlock_data_length_of_lt hw hbi)
  | FIFO =>
    simp only
    split
    · refine Cache.wf_setFifo hw si _ ?_
      intro hsi q hq
      rcases List.mem_append.1 hq with h | h
      · exact (hw.2.2.2 _ (Cache.getSet_mem hsi)).2.1 q h
      · rw [List.mem_singleton.1 h]; exact hbi
    · exact hw

theorem Cache.wf_selectVictim {c : Cache} (hw : c.WF) {si : Nat} {v : Nat × Cache}
    (h : c.selectVictim si = .ok v) : v.2.WF := by
  unfold Cache.selectVictim at h
  simp only at h
  split at h
  · cases h; exact hw
  · split at h
    · split at h <;> (cases h; exact hw)
    · split at h
      · cases h
      · rename_i f rest hf
        cases h
        refine Cache.wf_setFifo hw si _ ?_
        intro hsi q hq
        apply (hw.2.2.2 _ (Cache.getSet_mem hsi)).2.1 q
        rw [hf]
        rcases List.mem_append.1 hq with h | h
        · exact List.mem_cons_of_mem _ h
        · rw [List.mem_singleton.1 h]; exact List.mem_cons_self _ _

theorem Cache.getSet_blocks_of_coreAt {c c' : Cache} {si : Nat}
    (h : ∀ bi, c'.coreAt si bi = c.coreAt si bi) :
    (c'.getSet si).blocks.length = (c.getSet si).blocks.length := by
  have : (c'.getSet si).blocks.map CacheBlock.core = (c.getSet si).blocks.map CacheBlock.core := by
    apply List.ext_getElem?
    intro bi
    rw [← Cache.coreAt_eq, ← Cache.coreAt_eq]
    exact h bi
  simpa using congrArg List.length this


theorem Cache.length_blocks_setBlock (c : Cache) (si bi : Nat) (b : CacheBlock) (si' : Nat) :
    ((c.setBlock si bi b).getSet si').blocks.length = (c.getSet si').blocks.length := by
  unfold Cache.setBlock Cache.getSet
  simp only [List.getD_eq_getElem?_getD, List.getElem?_set]
  by_cases h1 : si = si'
  · subst h1
    by_cases h2 : si < c.sets.length
    · simp [h2]
    · simp [h2, List.getElem?_eq_none (Nat.le_of_not_lt h2)]
  · simp [h1]

/-- `Cache::read` on a miss that stays within the block, as the sequence of its steps. -/
theorem Cache.read_miss {σ : Type} (nl : Option (NextLevel σ)) (c : Cache) (s : σ) (a n : Nat)
    (hf : c.findBlockInSet (c.getTag a) (c.getSetIndex a) = none)
    (hn : n ≤ c.blockSize - c.getBlockOffset a) :
    Cache.read nl c s a n =
      (do
        let fetched ← (match nl with
          | some nx => nx.read s (a &&& not32 ((1 <<< c.blockOffsetBits) - 1)) c.blockSize
          | none => .ok (((0 : Int), List.replicate c.blockSize 0), s))
        let v ← Cache.selectVictim { c with accesses := c.accesses + 1, misses := c.misses + 1 }
          (c.getSetIndex a)
        let s2 ← c.writeBackVictim nl fetched.2 (c.getSetIndex a)
          (c.getBlock (c.getSetIndex a) v.1)
        let c5 := (v.2.setBlock (c.getSetIndex a) v.1
            { c.getBlock (c.getSetIndex a) v.1 with
              tag := c.getTag a, valid := true, dirty := false,
              data := fetched.1.2 }).updateReplacementInfo (c.getSetIndex a) v.1
        pure ((c.accessLatency + fetched.1.1,
          sliceBytes (c5.getBlock (c.getSetIndex a) v.1).data (c.getBlockOffset a) n), c5, s2)) := by
  have hf' : Cache.findBlockInSet { c with accesses := c.accesses + 1 } (c.getTag a)
      (c.getSetIndex a) = none := hf
  unfold Cache.read
  simp only [Cache.getTag, Cache.getSetIndex, Cache.getBlockOffset] at hf' hn ⊢
  simp only [hf', if_pos hn, bind, Except.bind, pure, Except.pure]
  cases nl with
  | none =>
    simp only
    cases hv : Cache.selectVictim { c with accesses := c.accesses + 1, misses := c.misses + 1 }
        ((a >>> c.blockOffsetBits) &&& ((1 <<< c.setIndexBits) - 1)) with
    | error e => rfl
    | ok v =>
      simp only
      have hg := (Cache.selectVictim_spec hv).1
      have hlat : ∀ (si bi si2 bi2 : Nat) (b : CacheBlock),
          ((v.2.setBlock si bi b).updateReplacementInfo si2 bi2).accessLatency =
          c.accessLatency := fun si bi si2 bi2 b =>
        Cache.geom_accessLatency ((Cache.geom_updateReplacementInfo _ _ _).trans hg)
      rw [Cache.writeBackVictim_congr hg, Cache.selectVictim_getBlock hv]
      simp only [hlat]
      rfl
  | some nx =>
    simp only
    cases hrd : nx.read s (a &&& not32 ((1 <<< c.blockOffsetBits) - 1)) c.blockSize with
    | error e => rfl
    | ok fetched =>
      simp only
      cases hv : Cache.selectVictim { c with accesses := c.accesses + 1, misses := c.misses + 1 }
          ((a >>> c.blockOffsetBits) &&& ((1 <<< c.setIndexBits) - 1)) with
      | error e => rfl
      | ok v =>
        simp only
        have hg := (Cache.selectVictim_spec hv).1
        have hlat : ∀ (si bi si2 bi2 : Nat) (b : CacheBlock),
            ((v.2.setBlock si bi b).updateReplacementInfo si2 bi2).accessLatency =
            c.accessLatency := fun si bi si2 bi2 b =>
          Cache.geom_accessLatency ((Cache.geom_updateReplacementInfo _ _ _).trans hg)
        rw [Cache.writeBackVictim_congr hg, Cache.selectVictim_getBlock hv]
        simp only [hlat]
        rfl

/-- `Cache::read` returns exactly the number of bytes asked for. -/
theorem Cache.read_length {σ : Type} {nl : Option (NextLevel σ)} {c : Cache} {s : σ}
    {a n : Nat} {r : (Int × List Nat) × Cache × σ} (h : Cache.read nl c s a n = .ok r) :
    r.1.2.length = n := by
  unfold Cache.read at h
  simp only at h
  split at h
  · split at h
    · cases h; exact sliceBytes_length _ _ _
    · cases h
  · simp only [bind, Except.bind] at h
    split at h
    · cases h
    · split at h
      · cases h
      · split at h
        · cases h
        · split at h
          · simp only [pure, Except.pure] at h
            cases h
            exact sliceBytes_length _ _ _
          · cases h

theorem memorySystem_readLen : NextLevel.ReadLen (some memorySystem) := by
  intro n hn s a k r hr
  cases hn
  simp only [memorySystem, MainMemory.read] at hr
  cases hr
  simp

theorem l2System_readLen : NextLevel.ReadLen (some l2System) := by
  intro n hn s a k r hr
  cases hn
  simp only [l2System, bind, Except.bind, pure, Except.pure] at hr
  split at hr
  · cases hr
  · rename_i r0 h0
    cases hr
    exact Cache.read_length h0


theorem Cache.findBlockInSet_lt {c : Cache} {tag si bi : Nat}
    (h : c.findBlockInSet tag si = some bi) : bi < (c.getSet si).blocks.length := by
  rw [Cache.findBlockInSet, List.findIdx?_eq_some_iff_getElem] at h
  exact h.1

theorem Cache.wf_install {c : Cache} (hw : c.WF) {si : Nat} (hsi : si < c.sets.length)
    {v : Nat × Cache} (hv : c.selectVictim si = .ok v) (b : CacheBlock)
    (hb : b.data.length = c.blockSize) :
    ((v.2.setBlock si v.1 b).updateReplacementInfo si v.1).WF := by
  have hg := (Cache.selectVictim_spec hv).1
  have hlt := Cache.selectVictim_lt hw hsi hv
  have hlen : (v.2.getSet si).blocks.length = (c.getSet si).blocks.length :=
    Cache.getSet_blocks_of_coreAt (fun bi => (Cache.selectVictim_spec hv).2.1 si bi)
  apply Cache.wf_updateReplacementInfo
  · exact Cache.wf_setBlock (Cache.wf_selectVictim hw hv) _ _ _
      (by rw [Cache.geom_blockSize hg]; exact hb)
  · rw [Cache.length_blocks_setBlock, hlen]; exact hlt

/-- `Cache::read` keeps the cache well-formed. -/
theorem Cache.read_wf {σ : Type} {nl : Option (NextLevel σ)} (hnl : NextLevel.ReadLen nl)
    {c : Cache} {s : σ} {a n : Nat} {r : (Int × List Nat) × Cache × σ}
    (h : Cache.read nl c s a n = .ok r) (hw : c.WF) : r.2.1.WF := by
  unfold Cache.read at h
  simp only at h
  split at h
  · rename_i bi hfind
    split at h
    · cases h
      exact Cache.wf_updateReplacementInfo
        (c := { c with accesses := c.accesses + 1, hits := c.hits + 1 }) hw
        (Cache.findBlockInSet_lt hfind)
    · cases h
  · simp only [bind, Except.bind] at h
    split at h
    · cases h
    · rename_i fetched hfetch
      split at h
      · cases h
      · rename_i v hv
        split at h
        · cases h
        · split at h
          · simp only [pure, Except.pure] at h
            cases h
            refine Cache.wf_install
              (c := { c with accesses := c.accesses + 1, misses := c.misses + 1 }) hw
              (Cache.getSetIndex_lt hw a) hv _ ?_
            show fetched.1.2.length = c.blockSize
            cases nl with
            | none =>
              simp only at hfetch
              cases hfetch
              simp
            | some nx => exact hnl nx rfl _ _ _ _ hfetch
          · cases h

/-- `Cache::write` keeps the cache well-formed. -/
theorem Cache.write_wf {σ : Type} {nl : Option (NextLevel σ)} (hnl : NextLevel.ReadLen nl)
    {c : Cache} {s : σ} {a : Nat} {d : List Nat} {r : Int × Cache × σ}
    (h : Cache.write nl c s a d = .ok r) (hw : c.WF) : r.2.1.WF := by
  unfold Cache.write at h
  simp only at h
  split at h
  · rename_i bi hfind
    split at h
    · cases h
      have hlt := Cache.findBlockInSet_lt hfind
      have hw3 : (Cache.updateReplacementInfo
          { c with accesses := c.accesses + 1, hits := c.hits + 1 } (c.getSetIndex a) bi).WF :=
        Cache.wf_updateReplacementInfo
          (c := { c with accesses := c.accesses + 1, hits := c.hits + 1 }) hw hlt
      refine Cache.wf_setBlock hw3 _ _ _ ?_
      rw [length_storeBytes]
      refine Cache.getBlock_data_length_of_lt hw3 ?_
      rw [Cache.getSet_blocks_of_coreAt (fun bi => Cache.coreAt_updateReplacementInfo _ _ _ _ bi)]
      exact hlt
    · cases h
  · simp only [bind, Except.bind] at h
    split at h
    · cases h
    · rename_i fetched hfetch
      split at h
      · cases h
      · rename_i v hv
        split at h
        · cases h
        · split at h
          · simp only [pure, Except.pure] at h
            cases h
            refine Cache.wf_install
              (c := { c with accesses := c.accesses + 1, misses := c.misses + 1 }) hw
              (Cache.getSetIndex_lt hw a) hv _ ?_
            rw [length_storeBytes]
            show fetched.1.length = c.blockSize
            cases nl with
            | none => simp [Cache.readFromNextLevel] at hfetch
            | some nx =>
              simp only [Cache.readFromNextLevel, bind, Except.bind, pure, Except.pure] at hfetch
              split at hfetch
              · cases hfetch
              · rename_i r0 hr0
                cases hfetch
                exact hnl nx rfl _ _ _ _ hr0
          · cases h


theorem Cache.blockAt_of_valid {c : Cache} {si bi : Nat}
    (h : (c.getBlock si bi).valid = true) : c.blockAt si bi = some (c.getBlock si bi) := by
  cases hb : c.blockAt si bi with
  | none =>
    rw [Cache.blockAt_none_of_getBlock _ _ _ hb] at h
    cases h
  | some b => rw [Cache.getBlock_of_blockAt hb]

/-- `Cache::invalidateBlock` keeps the cache well-formed. -/
theorem Cache.invalidateBlock_wf {σ : Type} {nl : Option (NextLevel σ)} {c : Cache}
    {s : σ} {a : Nat} {r : Cache × σ}
    (h : Cache.invalidateBlock nl c s a = .ok r) (hw : c.WF) : r.1.WF := by
  unfold Cache.invalidateBlock at h
  simp only at h
  split at h
  · rename_i bi hfind
    simp only [bind, Except.bind] at h
    split at h
    · cases h
    · simp only [pure, Except.pure] at h
      cases h
      exact Cache.wf_setBlock hw _ _ _
        (Cache.getBlock_data_length_of_lt hw (Cache.findBlockInSet_lt hfind))
  · cases h
    exact hw

/-- `Cache::invalidateAll` keeps the cache well-formed. -/
theorem Cache.invalidateAll_wf {c : Cache} (hw : c.WF) : c.invalidateAll.WF := by
  obtain ⟨h1, h2, h3, h4⟩ := hw
  refine ⟨h1, h2, by simpa [Cache.invalidateAll] using h3, ?_⟩
  intro set hset
  simp only [Cache.invalidateAll, List.mem_map] at hset
  obtain ⟨set0, hmem, rfl⟩ := hset
  obtain ⟨g1, g2, g3⟩ := h4 set0 hmem
  refine ⟨?_, ?_, ?_⟩
  · simpa using g1
  · simpa using g2
  · intro b hb
    simp only [List.mem_map] at hb
    obtain ⟨b0, hb0, rfl⟩ := hb
    exact g3 b0 hb0

theorem Cache.flushBlock_wf {σ : Type} {n : NextLevel σ} {cs r : Cache × σ}
    {si bi : Nat} (h : Cache.flushBlock n cs si bi = .ok r) (hw : cs.1.WF) : r.1.WF := by
  unfold Cache.flushBlock at h
  simp only at h
  split at h
  · rename_i hvd
    simp only [bind, Except.bind] at h
    split at h
    · cases h
    · simp only [pure, Except.pure] at h
      cases h
      simp only [Bool.and_eq_true] at hvd
      have hlen : (cs.1.getBlock si bi).data.length = cs.1.blockSize :=
        Cache.getBlock_data_length hw (Cache.blockAt_of_valid hvd.1)
      exact Cache.wf_setBlock hw _ _ _ hlen
  · cases h
    exact hw

theorem Cache.flushLoop_wf {σ : Type} {n : NextLevel σ} {c : Cache} {s : σ}
    {r : Cache × σ} (h : Cache.flushLoop n c s = .ok r) (hw : c.WF) : r.1.WF := by
  unfold Cache.flushLoop at h
  refine foldlM_preserves (fun cs : Cache × σ => cs.1.WF) _ ?_ _ _ _ hw h
  intro cs si cs' hcs hstep
  unfold Cache.flushSet at hstep
  refine foldlM_preserves (fun cs : Cache × σ => cs.1.WF) _ ?_ _ _ _ hcs hstep
  intro b bi b' hb hbstep
  exact Cache.flushBlock_wf hbstep hb

/-- `Cache::flushCache` keeps the cache well-formed. -/
theorem Cache.flushCache_wf {σ : Type} {nl : Option (NextLevel σ)} {c : Cache} {s : σ}
    {r : Cache × σ} (h : Cache.flushCache nl c s = .ok r) (hw : c.WF) : r.1.WF := by
  unfold Cache.flushCache at h
  split at h
  · cases h; exact hw
  · exact Cache.flushLoop_wf h hw

/-- Every cache state the public operations can produce from a constructed cache is well-formed,
provided the next level answers a read of `n` bytes with `n` bytes. -/
theorem Cache.reachable_wf {σ : Type} {nl : Option (NextLevel σ)} (hnl : NextLevel.ReadLen nl)
    {c : Cache} (h : Cache.Reachable nl c) : c.WF := by
  induction h with
  | fresh hnew => exact Cache.new_wf hnew
  | read _ hr ih => exact Cache.read_wf hnl hr ih
  | write _ hr ih => exact Cache.write_wf hnl hr ih
  | invalidateBlock _ hr ih => exact Cache.invalidateBlock_wf hr ih
  | invalidateAll _ ih => exact Cache.invalidateAll_wf ih
  | flushCache _ hr ih => exact Cache.flushCache_wf hr ih


theorem countTrue_set_true (l : List Bool) (i : Nat) (hi : i < l.length)
    (h : l.getD i false = false) : countTrue (l.set i true) = countTrue l + 1 := by
  unfold countTrue
  induction l generalizing i with
  | nil => simp at hi
  | cons a l ih =>
    cases i with
    | zero =>
      simp only [List.getD_cons_zero] at h
      subst h
      simp [List.count_cons]
    | succ i =>
      simp only [List.getD_cons_succ] at h
      have := ih i (by simpa using hi) h
      simp only [List.set_cons_succ, List.count_cons]
      push_cast at this ⊢
      omega

theorem countTrue_map_false (l : List Bool) : countTrue (l.map (fun _ => false)) = 0 := by
  unfold countTrue
  induction l with
  | nil => rfl
  | cons a l ih => simpa [List.count_cons] using ih

theorem countTrue_replicate_false (k : Nat) : countTrue (List.replicate k false) = 0 := by
  unfold countTrue
  simp [List.count_replicate]

theorem map_false_eq_replicate (l : List Bool) :
    l.map (fun _ => false) = List.replicate l.length false := by
  induction l with
  | nil => rfl
  | cons a l ih => simp [List.replicate_succ, ih]

theorem SyncMechanism.counted_new (n : Int) : (SyncMechanism.new n).Counted n := by
  refine ⟨rfl, ?_, ?_, ?_, ?_⟩ <;> simp [SyncMechanism.new, countTrue_replicate_false]

theorem SyncMechanism.counted_arrive {n : Int} {b : SyncMechanism} (hb : b.Counted n) (c : Nat)
    (hc : (c : Int) < n) : (b.arrive c).Counted n := by
  obtain ⟨h1, h2, h3, h4, h5⟩ := hb
  have hlt : c < b.arrived.length := by rw [h2]; omega
  unfold SyncMechanism.arrive
  split
  · rename_i hnot
    simp only [Bool.not_eq_true', ] at hnot
    refine ⟨h1, by simpa using h2, h3, ?_, h5⟩
    show b.arriveCount + 1 = countTrue (b.arrived.set c true)
    rw [countTrue_set_true _ _ hlt hnot, h4]
  · exact ⟨h1, h2, h3, h4, h5⟩

theorem SyncMechanism.counted_markRetired {n : Int} {b : SyncMechanism} (hb : b.Counted n)
    (c : Nat) (hc : (c : Int) < n) : (b.markRetired c).Counted n := by
  obtain ⟨h1, h2, h3, h4, h5⟩ := hb
  have hlt : c < b.retired.length := by rw [h3]; omega
  unfold SyncMechanism.markRetired
  split
  · rename_i hnot
    simp only [Bool.not_eq_true'] at hnot
    refine ⟨h1, h2, by simpa using h3, h4, ?_⟩
    show b.retireCount + 1 = countTrue (b.retired.set c true)
    rw [countTrue_set_true _ _ hlt hnot, h5]
  · exact ⟨h1, h2, h3, h4, h5⟩

theorem SyncMechanism.counted_reset {n : Int} {b : SyncMechanism} (hb : b.Counted n) :
    b.reset.Counted n := by
  obtain ⟨h1, h2, h3, _, _⟩ := hb
  refine ⟨h1, by simpa [SyncMechanism.reset] using h2, by simpa [SyncMechanism.reset] using h3,
    ?_, ?_⟩
  · show (0 : Int) = countTrue (b.arrived.map (fun _ => false))
    rw [countTrue_map_false]
  · show (0 : Int) = countTrue (b.retired.map (fun _ => false))
    rw [countTrue_map_false]

theorem SyncMechanism.retire_eq (b : SyncMechanism) (h : MemoryHierarchy) (c : Nat) :
    b.retire h c =
      if (b.markRetired c).retireCount = (b.markRetired c).numCores then
        (flushAllL1D (b.markRetired c).numCores h).map (fun h2 => ((b.markRetired c).reset, h2))
      else .ok (b.markRetired c, h) := by
  unfold SyncMechanism.retire SyncMechanism.markRetired
  simp only []
  split
  · cases flushAllL1D _ h <;> rfl
  · rfl

theorem SyncMechanism.counted_retire {n : Int} {b : SyncMechanism} (hb : b.Counted n)
    (c : Nat) (hc : (c : Int) < n) {h : MemoryHierarchy} {r : SyncMechanism × MemoryHierarchy}
    (hr : b.retire h c = .ok r) : r.1.Counted n := by
  rw [SyncMechanism.retire_eq] at hr
  have hm := SyncMechanism.counted_markRetired hb c hc
  split at hr
  · cases hf : flushAllL1D (b.markRetired c).numCores h with
    | error e => rw [hf] at hr; cases hr
    | ok h2 =>
      rw [hf] at hr
      cases hr
      exact SyncMechanism.counted_reset hm
  · cases hr
    exact hm

theorem SyncMechanism.Reachable.counted {n : Int} {b : SyncMechanism}
    (h : SyncMechanism.Reachable n b) : b.Counted n := by
  induction h with
  | fresh => exact SyncMechanism.counted_new n
  | arrive c _ hc ih => exact SyncMechanism.counted_arrive ih c hc
  | retire c h _ hc hr ih => exact SyncMechanism.counted_retire ih c hc hr
  | reset _ ih => exact SyncMechanism.counted_reset ih

/-- C14: in every state reachable from a freshly constructed barrier by `arrive`, `retire` and
`reset` calls with core ids in range, `arriveCount` is the number of `true` entries of `arrived`
and `retireCount` the number of `true` entries of `retired`. -/
theorem C14_counters_count_flags (n : Int) (b : SyncMechanism)
    (h : SyncMechanism.Reachable n b) :
    b.arriveCount = countTrue b.arrived ∧ b.retireCount = countTrue b.retired :=
  ⟨h.counted.2.2.2.1, h.counted.2.2.2.2⟩

theorem C14_counters_count_flags_witness :
    ((SyncMechanism.new 2).arrive 0).arriveCount = countTrue ((SyncMechanism.new 2).arrive 0).arrived ∧
    ((SyncMechanism.new 2).arrive 0).retireCount = countTrue ((SyncMechanism.new 2).arrive 0).retired :=
  C14_counters_count_flags 2 _ (SyncMechanism.Reachable.arrive 0 SyncMechanism.Reachable.fresh
    (by decide))

theorem SyncMechanism.arrive_arrive (b : SyncMechanism) (c : Nat) (hc : c < b.arrived.length) :
    (b.arrive c).arrive c = b.arrive c := by
  cases h : b.arrived.getD c false with
  | true =>
    have e : b.arrive c = b := by
      unfold SyncMechanism.arrive
      rw [h]
      rfl
    rw [e, e]
  | false =>
    have e : b.arrive c =
        { b with arrived := b.arrived.set c true, arriveCount := b.arriveCount + 1 } := by
      unfold SyncMechanism.arrive
      rw [h]
      rfl
    rw [e]
    unfold SyncMechanism.arrive
    simp only []
    rw [getD_set_self _ _ _ _ hc]
    rfl

theorem SyncMechanism.markRetired_markRetired (b : SyncMechanism) (c : Nat)
    (hc : c < b.retired.length) : (b.markRetired c).markRetired c = b.markRetired c := by
  cases h : b.retired.getD c false with
  | true =>
    have e : b.markRetired c = b := by
      unfold SyncMechanism.markRetired
      rw [h]
      rfl
    rw [e, e]
  | false =>
    have e : b.markRetired c =
        { b with retired := b.retired.set c true, retireCount := b.retireCount + 1 } := by
      unfold SyncMechanism.markRetired
      rw [h]
      rfl
    rw [e]
    unfold SyncMechanism.markRetired
    simp only []
    rw [getD_set_self _ _ _ _ hc]
    rfl

theorem SyncMechanism.arriveCount_arrive_le (b : SyncMechanism) (c : Nat) :
    (b.arrive c).arriveCount ≤ b.arriveCount + 1 := by
  unfold SyncMechanism.arrive
  split
  · exact le_refl _
  · omega

theorem SyncMechanism.retireCount_markRetired_le (b : SyncMechanism) (c : Nat) :
    (b.markRetired c).retireCount ≤ b.retireCount + 1 := by
  unfold SyncMechanism.markRetired
  split
  · exact le_refl _
  · omega

theorem SyncMechanism.numCores_markRetired (b : SyncMechanism) (c : Nat) :
    (b.markRetired c).numCores = b.numCores := by
  unfold SyncMechanism.markRetired
  split <;> rfl

/-- C15: for a core id `c` of the barrier, a second `arrive(c)` changes nothing, and when the
first `retire(c)` does not complete the barrier a second `retire(c)` changes nothing either;
each counter grows by at most one over the two calls. -/
theorem C15_arrive_retire_idempotent (b : SyncMechanism) (h : MemoryHierarchy) (c : Nat)
    (hca : c < b.arrived.length) (hcr : c < b.retired.length) :
    (b.arrive c).arrive c = b.arrive c ∧
    ((b.arrive c).arrive c).arriveCount ≤ b.arriveCount + 1 ∧
    ((b.markRetired c).retireCount ≠ b.numCores →
      b.retire h c = .ok (b.markRetired c, h) ∧
      (b.markRetired c).retire h c = .ok (b.markRetired c, h) ∧
      (b.markRetired c).retireCount ≤ b.retireCount + 1) := by
  refine ⟨SyncMechanism.arrive_arrive b c hca, ?_, ?_⟩
  · rw [SyncMechanism.arrive_arrive b c hca]
    exact SyncMechanism.arriveCount_arrive_le b c
  · intro hne
    have hne2 : ¬ (b.markRetired c).retireCount = (b.markRetired c).numCores := by
      rw [SyncMechanism.numCores_markRetired]; exact hne
    refine ⟨?_, ?_, SyncMechanism.retireCount_markRetired_le b c⟩
    · rw [SyncMechanism.retire_eq, if_neg hne2]
    · rw [SyncMechanism.retire_eq, SyncMechanism.markRetired_markRetired b c hcr, if_neg hne2]

theorem C15_arrive_retire_idempotent_witness :
    ((SyncMechanism.new 2).arrive 1).arrive 1 = (SyncMechanism.new 2).arrive 1 ∧
    (((SyncMechanism.new 2).arrive 1).arrive 1).arriveCount ≤ (SyncMechanism.new 2).arriveCount + 1 ∧
    (((SyncMechanism.new 2).markRetired 1).retireCount ≠ (SyncMechanism.new 2).numCores →
      (SyncMechanism.new 2).retire sampleHierarchy 1 =
        .ok ((SyncMechanism.new 2).markRetired 1, sampleHierarchy) ∧
      ((SyncMechanism.new 2).markRetired 1).retire sampleHierarchy 1 =
        .ok ((SyncMechanism.new 2).markRetired 1, sampleHierarchy) ∧
      ((SyncMechanism.new 2).markRetired 1).retireCount ≤ (SyncMechanism.new 2).retireCount + 1) :=
  C15_arrive_retire_idempotent (SyncMechanism.new 2) sampleHierarchy 1 (by decide) (by decide)

theorem SyncMechanism.reset_eq_new (b : SyncMechanism)
    (hla : b.arrived.length = b.numCores.toNat) (hlr : b.retired.length = b.numCores.toNat) :
    b.reset = SyncMechanism.new b.numCores := by
  unfold SyncMechanism.reset SyncMechanism.new
  rw [map_false_eq_replicate, map_false_eq_replicate, hla, hlr]

theorem SyncMechanism.markRetired_frame (b : SyncMechanism) (c : Nat) :
    (b.markRetired c).arrived = b.arrived ∧ (b.markRetired c).arriveCount = b.arriveCount ∧
    (b.markRetired c).retired.length = b.retired.length := by
  unfold SyncMechanism.markRetired
  split
  · exact ⟨rfl, rfl, by simp⟩
  · exact ⟨rfl, rfl, rfl⟩

theorem Cache.setBlock_eq_withBlocks (c : Cache) (si bi : Nat) (b : CacheBlock) :
    c.setBlock si bi b = c.withBlocks si ((c.getSet si).blocks.set bi b) := rfl

theorem Cache.getSet_withBlocks (c : Cache) (si : Nat) (hsi : si < c.sets.length)
    (bl : List CacheBlock) :
    (c.withBlocks si bl).getSet si = { c.getSet si with blocks := bl } := by
  unfold Cache.withBlocks Cache.getSet
  simp only []
  rw [getD_set_self _ _ _ _ hsi]

theorem Cache.withBlocks_withBlocks (c : Cache) (si : Nat) (hsi : si < c.sets.length)
    (bl bl' : List CacheBlock) :
    (c.withBlocks si bl).withBlocks si bl' = c.withBlocks si bl' := by
  have h := Cache.getSet_withBlocks c si hsi bl
  unfold Cache.withBlocks at h ⊢
  simp only [] at h ⊢
  rw [h, List.set_set]

theorem Cache.withBlocks_self (c : Cache) (si : Nat) :
    c.withBlocks si (c.getSet si).blocks = c := by
  unfold Cache.withBlocks Cache.getSet
  have : c.sets.set si (c.sets.getD si default) = c.sets := by
    apply List.ext_getElem?
    intro i
    by_cases h : si = i
    · subst h
      by_cases hl : si < c.sets.length
      · simp [List.getD_eq_getElem?_getD, List.getElem?_eq_getElem hl, hl]
      · rw [List.set_eq_of_length_le (by omega)]
    · rw [List.getElem?_set_ne h]
  cases c
  simp only [] at this ⊢
  rw [this]

theorem NextLevel.writeAll_nil {σ : Type} (n : NextLevel σ) (s : σ) :
    n.writeAll s [] = .ok s := rfl

theorem NextLevel.writeAll_cons {σ : Type} (n : NextLevel σ) (s : σ) (w : Nat × List Nat)
    (ws : List (Nat × List Nat)) :
    n.writeAll s (w :: ws) =
      match n.write s w.1 w.2 with
      | .ok r => n.writeAll r.2 ws
      | .error e => .error e := by
  unfold NextLevel.writeAll
  simp only [List.foldlM, bind, Except.bind, Except.map]
  cases n.write s w.1 w.2 <;> rfl

theorem NextLevel.writeAll_append {σ : Type} (n : NextLevel σ) (s : σ)
    (ws ws' : List (Nat × List Nat)) :
    n.writeAll s (ws ++ ws') =
      match n.writeAll s ws with
      | .ok s' => n.writeAll s' ws'
      | .error e => .error e := by
  induction ws generalizing s with
  | nil => rfl
  | cons w ws ih =>
    rw [List.cons_append, NextLevel.writeAll_cons, NextLevel.writeAll_cons]
    cases n.write s w.1 w.2 with
    | error e => rfl
    | ok r => exact ih r.2

theorem Cache.getBlock_withBlocks (c : Cache) (si : Nat) (hsi : si < c.sets.length)
    (A B : List CacheBlock) (b : CacheBlock) :
    (c.withBlocks si (A ++ b :: B)).getBlock si A.length = b := by
  unfold Cache.getBlock
  rw [Cache.getSet_withBlocks c si hsi]
  show (A ++ b :: B).getD A.length default = b
  rw [List.getD_eq_getElem?_getD, List.getElem?_append_right (le_refl _)]
  simp

theorem Cache.flushBlock_withBlocks {σ : Type} (n : NextLevel σ) (c : Cache) (si : Nat)
    (hsi : si < c.sets.length) (A B : List CacheBlock) (b : CacheBlock) (s : σ) :
    Cache.flushBlock n (c.withBlocks si (A ++ b :: B), s) si A.length =
      match n.writeAll s (c.dirtyOf si [b]) with
      | .ok s' => .ok (c.withBlocks si (A ++ b.cleaned :: B), s')
      | .error e => .error e := by
  unfold Cache.flushBlock
  simp only []
  rw [Cache.getBlock_withBlocks c si hsi]
  unfold Cache.dirtyOf CacheBlock.cleaned
  cases hvd : (b.valid && b.dirty) with
  | false =>
    simp only [List.filterMap_cons, List.filterMap_nil, hvd, Bool.false_eq_true, if_false]
    rfl
  | true =>
    simp only [List.filterMap_cons, List.filterMap_nil, hvd, if_true]
    rw [NextLevel.writeAll_cons]
    have hadr : (c.withBlocks si (A ++ b :: B)).getAddress b.tag si = c.getAddress b.tag si := rfl
    rw [hadr]
    simp only [bind, Except.bind, pure, Except.pure]
    cases n.write s (c.getAddress b.tag si) b.data with
    | error e => rfl
    | ok w =>
      simp only [NextLevel.writeAll_nil]
      rw [Cache.setBlock_eq_withBlocks, Cache.getSet_withBlocks c si hsi,
        Cache.withBlocks_withBlocks c si hsi]
      simp

theorem Cache.flushSet_aux {σ : Type} (n : NextLevel σ) (c : Cache) (si : Nat)
    (hsi : si < c.sets.length) :
    ∀ (B A : List CacheBlock) (s : σ),
      (List.range' A.length B.length).foldlM
          (fun acc blockIdx => Cache.flushBlock n acc si blockIdx)
          (c.withBlocks si (A.map CacheBlock.cleaned ++ B), s) =
        match n.writeAll s (c.dirtyOf si B) with
        | .ok s' => .ok (c.withBlocks si ((A ++ B).map CacheBlock.cleaned), s')
        | .error e => .error e
  | [], A, s => by
    simp only [List.length_nil, List.range'_zero, List.foldlM, List.append_nil]
    rfl
  | b :: B, A, s => by
    have hlen : (A.map CacheBlock.cleaned).length = A.length := List.length_map _ _
    rw [List.length_cons, List.range'_succ, List.foldlM_cons]
    have hstep := Cache.flushBlock_withBlocks n c si hsi (A.map CacheBlock.cleaned) B b s
    rw [hlen] at hstep
    rw [hstep]
    have hd : c.dirtyOf si (b :: B) = c.dirtyOf si [b] ++ c.dirtyOf si B := by
      unfold Cache.dirtyOf
      rw [← List.filterMap_append]
      rfl
    rw [hd, NextLevel.writeAll_append]
    cases n.writeAll s (c.dirtyOf si [b]) with
    | error e => rfl
    | ok s' =>
      simp only [bind, Except.bind]
      have ih := Cache.flushSet_aux n c si hsi B (A ++ [b]) s'
      simp only [List.map_append, List.map_cons, List.map_nil, List.append_assoc,
        List.singleton_append, List.length_append, List.length_singleton] at ih
      simp only [List.map_append, List.map_cons]
      exact ih

theorem Cache.flushSet_eq {σ : Type} (n : NextLevel σ) (c : Cache) (si : Nat)
    (hsi : si < c.sets.length) (s : σ) :
    Cache.flushSet n (c, s) si =
      match n.writeAll s (c.dirtyInSet si) with
      | .ok s' => .ok (c.withBlocks si ((c.getSet si).blocks.map CacheBlock.cleaned), s')
      | .error e => .error e := by
  have h := Cache.flushSet_aux n c si hsi (c.getSet si).blocks [] s
  simp only [List.map_nil, List.nil_append, List.length_nil, Cache.withBlocks_self] at h
  unfold Cache.flushSet Cache.dirtyInSet
  rw [List.range_eq_range']
  exact h

theorem getD_append_cons {α : Type} (S T : List α) (t d : α) :
    (S ++ t :: T).getD S.length d = t := by
  rw [List.getD_eq_getElem?_getD, List.getElem?_append_right (le_refl _)]
  simp

theorem set_append_cons {α : Type} (S T : List α) (t x : α) :
    (S ++ t :: T).set S.length x = S ++ x :: T := by
  rw [List.set_append_right _ _ (le_refl _)]
  simp

theorem Cache.flushLoop_aux {σ : Type} (n : NextLevel σ) (c : Cache) :
    ∀ (T S : List CacheSet) (s : σ), c.sets = S ++ T →
      (List.range' S.length T.length).foldlM (fun acc setIdx => Cache.flushSet n acc setIdx)
          ({ c with sets := S.map CacheSet.cleaned ++ T }, s) =
        match n.writeAll s ((List.range' S.length T.length).flatMap c.dirtyInSet) with
        | .ok s' => .ok ({ c with sets := (S ++ T).map CacheSet.cleaned }, s')
        | .error e => .error e
  | [], S, s, _ => by
    simp only [List.length_nil, List.range'_zero, List.foldlM, List.append_nil,
      List.flatMap_nil]
    rfl
  | t :: T, S, s, hST => by
    have hlen : (S.map CacheSet.cleaned).length = S.length := List.length_map _ _
    rw [List.length_cons, List.range'_succ, List.foldlM_cons, List.flatMap_cons,
      NextLevel.writeAll_append]
    have hsi : S.length < (S.map CacheSet.cleaned ++ t :: T).length := by
      rw [List.length_append, hlen, List.length_cons]; omega
    have hstep := Cache.flushSet_eq n { c with sets := S.map CacheSet.cleaned ++ t :: T }
      S.length hsi s
    have hget : Cache.getSet { c with sets := S.map CacheSet.cleaned ++ t :: T } S.length = t := by
      unfold Cache.getSet
      have := getD_append_cons (S.map CacheSet.cleaned) T t default
      rw [hlen] at this
      exact this
    have hget0 : c.getSet S.length = t := by
      unfold Cache.getSet
      rw [hST]
      exact getD_append_cons S T t default
    have hdirty : Cache.dirtyInSet { c with sets := S.map CacheSet.cleaned ++ t :: T } S.length =
        c.dirtyInSet S.length := by
      unfold Cache.dirtyInSet
      rw [hget, hget0]
      rfl
    have hwith : Cache.withBlocks { c with sets := S.map CacheSet.cleaned ++ t :: T } S.length
        (t.blocks.map CacheBlock.cleaned) =
        { c with sets := (S ++ [t]).map CacheSet.cleaned ++ T } := by
      unfold Cache.withBlocks
      rw [hget]
      simp only []
      have := set_append_cons (S.map CacheSet.cleaned) T t
        { t with blocks := t.blocks.map CacheBlock.cleaned }
      rw [hlen] at this
      rw [this]
      simp only [List.map_append, List.map_cons, List.map_nil, List.append_assoc,
        List.singleton_append]
      rfl
    rw [hget, hdirty, hwith] at hstep
    rw [hstep]
    cases n.writeAll s (c.dirtyInSet S.length) with
    | error e => rfl
    | ok s' =>
      simp only [bind, Except.bind]
      have ih := Cache.flushLoop_aux n c T (S ++ [t]) s' (by rw [hST]; simp)
      simp only [List.length_append, List.length_singleton, List.append_assoc,
        List.singleton_append] at ih
      exact ih

/-- The write-back loop of `flushCache` is the sequence of next-level writes for the valid dirty
blocks, and leaves the cache with their dirty flags cleared. -/
theorem Cache.flushLoop_eq {σ : Type} (n : NextLevel σ) (c : Cache) (s : σ)
    (hsets : c.sets.length = c.numSets) :
    Cache.flushLoop n c s =
      match n.writeAll s c.dirtyBlocks with
      | .ok s' => .ok (c.cleaned, s')
      | .error e => .error e := by
  have h := Cache.flushLoop_aux n c c.sets [] s rfl
  simp only [List.map_nil, List.nil_append, List.length_nil] at h
  unfold Cache.flushLoop Cache.dirtyBlocks
  rw [← hsets, List.range_eq_range']
  exact h

theorem Cache.blockAt_cleaned (c : Cache) (si bi : Nat) :
    c.cleaned.blockAt si bi = (c.blockAt si bi).map CacheBlock.cleaned := by
  unfold Cache.blockAt Cache.cleaned
  simp only [List.getElem?_map]
  cases c.sets[si]? with
  | none => rfl
  | some set => simp [CacheSet.cleaned, List.getElem?_map]

theorem CacheBlock.cleaned_spec (b : CacheBlock) :
    ¬ (b.cleaned.valid = true ∧ b.cleaned.dirty = true) ∧ b.cleaned.valid = b.valid ∧
    b.cleaned.tag = b.tag ∧ b.cleaned.data = b.data := by
  unfold CacheBlock.cleaned
  cases hv : b.valid <;> cases hd : b.dirty <;> simp [hv, hd]

/-- C12: for a cache with a next level, `flushCache()` issues `next->write(getAddress(tag,
setIndex), data)` for every valid dirty block, in set and slot order, and leaves the cache with
those dirty flags cleared: afterwards no block is valid and dirty, and valid flags, tags and data
are as before. -/
theorem C12_flushCache_writes_back {σ : Type} (n : NextLevel σ) (c : Cache) (s : σ)
    (hsets : c.sets.length = c.numSets) :
    Cache.flushCache (some n) c s =
      (match n.writeAll s c.dirtyBlocks with
       | .ok s' => .ok (c.cleaned, s')
       | .error e => .error e) ∧
    (∀ si bi b, c.cleaned.blockAt si bi = some b → ¬ (b.valid = true ∧ b.dirty = true)) ∧
    (∀ si bi, (c.cleaned.blockAt si bi).map (fun b => (b.valid, b.tag, b.data)) =
      (c.blockAt si bi).map (fun b => (b.valid, b.tag, b.data))) := by
  refine ⟨Cache.flushLoop_eq n c s hsets, ?_, ?_⟩
  · intro si bi b hb
    rw [Cache.blockAt_cleaned] at hb
    cases h0 : c.blockAt si bi with
    | none => rw [h0] at hb; cases hb
    | some b0 =>
      rw [h0] at hb
      simp only [Option.map_some', Option.some.injEq] at hb
      subst hb
      exact (CacheBlock.cleaned_spec b0).1
  · intro si bi
    rw [Cache.blockAt_cleaned]
    cases h0 : c.blockAt si bi with
    | none => rfl
    | some b0 =>
      obtain ⟨_, h1, h2, h3⟩ := CacheBlock.cleaned_spec b0
      simp only [Option.map_some', h1, h2, h3]

theorem C12_flushCache_writes_back_witness :
    Cache.flushCache (some memorySystem) c12Cache sampleMemory =
      (match memorySystem.writeAll sampleMemory c12Cache.dirtyBlocks with
       | .ok s' => .ok (c12Cache.cleaned, s')
       | .error e => .error e) ∧
    (∀ si bi b, c12Cache.cleaned.blockAt si bi = some b → ¬ (b.valid = true ∧ b.dirty = true)) ∧
    (∀ si bi, (c12Cache.cleaned.blockAt si bi).map (fun b => (b.valid, b.tag, b.data)) =
      (c12Cache.blockAt si bi).map (fun b => (b.valid, b.tag, b.data))) :=
  C12_flushCache_writes_back memorySystem c12Cache sampleMemory (by decide)

theorem c12Cache_dirtyBlocks : c12Cache.dirtyBlocks = [(4, [4, 200, 201, 7])] := by decide


theorem Cache.write_within {σ : Type} {nl : Option (NextLevel σ)} {c : Cache} {s : σ}
    {a : Nat} {d : List Nat} {r : Int × Cache × σ} (h : Cache.write nl c s a d = .ok r) :
    d.length ≤ c.blockSize - c.getBlockOffset a := by
  unfold Cache.write at h
  simp only at h
  split at h
  · split at h
    · assumption
    · cases h
  · simp only [bind, Except.bind] at h
    split at h
    · cases h
    · split at h
      · cases h
      · split at h
        · cases h
        · split at h
          · assumption
          · cases h

theorem Cache.write_none_miss {σ : Type} {c : Cache} {s : σ} {a : Nat} {d : List Nat}
    (hf : c.findBlockInSet (c.getTag a) (c.getSetIndex a) = none) :
    Cache.write (none : Option (NextLevel σ)) c s a d = .error .noNextLevel := by
  unfold Cache.write
  simp only []
  split
  · rename_i bi hfind
    have h2 : c.findBlockInSet (c.getTag a) (c.getSetIndex a) = some bi := hfind
    rw [hf] at h2
    cases h2
  · rfl

/-- The block a returning `write` leaves behind: slot `bi` of the set of `a` holds the tag of
`a`, valid and dirty, with the written bytes at the offset of `a`. -/
theorem Cache.write_block {σ : Type} {nl : Option (NextLevel σ)} (hnl : NextLevel.ReadLen nl)
    {c : Cache} {s : σ} {a : Nat} {d : List Nat} {r : Int × Cache × σ}
    (h : Cache.write nl c s a d = .ok r) (hw : c.WF) :
    ∃ bi X, r.2.1.coreAt (c.getSetIndex a) bi =
        some (c.getTag a, true, true, storeBytes X (c.getBlockOffset a) d) ∧
      X.length = c.blockSize ∧ r.2.1.geom = c.geom ∧ r.1 = c.accessLatency := by
  have hn := Cache.write_within h
  cases hf : c.findBlockInSet (c.getTag a) (c.getSetIndex a) with
  | some bi =>
    obtain ⟨c', hc', hg, hcore, _⟩ := Cache.write_hit nl c s a bi d hf hn
    rw [hc'] at h
    cases h
    exact ⟨bi, _, hcore, Cache.getBlock_data_length_of_lt hw (Cache.findBlockInSet_lt hf), hg, rfl⟩
  | none =>
    cases nl with
    | none => rw [Cache.write_none_miss hf] at h; cases h
    | some nx =>
      obtain ⟨fetched, v, hrd, _, _, hlat, hg, _, hcore, _⟩ :=
        Cache.write_miss_result nx c s a d hw hf hn r h
      exact ⟨v.1, _, hcore, hnl nx rfl _ _ _ _ hrd, hg, hlat⟩

/-- Write then read on one cache: a read of the bytes just written, at the same address, is a
hit that returns them. -/
theorem Cache.write_then_read {σ : Type} {nl : Option (NextLevel σ)} (hnl : NextLevel.ReadLen nl)
    {c : Cache} {s : σ} {a : Nat} {d : List Nat} {r : Int × Cache × σ}
    (h : Cache.write nl c s a d = .ok r) (hw : c.WF) (hu : c.UniqueTags) :
    ∃ c'', Cache.read nl r.2.1 r.2.2 a d.length = .ok ((c.accessLatency, d), c'', r.2.2) := by
  have hn := Cache.write_within h
  obtain ⟨bi, X, hcore, hX, hg, _⟩ := Cache.write_block hnl h hw
  obtain ⟨ht, hs, ho⟩ := Cache.geom_addr hg a
  have hu' := Cache.write_uniqueTags h hu
  unfold Cache.coreAt at hcore
  cases hb : r.2.1.blockAt (c.getSetIndex a) bi with
  | none => rw [hb] at hcore; cases hcore
  | some b =>
    rw [hb] at hcore
    simp only [Option.map_some', Option.some.injEq, CacheBlock.core, Prod.mk.injEq] at hcore
    obtain ⟨htag, hval, _, hdata⟩ := hcore
    have hfind : r.2.1.findBlockInSet (r.2.1.getTag a) (r.2.1.getSetIndex a) = some bi := by
      rw [ht, hs]
      exact Cache.findBlockInSet_of_unique hu' hb hval htag
    have hn' : d.length ≤ r.2.1.blockSize - r.2.1.getBlockOffset a := by
      rw [Cache.geom_blockSize hg, ho]; exact hn
    obtain ⟨c'', hread, _⟩ := Cache.read_hit nl r.2.1 r.2.2 a d.length bi hfind hn'
    refine ⟨c'', ?_⟩
    have hol := Cache.getBlockOffset_lt hw a
    have hfit : c.getBlockOffset a + d.length ≤ X.length := by rw [hX]; omega
    rw [hread, hs, ho, Cache.getBlock_of_blockAt hb, hdata, Cache.geom_accessLatency hg,
      sliceBytes_storeBytes _ _ _ hfit]

theorem l2System_write_spec {s : Cache × MainMemory} {a : Nat} {d : List Nat}
    {w : Int × Cache × MainMemory} (h : l2System.write s a d = .ok w)
    (hw : s.1.WF) (hu : s.1.UniqueTags) :
    w.2.1.WF ∧ w.2.1.UniqueTags ∧ w.2.1.geom = s.1.geom ∧
    ∃ c'', l2System.read w.2 a d.length = .ok ((s.1.accessLatency, d), (c'', w.2.2)) := by
  simp only [l2System, bind, Except.bind, pure, Except.pure] at h
  cases hr : Cache.write (some memorySystem) s.1 s.2 a d with
  | error e => rw [hr] at h; cases h
  | ok r =>
    rw [hr] at h
    cases h
    obtain ⟨_, _, _, _, hg, _⟩ := Cache.write_block memorySystem_readLen hr hw
    obtain ⟨c'', hread⟩ := Cache.write_then_read memorySystem_readLen hr hw hu
    refine ⟨Cache.write_wf memorySystem_readLen hr hw, Cache.write_uniqueTags hr hu, hg, c'', ?_⟩
    simp only [l2System, bind, Except.bind, pure, Except.pure]
    rw [hread]

theorem l2System_writeAll_inv (ws : List (Nat × List Nat)) :
    ∀ (s s' : Cache × MainMemory), l2System.writeAll s ws = .ok s' → s.1.WF → s.1.UniqueTags →
      s'.1.WF ∧ s'.1.UniqueTags ∧ s'.1.geom = s.1.geom := by
  induction ws with
  | nil =>
    intro s s' h hw hu
    cases h
    exact ⟨hw, hu, rfl⟩
  | cons w ws ih =>
    intro s s' h hw hu
    rw [NextLevel.writeAll_cons] at h
    cases hr : l2System.write s w.1 w.2 with
    | error e => rw [hr] at h; cases h
    | ok r =>
      rw [hr] at h
      obtain ⟨h1, h2, h3, _⟩ := l2System_write_spec hr hw hu
      obtain ⟨g1, g2, g3⟩ := ih r.2 s' h h1 h2
      exact ⟨g1, g2, g3.trans h3⟩

/-- Right after the write-back of a block, a read of its address issued to L2 is a hit that
returns the bytes written back. -/
theorem l2System_writeAll_last (ws : List (Nat × List Nat)) (a : Nat) (d : List Nat)
    (s s1 : Cache × MainMemory) (h : l2System.writeAll s (ws ++ [(a, d)]) = .ok s1)
    (hw : s.1.WF) (hu : s.1.UniqueTags) :
    ∃ c'', l2System.read s1 a d.length = .ok ((s.1.accessLatency, d), (c'', s1.2)) := by
  rw [NextLevel.writeAll_append] at h
  cases h0 : l2System.writeAll s ws with
  | error e => rw [h0] at h; cases h
  | ok s0 =>
    rw [h0] at h
    simp only [] at h
    obtain ⟨g1, g2, g3⟩ := l2System_writeAll_inv ws s s0 h0 hw hu
    rw [NextLevel.writeAll_cons] at h
    cases hr : l2System.write s0 a d with
    | error e => rw [hr] at h; cases h
    | ok r =>
      rw [hr] at h
      cases h
      obtain ⟨_, _, _, c'', hread⟩ := l2System_write_spec hr g1 g2
      exact ⟨c'', by rw [hread, Cache.geom_accessLatency g3]⟩

/-- On the sample hierarchy the flush returns, and the L2 read of the block written back
returns its four bytes. -/
theorem c13Hierarchy_flush :
    (c13Hierarchy.flushL1D 0).map (fun h' =>
      (l2System.read (h'.l2Cache, h'.mainMemory) 4 4).map (fun r => r.1.2)) =
      .ok (.ok [4, 200, 201, 7]) := by decide!


theorem length_checkedStore (d : List Nat) : ∀ (mem : List Nat) (a : Nat),
    (checkedStore mem a d).length = mem.length := by
  induction d with
  | nil => intro mem a; rfl
  | cons x ds ih =>
    intro mem a
    rw [checkedStore, ih]
    split
    · exact List.length_set _ _ _
    · rfl

/-- The bytes after the loop of `MainMemory::write`: positions of the written range that lie
inside the vector hold the new bytes, all others are as before. -/
theorem getD_checkedStore (d : List Nat) : ∀ (mem : List Nat) (a i x : Nat),
    (checkedStore mem a d).getD i x =
      if a ≤ i ∧ i < a + d.length ∧ i < mem.length then d.getD (i - a) x else mem.getD i x := by
  induction d with
  | nil =>
    intro mem a i x
    rw [checkedStore, if_neg]
    simp only [List.length_nil, Nat.add_zero]
    omega
  | cons y ds ih =>
    intro mem a i x
    rw [checkedStore, ih]
    have hlen : (if a < mem.length then mem.set a y else mem).length = mem.length := by
      split
      · exact List.length_set _ _ _
      · rfl
    rw [hlen]
    by_cases hia : i = a
    · subst hia
      rw [if_neg (by omega)]
      by_cases hl : i < mem.length
      · rw [if_pos hl, if_pos ⟨le_refl _, by simp, hl⟩, getD_set_self _ _ _ _ hl]
        simp
      · rw [if_neg hl, if_neg (by omega)]
    · have hm : (if a < mem.length then mem.set a y else mem).getD i x = mem.getD i x := by
        split
        · exact getD_set_ne _ _ _ _ _ (Ne.symm hia)
        · rfl
      rw [hm]
      by_cases hc : a + 1 ≤ i ∧ i < a + 1 + ds.length ∧ i < mem.length
      · rw [if_pos hc, if_pos ⟨by omega, by simp only [List.length_cons]; omega, hc.2.2⟩]
        have : i - a = (i - (a + 1)) + 1 := by omega
        rw [this, List.getD_cons_succ]
      · rw [if_neg hc, if_neg]
        simp only [List.length_cons]
        omega

theorem sliceBytes_checkedStore (mem d : List Nat) (a : Nat) (h : a + d.length ≤ mem.length) :
    sliceBytes (checkedStore mem a d) a d.length = d := by
  apply List.ext_getElem
  · simp [sliceBytes]
  · intro i h1 h2
    simp only [sliceBytes, List.length_map, List.length_range] at h1
    simp only [sliceBytes, List.getElem_map, List.getElem_range]
    rw [getD_checkedStore, if_pos ⟨by omega, by omega, by omega⟩]
    simp [List.getD_eq_getElem?_getD, h1]

theorem MainMemory.write_frame (m : MainMemory) (a : Nat) (d : List Nat) (i : Nat)
    (h : i < a ∨ a + d.length ≤ i) :
    (m.write a d).2.memory.getD i 0 = m.memory.getD i 0 := by
  show (checkedStore m.memory a d).getD i 0 = _
  rw [getD_checkedStore, if_neg (by omega)]

theorem MainMemory.write_slice (m : MainMemory) (a : Nat) (d : List Nat)
    (h : a + d.length ≤ m.memory.length) :
    sliceBytes (m.write a d).2.memory a d.length = d :=
  sliceBytes_checkedStore _ _ _ h

/-- The address rebuilt from the tag and set index of `a` is the base of the block of `a`. -/
theorem Cache.getAddress_getTag (c : Cache) (a : Nat) (ha : a < 2 ^ 32) :
    c.getAddress (c.getTag a) (c.getSetIndex a) = a - a % 2 ^ c.blockOffsetBits := by
  have hB : 0 < 2 ^ c.blockOffsetBits := by positivity
  have hS : 0 < 2 ^ c.setIndexBits := by positivity
  have hsi : (a / 2 ^ c.blockOffsetBits) % 2 ^ c.setIndexBits * 2 ^ c.blockOffsetBits <
      2 ^ (c.blockOffsetBits + c.setIndexBits) := by
    rw [pow_add, Nat.mul_comm]
    exact Nat.mul_lt_mul_of_pos_left (Nat.mod_lt _ hS) hB
  have hsum : a / (2 ^ c.blockOffsetBits * 2 ^ c.setIndexBits) *
        2 ^ (c.blockOffsetBits + c.setIndexBits) +
      (a / 2 ^ c.blockOffsetBits) % 2 ^ c.setIndexBits * 2 ^ c.blockOffsetBits =
      a - a % 2 ^ c.blockOffsetBits := by
    have h1 := Nat.div_add_mod (a / 2 ^ c.blockOffsetBits) (2 ^ c.setIndexBits)
    have h2 := Nat.div_add_mod a (2 ^ c.blockOffsetBits)
    rw [← Nat.div_div_eq_div_mul, pow_add]
    have h3 : a - a % 2 ^ c.blockOffsetBits = 2 ^ c.blockOffsetBits * (a / 2 ^ c.blockOffsetBits) := by
      omega
    rw [h3]
    nth_rewrite 3 [← h1]
    ring
  have hle : a - a % 2 ^ c.blockOffsetBits < 2 ^ 32 := by omega
  unfold Cache.getAddress
  rw [getTag_eq, getSetIndex_eq, Nat.shiftLeft_eq, Nat.shiftLeft_eq,
    Nat.mod_eq_of_lt (by omega), Nat.mod_eq_of_lt (by omega), ← hsum,
    Nat.mul_comm (a / _) (2 ^ (c.blockOffsetBits + c.setIndexBits)),
    Nat.mul_add_lt_is_or hsi]

theorem MainMemory.length_read (m : MainMemory) (a n : Nat) : (m.read a n).2.length = n := by
  simp [MainMemory.read]

/-- The write-back of a valid dirty victim to main memory, for a power-of-two block size:
exactly the victim's bytes are written at the address rebuilt from its tag and set index. -/
theorem Cache.writeBackVictim_memory (c : Cache) (hw : c.WF)
    (hp : c.blockSize = 2 ^ c.blockOffsetBits) (m : MainMemory) (si : Nat) (b : CacheBlock)
    (hv : b.valid = true) (hd : b.dirty = true) (hlen : b.data.length = c.blockSize) :
    c.writeBackVictim (some memorySystem) m si b =
      .ok (m.write (c.getAddress b.tag si) b.data).2 := by
  have hob : c.blockOffsetBits ≤ 32 := by have := Cache.blockOffsetBits_lt hw; omega
  obtain ⟨ha, hal⟩ := Cache.getAddress_aligned c hob b.tag si
  unfold Cache.writeBackVictim
  rw [hv, hd]
  simp only [Bool.and_self, if_true]
  rw [Cache.writeToNextLevel_aligned memorySystem c hp hob _ ha hal b.data hlen m
    (m.read (c.getAddress b.tag si) c.blockSize, m) rfl (MainMemory.length_read _ _ _)]
  rfl

theorem Cache.read_within {σ : Type} {nl : Option (NextLevel σ)} {c : Cache} {s : σ}
    {a n : Nat} {r : (Int × List Nat) × Cache × σ} (h : Cache.read nl c s a n = .ok r) :
    n ≤ c.blockSize - c.getBlockOffset a := by
  unfold Cache.read at h
  simp only at h
  split at h
  · split at h
    · assumption
    · cases h
  · simp only [bind, Except.bind] at h
    split at h
    · cases h
    · split at h
      · cases h
      · split at h
        · cases h
        · split at h
          · assumption
          · cases h

/-- The contents of the cache and of the level below after a `read` miss that returned. -/
theorem Cache.read_miss_result {σ : Type} (nx : NextLevel σ) (c : Cache) (s : σ) (a n : Nat)
    (hw : c.WF) (hf : c.findBlockInSet (c.getTag a) (c.getSetIndex a) = none)
    (r : (Int × List Nat) × Cache × σ) (h : Cache.read (some nx) c s a n = .ok r) :
    ∃ fetched v,
      nx.read s (a &&& not32 ((1 <<< c.blockOffsetBits) - 1)) c.blockSize = .ok fetched ∧
      Cache.selectVictim { c with accesses := c.accesses + 1, misses := c.misses + 1 }
        (c.getSetIndex a) = .ok v ∧
      c.writeBackVictim (some nx) fetched.2 (c.getSetIndex a)
        (c.getBlock (c.getSetIndex a) v.1) = .ok r.2.2 ∧
      r.2.1.geom = c.geom ∧
      (c.coreAt (c.getSetIndex a) v.1).isSome ∧
      r.2.1.coreAt (c.getSetIndex a) v.1 = some (c.getTag a, true, false, fetched.1.2) ∧
      (∀ si' bi', ¬ (si' = c.getSetIndex a ∧ bi' = v.1) →
        r.2.1.coreAt si' bi' = c.coreAt si' bi') := by
  rw [Cache.read_miss (some nx) c s a n hf (Cache.read_within h)] at h
  simp only [bind, Except.bind, pure, Except.pure] at h
  split at h
  · cases h
  · rename_i fetched hrd
    split at h
    · cases h
    · rename_i v hv
      split at h
      · cases h
      · rename_i s2 hs2
        cases h
        obtain ⟨hg, hcore, _⟩ := Cache.selectVictim_spec hv
        have hlt : v.1 < (c.getSet (c.getSetIndex a)).blocks.length :=
          Cache.selectVictim_lt (c := { c with accesses := c.accesses + 1, misses := c.misses + 1 })
            hw (Cache.getSetIndex_lt hw a) hv
        have hsome : (c.coreAt (c.getSetIndex a) v.1).isSome := Cache.coreAt_isSome hlt
        have hsome' : (v.2.coreAt (c.getSetIndex a) v.1).isSome := by rw [hcore]; exact hsome
        refine ⟨fetched, v, hrd, hv, hs2, ?_, hsome, ?_, ?_⟩
        · rw [Cache.geom_updateReplacementInfo, Cache.geom_setBlock]; exact hg
        · rw [Cache.coreAt_updateReplacementInfo, Cache.coreAt_setBlock,
            if_pos ⟨rfl, rfl, hsome'⟩]
          rfl
        · intro si' bi' hne
          rw [Cache.coreAt_updateReplacementInfo, Cache.coreAt_setBlock,
            if_neg (fun h => hne ⟨h.1, h.2.1⟩), hcore]
          rfl

theorem Cache.blockAt_of_coreAt {c : Cache} {si bi : Nat} {x : Nat × Bool × Bool × List Nat}
    (h : c.coreAt si bi = some x) : ∃ b, c.blockAt si bi = some b ∧ b.core = x := by
  unfold Cache.coreAt at h
  cases hb : c.blockAt si bi with
  | none => rw [hb] at h; cases h
  | some b =>
    rw [hb] at h
    simp only [Option.map_some', Option.some.injEq] at h
    exact ⟨b, rfl, h⟩

theorem Cache.found_of_coreAt {c : Cache} (hu : c.UniqueTags) {si bi t : Nat} {dr : Bool}
    {D : List Nat} (h : c.coreAt si bi = some (t, true, dr, D)) :
    c.findBlockInSet t si = some bi := by
  obtain ⟨b, hb, hcore⟩ := Cache.blockAt_of_coreAt h
  simp only [CacheBlock.core, Prod.mk.injEq] at hcore
  exact Cache.findBlockInSet_of_unique hu hb hcore.2.1 hcore.1

/-- A `read` after which a block that was valid and dirty is no longer found has written
exactly that block's bytes to main memory, at the address rebuilt from its tag and set index. -/
theorem Cache.read_evicts (c : Cache) (m : MainMemory) (hw : c.WF) (hu : c.UniqueTags)
    (hp : c.blockSize = 2 ^ c.blockOffsetBits) (si bi t : Nat) (D : List Nat)
    (hblk : c.coreAt si bi = some (t, true, true, D)) (a2 n2 : Nat)
    (r : (Int × List Nat) × Cache × MainMemory)
    (h : Cache.read (some memorySystem) c m a2 n2 = .ok r)
    (hgone : r.2.1.findBlockInSet t si = none) :
    r.2.2 = (m.write (c.getAddress t si) D).2 ∧ D.length = c.blockSize := by
  have hu' := Cache.read_uniqueTags h hu
  obtain ⟨b, hb, hcore⟩ := Cache.blockAt_of_coreAt hblk
  simp only [CacheBlock.core, Prod.mk.injEq] at hcore
  obtain ⟨htag, hval, hdirty, hdata⟩ := hcore
  have hlen : b.data.length = c.blockSize := Cache.getBlock_data_length hw hb
  cases hf : c.findBlockInSet (c.getTag a2) (c.getSetIndex a2) with
  | some bi2 =>
    obtain ⟨c', hc', _, hsame, _⟩ := Cache.read_hit (some memorySystem) c m a2 n2 bi2 hf
      (Cache.read_within h)
    rw [hc'] at h
    cases h
    have := Cache.found_of_coreAt hu' ((hsame si bi).trans hblk)
    rw [this] at hgone
    cases hgone
  | none =>
    obtain ⟨fetched, v, hrd, _, hs2, _, _, _, hframe⟩ :=
      Cache.read_miss_result memorySystem c m a2 n2 hw hf r h
    by_cases hne : si = c.getSetIndex a2 ∧ bi = v.1
    · obtain ⟨hsi, hbi⟩ := hne
      have hfm : fetched.2 = m := by
        simp only [memorySystem] at hrd
        cases hrd
        rfl
      rw [← hsi, ← hbi, Cache.getBlock_of_blockAt hb, hfm,
        Cache.writeBackVictim_memory c hw hp m si b hval hdirty hlen] at hs2
      have hs3 := (Except.ok.inj hs2).symm
      rw [htag, hdata] at hs3
      exact ⟨hs3, by rw [← hdata]; exact hlen⟩
    · have := Cache.found_of_coreAt hu' ((hframe si bi hne).trans hblk)
      rw [this] at hgone
      cases hgone

/-- A `write` after which a block that was valid and dirty is no longer found has written
exactly that block's bytes to main memory, at the address rebuilt from its tag and set index. -/
theorem Cache.write_evicts (c : Cache) (m : MainMemory) (hw : c.WF) (hu : c.UniqueTags)
    (hp : c.blockSize = 2 ^ c.blockOffsetBits) (si bi t : Nat) (D : List Nat)
    (hblk : c.coreAt si bi = some (t, true, true, D)) (a2 : Nat) (d2 : List Nat)
    (r : Int × Cache × MainMemory)
    (h : Cache.write (some memorySystem) c m a2 d2 = .ok r)
    (hgone : r.2.1.findBlockInSet t si = none) :
    r.2.2 = (m.write (c.getAddress t si) D).2 ∧ D.length = c.blockSize := by
  have hu' := Cache.write_uniqueTags h hu
  obtain ⟨b, hb, hcore⟩ := Cache.blockAt_of_coreAt hblk
  simp only [CacheBlock.core, Prod.mk.injEq] at hcore
  obtain ⟨htag, hval, hdirty, hdata⟩ := hcore
  have hlen : b.data.length = c.blockSize := Cache.getBlock_data_length hw hb
  cases hf : c.findBlockInSet (c.getTag a2) (c.getSetIndex a2) with
  | some bi2 =>
    obtain ⟨c', hc', _, hnew, hframe, _⟩ := Cache.write_hit (some memorySystem) c m a2 bi2 d2 hf
      (Cache.write_within h)
    rw [hc'] at h
    cases h
    by_cases hne : si = c.getSetIndex a2 ∧ bi = bi2
    · obtain ⟨hsi, hbi⟩ := hne
      obtain ⟨b2, hb2, hv2, ht2⟩ := Cache.findBlockInSet_some hf
      rw [← hsi, ← hbi, hb] at hb2
      cases hb2
      rw [← hsi, ← hbi, ← ht2, htag] at hnew
      have := Cache.found_of_coreAt hu' hnew
      rw [this] at hgone
      cases hgone
    · have := Cache.found_of_coreAt hu' ((hframe si bi hne).trans hblk)
      rw [this] at hgone
      cases hgone
  | none =>
    obtain ⟨fetched, v, hrd, _, hs2, _, _, _, _, hframe⟩ :=
      Cache.write_miss_result memorySystem c m a2 d2 hw hf (Cache.write_within h) r h
    by_cases hne : si = c.getSetIndex a2 ∧ bi = v.1
    · obtain ⟨hsi, hbi⟩ := hne
      have hfm : fetched.2 = m := by
        simp only [memorySystem] at hrd
        cases hrd
        rfl
      rw [← hsi, ← hbi, Cache.getBlock_of_blockAt hb, hfm,
        Cache.writeBackVictim_memory c hw hp m si b hval hdirty hlen] at hs2
      have hs3 := (Except.ok.inj hs2).symm
      rw [htag, hdata] at hs3
      exact ⟨hs3, by rw [← hdata]; exact hlen⟩
    · have := Cache.found_of_coreAt hu' ((hframe si bi hne).trans hblk)
      rw [this] at hgone
      cases hgone

theorem Cache.geom_blockOffsetBits {c c' : Cache} (h : c'.geom = c.geom) :
    c'.blockOffsetBits = c.blockOffsetBits := by
  simp only [Cache.geom, Prod.mk.injEq] at h
  exact h.2.2.2.2.2.2.2.1

theorem Cache.eviction_writes_back (c : Cache) (m : MainMemory) (hw : c.WF) (hu : c.UniqueTags)
    (hp : c.blockSize = 2 ^ c.blockOffsetBits) (si bi t : Nat) (D : List Nat)
    (hblk : c.coreAt si bi = some (t, true, true, D))
    (hin : c.getAddress t si + c.blockSize ≤ m.memory.length) :
    c.EvictionWritesBack m si t D := by
  constructor
  · intro a2 n2 r h hgone
    obtain ⟨hm, hlen⟩ := Cache.read_evicts c m hw hu hp si bi t D hblk a2 n2 r h hgone
    rw [hm, ← hlen]
    exact ⟨MainMemory.write_slice m _ D (by rw [hlen]; exact hin),
      fun i hi => MainMemory.write_frame m _ D i hi⟩
  · intro a2 d2 r h hgone
    obtain ⟨hm, hlen⟩ := Cache.write_evicts c m hw hu hp si bi t D hblk a2 d2 r h hgone
    rw [hm, ← hlen]
    exact ⟨MainMemory.write_slice m _ D (by rw [hlen]; exact hin),
      fun i hi => MainMemory.write_frame m _ D i hi⟩

/-- C11, on the code: with 3-byte blocks the block read at address 6 ends as `[6, 99, 8]`
after the write of 99 at address 7, and after its eviction main memory still holds `[6, 7, 8]`
at address 6. -/
theorem C11_dirty_byte_lost_on_eviction :
    c11Scenario = .ok ([6, 99, 8], false, [6, 7, 8]) := by decide

/-- Write-back on eviction, for a well-formed cache over main memory whose block size is a
power of two,
and a block present in slot `bi` of its set. A write within the block is a hit that leaves main
memory alone and the block valid and dirty with the written bytes at the offset and all other
bytes as before. In every later state of that cache that still holds the block dirty with bytes
`D`, with the block inside main memory, an access after which the block is gone has left `D` in
main memory at the block's base address `a - offset`, and no byte outside the block changed. -/
theorem Cache.evicted_block_written_back (c : Cache) (m : MainMemory) (hw : c.WF)
    (hu : c.UniqueTags) (hp : c.blockSize = 2 ^ c.blockOffsetBits) (a : Nat) (ha : a < 2 ^ 32)
    (bi : Nat) (d : List Nat)
    (hfind : c.findBlockInSet (c.getTag a) (c.getSetIndex a) = some bi)
    (hd : d.length ≤ c.blockSize - c.getBlockOffset a) :
    c.getAddress (c.getTag a) (c.getSetIndex a) = a - c.getBlockOffset a ∧
    ∃ c1, Cache.write (some memorySystem) c m a d = .ok (c.accessLatency, c1, m) ∧
      c1.coreAt (c.getSetIndex a) bi = some (c.getTag a, true, true,
        storeBytes (c.getBlock (c.getSetIndex a) bi).data (c.getBlockOffset a) d) ∧
      c1.WF ∧ c1.UniqueTags ∧ c1.blockSize = 2 ^ c1.blockOffsetBits ∧
      ∀ (c2 : Cache) (m2 : MainMemory) (D : List Nat), c2.WF → c2.UniqueTags →
        c2.blockSize = 2 ^ c2.blockOffsetBits →
        c2.coreAt (c.getSetIndex a) bi = some (c.getTag a, true, true, D) →
        c2.getAddress (c.getTag a) (c.getSetIndex a) + c2.blockSize ≤ m2.memory.length →
        c2.EvictionWritesBack m2 (c.getSetIndex a) (c.getTag a) D := by
  refine ⟨?_, ?_⟩
  · rw [Cache.getAddress_getTag c a ha, getBlockOffset_eq]
  · obtain ⟨c1, hc1, hg, hcore, _⟩ := Cache.write_hit (some memorySystem) c m a bi d hfind hd
    refine ⟨c1, hc1, hcore, Cache.write_wf memorySystem_readLen hc1 hw,
      Cache.write_uniqueTags hc1 hu, ?_, ?_⟩
    · rw [Cache.geom_blockSize hg, Cache.geom_blockOffsetBits hg]; exact hp
    · intro c2 m2 D hw2 hu2 hp2 hblk hin
      exact Cache.eviction_writes_back c2 m2 hw2 hu2 hp2 _ bi _ D hblk hin

/-- With 4-byte blocks the evicted block `[4, 200, 201, 7]` is in main memory at address 4 and
every other byte is unchanged. -/
theorem c11Eviction_ok :
    c11Eviction = .ok ([4, 200, 201, 7],
      [0, 1, 2, 3, 4, 200, 201, 7, 8, 9, 10, 11, 12, 13, 14, 15]) := by decide


@[simp] theorem PipelinedCore.untraced_recordStage (c : PipelinedCore) (i : Int) (s : String) :
    (c.recordStageForInstruction i s).untraced = c.untraced := by
  unfold PipelinedCore.recordStageForInstruction PipelinedCore.untraced
  split <;> rfl

theorem PipelinedCore.recordStage_fields (c : PipelinedCore) (i : Int) (s : String) :
    (c.recordStageForInstruction i s).regs = c.regs ∧
    (c.recordStageForInstruction i s).pc = c.pc ∧
    (c.recordStageForInstruction i s).fetchQueue = c.fetchQueue ∧
    (c.recordStageForInstruction i s).decodeQueue = c.decodeQueue ∧
    (c.recordStageForInstruction i s).executeQueue = c.executeQueue ∧
    (c.recordStageForInstruction i s).memoryQueue = c.memoryQueue ∧
    (c.recordStageForInstruction i s).writebackQueue = c.writebackQueue ∧
    (c.recordStageForInstruction i s).instructionCount = c.instructionCount ∧
    (c.recordStageForInstruction i s).halted = c.halted ∧
    (c.recordStageForInstruction i s).fetchCounter = c.fetchCounter ∧
    (c.recordStageForInstruction i s).labels = c.labels ∧
    (c.recordStageForInstruction i s).cycleStallOccurred = c.cycleStallOccurred ∧
    (c.recordStageForInstruction i s).stallCount = c.stallCount ∧
    (c.recordStageForInstruction i s).instructionLatencies = c.instructionLatencies ∧
    (c.recordStageForInstruction i s).memoryStallCycles = c.memoryStallCycles := by
  unfold PipelinedCore.recordStageForInstruction
  split <;> exact ⟨rfl, rfl, rfl, rfl, rfl, rfl, rfl, rfl, rfl, rfl, rfl, rfl, rfl, rfl, rfl⟩

@[simp] theorem PipelinedCore.regs_recordStage (c : PipelinedCore) (i : Int) (s : String) :
    (c.recordStageForInstruction i s).regs = c.regs := (c.recordStage_fields i s).1

@[simp] theorem PipelinedCore.pc_recordStage (c : PipelinedCore) (i : Int) (s : String) :
    (c.recordStageForInstruction i s).pc = c.pc := (c.recordStage_fields i s).2.1

@[simp] theorem PipelinedCore.fetchQueue_recordStage (c : PipelinedCore) (i : Int) (s : String) :
    (c.recordStageForInstruction i s).fetchQueue = c.fetchQueue := (c.recordStage_fields i s).2.2.1

@[simp] theorem PipelinedCore.decodeQueue_recordStage (c : PipelinedCore) (i : Int)
    (s : String) : (c.recordStageForInstruction i s).decodeQueue = c.decodeQueue :=
  (c.recordStage_fields i s).2.2.2.1

@[simp] theorem PipelinedCore.executeQueue_recordStage (c : PipelinedCore) (i : Int)
    (s : String) : (c.recordStageForInstruction i s).executeQueue = c.executeQueue :=
  (c.recordStage_fields i s).2.2.2.2.1

@[simp] theorem PipelinedCore.memoryQueue_recordStage (c : PipelinedCore) (i : Int)
    (s : String) : (c.recordStageForInstruction i s).memoryQueue = c.memoryQueue :=
  (c.recordStage_fields i s).2.2.2.2.2.1

@[simp] theorem PipelinedCore.writebackQueue_recordStage (c : PipelinedCore) (i : Int)
    (s : String) : (c.recordStageForInstruction i s).writebackQueue = c.writebackQueue :=
  (c.recordStage_fields i s).2.2.2.2.2.2.1

@[simp] theorem PipelinedCore.instructionCount_recordStage (c : PipelinedCore) (i : Int)
    (s : String) : (c.recordStageForInstruction i s).instructionCount = c.instructionCount :=
  (c.recordStage_fields i s).2.2.2.2.2.2.2.1

@[simp] theorem PipelinedCore.halted_recordStage (c : PipelinedCore) (i : Int) (s : String) :
    (c.recordStageForInstruction i s).halted = c.halted :=
  (c.recordStage_fields i s).2.2.2.2.2.2.2.2.1

@[simp] theorem PipelinedCore.fetchCounter_recordStage (c : PipelinedCore) (i : Int)
    (s : String) : (c.recordStageForInstruction i s).fetchCounter = c.fetchCounter :=
  (c.recordStage_fields i s).2.2.2.2.2.2.2.2.2.1

@[simp] theorem PipelinedCore.labels_recordStage (c : PipelinedCore) (i : Int) (s : String) :
    (c.recordStageForInstruction i s).labels = c.labels :=
  (c.recordStage_fields i s).2.2.2.2.2.2.2.2.2.2.1

@[simp] theorem PipelinedCore.stalled_recordStage (c : PipelinedCore) (i : Int) (s : String) :
    (c.recordStageForInstruction i s).cycleStallOccurred = c.cycleStallOccurred :=
  (c.recordStage_fields i s).2.2.2.2.2.2.2.2.2.2.2.1

@[simp] theorem PipelinedCore.stallCount_recordStage (c : PipelinedCore) (i : Int)
    (s : String) : (c.recordStageForInstruction i s).stallCount = c.stallCount :=
  (c.recordStage_fields i s).2.2.2.2.2.2.2.2.2.2.2.2.1

@[simp] theorem PipelinedCore.counts_recordStage (c : PipelinedCore) (i : Int) (s : String) :
    (c.recordStageForInstruction i s).counts = c.counts := by
  simp [PipelinedCore.counts]

@[simp] theorem PipelinedCore.counts_stall (c : PipelinedCore) (i : Int) :
    (c.stall i).counts = c.counts := by
  simp [PipelinedCore.counts, PipelinedCore.stall]

@[simp] theorem PipelinedCore.counts_pushMemory (c : PipelinedCore) (i : Instruction) :
    (c.pushMemory i).counts = c.counts := rfl

@[simp] theorem PipelinedCore.counts_flushYounger (c : PipelinedCore) :
    c.flushYounger.counts = c.counts := rfl

@[simp] theorem PipelinedCore.counts_finishExecute (c : PipelinedCore) (i : Instruction) :
    (c.finishExecute i).counts = c.counts := by
  unfold PipelinedCore.finishExecute
  split <;> simp

@[simp] theorem PipelinedCore.counts_finishMemory (c : PipelinedCore) (i : Instruction) :
    (c.finishMemory i).counts = c.counts := by
  unfold PipelinedCore.finishMemory
  split
  · simp [PipelinedCore.counts, PipelinedCore.stall]
  · simp [PipelinedCore.counts]

@[simp] theorem PipelinedCore.counts_waitForMemory (c : PipelinedCore) (i : Instruction)
    (l : Int) (b : Bool) : (c.waitForMemory i l b).counts = c.counts := by
  simp [PipelinedCore.counts, PipelinedCore.waitForMemory]

theorem Except.map_ok {ε α β : Type} {f : α → β} {x : Except ε α} {b : β}
    (h : x.map f = .ok b) : ∃ a, x = .ok a ∧ f a = b := by
  cases x with
  | error e => cases h
  | ok a => exact ⟨a, rfl, Except.ok.inj h⟩

/-- C18, on the code: after five iterations of the cycle loop on
`lw x1, 0(x0); bne x0, x0, L; bne x0, x0, L; halt` the memory queue of the core holds three
instructions. -/
theorem C18_memoryQueue_exceeds_two : c18Scenario 5 = .ok [0, 0, 0, 3, 0] := by decide!

/-- C17, on the code: after five iterations of the cycle loop on two cores running
`sync; sync; addi x1, x0, 1; halt`, core 1 is marked retired and not marked arrived. -/
theorem C17_retired_without_arrival :
    c17Scenario 5 = .ok ([false, false], [false, true]) := by decide!


theorem PipelinedCore.clockCycle_halted {c : PipelinedCore} (sh : Shared) (h : c.halted = true) :
    c.clockCycle sh = .ok (c, sh) := by
  unfold PipelinedCore.clockCycle
  rw [if_pos h]

theorem fetchForCore_halted (program : List String) {c : PipelinedCore} (sh : Shared)
    (h : c.halted = true) : fetchForCore program c sh = .ok (c, sh) := by
  unfold fetchForCore
  rw [if_pos h]

theorem centralizedFetch_halted (program : List String) {c : PipelinedCore}
    (h : c.halted = true) (post : List PipelinedCore) :
    ∀ (pre : List PipelinedCore) (sh : Shared) (r : List PipelinedCore × Shared),
      centralizedFetch program (pre ++ c :: post) sh = .ok r → r.1[pre.length]? = some c := by
  intro pre
  induction pre with
  | nil =>
    intro sh r hr
    simp only [List.nil_append, centralizedFetch, fetchForCore_halted program sh h, bind,
      Except.bind, pure, Except.pure] at hr
    split at hr
    · cases hr
    · cases hr; simp
  | cons p ps ih =>
    intro sh r hr
    simp only [List.cons_append, centralizedFetch, bind, Except.bind, pure, Except.pure] at hr
    split at hr
    · cases hr
    · rename_i r1 h1
      split at hr
      · cases hr
      · rename_i r2 h2
        cases hr
        simpa using ih _ _ h2

theorem clockCores_halted {c : PipelinedCore} (h : c.halted = true) (post : List PipelinedCore) :
    ∀ (pre : List PipelinedCore) (done : List Bool) (sh : Shared)
      (r : List PipelinedCore × List Bool × Shared × Bool),
      clockCores (pre ++ c :: post) done sh = .ok r → r.1[pre.length]? = some c := by
  intro pre
  induction pre with
  | nil =>
    intro done sh r hr
    cases done with
    | nil => simp only [List.nil_append, clockCores] at hr; cases hr; simp
    | cons d ds =>
      simp only [List.nil_append, clockCores, PipelinedCore.clockCycle_halted _ h, bind,
        Except.bind, pure, Except.pure] at hr
      split at hr
      · split at hr
        · cases hr
        · cases hr; simp
      · split at hr
        · cases hr
        · split at hr <;> cases hr <;> simp
  | cons p ps ih =>
    intro done sh r hr
    cases done with
    | nil =>
      simp only [List.cons_append, clockCores] at hr
      cases hr
      show (p :: (ps ++ c :: post))[(p :: ps).length]? = some c
      rw [List.length_cons, List.getElem?_cons_succ, List.getElem?_append_right (le_refl _)]
      simp
    | cons d ds =>
      simp only [List.cons_append, clockCores, bind, Except.bind, pure, Except.pure] at hr
      split at hr
      · split at hr
        · cases hr
        · rename_i r2 h2
          cases hr
          simpa using ih _ _ _ h2
      · split at hr
        · cases hr
        · split at hr
          · cases hr
          · rename_i r2 h2
            split at hr <;> cases hr <;> simpa using ih _ _ _ h2

/-- C20: `clockCycle` and the fetch step of `centralizedFetch` return a halted core and the
shared objects unchanged, so that a halted core keeps its queues, pc, fetchCounter, registers,
cycleCount and instructionCount; within the list of cores, `centralizedFetch` and the loop
over the cores of the simulator leave the halted core at its position as it is. -/
theorem C20_halted_core_unchanged (program : List String) (c : PipelinedCore) (sh : Shared)
    (h : c.halted = true) :
    c.clockCycle sh = .ok (c, sh) ∧ fetchForCore program c sh = .ok (c, sh) ∧
    (∀ (pre post : List PipelinedCore) (sh0 : Shared) (r : List PipelinedCore × Shared),
      centralizedFetch program (pre ++ c :: post) sh0 = .ok r → r.1[pre.length]? = some c) ∧
    (∀ (pre post : List PipelinedCore) (done : List Bool) (sh0 : Shared)
      (r : List PipelinedCore × List Bool × Shared × Bool),
      clockCores (pre ++ c :: post) done sh0 = .ok r → r.1[pre.length]? = some c) :=
  ⟨PipelinedCore.clockCycle_halted sh h, fetchForCore_halted program sh h,
    fun pre post => centralizedFetch_halted program h post pre,
    fun pre post => clockCores_halted h post pre⟩

/-- The forwarded value is that of the first entry with `hasResult` and `rd = reg` in the
writeback queue followed by the memory queue followed by the execute queue. -/
theorem PipelinedCore.getForwardedValue_eq (c : PipelinedCore) (reg : Int) :
    c.getForwardedValue reg =
      if c.regs.forwarding then
        match (c.writebackQueue ++ c.memoryQueue ++ c.executeQueue).find?
            (fun i => i.hasResult && i.rd == reg) with
        | some i => .ok i.resultValue
        | none => getRegister c.regs reg
      else getRegister c.regs reg := by
  unfold PipelinedCore.getForwardedValue findResult
  cases hf : c.regs.forwarding
  · simp
  · simp only [Bool.not_true, Bool.false_eq_true, if_false, if_true, List.find?_append]
    cases h1 : c.writebackQueue.find? (fun i => i.hasResult && i.rd == reg) with
    | some i => simp
    | none =>
      cases h2 : c.memoryQueue.find? (fun i => i.hasResult && i.rd == reg) with
      | some i => simp
      | none =>
        cases h3 : c.executeQueue.find? (fun i => i.hasResult && i.rd == reg) with
        | some i => simp
        | none => simp

theorem C20_halted_core_unchanged_witness :
    c20Core.halted = true ∧ c20Core.clockCycle c20Shared = .ok (c20Core, c20Shared) ∧
    fetchForCore ["addi x1, x0, 1", "halt"] c20Core c20Shared = .ok (c20Core, c20Shared) :=
  ⟨rfl, (C20_halted_core_unchanged ["addi x1, x0, 1", "halt"] c20Core c20Shared rfl).1,
    (C20_halted_core_unchanged ["addi x1, x0, 1", "halt"] c20Core c20Shared rfl).2.1⟩

/-- C21, on the code: the core becomes halted in a cycle whose writeback stage finds an empty
writeback queue; the `addi` it moves to the writeback queue in that cycle is never retired. -/
theorem C21_halted_in_execute :
    c21Scenario = .ok ([false, true],
      [[[], ["halt"], [], ["addi"], []], [[], [], [], [], ["addi"]]],
      0, some ["", "F", "D", "E", "M"]) := by decide!

/-- C25, on the code: the run ends with x1 = 5 and x2 = 0; the `add` is stalled twice before
its "E" and is still in the writeback queue when the core halts. -/
theorem C25_add_result_lost :
    c25Scenario = .ok (some ([0, 5, 0], true,
      [["add"], ["", "F", "D", "S", "S", "E", "M"]])) := by
  decide!

/-- C27, on the code: the branch whose label is unknown sets pc to -1 and flushes the fetch
queue. -/
theorem C27_unknown_label_taken :
    c27Scenario = .ok (2, [["addi x1, x0, 1"], ["beq"], [], [], []],
      -1, [[], [], [], ["beq"], []]) := by decide!

/-- C19, counterexample: when the `clockCycle` that takes the branch returns, the memory queue
holds the branch. -/
theorem C19_counterexample : c19Scenario = .ok (2, [[], [], [], ["beq"], []]) := by decide!

theorem PipelinedCore.execute_of_take {c cx : PipelinedCore} {sh : Shared} {inst : Instruction}
    {fd : Bool} (h : c.takeForExecute = some (inst, fd, cx)) :
    c.execute sh = cx.executeInst sh inst fd := by
  have key : ∀ (eq dq : List Instruction), c.executeQueue = eq → c.decodeQueue = dq →
      c.execute sh = cx.executeInst sh inst fd := by
    intro eq dq he hd
    unfold PipelinedCore.takeForExecute at h
    unfold PipelinedCore.execute
    cases eq with
    | cons i q =>
      simp only [he] at h ⊢
      cases h
      rfl
    | nil =>
      cases dq with
      | nil => simp only [he, hd] at h; cases h
      | cons i q =>
        simp only [he, hd] at h ⊢
        split at h
        · cases h
        · rename_i hc
          cases h
          rw [if_neg hc]
  exact key _ _ rfl rfl

theorem PipelinedCore.resolveTarget_shouldExecute (c : PipelinedCore) (inst : Instruction)
    (b : Bool) : (c.resolveTarget inst b).shouldExecute = inst.shouldExecute := by
  unfold PipelinedCore.resolveTarget
  split
  · split <;> rfl
  · rfl

theorem PipelinedCore.flow_countCycle (c : PipelinedCore) : c.countCycle.flow = c.flow := by
  unfold PipelinedCore.countCycle
  simp only []
  split <;> rfl

theorem PipelinedCore.flow_commitPending {c c' : PipelinedCore}
    (h : c.commitPending = .ok c') : c'.flow = c.flow := by
  unfold PipelinedCore.commitPending at h
  split at h
  · simp only [bind, Except.bind, pure, Except.pure] at h
    split at h
    · cases h
    · cases h; rfl
  · cases h; rfl

theorem PipelinedCore.decode_empty {c : PipelinedCore} (h : c.fetchQueue = []) :
    c.decode = .ok c := by
  unfold PipelinedCore.decode
  rw [h]
  split <;> rfl

/-- What `execute` does with a taken branch or a jump. -/
theorem PipelinedCore.executeInst_control {cx : PipelinedCore} {inst inst2 : Instruction}
    (sh : Shared) (fd : Bool) (h : cx.takesControlTransfer inst inst2 = true) :
    ∃ c3, cx.executeInst sh inst fd = .ok (c3, sh) ∧
      c3.flow = ([], [], [], [inst2], inst2.targetPC) := by
  unfold PipelinedCore.takesControlTransfer at h
  simp only [Bool.and_eq_true, Bool.not_eq_true', bne_iff_ne, ne_eq] at h
  obtain ⟨⟨⟨⟨⟨⟨hse, hh⟩, hsy⟩, har⟩, hl⟩, hs⟩, hb⟩ := h
  have hh2 : (inst.opcode == "halt") = false := by simpa using hh
  unfold PipelinedCore.executeInst
  simp only [hse, hh2, hsy, har, hl, hs, Bool.not_true, Bool.false_eq_true, if_false]
  split at hb
  · rename_i hbr
    simp only [Bool.and_eq_true, decide_eq_true_eq] at hb
    obtain ⟨hd, h2⟩ := hb
    simp only [hbr, if_true]
    refine ⟨({ cx.flushYounger with pc := inst2.targetPC }).pushMemory inst2, ?_, ?_⟩
    swap
    · rfl
    unfold PipelinedCore.executeBranch
    simp only [hd, bind, Except.bind, pure, Except.pure, if_true, ← h2]
    have : inst2.shouldExecute = true := by
      rw [h2, PipelinedCore.resolveTarget_shouldExecute]; exact hse
    simp only [this, if_true]
    rfl
  · rename_i hbr
    simp only [Bool.and_eq_true, decide_eq_true_eq] at hb
    obtain ⟨hj, h2⟩ := hb
    simp only [hbr, hj, if_true, Bool.false_eq_true, if_false]
    refine ⟨cx.executeJumpInst inst, rfl, ?_⟩
    unfold PipelinedCore.executeJumpInst PipelinedCore.flow
    simp only [← h2, PipelinedCore.fetchQueue_recordStage, PipelinedCore.decodeQueue_recordStage,
      PipelinedCore.executeQueue_recordStage, PipelinedCore.memoryQueue_recordStage,
      PipelinedCore.pc_recordStage]
    rfl

/-- C19, amended: when `execute` resolves a taken branch or a jump during a `clockCycle`, then
on return of that `clockCycle` the fetch, decode and execute queues of the core are empty, its
memory queue holds exactly the branch or jump instruction, and pc is the target of that
instruction after label resolution; the call acts on this core and on the shared hierarchy and
barrier only, which the execute stage leaves as the memory stage of the cycle returned them. -/
theorem C19_control_flush (c cx : PipelinedCore) (sh : Shared)
    (r1 r2 r : PipelinedCore × Shared) (inst inst2 : Instruction) (fd : Bool)
    (hh : c.halted = false)
    (h1 : (PipelinedCore.padRecord { c with cycleStallOccurred := false }).writeback sh = .ok r1)
    (h2 : r1.1.memoryAccess r1.2 = .ok r2)
    (ht : r2.1.takeForExecute = some (inst, fd, cx))
    (hc : cx.takesControlTransfer inst inst2 = true)
    (hk : c.clockCycle sh = .ok r) :
    r.1.fetchQueue = [] ∧ r.1.decodeQueue = [] ∧ r.1.executeQueue = [] ∧
    r.1.memoryQueue = [inst2] ∧ r.1.pc = inst2.targetPC ∧ r.2 = r2.2 := by
  obtain ⟨c3, hx, hf⟩ := PipelinedCore.executeInst_control r2.2 fd hc
  have hf0 : c3.fetchQueue = [] := congrArg Prod.fst hf
  unfold PipelinedCore.clockCycle at hk
  rw [if_neg (by rw [hh]; simp)] at hk
  simp only [bind, Except.bind, h1, h2,
    PipelinedCore.execute_of_take ht, hx, PipelinedCore.decode_empty hf0, pure,
    Except.pure] at hk
  split at hk
  · cases hk
  · rename_i c7 h7
    cases hk
    have e := (PipelinedCore.flow_commitPending h7).trans
      ((PipelinedCore.flow_countCycle c3).trans hf)
    unfold PipelinedCore.flow at e
    simp only [Prod.mk.injEq] at e
    exact ⟨e.1, e.2.1, e.2.2.1, e.2.2.2.1, e.2.2.2.2, rfl⟩

theorem C19_control_flush_witness :
    c19Core.clockCycle c20Shared = .ok c19Result ∧
    c19Result.1.fetchQueue = [] ∧ c19Result.1.decodeQueue = [] ∧
    c19Result.1.executeQueue = [] ∧
    c19Result.1.memoryQueue = [{ c19Branch with targetPC := 2 }] ∧
    c19Result.1.pc = ({ c19Branch with targetPC := 2 } : Instruction).targetPC ∧
    c19Result.2 = c20Shared :=
  ⟨by decide, C19_control_flush c19Core c19Taken c20Shared (c19Staged, c20Shared)
    (c19Staged, c20Shared) c19Result c19Branch { c19Branch with targetPC := 2 } true
    rfl (by decide) (by decide) (by decide) (by decide) (by decide)⟩


theorem PipelinedCore.takeForExecute_memoryQueue {c cx : PipelinedCore} {inst : Instruction}
    {fd : Bool} (h : c.takeForExecute = some (inst, fd, cx)) :
    cx.memoryQueue = c.memoryQueue := by
  unfold PipelinedCore.takeForExecute at h
  split at h
  · cases h; simp
  · split at h
    · cases h
    · split at h
      · cases h
      · cases h; simp

theorem PipelinedCore.finishExecute_queues (c : PipelinedCore) (inst : Instruction) :
    (c.finishExecute inst).executeQueue = c.executeQueue ∧
    (c.memoryQueue.length < 2 → (c.finishExecute inst).memoryQueue = c.memoryQueue ++ [inst]) := by
  unfold PipelinedCore.finishExecute
  split
  · refine ⟨by simp [PipelinedCore.stall], fun h => ?_⟩
    omega
  · exact ⟨rfl, fun _ => rfl⟩

theorem PipelinedCore.executeArith_queues {c c' : PipelinedCore} {inst : Instruction}
    {fd : Bool} (h : c.executeArith inst fd = .ok c') :
    ∃ v : Int,
      (1 < inst.executeLatency → inst.cyclesInExecute + 1 < inst.executeLatency →
        c'.executeQueue = c.executeQueue ++ [(inst.withResult v).nextCycle] ∧
        c'.memoryQueue = c.memoryQueue) ∧
      (1 < inst.executeLatency → inst.executeLatency ≤ inst.cyclesInExecute + 1 →
        c'.executeQueue = c.executeQueue ∧
        (c.memoryQueue.length < 2 →
          c'.memoryQueue = c.memoryQueue ++ [(inst.withResult v).nextCycle])) ∧
      (inst.executeLatency ≤ 1 →
        c'.executeQueue = c.executeQueue ∧
        (c.memoryQueue.length < 2 → c'.memoryQueue = c.memoryQueue ++ [inst.withResult v])) := by
  unfold PipelinedCore.executeArith at h
  simp only [bind, Except.bind, pure, Except.pure] at h
  split at h
  · cases h
  · rename_i op1 _
    split at h
    · cases h
    · rename_i op2 _
      split at h
      · cases h
      · rename_i regs hregs
        cases h
        refine ⟨executeArithmetic op1 op2 inst.immediate inst.opcode, ?_, ?_, ?_⟩
        · intro hL hk
          unfold PipelinedCore.finishArithmetic
          rw [if_pos (by simpa using hL), if_pos (by simpa using hk)]
          exact ⟨rfl, rfl⟩
        · intro hL hk
          unfold PipelinedCore.finishArithmetic
          rw [if_pos (by simpa using hL), if_neg (by simpa using hk)]
          exact PipelinedCore.finishExecute_queues _ _
        · intro hL
          unfold PipelinedCore.finishArithmetic
          rw [if_neg (by simpa using hL)]
          exact PipelinedCore.finishExecute_queues _ _

/-- One step of the execute stage on an arithmetic instruction it takes (from the decode
queue, or as the only entry of the execute queue): with `executeLatency > 1` and
`cyclesInExecute + 1` still below it, the instruction is alone in the execute queue with
`cyclesInExecute` incremented and the memory queue is as before; once `cyclesInExecute + 1`
reaches `executeLatency`, or with `executeLatency` 1, the instruction leaves the execute queue
and is appended to the memory queue when that holds fewer than two entries. -/
theorem PipelinedCore.execute_multicycle (c cx : PipelinedCore) (sh : Shared) (inst : Instruction)
    (fd : Bool) (r : PipelinedCore × Shared)
    (ht : c.takeForExecute = some (inst, fd, cx)) (hq : cx.executeQueue = [])
    (hse : inst.shouldExecute = true) (hh : inst.opcode ≠ "halt") (hs : inst.isSync = false)
    (ha : inst.isArithmetic = true) (hx : c.execute sh = .ok r) :
    ∃ v : Int,
      (1 < inst.executeLatency → inst.cyclesInExecute + 1 < inst.executeLatency →
        r.1.executeQueue = [(inst.withResult v).nextCycle] ∧
        r.1.memoryQueue = c.memoryQueue) ∧
      (1 < inst.executeLatency → inst.executeLatency ≤ inst.cyclesInExecute + 1 →
        r.1.executeQueue = [] ∧
        (c.memoryQueue.length < 2 →
          r.1.memoryQueue = c.memoryQueue ++ [(inst.withResult v).nextCycle])) ∧
      (inst.executeLatency ≤ 1 →
        r.1.executeQueue = [] ∧
        (c.memoryQueue.length < 2 → r.1.memoryQueue = c.memoryQueue ++ [inst.withResult v])) := by
  rw [PipelinedCore.execute_of_take ht] at hx
  have hm := PipelinedCore.takeForExecute_memoryQueue ht
  unfold PipelinedCore.executeInst at hx
  have hh2 : (inst.opcode == "halt") = false := by simpa using hh
  simp only [hse, hh2, hs, ha, Bool.not_true, Bool.false_eq_true, if_false, if_true] at hx
  obtain ⟨c1, hc1, rfl⟩ := Except.map_ok hx
  obtain ⟨v, h1, h2, h3⟩ := PipelinedCore.executeArith_queues hc1
  rw [hq, hm] at h1 h2 h3
  exact ⟨v, h1, h2, h3⟩

theorem operandChar_spec {c : Char} (h : operandChar c = true) :
    isSpaceC c = false ∧ isTrimChar c = false ∧ (c == ',') = false ∧ (c == '#') = false ∧
    (c != Char.ofNat 10) = true := by
  unfold operandChar at h
  simp only [Bool.and_eq_true, Bool.not_eq_true', bne_iff_ne, ne_eq] at h
  obtain ⟨⟨h1, h2⟩, h3⟩ := h
  refine ⟨h1, ?_, by simpa using h2, by simpa using h3, ?_⟩
  · unfold isSpaceC at h1
    unfold isTrimChar
    simp only [Bool.or_eq_false_iff] at h1 ⊢
    exact ⟨⟨⟨h1.1.1.1.1.1, h1.1.1.1.1.2⟩, h1.1.1.1.2⟩, h1.2⟩
  · unfold isSpaceC at h1
    simp only [Bool.or_eq_false_iff] at h1
    simpa using h1.1.1.1.2

theorem splitComma_token (t : List Char) (ht : ∀ c ∈ t, operandChar c = true) :
    ∀ (rest cur : List Char) (sk : Bool), t ≠ [] →
      splitComma (t ++ rest) sk cur = splitComma rest false (t.reverse ++ cur) := by
  induction t with
  | nil => intro rest cur sk h; exact absurd rfl h
  | cons c cs ih =>
    intro rest cur sk _
    have hc := operandChar_spec (ht c (List.mem_cons_self _ _))
    have step : splitComma (c :: (cs ++ rest)) sk cur = splitComma (cs ++ rest) false (c :: cur) := by
      rw [splitComma]
      simp [hc.1, hc.2.2.1]
    rw [List.cons_append, step]
    cases cs with
    | nil => simp
    | cons d ds =>
      rw [ih (fun x hx => ht x (List.mem_cons_of_mem _ hx)) rest (c :: cur) false (by simp)]
      simp

theorem splitComma_comma (rest cur : List Char) (sk : Bool) :
    splitComma (',' :: ' ' :: rest) sk cur = cur.reverse :: splitComma rest true [] := by
  rw [splitComma]
  have h1 : isSpaceC ',' = false := by decide
  have h2 : isSpaceC ' ' = true := by decide
  simp only [h1, Bool.and_false, Bool.false_eq_true, if_false, beq_self_eq_true, if_true]
  rw [splitComma]
  simp [h2]

theorem trim_token {t : List Char} (ht : IsToken t) : trim t = t := by
  obtain ⟨hne, hall⟩ := ht
  have h1 : t.dropWhile isTrimChar = t := by
    cases t with
    | nil => rfl
    | cons c cs =>
      have := (operandChar_spec (hall c (List.mem_cons_self _ _))).2.1
      simp [List.dropWhile, this]
  have h2 : t.reverse.dropWhile isTrimChar = t.reverse := by
    cases hr : t.reverse with
    | nil => rfl
    | cons c cs =>
      have hm : c ∈ t := by
        have : c ∈ t.reverse := by rw [hr]; exact List.mem_cons_self _ _
        simpa using this
      have := (operandChar_spec (hall c hm)).2.1
      simp [List.dropWhile, this]
  unfold trim
  rw [h1, h2, List.reverse_reverse]

theorem trim_space_token {t : List Char} (ht : IsToken t) : trim (' ' :: t) = t := by
  have h := trim_token ht
  unfold trim at h ⊢
  have : (' ' :: t).dropWhile isTrimChar = t.dropWhile isTrimChar := by
    have h1 : isTrimChar ' ' = true := by decide
    simp [List.dropWhile, h1]
  rw [this]
  exact h

theorem takeWhile_all {p : Char → Bool} (l : List Char) (h : ∀ c ∈ l, p c = true) :
    l.takeWhile p = l := by
  induction l with
  | nil => rfl
  | cons c cs ih =>
    rw [List.takeWhile, h c (List.mem_cons_self _ _)]
    simp only
    rw [ih (fun x hx => h x (List.mem_cons_of_mem _ hx))]

theorem parseOperands_three {t0 t1 t2 : List Char} (h0 : IsToken t0) (h1 : IsToken t1)
    (h2 : IsToken t2) :
    parseOperands (' ' :: (t0 ++ ',' :: ' ' :: (t1 ++ ',' :: ' ' :: t2))) = [t0, t1, t2] := by
  unfold parseOperands
  rw [takeWhile_all]
  · have e : splitComma (' ' :: (t0 ++ ',' :: ' ' :: (t1 ++ ',' :: ' ' :: t2))) false [] =
        [' ' :: t0, t1, t2] := by
      rw [splitComma]
      have hs : (' ' == ',') = false := by decide
      simp only [Bool.false_and, Bool.false_eq_true, if_false, hs]
      rw [splitComma_token t0 h0.2 _ _ _ h0.1, splitComma_comma,
        splitComma_token t1 h1.2 _ _ _ h1.1, splitComma_comma]
      have := splitComma_token t2 h2.2 [] [] true h2.1
      rw [List.append_nil] at this
      rw [this]
      simp [splitComma]
    rw [e]
    simp only [List.map, trim_space_token h0, trim_token h1, trim_token h2]
    have n0 : t0.isEmpty = false := by cases t0 with | nil => exact absurd rfl h0.1 | cons _ _ => rfl
    have n1 : t1.isEmpty = false := by cases t1 with | nil => exact absurd rfl h1.1 | cons _ _ => rfl
    have n2 : t2.isEmpty = false := by cases t2 with | nil => exact absurd rfl h2.1 | cons _ _ => rfl
    simp [List.filter, n0, n1, n2]
  · intro c hc
    simp only [List.mem_cons, List.mem_append] at hc
    rcases hc with rfl | hc | rfl | rfl | hc | rfl | rfl | hc
    · decide
    · simpa using (operandChar_spec (h0.2 c hc)).2.2.2.1
    · decide
    · decide
    · simpa using (operandChar_spec (h1.2 c hc)).2.2.2.1
    · decide
    · decide
    · simpa using (operandChar_spec (h2.2 c hc)).2.2.2.1

theorem parseOperands_two {t0 t1 : List Char} (h0 : IsToken t0) (h1 : IsToken t1) :
    parseOperands (t0 ++ ',' :: ' ' :: t1) = [t0, t1] ∧
    parseOperands (' ' :: (t0 ++ ',' :: ' ' :: t1)) = [t0, t1] := by
  have n0 : t0.isEmpty = false := by cases t0 with | nil => exact absurd rfl h0.1 | cons _ _ => rfl
  have n1 : t1.isEmpty = false := by cases t1 with | nil => exact absurd rfl h1.1 | cons _ _ => rfl
  have hall : ∀ c ∈ ' ' :: (t0 ++ ',' :: ' ' :: t1), (c != '#') = true := by
    intro c hc
    simp only [List.mem_cons, List.mem_append] at hc
    rcases hc with rfl | hc | rfl | rfl | hc
    · decide
    · simpa using (operandChar_spec (h0.2 c hc)).2.2.2.1
    · decide
    · decide
    · simpa using (operandChar_spec (h1.2 c hc)).2.2.2.1
  have e2 := splitComma_token t1 h1.2 [] [] true h1.1
  rw [List.append_nil] at e2
  constructor
  · unfold parseOperands
    rw [takeWhile_all _ (fun c hc => hall c (List.mem_cons_of_mem _ hc))]
    rw [splitComma_token t0 h0.2 _ _ _ h0.1, splitComma_comma, e2]
    simp [splitComma, trim_token h0, trim_token h1, List.filter, n0, n1]
  · unfold parseOperands
    rw [takeWhile_all _ hall]
    rw [splitComma]
    have hs : (' ' == ',') = false := by decide
    simp only [Bool.false_and, Bool.false_eq_true, if_false, hs]
    rw [splitComma_token t0 h0.2 _ _ _ h0.1, splitComma_comma, e2]
    simp [splitComma, trim_space_token h0, trim_token h1, List.filter, n0, n1]

theorem parseOperands_one {t0 : List Char} (h0 : IsToken t0) :
    parseOperands t0 = [t0] := by
  have n0 : t0.isEmpty = false := by cases t0 with | nil => exact absurd rfl h0.1 | cons _ _ => rfl
  have e := splitComma_token t0 h0.2 [] [] false h0.1
  rw [List.append_nil] at e
  unfold parseOperands
  rw [takeWhile_all _ (fun c hc => (by simpa using (operandChar_spec (h0.2 c hc)).2.2.2.1)), e]
  simp [splitComma, trim_token h0, List.filter, n0]

/-- `trim` removes the blank in front of a text that starts and ends with an operand token. -/
theorem trim_space_between {t0 t1 : List Char} (mid : List Char) (h0 : IsToken t0)
    (h1 : IsToken t1) : trim (' ' :: (t0 ++ mid ++ t1)) = t0 ++ mid ++ t1 := by
  have hsp : isTrimChar ' ' = true := by decide
  have h1' : (' ' :: (t0 ++ mid ++ t1)).dropWhile isTrimChar = t0 ++ mid ++ t1 := by
    cases t0 with
    | nil => exact absurd rfl h0.1
    | cons c cs =>
      have := (operandChar_spec (h0.2 c (List.mem_cons_self _ _))).2.1
      simp [List.dropWhile, hsp, this]
  have h2 : (t0 ++ mid ++ t1).reverse.dropWhile isTrimChar = (t0 ++ mid ++ t1).reverse := by
    rw [List.reverse_append]
    cases hr : t1.reverse with
    | nil =>
      have : t1 = [] := by simpa using hr
      exact absurd this h1.1
    | cons c cs =>
      have hm : c ∈ t1 := by
        have : c ∈ t1.reverse := by rw [hr]; exact List.mem_cons_self _ _
        simpa using this
      have := (operandChar_spec (h1.2 c hm)).2.1
      simp [List.dropWhile, this]
  unfold trim
  rw [h1', h2, List.reverse_reverse]

theorem readToken_line {op : List Char} (text : List Char) (h : IsToken op) :
    readToken (op ++ ' ' :: text) = (op, ' ' :: text) := by
  have hsp : isSpaceC ' ' = true := by decide
  have a : (op ++ ' ' :: text).dropWhile isSpaceC = op ++ ' ' :: text := by
    cases op with
    | nil => exact absurd rfl h.1
    | cons c cs =>
      have := (operandChar_spec (h.2 c (List.mem_cons_self _ _))).1
      simp [List.dropWhile, this]
  have b : ∀ (l : List Char), (∀ c ∈ l, operandChar c = true) →
      (l ++ ' ' :: text).takeWhile (fun c => !isSpaceC c) = l ∧
      (l ++ ' ' :: text).dropWhile (fun c => !isSpaceC c) = ' ' :: text := by
    intro l
    induction l with
    | nil => intro _; simp [List.takeWhile, List.dropWhile, hsp]
    | cons c cs ih =>
      intro hl
      have hc := (operandChar_spec (hl c (List.mem_cons_self _ _))).1
      have := ih (fun x hx => hl x (List.mem_cons_of_mem _ hx))
      simp [List.takeWhile, List.dropWhile, hc, this]
  unfold readToken
  rw [a, (b op h.2).1, (b op h.2).2]

theorem readToken_word {op : List Char} (h : IsToken op) : readToken op = (op, []) := by
  have a : op.dropWhile isSpaceC = op := by
    cases op with
    | nil => exact absurd rfl h.1
    | cons c cs =>
      have := (operandChar_spec (h.2 c (List.mem_cons_self _ _))).1
      simp [List.dropWhile, this]
  have b : ∀ (l : List Char), (∀ c ∈ l, operandChar c = true) →
      l.takeWhile (fun c => !isSpaceC c) = l ∧ l.dropWhile (fun c => !isSpaceC c) = [] := by
    intro l
    induction l with
    | nil => intro _; simp
    | cons c cs ih =>
      intro hl
      have hc := (operandChar_spec (hl c (List.mem_cons_self _ _))).1
      have := ih (fun x hx => hl x (List.mem_cons_of_mem _ hx))
      simp [List.takeWhile, List.dropWhile, hc, this]
  unfold readToken
  rw [a, (b op h.2).1, (b op h.2).2]

theorem getLine_tokens (l : List Char) (h : ∀ c ∈ l, c = ' ' ∨ c = ',' ∨ operandChar c = true) :
    getLine l = l := by
  unfold getLine
  apply takeWhile_all
  intro c hc
  rcases h c hc with rfl | rfl | h
  · decide
  · decide
  · exact (operandChar_spec h).2.2.2.2

theorem regToken (a : Nat) (ha : a < 32) :
    IsToken ('x' :: regDigits a) ∧ IsToken (regDigits a) ∧
    parseRegister ('x' :: regDigits a) = .ok (a : Int) ∧ stoi (regDigits a) = .ok (a : Int) := by
  unfold IsToken
  revert a
  decide

theorem line3_rest {t0 t1 t2 : List Char} (h0 : IsToken t0) (h1 : IsToken t1)
    (h2 : IsToken t2) :
    getLine (' ' :: (t0 ++ ',' :: ' ' :: (t1 ++ ',' :: ' ' :: t2))) =
      ' ' :: (t0 ++ ',' :: ' ' :: (t1 ++ ',' :: ' ' :: t2)) := by
  apply getLine_tokens
  intro c hc
  simp only [List.mem_cons, List.mem_append] at hc
  rcases hc with rfl | hc | rfl | rfl | hc | rfl | rfl | hc
  · exact Or.inl rfl
  · exact Or.inr (Or.inr (h0.2 c hc))
  · exact Or.inr (Or.inl rfl)
  · exact Or.inl rfl
  · exact Or.inr (Or.inr (h1.2 c hc))
  · exact Or.inr (Or.inl rfl)
  · exact Or.inl rfl
  · exact Or.inr (Or.inr (h2.2 c hc))

theorem line2_rest {t0 t1 : List Char} (h0 : IsToken t0) (h1 : IsToken t1) :
    getLine (' ' :: (t0 ++ ',' :: ' ' :: t1)) = ' ' :: (t0 ++ ',' :: ' ' :: t1) := by
  apply getLine_tokens
  intro c hc
  simp only [List.mem_cons, List.mem_append] at hc
  rcases hc with rfl | hc | rfl | rfl | hc
  · exact Or.inl rfl
  · exact Or.inr (Or.inr (h0.2 c hc))
  · exact Or.inr (Or.inl rfl)
  · exact Or.inl rfl
  · exact Or.inr (Or.inr (h1.2 c hc))

theorem line1_rest {t0 : List Char} (h0 : IsToken t0) :
    getLine (' ' :: t0) = ' ' :: t0 := by
  apply getLine_tokens
  intro c hc
  simp only [List.mem_cons] at hc
  rcases hc with rfl | hc
  · exact Or.inl rfl
  · exact Or.inr (Or.inr (h0.2 c hc))

/-- The parse of `op xa, xb, label` for `op` one of `bne`, `blt`, `beq` (with `a` not 31 for
`beq`). -/
theorem parse_branch (op : String) (a b : Nat) (label : List Char) (coreId : Int)
    (hop : op = "bne" ∨ op = "blt" ∨ (op = "beq" ∧ a ≠ 31)) (ha : a < 32) (hb : b < 32)
    (hl : IsToken label) :
    parseInstruction (line3 op.data ('x' :: regDigits a) ('x' :: regDigits b) label) coreId =
      .ok { raw := line3 op.data ('x' :: regDigits a) ('x' :: regDigits b) label
            coreId := coreId, opcode := op, isBranch := true, rd := -1, rs1 := a, rs2 := b
            label := String.mk label, targetPC := -1 } := by
  have hopT : IsToken op.data := by
    rcases hop with rfl | rfl | ⟨rfl, _⟩ <;> (unfold IsToken; decide)
  obtain ⟨ta, _, pa, _⟩ := regToken a ha
  obtain ⟨tb, _, pb, _⟩ := regToken b hb
  unfold parseInstruction
  simp only [line3, readToken_line _ hopT, line3_rest ta tb hl]
  have e3 := parseOperands_three ta tb hl
  simp only [List.cons_append] at e3
  rcases hop with rfl | rfl | ⟨rfl, h3⟩
  · simp [parseBranchInstruction, e3, pa, pb, bind, Except.bind, pure, Except.pure]
  · simp [parseBranchInstruction, e3, pa, pb, bind, Except.bind, pure, Except.pure]
  · have h4 : ¬ ((a : Int) = 31) := by exact_mod_cast h3
    simp [parseBranchInstruction, e3, pa, pb, bind, Except.bind, pure, Except.pure, h4]

/-- The parse of the core-dispatch form `beq x31, b, label`. -/
theorem parse_dispatch (b : Nat) (label : List Char) (coreId : Int) (hb : b < 32)
    (hl : IsToken label) :
    parseInstruction (line3 "beq".data "x31".data (regDigits b) label) coreId =
      .ok { raw := line3 "beq".data "x31".data (regDigits b) label
            coreId := coreId, opcode := "beq", isBranch := true, useCID := true, rd := -1
            rs1 := 31, rs2 := b, label := String.mk label, targetPC := -1 } := by
  have hopT : IsToken "beq".data := by unfold IsToken; decide
  have ta : IsToken "x31".data := by unfold IsToken; decide
  have pa : parseRegister ['x', '3', '1'] = .ok 31 := by decide
  obtain ⟨_, tb, _, pb⟩ := regToken b hb
  unfold parseInstruction
  simp only [line3, readToken_line _ hopT, line3_rest ta tb hl]
  have e3 := parseOperands_three ta tb hl
  simp only [List.cons_append] at e3
  simp only [List.cons_append, List.nil_append] at e3
  simp [parseBranchInstruction, e3, pa, pb, bind, Except.bind, pure, Except.pure]

/-- The parse of `jal label`. -/
theorem parse_jal_label (label : List Char) (coreId : Int) (hl : IsToken label) :
    parseInstruction (line1 "jal".data label) coreId =
      .ok { raw := line1 "jal".data label, coreId := coreId, opcode := "jal", isJump := true
            rd := -1, rs1 := -1, rs2 := -1, label := String.mk (stripDot label)
            targetPC := -1 } := by
  have hopT : IsToken "jal".data := by unfold IsToken; decide
  have ht : trim (' ' :: label) = label := trim_space_token hl
  unfold parseInstruction
  simp only [line1, readToken_line _ hopT, line1_rest hl]
  simp [parseJumpInstruction, ht, parseOperands_one hl]

/-- The parse of `jal xa, label`. -/
theorem parse_jal_link (a : Nat) (label : List Char) (coreId : Int) (ha : a < 32)
    (hl : IsToken label) :
    parseInstruction (line2 "jal".data ('x' :: regDigits a) label) coreId =
      .ok { raw := line2 "jal".data ('x' :: regDigits a) label, coreId := coreId
            opcode := "jal", isJump := true, rd := a, rs1 := -1, rs2 := -1
            label := String.mk (stripDot label), targetPC := -1 } := by
  have hopT : IsToken "jal".data := by unfold IsToken; decide
  obtain ⟨ta, _, pa, _⟩ := regToken a ha
  have ht := trim_space_between [',', ' '] ta hl
  have e2 := (parseOperands_two ta hl).1
  simp only [List.cons_append, List.append_assoc, List.nil_append] at ht e2
  unfold parseInstruction
  simp only [line2, readToken_line _ hopT, line2_rest ta hl]
  simp [parseJumpInstruction, ht, e2, pa, bind, Except.bind, pure, Except.pure]

/-- C26, counterexample: `bge` is not classified as a branch, `j` is not classified as a jump,
and `halt` does not get `isHalt`. -/
theorem C26_counterexample :
    (parseInstruction "bge x1, x2, loop" 0).map (fun i => (i.isBranch, i.rs1, i.rs2, i.label)) =
      .ok (false, -1, -1, "") ∧
    (parseInstruction "j loop" 0).map (fun i => (i.isJump, i.label)) = .ok (false, "") ∧
    (parseInstruction "halt" 0).map (fun i => i.isHalt) = .ok false := by decide

/-- C26, amended: for register numbers `a`, `b` below 32 and every label token (not empty, no
white space, comma or `#`), `parseInstruction` gives: for `bne`, `blt` and `beq xa, xb, label`
(`a` not 31 for `beq`) `isBranch` with `rs1 = a`, `rs2 = b` and the label; for the dispatch
form `beq x31, b, label` `isBranch` and `useCID` with `rs1 = 31` and `rs2 = b`; for
`jal label` and `jal xa, label` `isJump` with the label (a leading `.` removed) and `rd = -1`
resp. `rd = a`; for `sync` `isSync`; for `invld1` `isInvalidateL1D`; `halt` keeps all flags
clear and is known by its opcode; every operand a form does not have is -1. -/
theorem C26_parse_recognized_forms (a b : Nat) (label : List Char) (coreId : Int)
    (ha : a < 32) (hb : b < 32) (hl : IsToken label) :
    (∀ op : String, op = "bne" ∨ op = "blt" ∨ (op = "beq" ∧ a ≠ 31) →
      parseInstruction (line3 op.data ('x' :: regDigits a) ('x' :: regDigits b) label) coreId =
        .ok { raw := line3 op.data ('x' :: regDigits a) ('x' :: regDigits b) label
              coreId := coreId, opcode := op, isBranch := true, rd := -1, rs1 := a, rs2 := b
              label := String.mk label, targetPC := -1 }) ∧
    parseInstruction (line3 "beq".data "x31".data (regDigits b) label) coreId =
      .ok { raw := line3 "beq".data "x31".data (regDigits b) label
            coreId := coreId, opcode := "beq", isBranch := true, useCID := true, rd := -1
            rs1 := 31, rs2 := b, label := String.mk label, targetPC := -1 } ∧
    parseInstruction (line1 "jal".data label) coreId =
      .ok { raw := line1 "jal".data label, coreId := coreId, opcode := "jal", isJump := true
            rd := -1, rs1 := -1, rs2 := -1, label := String.mk (stripDot label)
            targetPC := -1 } ∧
    parseInstruction (line2 "jal".data ('x' :: regDigits a) label) coreId =
      .ok { raw := line2 "jal".data ('x' :: regDigits a) label, coreId := coreId
            opcode := "jal", isJump := true, rd := a, rs1 := -1, rs2 := -1
            label := String.mk (stripDot label), targetPC := -1 } ∧
    parseInstruction "sync" coreId =
      .ok { raw := "sync", coreId := coreId, opcode := "sync", isSync := true
            rd := -1, rs1 := -1, rs2 := -1 } ∧
    parseInstruction "invld1" coreId =
      .ok { opcode := "invld1", isInvalidateL1D := true, rd := -1, rs1 := -1, rs2 := -1 } ∧
    parseInstruction "halt" coreId =
      .ok { raw := "halt", coreId := coreId, opcode := "halt", isHalt := false
            rd := -1, rs1 := -1, rs2 := -1 } :=
  ⟨fun op hop => parse_branch op a b label coreId hop ha hb hl,
    parse_dispatch b label coreId hb hl, parse_jal_label label coreId hl,
    parse_jal_link a label coreId ha hl, by rfl, by rfl, by rfl⟩

theorem C26_parse_recognized_forms_witness :
    IsToken "loop".data ∧
    line3 "blt".data ('x' :: regDigits 5) ('x' :: regDigits 12) "loop".data =
      "blt x5, x12, loop" ∧
    parseInstruction "blt x5, x12, loop" 0 =
      .ok { raw := "blt x5, x12, loop", coreId := 0, opcode := "blt", isBranch := true
            rd := -1, rs1 := 5, rs2 := 12, label := "loop", targetPC := -1 } :=
  ⟨by unfold IsToken; decide, by decide,
    (C26_parse_recognized_forms 5 12 "loop".data 0 (by decide) (by decide)
      (by unfold IsToken; decide)).1 "blt" (Or.inr (Or.inl rfl))⟩


theorem Cache.selectVictim_noRange (c : Cache) (si : Nat) :
    c.selectVictim si ≠ .error .outOfRange := by
  intro h
  unfold Cache.selectVictim at h
  simp only [] at h
  repeat' split at h
  all_goals cases h

theorem Cache.writeToNextLevel_noRange {σ : Type} (c : Cache) {nl : Option (NextLevel σ)}
    (hn : NoRangeError nl) (s : σ) (a : Nat) (d : List Nat) :
    c.writeToNextLevel nl s a d ≠ .error .outOfRange := by
  intro h
  unfold Cache.writeToNextLevel at h
  cases nl with
  | none => cases h
  | some n =>
    have q := hn n rfl
    simp only [bind, Except.bind, pure, Except.pure] at h
    split at h
    · rename_i e he
      cases h
      exact q.1 _ _ _ he
    · split at h
      · rename_i e he
        cases h
        exact q.2 _ _ _ he
      · cases h

theorem Cache.writeBackVictim_noRange {σ : Type} (c : Cache) {nl : Option (NextLevel σ)}
    (hn : NoRangeError nl) (s : σ) (si : Nat) (b : CacheBlock) :
    c.writeBackVictim nl s si b ≠ .error .outOfRange := by
  intro h
  unfold Cache.writeBackVictim at h
  split at h
  · exact Cache.writeToNextLevel_noRange c hn _ _ _ h
  · cases h

theorem Cache.read_noRange {σ : Type} {nl : Option (NextLevel σ)} (hn : NoRangeError nl)
    (c : Cache) (s : σ) (a k : Nat) : Cache.read nl c s a k ≠ .error .outOfRange := by
  intro h
  unfold Cache.read at h
  simp only [] at h
  split at h
  · split at h <;> cases h
  · simp only [bind, Except.bind, pure, Except.pure] at h
    split at h
    · rename_i e he
      cases h
      cases nl with
      | none => cases he
      | some n => exact (hn n rfl).1 _ _ _ he
    · split at h
      · rename_i e he
        cases h
        exact Cache.selectVictim_noRange _ _ he
      · split at h
        · rename_i e he
          cases h
          exact Cache.writeBackVictim_noRange _ hn _ _ _ he
        · split at h <;> cases h

theorem Cache.write_noRange {σ : Type} {nl : Option (NextLevel σ)} (hn : NoRangeError nl)
    (c : Cache) (s : σ) (a : Nat) (d : List Nat) :
    Cache.write nl c s a d ≠ .error .outOfRange := by
  intro h
  unfold Cache.write at h
  simp only [] at h
  split at h
  · split at h <;> cases h
  · simp only [bind, Except.bind, pure, Except.pure] at h
    split at h
    · rename_i e he
      cases h
      unfold Cache.readFromNextLevel at he
      cases nl with
      | none => cases he
      | some n =>
        simp only [bind, Except.bind, pure, Except.pure] at he
        split at he
        · rename_i e2 he2
          cases he
          exact (hn n rfl).1 _ _ _ he2
        · cases he
    · split at h
      · rename_i e he
        cases h
        exact Cache.selectVictim_noRange _ _ he
      · split at h
        · rename_i e he
          cases h
          exact Cache.writeBackVictim_noRange _ hn _ _ _ he
        · split at h <;> cases h

theorem memorySystem_noRange : NoRangeError (some memorySystem) := by
  intro n hn
  cases hn
  constructor
  · intro s a k h
    cases h
  · intro s a d h
    cases h

theorem l2System_noRange : NoRangeError (some l2System) := by
  intro n hn
  cases hn
  constructor
  · intro s a k h
    simp only [l2System, bind, Except.bind, pure, Except.pure] at h
    split at h
    · rename_i e he
      cases h
      exact Cache.read_noRange memorySystem_noRange _ _ _ _ he
    · cases h
  · intro s a d h
    simp only [l2System, bind, Except.bind, pure, Except.pure] at h
    split at h
    · rename_i e he
      cases h
      exact Cache.write_noRange memorySystem_noRange _ _ _ _ he
    · cases h

theorem L1DCache.store_noRange {σ : Type} {nl : Option (NextLevel σ)} (hn : NoRangeError nl)
    (c : Cache) (s : σ) (a : Nat) (d : List Nat) :
    L1DCache.write nl c s a d ≠ .error .outOfRange := by
  intro h
  unfold L1DCache.write at h
  simp only [bind, Except.bind, pure, Except.pure] at h
  split at h
  · rename_i e he
    cases h
    exact Cache.read_noRange hn _ _ _ _ he
  · split at h
    · rename_i e he
      cases h
      exact Cache.write_noRange hn _ _ _ _ he
    · cases nl with
      | none => cases h
      | some n =>
        simp only [] at h
        split at h
        · rename_i e he
          cases h
          exact (hn n rfl).2 _ _ _ he
        · cases h

theorem Cache.flushBlock_noRange {σ : Type} {n : NextLevel σ} (hn : n.NoRangeError)
    (cs : Cache × σ) (si bi : Nat) : Cache.flushBlock n cs si bi ≠ .error .outOfRange := by
  intro h
  unfold Cache.flushBlock at h
  simp only [bind, Except.bind, pure, Except.pure] at h
  split at h
  · split at h
    · rename_i e he
      cases h
      exact hn.2 _ _ _ he
    · cases h
  · cases h

theorem foldlM_noRange {α β : Type} (f : β → α → Except SimError β)
    (hf : ∀ b a, f b a ≠ .error .outOfRange) (l : List α) :
    ∀ b, l.foldlM f b ≠ .error .outOfRange := by
  induction l with
  | nil => intro b h; cases h
  | cons a as ih =>
    intro b h
    simp only [List.foldlM, bind, Except.bind] at h
    split at h
    · rename_i e he
      cases h
      exact hf _ _ he
    · exact ih _ h

theorem Cache.flushLoop_noRange {σ : Type} {n : NextLevel σ} (hn : n.NoRangeError)
    (c : Cache) (s : σ) : Cache.flushLoop n c s ≠ .error .outOfRange := by
  unfold Cache.flushLoop
  apply foldlM_noRange
  intro b a
  unfold Cache.flushSet
  apply foldlM_noRange
  intro b2 a2
  exact Cache.flushBlock_noRange hn _ _ _

theorem L1DCache.writeBackAndInvalidate_noRange (c : Cache) (s : Cache × MainMemory) :
    L1DCache.writeBackAndInvalidate (some l2System) c s ≠ .error .outOfRange := by
  intro h
  unfold L1DCache.writeBackAndInvalidate at h
  simp only [bind, Except.bind, pure, Except.pure] at h
  split at h
  · rename_i e he
    cases h
    exact Cache.flushLoop_noRange (l2System_noRange _ rfl) _ _ he
  · cases h

theorem MemoryHierarchy.fetchInstruction_range (h : MemoryHierarchy) (coreId : Int)
    (address : Nat) :
    h.fetchInstruction coreId address = .error .outOfRange ↔ (coreId < 0 ∨ coreId ≥ h.numCores) := by
  unfold MemoryHierarchy.fetchInstruction
  constructor
  · intro hh
    by_contra hc
    rw [if_neg hc] at hh
    simp only [bind, Except.bind, pure, Except.pure] at hh
    split at hh
    · rename_i e he
      cases hh
      exact Cache.read_noRange l2System_noRange _ _ _ _ he
    · cases hh
  · intro hc
    rw [if_pos hc]

theorem MemoryHierarchy.loadWord_range (h : MemoryHierarchy) (coreId : Int) (address : Nat) :
    h.loadWord coreId address = .error .outOfRange ↔ (coreId < 0 ∨ coreId ≥ h.numCores) := by
  unfold MemoryHierarchy.loadWord
  constructor
  · intro hh
    by_contra hc
    rw [if_neg hc] at hh
    simp only [bind, Except.bind, pure, Except.pure] at hh
    split at hh
    · rename_i e he
      cases hh
      exact Cache.read_noRange l2System_noRange _ _ _ _ he
    · cases hh
  · intro hc
    rw [if_pos hc]

theorem MemoryHierarchy.storeWord_range (h : MemoryHierarchy) (coreId : Int) (address : Nat)
    (value : Int) :
    h.storeWord coreId address value = .error .outOfRange ↔
      (coreId < 0 ∨ coreId ≥ h.numCores) := by
  unfold MemoryHierarchy.storeWord
  constructor
  · intro hh
    by_contra hc
    rw [if_neg hc] at hh
    simp only [bind, Except.bind, pure, Except.pure] at hh
    split at hh
    · rename_i e he
      cases hh
      exact L1DCache.store_noRange l2System_noRange _ _ _ _ he
    · cases hh
  · intro hc
    rw [if_pos hc]

theorem MemoryHierarchy.loadWordFromSPM_range (h : MemoryHierarchy) (coreId : Int)
    (address : Nat) :
    h.loadWordFromSPM coreId address = .error .outOfRange ↔
      (coreId < 0 ∨ coreId ≥ h.numCores) := by
  unfold MemoryHierarchy.loadWordFromSPM
  constructor
  · intro hh
    by_contra hc
    rw [if_neg hc] at hh
    simp only [bind, Except.bind, pure, Except.pure, ScratchpadMemory.loadWord] at hh
    split at hh
    · rename_i e he
      cases hh
      split at he
      · cases he
      · split at he <;> cases he
    · cases hh
  · intro hc
    rw [if_pos hc]

theorem MemoryHierarchy.storeWordToSPM_range (h : MemoryHierarchy) (coreId : Int)
    (address : Nat) (value : Int) :
    h.storeWordToSPM coreId address value = .error .outOfRange ↔
      (coreId < 0 ∨ coreId ≥ h.numCores) := by
  unfold MemoryHierarchy.storeWordToSPM
  constructor
  · intro hh
    by_contra hc
    rw [if_neg hc] at hh
    simp only [bind, Except.bind, pure, Except.pure, ScratchpadMemory.storeWord] at hh
    split at hh
    · rename_i e he
      cases hh
      split at he
      · cases he
      · split at he <;> cases he
    · cases hh
  · intro hc
    rw [if_pos hc]

theorem MemoryHierarchy.flushL1D_range (h : MemoryHierarchy) (coreId : Int) :
    h.flushL1D coreId = .error .outOfRange ↔ (coreId < 0 ∨ coreId ≥ h.numCores) := by
  unfold MemoryHierarchy.flushL1D
  constructor
  · intro hh
    by_contra hc
    rw [if_neg hc] at hh
    simp only [bind, Except.bind, pure, Except.pure] at hh
    split at hh
    · rename_i e he
      cases hh
      exact L1DCache.writeBackAndInvalidate_noRange _ _ he
    · cases hh
  · intro hc
    rw [if_pos hc]

theorem MemoryHierarchy.invalidateL1D_bad (h : MemoryHierarchy) (coreId : Int)
    (hc : coreId < 0 ∨ coreId ≥ h.numCores) : h.invalidateL1D coreId = h := by
  unfold MemoryHierarchy.invalidateL1D
  rw [if_neg (by omega)]

theorem Cache.new_fails_iff (cs bs as lat : Int) (pol : ReplacementPolicy)
    (hov : bs * as < 2 ^ 31) :
    (∃ e, Cache.new cs bs as lat pol = .error e) ↔
      (cs ≤ 0 ∨ bs ≤ 0 ∨ as ≤ 0 ∨ cs % bs ≠ 0 ∨ cs / (bs * as) = 0) := by
  unfold Cache.new
  by_cases h1 : cs ≤ 0 ∨ bs ≤ 0 ∨ as ≤ 0
  · rw [if_pos h1]
    constructor
    · intro _
      rcases h1 with h | h | h
      · exact Or.inl h
      · exact Or.inr (Or.inl h)
      · exact Or.inr (Or.inr (Or.inl h))
    · intro _; exact ⟨_, rfl⟩
  · rw [if_neg h1]
    by_cases h2 : cs % bs ≠ 0
    · rw [if_pos h2]
      exact ⟨fun _ => Or.inr (Or.inr (Or.inr (Or.inl h2))), fun _ => ⟨_, rfl⟩⟩
    · rw [if_neg h2, if_neg (by omega)]
      simp only []
      have hpos : 0 < bs * as := by
        have hb : 0 < bs := by omega
        have ha : 0 < as := by omega
        exact Int.mul_pos hb ha
      have hnn : 0 ≤ cs / (bs * as) := Int.ediv_nonneg (by omega) (le_of_lt hpos)
      by_cases h3 : cs / (bs * as) ≤ 0
      · rw [if_pos h3]
        exact ⟨fun _ => Or.inr (Or.inr (Or.inr (Or.inr (by omega)))), fun _ => ⟨_, rfl⟩⟩
      · rw [if_neg h3]
        constructor
        · rintro ⟨e, he⟩; cases he
        · intro h
          exfalso
          rcases h with h | h | h | h | h
          · exact h1 (Or.inl h)
          · exact h1 (Or.inr (Or.inl h))
          · exact h1 (Or.inr (Or.inr h))
          · exact h2 h
          · omega

/-- C28, counterexample: `invalidateL1D` with a core id out of range returns without an error,
and the `Cache` constructor accepts an access latency of 0. -/
theorem C28_counterexample :
    c28Hierarchy.invalidateL1D (-1) = c28Hierarchy ∧
    c28Hierarchy.invalidateL1D 2 = c28Hierarchy ∧
    (Cache.new 64 16 2 0 .LRU).toBool = true := by decide

/-- C28, amended: each of `fetchInstruction`, `loadWord`, `storeWord`, `loadWordFromSPM`,
`storeWordToSPM` and `flushL1D` raises the out-of-range error (before it touches the hierarchy)
if and only if `coreId < 0` or `coreId >= numCores`; `invalidateL1D` has no error and returns
the hierarchy unchanged for such a core id; and the `Cache` constructor (for arguments whose
product `blockSize * associativity` fits an `int`) fails if and only if `cacheSize`,
`blockSize` or `associativity` is non-positive, `cacheSize` is not a multiple of `blockSize`,
or the derived number of sets is zero. -/
theorem C28_range_checks (h : MemoryHierarchy) (coreId : Int) (address : Nat) (value : Int)
    (cs bs as lat : Int) (pol : ReplacementPolicy) (hov : bs * as < 2 ^ 31) :
    (h.fetchInstruction coreId address = .error .outOfRange ↔
      (coreId < 0 ∨ coreId ≥ h.numCores)) ∧
    (h.loadWord coreId address = .error .outOfRange ↔ (coreId < 0 ∨ coreId ≥ h.numCores)) ∧
    (h.storeWord coreId address value = .error .outOfRange ↔
      (coreId < 0 ∨ coreId ≥ h.numCores)) ∧
    (h.loadWordFromSPM coreId address = .error .outOfRange ↔
      (coreId < 0 ∨ coreId ≥ h.numCores)) ∧
    (h.storeWordToSPM coreId address value = .error .outOfRange ↔
      (coreId < 0 ∨ coreId ≥ h.numCores)) ∧
    (h.flushL1D coreId = .error .outOfRange ↔ (coreId < 0 ∨ coreId ≥ h.numCores)) ∧
    ((coreId < 0 ∨ coreId ≥ h.numCores) → h.invalidateL1D coreId = h) ∧
    ((∃ e, Cache.new cs bs as lat pol = .error e) ↔
      (cs ≤ 0 ∨ bs ≤ 0 ∨ as ≤ 0 ∨ cs % bs ≠ 0 ∨ cs / (bs * as) = 0)) :=
  ⟨h.fetchInstruction_range coreId address, h.loadWord_range coreId address,
    h.storeWord_range coreId address value, h.loadWordFromSPM_range coreId address,
    h.storeWordToSPM_range coreId address value, h.flushL1D_range coreId,
    h.invalidateL1D_bad coreId, Cache.new_fails_iff cs bs as lat pol hov⟩

theorem C28_range_checks_witness :
    (16 : Int) * 2 < 2 ^ 31 ∧ c28Hierarchy.loadWord 2 0 = .error .outOfRange ∧
    c28Hierarchy.invalidateL1D 2 = c28Hierarchy ∧
    ∃ e, Cache.new 16 16 2 1 .LRU = .error e :=
  ⟨by decide,
    (C28_range_checks c28Hierarchy 2 0 0 16 16 2 1 .LRU (by decide)).2.1.mpr
      (Or.inr (by decide)),
    (C28_range_checks c28Hierarchy 2 0 0 16 16 2 1 .LRU (by decide)).2.2.2.2.2.2.1
      (Or.inr (by decide)),
    (C28_range_checks c28Hierarchy 2 0 0 16 16 2 1 .LRU (by decide)).2.2.2.2.2.2.2.mpr
      (Or.inr (Or.inr (Or.inr (Or.inr (by decide)))))⟩


theorem fetchForCore_finished {program : List String} {c : PipelinedCore} {sh : Shared}
    {r : PipelinedCore × Shared} (h : fetchForCore program c sh = .ok r) :
    r.1.finished = c.finished := by
  unfold fetchForCore at h
  split at h
  · cases h; rfl
  split at h
  · cases h; rfl
  split at h
  · cases h; rfl
  split at h
  · cases h; rfl
  simp only [bind, Except.bind, pure, Except.pure] at h
  split at h
  · cases h
  · have h2 := (Except.ok.inj h).symm
    subst h2
    simp [PipelinedCore.finished]

theorem centralizedFetch_marked (program : List String) :
    ∀ (cs : List PipelinedCore) (ds : List Bool) (sh : Shared)
      (r : List PipelinedCore × Shared),
      centralizedFetch program cs sh = .ok r → Marked cs ds → Marked r.1 ds := by
  intro cs
  induction cs with
  | nil =>
    intro ds sh r h hm
    simp only [centralizedFetch] at h
    cases h
    exact hm
  | cons c cs ih =>
    intro ds sh r h hm
    simp only [centralizedFetch, bind, Except.bind, pure, Except.pure] at h
    split at h
    · cases h
    · rename_i r1 h1
      split at h
      · cases h
      · rename_i r2 h2
        cases h
        cases hm with
        | cons hd tl =>
          exact List.Forall₂.cons (fun hdt => by rw [fetchForCore_finished h1]; exact hd hdt)
            (ih _ _ _ h2 tl)

theorem PipelinedCore.finished_of_latch {c : PipelinedCore}
    (h : (c.halted || c.isPipelineEmpty) = true) : c.finished = true := by
  unfold PipelinedCore.finished
  unfold PipelinedCore.isPipelineEmpty at h
  simp only [Bool.or_eq_true, Bool.and_eq_true] at h ⊢
  rcases h with h | ⟨⟨⟨⟨_, h2⟩, h3⟩, h4⟩, h5⟩
  · exact Or.inl h
  · exact Or.inr ⟨⟨⟨h2, h3⟩, h4⟩, h5⟩

theorem clockCores_marked :
    ∀ (cs : List PipelinedCore) (ds : List Bool) (sh : Shared)
      (r : List PipelinedCore × List Bool × Shared × Bool),
      clockCores cs ds sh = .ok r → Marked cs ds →
        Marked r.1 r.2.1 ∧ (r.2.2.2 = true → ∀ d ∈ r.2.1, d = true) := by
  intro cs
  induction cs with
  | nil =>
    intro ds sh r h hm
    cases hm
    simp only [clockCores] at h
    cases h
    exact ⟨List.Forall₂.nil, fun _ d hd => by cases hd⟩
  | cons c cs ih =>
    intro ds sh r h hm
    cases hm with
    | cons hd tl =>
      rename_i d ds'
      simp only [clockCores, bind, Except.bind, pure, Except.pure] at h
      split at h
      · rename_i hdone
        split at h
        · cases h
        · rename_i rs hrs
          cases h
          obtain ⟨m, a⟩ := ih _ _ _ hrs tl
          refine ⟨List.Forall₂.cons (fun _ => hd hdone) m, fun hall x hx => ?_⟩
          simp only [List.mem_cons] at hx
          rcases hx with rfl | hx
          · rfl
          · exact a hall x hx
      · split at h
        · cases h
        · rename_i r1 h1
          split at h
          · cases h
          · rename_i rs hrs
            obtain ⟨m, a⟩ := ih _ _ _ hrs tl
            split at h
            · rename_i hl
              cases h
              refine ⟨List.Forall₂.cons (fun _ => PipelinedCore.finished_of_latch hl) m,
                fun hall x hx => ?_⟩
              simp only [List.mem_cons] at hx
              rcases hx with rfl | hx
              · rfl
              · exact a hall x hx
            · cases h
              refine ⟨List.Forall₂.cons (fun hf => by cases hf) m, fun hall => by cases hall⟩

theorem Marked.all_finished {cs : List PipelinedCore} {ds : List Bool} (h : Marked cs ds)
    (hall : ∀ d ∈ ds, d = true) : ∀ c ∈ cs, c.finished = true := by
  induction h with
  | nil => intro c hc; cases hc
  | cons hd _ ih =>
    intro c hc
    simp only [List.mem_cons] at hc
    rcases hc with rfl | hc
    · exact hd (hall _ (List.mem_cons_self _ _))
    · exact ih (fun d hd2 => hall d (List.mem_cons_of_mem _ hd2)) c hc

theorem PipelinedSimulator.runLoop_finished :
    ∀ (fuel : Nat) (sim : PipelinedSimulator) (ds : List Bool) (r : PipelinedSimulator × Bool),
      PipelinedSimulator.runLoop fuel sim ds = .ok r → r.2 = true → Marked sim.cores ds →
        ∀ c ∈ r.1.cores, c.finished = true := by
  intro fuel
  induction fuel with
  | zero =>
    intro sim ds r h h2 _
    simp only [PipelinedSimulator.runLoop] at h
    cases h
    cases h2
  | succ n ih =>
    intro sim ds r h h2 hm
    simp only [PipelinedSimulator.runLoop, bind, Except.bind, pure, Except.pure] at h
    split at h
    · cases h
    · rename_i rc hrc
      split at h
      · cases h
      · rename_i f hf
        obtain ⟨m, a⟩ := clockCores_marked _ _ _ _ hrc hm
        have m2 := centralizedFetch_marked _ _ _ _ _ hf m
        split at h
        · rename_i hall
          cases h
          exact m2.all_finished (a hall)
        · exact ih _ _ _ h h2 m2

theorem marked_replicate_false (cs : List PipelinedCore) :
    Marked cs (List.replicate cs.length false) := by
  induction cs with
  | nil => exact List.Forall₂.nil
  | cons c cs ih => exact List.Forall₂.cons (fun h => by cases h) ih

/-- What the latch of the cycle loop does give: when `PipelinedSimulator::run` has left its
loop (and returned), every core is halted or has empty decode, execute, memory and writeback
queues. -/
theorem PipelinedSimulator.run_exit_state (fuel : Nat) (sim sim1 : PipelinedSimulator)
    (h : sim.run fuel = .ok (some sim1)) : ∀ c ∈ sim1.cores, c.finished = true := by
  unfold PipelinedSimulator.run at h
  simp only [bind, Except.bind, pure, Except.pure] at h
  split at h
  · cases h
  · rename_i r hr
    split at h
    · rename_i hflag
      split at h
      · cases h
      · split at h
        · cases h
        · cases h
          unfold PipelinedSimulator.runCycles at hr
          simp only [bind, Except.bind, pure, Except.pure] at hr
          split at hr
          · cases hr
          · rename_i f hf
            have m := centralizedFetch_marked _ _ _ _ _ hf (marked_replicate_false sim.cores)
            exact PipelinedSimulator.runLoop_finished _ _ _ _ hr hflag m
    · cases h

theorem drop_cons_facts {l : List CacheBlock} {i : Nat} {b : CacheBlock} {bs : List CacheBlock}
    (h : l.drop i = b :: bs) : i < l.length ∧ l.getD i default = b ∧ l.drop (i + 1) = bs := by
  have hlt : i < l.length := by
    by_contra hc
    rw [List.drop_eq_nil_of_le (by omega)] at h
    cases h
  refine ⟨hlt, ?_, ?_⟩
  · have := List.drop_eq_getElem_cons hlt
    rw [this] at h
    rw [List.getD_eq_getElem?_getD, List.getElem?_eq_getElem hlt]
    exact (List.cons.inj h).1
  · have := List.drop_eq_getElem_cons hlt
    rw [this] at h
    exact (List.cons.inj h).2

theorem lruScan_spec (l : List CacheBlock) :
    ∀ (bs : List CacheBlock) (i lru : Nat) (mn : Int),
      l.drop i = bs → lru < i → i ≤ l.length → stampAt l lru = mn →
      (∀ j, j < i → mn ≤ stampAt l j) → (∀ j, j < lru → mn < stampAt l j) →
      lruScan bs i lru mn < l.length ∧
      (∀ j, j < l.length → stampAt l (lruScan bs i lru mn) ≤ stampAt l j) ∧
      (∀ j, j < lruScan bs i lru mn → stampAt l (lruScan bs i lru mn) < stampAt l j) := by
  intro bs
  induction bs with
  | nil =>
    intro i lru mn hd hl hi hm h1 h2
    have : l.length ≤ i := by
      by_contra hc
      have := List.drop_eq_getElem_cons (show i < l.length by omega)
      rw [this] at hd
      cases hd
    have hi2 : i = l.length := by omega
    simp only [lruScan]
    subst hi2
    exact ⟨hl, fun j hj => by rw [hm]; exact h1 j hj, fun j hj => by rw [hm]; exact h2 j hj⟩
  | cons b bs ih =>
    intro i lru mn hd hl hi hm h1 h2
    obtain ⟨hlt, hb, hd2⟩ := drop_cons_facts hd
    have hT : stampAt l i = b.timestamp := by unfold stampAt; rw [hb]
    unfold lruScan
    split
    · rename_i hlt2
      exact ih (i + 1) i b.timestamp hd2 (by omega) (by omega) hT
        (fun j hj => by
          by_cases hji : j = i
          · rw [hji, hT]
          · have := h1 j (by omega); omega)
        (fun j hj => by have := h1 j hj; omega)
    · rename_i hge
      exact ih (i + 1) lru mn hd2 (by omega) (by omega) hm
        (fun j hj => by
          by_cases hji : j = i
          · rw [hji, hT]; omega
          · exact h1 j (by omega))
        h2

/-- The victim of a full set under LRU: a slot with the least timestamp, the lowest such. -/
theorem Cache.selectVictim_full_lru {c : Cache} {si : Nat} (hp : c.policy = .LRU)
    (hne : (c.getSet si).blocks ≠ [])
    (hfull : ∀ b ∈ (c.getSet si).blocks, b.valid = true) :
    ∃ i, c.selectVictim si = .ok (i, c) ∧ i < (c.getSet si).blocks.length ∧
      (∀ j, j < (c.getSet si).blocks.length →
        stampAt (c.getSet si).blocks i ≤ stampAt (c.getSet si).blocks j) ∧
      (∀ j, j < i → stampAt (c.getSet si).blocks i < stampAt (c.getSet si).blocks j) := by
  unfold Cache.selectVictim
  simp only []
  have hnone : (c.getSet si).blocks.findIdx? (fun b => !b.valid) = none := by
    rw [List.findIdx?_eq_none_iff]
    intro b hb
    simp [hfull b hb]
  rw [hnone]
  simp only [hp]
  cases hbl : (c.getSet si).blocks with
  | nil => exact absurd hbl hne
  | cons b0 bs =>
    simp only []
    have := lruScan_spec (b0 :: bs) bs 1 0 b0.timestamp rfl (by omega) (by simp) rfl
      (fun j hj => by
        have : j = 0 := by omega
        subst this
        exact le_refl _)
      (fun j hj => by omega)
    exact ⟨_, rfl, this⟩

/-- The victim of a set with an invalid block, under either policy: the first invalid slot. -/
theorem Cache.selectVictim_invalid {c : Cache} {si : Nat} {b : CacheBlock}
    (hb : b ∈ (c.getSet si).blocks) (hv : b.valid = false) :
    ∃ i, c.selectVictim si = .ok (i, c) ∧
      (∃ bi, (c.getSet si).blocks[i]? = some bi ∧ bi.valid = false) ∧
      (∀ j bj, j < i → (c.getSet si).blocks[j]? = some bj → bj.valid = true) := by
  unfold Cache.selectVictim
  simp only []
  cases hf : (c.getSet si).blocks.findIdx? (fun b => !b.valid) with
  | none =>
    rw [List.findIdx?_eq_none_iff] at hf
    have := hf b hb
    simp [hv] at this
  | some i =>
    simp only []
    rw [List.findIdx?_eq_some_iff_getElem] at hf
    obtain ⟨hi, h1, h2⟩ := hf
    refine ⟨i, rfl, ⟨_, List.getElem?_eq_getElem hi, by simpa using h1⟩, ?_⟩
    intro j bj hj hbj
    have hjl : j < (c.getSet si).blocks.length := by omega
    rw [List.getElem?_eq_getElem hjl] at hbj
    cases hbj
    simpa using h2 j hj

theorem Cache.Stamped.except {c : Cache} (h : c.Stamped) (si bi : Nat) :
    c.StampedExcept si bi :=
  fun si' bi' b _ hb hv => h si' bi' b hb hv

theorem Cache.stampedExcept_setBlock {c : Cache} {si bi : Nat} (h : c.StampedExcept si bi)
    (b : CacheBlock) : (c.setBlock si bi b).StampedExcept si bi := by
  intro si' bi' b' hne hb hv
  rw [Cache.blockAt_setBlock] at hb
  split at hb
  · rename_i hc
    exact absurd ⟨hc.1, hc.2.1⟩ hne
  · exact h si' bi' b' hne hb hv

theorem Cache.stamped_setBlock {c : Cache} (h : c.Stamped) (si bi : Nat) (b : CacheBlock)
    (hb : b.valid = true → b.timestamp < c.globalTimestamp) : (c.setBlock si bi b).Stamped := by
  intro si' bi' b' hb' hv
  rw [Cache.blockAt_setBlock] at hb'
  split at hb'
  · cases hb'
    exact hb hv
  · exact h si' bi' b' hb' hv

theorem Cache.blockAt_counters (c : Cache) (a h m : Nat) (si bi : Nat) :
    Cache.blockAt { c with accesses := a, hits := h, misses := m } si bi = c.blockAt si bi := rfl

theorem Cache.stamped_updateReplacementInfo {c : Cache} (hp : c.policy = .LRU) (si bi : Nat)
    (h : c.StampedExcept si bi) :
    (c.updateReplacementInfo si bi).Stamped ∧
    (c.updateReplacementInfo si bi).globalTimestamp = c.globalTimestamp + 1 ∧
    (c.updateReplacementInfo si bi).policy = .LRU ∧
    (∀ si' bi', (c.updateReplacementInfo si bi).blockAt si' bi' =
      if si' = si ∧ bi' = bi ∧ (c.blockAt si bi).isSome then
        some { c.getBlock si bi with timestamp := c.globalTimestamp }
      else c.blockAt si' bi') := by
  have hb : ∀ si' bi', (c.updateReplacementInfo si bi).blockAt si' bi' =
      if si' = si ∧ bi' = bi ∧ (c.blockAt si bi).isSome then
        some { c.getBlock si bi with timestamp := c.globalTimestamp }
      else c.blockAt si' bi' := by
    intro si' bi'
    unfold Cache.updateReplacementInfo
    simp only [hp]
    exact Cache.blockAt_setBlock c si bi _ si' bi'
  have hg : (c.updateReplacementInfo si bi).globalTimestamp = c.globalTimestamp + 1 := by
    unfold Cache.updateReplacementInfo
    simp only [hp]
  have hpol : (c.updateReplacementInfo si bi).policy = .LRU := by
    unfold Cache.updateReplacementInfo
    simp only [hp]
    exact hp
  refine ⟨?_, hg, hpol, hb⟩
  intro si' bi' b hbb hv
  rw [hb] at hbb
  rw [hg]
  split at hbb
  · cases hbb
    simp
  · rename_i hc
    by_cases hne : si' = si ∧ bi' = bi
    · have hnone : c.blockAt si bi = none := by
        cases hs : c.blockAt si bi with
        | none => rfl
        | some x => exact absurd ⟨hne.1, hne.2, by simp [hs]⟩ hc
      rw [hne.1, hne.2, hnone] at hbb
      cases hbb
    · have := h si' bi' b hne hbb hv
      omega

theorem Cache.selectVictim_lru_eq {c : Cache} {si : Nat} {v : Nat × Cache}
    (hp : c.policy = .LRU) (h : c.selectVictim si = .ok v) : v.2 = c := by
  unfold Cache.selectVictim at h
  simp only [hp] at h
  split at h
  · cases h; rfl
  · split at h <;> (cases h; rfl)

theorem Cache.stamped_counters {c : Cache} (h : c.Stamped) (a hh m : Nat) :
    Cache.Stamped { c with accesses := a, hits := hh, misses := m } :=
  fun si bi b hb hv => h si bi b hb hv

theorem Cache.stamped_install {c : Cache} (hp : c.policy = .LRU) (hs : c.Stamped)
    (si bi : Nat) (b : CacheBlock) :
    ((c.setBlock si bi b).updateReplacementInfo si bi).policy = .LRU ∧
    ((c.setBlock si bi b).updateReplacementInfo si bi).Stamped := by
  have := Cache.stamped_updateReplacementInfo (c := c.setBlock si bi b) hp si bi
    (Cache.stampedExcept_setBlock (Cache.Stamped.except hs _ _) _)
  exact ⟨this.2.2.1, this.1⟩

theorem Cache.stamped_touch {c : Cache} (hp : c.policy = .LRU) (hs : c.Stamped)
    (si bi : Nat) :
    (c.updateReplacementInfo si bi).policy = .LRU ∧ (c.updateReplacementInfo si bi).Stamped := by
  have := Cache.stamped_updateReplacementInfo hp si bi
    (Cache.Stamped.except hs _ _)
  exact ⟨this.2.2.1, this.1⟩

/-- A `read` that returns keeps an LRU cache stamped. -/
theorem Cache.read_stamped {σ : Type} {nl : Option (NextLevel σ)} {c : Cache} {s : σ}
    {a n : Nat} {r : (Int × List Nat) × Cache × σ} (hp : c.policy = .LRU) (hs : c.Stamped)
    (h : Cache.read nl c s a n = .ok r) : r.2.1.policy = .LRU ∧ r.2.1.Stamped := by
  unfold Cache.read at h
  simp only [] at h
  split at h
  · rename_i bi hf
    split at h
    · cases h
      exact Cache.stamped_touch (c := { c with accesses := c.accesses + 1, hits := c.hits + 1 })
        hp (Cache.stamped_counters hs _ _ _) _ _
    · cases h
  · simp only [bind, Except.bind, pure, Except.pure] at h
    split at h
    · cases h
    · split at h
      · cases h
      · rename_i v hv
        have hv2 := Cache.selectVictim_lru_eq
          (c := { c with accesses := c.accesses + 1, misses := c.misses + 1 }) hp hv
        split at h
        · cases h
        · split at h
          · cases h
            rw [hv2]
            exact Cache.stamped_install
              (c := { c with accesses := c.accesses + 1, misses := c.misses + 1 })
              hp (Cache.stamped_counters hs _ _ _) _ _ _
          · cases h

theorem Cache.stamped_replace {c : Cache} (h : c.Stamped) (si bi : Nat) (b : CacheBlock)
    (hb : b.valid = true → b.timestamp = (c.getBlock si bi).timestamp ∧
      (c.getBlock si bi).valid = true) : (c.setBlock si bi b).Stamped := by
  intro si' bi' b' hb' hv
  rw [Cache.blockAt_setBlock] at hb'
  split at hb'
  · rename_i hc
    cases hb'
    obtain ⟨h1, h2⟩ := hb hv
    cases hs : c.blockAt si bi with
    | none => simp [hs] at hc
    | some old =>
      rw [Cache.getBlock_of_blockAt hs] at h1 h2
      rw [h1]
      exact h si bi old hs h2
  · exact h si' bi' b' hb' hv

/-- A `write` that returns keeps an LRU cache stamped. -/
theorem Cache.write_stamped {σ : Type} {nl : Option (NextLevel σ)} {c : Cache} {s : σ}
    {a : Nat} {d : List Nat} {r : Int × Cache × σ} (hp : c.policy = .LRU) (hs : c.Stamped)
    (h : Cache.write nl c s a d = .ok r) : r.2.1.policy = .LRU ∧ r.2.1.Stamped := by
  unfold Cache.write at h
  simp only [] at h
  split at h
  · rename_i bi hf
    split at h
    · cases h
      have t := Cache.stamped_touch
        (c := { c with accesses := c.accesses + 1, hits := c.hits + 1 })
        hp (Cache.stamped_counters hs _ _ _) (c.getSetIndex a) bi
      exact ⟨t.1, Cache.stamped_replace t.2 _ _ _ (fun hv => ⟨rfl, hv⟩)⟩
    · cases h
  · simp only [bind, Except.bind, pure, Except.pure] at h
    split at h
    · cases h
    · split at h
      · cases h
      · rename_i v hv
        have hv2 := Cache.selectVictim_lru_eq
          (c := { c with accesses := c.accesses + 1, misses := c.misses + 1 }) hp hv
        split at h
        · cases h
        · split at h
          · cases h
            rw [hv2]
            exact Cache.stamped_install
              (c := { c with accesses := c.accesses + 1, misses := c.misses + 1 })
              hp (Cache.stamped_counters hs _ _ _) _ _ _
          · cases h

theorem Cache.invalidateBlock_stamped {σ : Type} {nl : Option (NextLevel σ)} {c : Cache}
    {s : σ} {a : Nat} {r : Cache × σ} (hp : c.policy = .LRU) (hs : c.Stamped)
    (h : Cache.invalidateBlock nl c s a = .ok r) : r.1.policy = .LRU ∧ r.1.Stamped := by
  unfold Cache.invalidateBlock at h
  simp only [] at h
  split at h
  · simp only [bind, Except.bind, pure, Except.pure] at h
    split at h
    · cases h
    · cases h
      exact ⟨hp, Cache.stamped_replace hs _ _ _ (fun hv => by cases hv)⟩
  · cases h
    exact ⟨hp, hs⟩

theorem Cache.invalidateAll_stamped (c : Cache) (hp : c.policy = .LRU) :
    c.invalidateAll.policy = .LRU ∧ c.invalidateAll.Stamped := by
  refine ⟨hp, ?_⟩
  intro si bi b hb hv
  rw [Cache.blockAt_invalidateAll] at hb
  cases hx : c.blockAt si bi with
  | none => rw [hx] at hb; cases hb
  | some x =>
    rw [hx] at hb
    cases hb
    cases hv

theorem foldlM_invariant {α β : Type} (P : β → Prop) (f : β → α → Except SimError β)
    (hf : ∀ b a b', P b → f b a = .ok b' → P b') (l : List α) :
    ∀ b b', P b → l.foldlM f b = .ok b' → P b' := by
  induction l with
  | nil =>
    intro b b' hb h
    cases h
    exact hb
  | cons a as ih =>
    intro b b' hb h
    simp only [List.foldlM, bind, Except.bind] at h
    split at h
    · cases h
    · rename_i b1 h1
      exact ih _ _ (hf _ _ _ hb h1) h

theorem Cache.flushBlock_stamped {σ : Type} {n : NextLevel σ} {cs r : Cache × σ}
    {si bi : Nat} (hp : cs.1.policy = .LRU ∧ cs.1.Stamped)
    (h : Cache.flushBlock n cs si bi = .ok r) : r.1.policy = .LRU ∧ r.1.Stamped := by
  unfold Cache.flushBlock at h
  simp only [bind, Except.bind, pure, Except.pure] at h
  split at h
  · rename_i hvd
    split at h
    · cases h
    · cases h
      refine ⟨hp.1, Cache.stamped_replace hp.2 _ _ _ (fun hv => ⟨rfl, hv⟩)⟩
  · cases h
    exact hp

theorem Cache.flushCache_stamped {σ : Type} {nl : Option (NextLevel σ)} {c : Cache} {s : σ}
    {r : Cache × σ} (hp : c.policy = .LRU) (hs : c.Stamped)
    (h : Cache.flushCache nl c s = .ok r) : r.1.policy = .LRU ∧ r.1.Stamped := by
  unfold Cache.flushCache at h
  cases nl with
  | none => cases h; exact ⟨hp, hs⟩
  | some n =>
    simp only [] at h
    unfold Cache.flushLoop at h
    refine foldlM_invariant (fun (x : Cache × σ) => x.1.policy = .LRU ∧ x.1.Stamped) _ ?_ _ _ _
      ⟨hp, hs⟩ h
    intro b si b' hb hf
    unfold Cache.flushSet at hf
    exact foldlM_invariant (fun (x : Cache × σ) => x.1.policy = .LRU ∧ x.1.Stamped) _
      (fun b0 bi b1 hb0 hf0 => Cache.flushBlock_stamped hb0 hf0) _ _ _ hb hf

theorem Cache.new_stamped {cs bs as lat : Int} {pol : ReplacementPolicy} {c : Cache}
    (h : Cache.new cs bs as lat pol = .ok c) : c.Stamped := by
  have hsets := (Cache.new_ok h).2.2.2.2.2.2.2.2.2.2.2.2.2.2
  intro si i bi hi vi
  rw [Cache.blockAt_eq] at hi
  have hmem : bi ∈ (c.getSet si).blocks := List.mem_iff_getElem?.2 ⟨i, hi⟩
  unfold Cache.getSet at hmem
  rw [hsets] at hmem
  by_cases hlt : si < c.numSets
  · simp only [List.getD_eq_getElem?_getD, List.getElem?_replicate, if_pos hlt,
      Option.getD_some, CacheSet.new] at hmem
    have := List.eq_of_mem_replicate hmem
    subst this
    cases vi
  · simp only [List.getD_eq_getElem?_getD, List.getElem?_replicate, if_neg hlt,
      Option.getD_none] at hmem
    cases hmem

theorem Cache.policy_updateReplacementInfo (c : Cache) (si bi : Nat) :
    (c.updateReplacementInfo si bi).policy = c.policy := by
  unfold Cache.updateReplacementInfo
  cases hp : c.policy with
  | LRU => simp only [hp]; exact hp
  | FIFO =>
    simp only [hp]
    split
    · rfl
    · exact hp

theorem Cache.policy_selectVictim {c : Cache} {si : Nat} {v : Nat × Cache}
    (h : c.selectVictim si = .ok v) : v.2.policy = c.policy := by
  have := (Cache.selectVictim_spec h).1
  exact congrArg (fun g => g.2.2.2.2.1) this

theorem Cache.read_policy {σ : Type} {nl : Option (NextLevel σ)} {c : Cache} {s : σ}
    {a n : Nat} {r : (Int × List Nat) × Cache × σ} (h : Cache.read nl c s a n = .ok r) :
    r.2.1.policy = c.policy := by
  unfold Cache.read at h
  simp only [] at h
  split at h
  · split at h
    · cases h
      exact Cache.policy_updateReplacementInfo _ _ _
    · cases h
  · simp only [bind, Except.bind, pure, Except.pure] at h
    split at h
    · cases h
    · split at h
      · cases h
      · rename_i v hv
        split at h
        · cases h
        · split at h
          · cases h
            rw [Cache.policy_updateReplacementInfo]
            exact (Cache.policy_selectVictim hv).trans rfl
          · cases h

theorem Cache.write_policy {σ : Type} {nl : Option (NextLevel σ)} {c : Cache} {s : σ}
    {a : Nat} {d : List Nat} {r : Int × Cache × σ} (h : Cache.write nl c s a d = .ok r) :
    r.2.1.policy = c.policy := by
  unfold Cache.write at h
  simp only [] at h
  split at h
  · split at h
    · cases h
      exact Cache.policy_updateReplacementInfo _ _ _
    · cases h
  · simp only [bind, Except.bind, pure, Except.pure] at h
    split at h
    · cases h
    · split at h
      · cases h
      · rename_i v hv
        split at h
        · cases h
        · split at h
          · cases h
            rw [Cache.policy_updateReplacementInfo]
            exact (Cache.policy_selectVictim hv).trans rfl
          · cases h

theorem Cache.invalidateBlock_policy {σ : Type} {nl : Option (NextLevel σ)} {c : Cache}
    {s : σ} {a : Nat} {r : Cache × σ} (h : Cache.invalidateBlock nl c s a = .ok r) :
    r.1.policy = c.policy := by
  unfold Cache.invalidateBlock at h
  simp only [] at h
  split at h
  · simp only [bind, Except.bind, pure, Except.pure] at h
    split at h
    · cases h
    · cases h; rfl
  · cases h; rfl

theorem Cache.flushCache_policy {σ : Type} {nl : Option (NextLevel σ)} {c : Cache} {s : σ}
    {r : Cache × σ} (h : Cache.flushCache nl c s = .ok r) : r.1.policy = c.policy := by
  unfold Cache.flushCache at h
  cases nl with
  | none => cases h; rfl
  | some n =>
    simp only [] at h
    unfold Cache.flushLoop at h
    refine foldlM_invariant (fun (x : Cache × σ) => x.1.policy = c.policy) _ ?_ _ _ _ rfl h
    intro b si b' hb hf
    unfold Cache.flushSet at hf
    refine foldlM_invariant (fun (x : Cache × σ) => x.1.policy = c.policy) _ ?_ _ _ _ hb hf
    intro b0 bi b1 hb0 hf0
    unfold Cache.flushBlock at hf0
    simp only [bind, Except.bind, pure, Except.pure] at hf0
    split at hf0
    · split at hf0
      · cases hf0
      · cases hf0; exact hb0
    · cases hf0; exact hb0

/-- In every reachable LRU cache each valid block carries a timestamp below
`globalTimestamp`. -/
theorem Cache.reachable_stamped {σ : Type} {nl : Option (NextLevel σ)} {c : Cache}
    (hc : Cache.Reachable nl c) : c.policy = .LRU → c.Stamped := by
  induction hc with
  | fresh h => exact fun _ => Cache.new_stamped h
  | read _ h ih =>
    intro hp
    rw [Cache.read_policy h] at hp
    exact (Cache.read_stamped hp (ih hp) h).2
  | write _ h ih =>
    intro hp
    rw [Cache.write_policy h] at hp
    exact (Cache.write_stamped hp (ih hp) h).2
  | invalidateBlock _ h ih =>
    intro hp
    rw [Cache.invalidateBlock_policy h] at hp
    exact (Cache.invalidateBlock_stamped hp (ih hp) h).2
  | @invalidateAll c0 _ ih =>
    intro hp
    exact (Cache.invalidateAll_stamped c0 hp).2
  | flushCache _ h ih =>
    intro hp
    rw [Cache.flushCache_policy h] at hp
    exact (Cache.flushCache_stamped hp (ih hp) h).2

/-- A valid block whose timestamp is above that of every other valid block of its set is not
the victim under LRU when the set has at least two slots. -/
theorem Cache.victim_ne_newest {c : Cache} {si bi : Nat} {b : CacheBlock} {v : Nat × Cache}
    (hp : c.policy = .LRU) (hlen : 2 ≤ (c.getSet si).blocks.length)
    (hb : c.blockAt si bi = some b) (hv : b.valid = true)
    (hnew : ∀ j bj, j ≠ bi → c.blockAt si j = some bj → bj.valid = true →
      bj.timestamp < b.timestamp)
    (h : c.selectVictim si = .ok v) : v.1 ≠ bi := by
  rw [Cache.blockAt_eq] at hb
  by_cases hall : ∀ x ∈ (c.getSet si).blocks, x.valid = true
  · have hne : (c.getSet si).blocks ≠ [] := by
      intro h0
      rw [h0] at hlen
      simp at hlen
    obtain ⟨i, hi, hlt, hmin, _⟩ := Cache.selectVictim_full_lru hp hne hall
    rw [hi] at h
    cases h
    intro hib
    have hib2 : i = bi := hib
    subst hib2
    have hbi : stampAt (c.getSet si).blocks i = b.timestamp := by
      unfold stampAt
      rw [List.getD_eq_getElem?_getD, hb]
      rfl
    have hj : ∃ j, j ≠ i ∧ j < (c.getSet si).blocks.length := by
      by_cases h0 : i = 0
      · exact ⟨1, by omega, by omega⟩
      · exact ⟨0, by omega, by omega⟩
    obtain ⟨j, hji, hjl⟩ := hj
    have hbj : (c.getSet si).blocks[j]? = some ((c.getSet si).blocks[j]) :=
      List.getElem?_eq_getElem hjl
    have h1 := hnew j _ hji (by rw [Cache.blockAt_eq]; exact hbj)
      (hall _ (List.getElem_mem _))
    have h2 := hmin j hjl
    have hsj : stampAt (c.getSet si).blocks j = ((c.getSet si).blocks[j]).timestamp := by
      unfold stampAt
      rw [List.getD_eq_getElem?_getD, hbj]
      rfl
    rw [hbi, hsj] at h2
    omega
  · have hex : ∃ x ∈ (c.getSet si).blocks, x.valid = false := by
      by_contra hc
      apply hall
      intro x hx
      by_contra hxv
      exact hc ⟨x, hx, by simpa using hxv⟩
    obtain ⟨x, hx, hxv⟩ := hex
    obtain ⟨i, hi, ⟨y, hy, hyv⟩, _⟩ := Cache.selectVictim_invalid hx hxv
    rw [hi] at h
    cases h
    intro hib
    have hib2 : i = bi := hib
    subst hib2
    rw [hb] at hy
    cases hy
    rw [hv] at hyv
    cases hyv

/-- After a read hit or a write hit in a stamped LRU cache the block that was hit is not the
victim of its set. -/
theorem Cache.victim_ne_hit {σ : Type} {nl : Option (NextLevel σ)} {c : Cache} {s : σ}
    {a bi : Nat} (hp : c.policy = .LRU) (hs : c.Stamped)
    (hf : c.findBlockInSet (c.getTag a) (c.getSetIndex a) = some bi)
    (hlen : 2 ≤ (c.getSet (c.getSetIndex a)).blocks.length) :
    (∀ (n : Nat) (r : (Int × List Nat) × Cache × σ) (v : Nat × Cache),
      Cache.read nl c s a n = .ok r → r.2.1.selectVictim (c.getSetIndex a) = .ok v →
        v.1 ≠ bi) ∧
    (∀ (d : List Nat) (r : Int × Cache × σ) (v : Nat × Cache),
      Cache.write nl c s a d = .ok r → r.2.1.selectVictim (c.getSetIndex a) = .ok v →
        v.1 ≠ bi) := by
  obtain ⟨b0, hb0, hv0, _⟩ := Cache.findBlockInSet_some hf
  have hs2 : Cache.Stamped { c with accesses := c.accesses + 1, hits := c.hits + 1 } :=
    Cache.stamped_counters hs _ _ _
  obtain ⟨_, _, hp3, hb3⟩ := Cache.stamped_updateReplacementInfo
    (c := { c with accesses := c.accesses + 1, hits := c.hits + 1 }) hp
    (c.getSetIndex a) bi (Cache.Stamped.except hs2 _ _)
  have hsome : (Cache.blockAt { c with accesses := c.accesses + 1, hits := c.hits + 1 }
      (c.getSetIndex a) bi).isSome = true := by
    rw [Cache.blockAt_counters, hb0]; rfl
  have hget : Cache.getBlock { c with accesses := c.accesses + 1, hits := c.hits + 1 }
      (c.getSetIndex a) bi = b0 := Cache.getBlock_of_blockAt hb0
  have e : ((Cache.updateReplacementInfo
      { c with accesses := c.accesses + 1, hits := c.hits + 1 } (c.getSetIndex a) bi).getSet
      (c.getSetIndex a)).blocks.length = (c.getSet (c.getSetIndex a)).blocks.length := by
    unfold Cache.updateReplacementInfo
    simp only [hp]
    exact Cache.length_blocks_setBlock
      { c with accesses := c.accesses + 1, hits := c.hits + 1 } _ _ _ _
  obtain ⟨c3, hc3⟩ : ∃ c3, c3 = Cache.updateReplacementInfo
      { c with accesses := c.accesses + 1, hits := c.hits + 1 } (c.getSetIndex a) bi := ⟨_, rfl⟩
  rw [← hc3] at hp3 hb3 e
  have hat : c3.blockAt (c.getSetIndex a) bi = some { b0 with timestamp := c.globalTimestamp } := by
    rw [hb3, if_pos ⟨rfl, rfl, hsome⟩, hget]
  have hoth : ∀ j bj, j ≠ bi → c3.blockAt (c.getSetIndex a) j = some bj → bj.valid = true →
      bj.timestamp < c.globalTimestamp := by
    intro j bj hj hbj hvj
    rw [hb3, if_neg (fun hc => hj hc.2.1)] at hbj
    exact hs _ _ _ hbj hvj
  have hlen3 : 2 ≤ (c3.getSet (c.getSetIndex a)).blocks.length := by rw [e]; exact hlen
  have hf' : Cache.findBlockInSet { c with accesses := c.accesses + 1 } (c.getTag a)
      (c.getSetIndex a) = some bi := hf
  constructor
  · intro n r v hr hsel
    unfold Cache.read at hr
    simp only [] at hr
    rw [hf'] at hr
    simp only [] at hr
    rw [← hc3] at hr
    split at hr
    · cases hr
      exact Cache.victim_ne_newest hp3 hlen3 hat hv0 hoth hsel
    · cases hr
  · intro d r v hr hsel
    unfold Cache.write at hr
    simp only [] at hr
    rw [hf'] at hr
    simp only [] at hr
    rw [← hc3] at hr
    split at hr
    · cases hr
      have hget3 := Cache.getBlock_of_blockAt hat
      rw [hget3] at hsel
      have key : ∀ (blk : CacheBlock), blk.valid = true → blk.timestamp = c.globalTimestamp →
          ∀ v : Nat × Cache, (c3.setBlock (c.getSetIndex a) bi blk).selectVictim
            (c.getSetIndex a) = .ok v → v.1 ≠ bi := by
        intro blk hbv hbt v hsel
        have hp4 : (c3.setBlock (c.getSetIndex a) bi blk).policy = .LRU := hp3
        refine Cache.victim_ne_newest hp4 ?_ ?_ hbv ?_ hsel
        · rw [Cache.length_blocks_setBlock]; exact hlen3
        · rw [Cache.blockAt_setBlock, if_pos ⟨rfl, rfl, by rw [hat]; rfl⟩]
        · intro j bj hj hbj hvj
          rw [Cache.blockAt_setBlock, if_neg (fun hc => hj hc.2.1)] at hbj
          rw [hbt]
          exact hoth j bj hj hbj hvj
      refine key _ ?_ ?_ v hsel
      · exact hv0
      · rfl
    · cases hr

/-- C30: `selectVictim` on a full set of an LRU cache returns a slot with the least timestamp
and, among those, the lowest index; on a set with an invalid block it returns, under either
policy, the first invalid slot; and in an LRU cache reachable from construction the block hit
by a read or a write is not the victim chosen next in its set when the set has at least two
slots. -/
theorem C30_lru_victim {σ : Type} (nl : Option (NextLevel σ)) (c : Cache) (si : Nat)
    (hc : Cache.Reachable nl c) :
    (c.policy = .LRU → (c.getSet si).blocks ≠ [] →
      (∀ b ∈ (c.getSet si).blocks, b.valid = true) →
      ∃ i, c.selectVictim si = .ok (i, c) ∧ i < (c.getSet si).blocks.length ∧
        (∀ j, j < (c.getSet si).blocks.length →
          stampAt (c.getSet si).blocks i ≤ stampAt (c.getSet si).blocks j) ∧
        (∀ j, j < i → stampAt (c.getSet si).blocks i < stampAt (c.getSet si).blocks j)) ∧
    (∀ b ∈ (c.getSet si).blocks, b.valid = false →
      ∃ i, c.selectVictim si = .ok (i, c) ∧
        (∃ bi, (c.getSet si).blocks[i]? = some bi ∧ bi.valid = false) ∧
        (∀ j bj, j < i → (c.getSet si).blocks[j]? = some bj → bj.valid = true)) ∧
    (c.policy = .LRU → ∀ (s : σ) (a bi : Nat),
      c.findBlockInSet (c.getTag a) (c.getSetIndex a) = some bi →
      2 ≤ (c.getSet (c.getSetIndex a)).blocks.length →
      (∀ (n : Nat) (r : (Int × List Nat) × Cache × σ) (v : Nat × Cache),
        Cache.read nl c s a n = .ok r → r.2.1.selectVictim (c.getSetIndex a) = .ok v →
          v.1 ≠ bi) ∧
      (∀ (d : List Nat) (r : Int × Cache × σ) (v : Nat × Cache),
        Cache.write nl c s a d = .ok r → r.2.1.selectVictim (c.getSetIndex a) = .ok v →
          v.1 ≠ bi)) :=
  ⟨fun hp hne hfull => Cache.selectVictim_full_lru hp hne hfull,
    fun _ hb hv => Cache.selectVictim_invalid hb hv,
    fun hp _ _ _ hf hlen => Cache.victim_ne_hit hp (Cache.reachable_stamped hc hp) hf hlen⟩

theorem C30_lru_victim_witness :
    Cache.Reachable (some memorySystem) sampleCacheRead.2.1 ∧
    sampleCacheRead.2.1.findBlockInSet (sampleCacheRead.2.1.getTag 6)
      (sampleCacheRead.2.1.getSetIndex 6) = some 0 ∧
    c30Hit.2.1.selectVictim 1 = .ok (1, c30Hit.2.1) ∧ (1 : Nat) ≠ 0 :=
  ⟨Cache.Reachable.read (Cache.Reachable.fresh sampleCache_new) sampleCacheRead_ok,
    by decide, by decide,
    ((C30_lru_victim (some memorySystem) sampleCacheRead.2.1 1
      (Cache.Reachable.read (Cache.Reachable.fresh sampleCache_new) sampleCacheRead_ok)).2.2
      (by decide) sampleCacheRead.2.2 6 0 (by decide) (by decide)).1 1 c30Hit (1, c30Hit.2.1)
      (by decide) (by decide)⟩


/-- C31, on the code: the FIFO queue of the set is empty after the read miss that fills slot 0
and after the write miss that fills slot 1. -/
theorem C31_fifo_queue_not_filled :
    c31Scenario.map (fun r => r.1) = .ok [[], [], []] := by decide

/-- C35, on the code: in a FIFO cache reached from construction by a read and a write, both
blocks of the set are valid, and `selectVictim` finds the FIFO queue empty. -/
theorem C35_fifo_queue_empty_on_full_set :
    c31Scenario.map (fun r => r.2) = .ok ([true, true], .error .emptyFifo) := by decide

/-- C37, on the code: with `addi x0, x0, 5` in flight `getForwardedValue(0)` is 5 and the
following `add x1, x0, x0` leaves 10 in x1; with `addi x31, x0, 5` in flight on core 0
`getForwardedValue(31)` is 5 and `add x1, x31, x0` leaves 5 in x1. -/
theorem C37_forwarding_of_x0_and_x31 :
    c37Scenario ["addi x0, x0, 5", "add x1, x0, x0", "halt"] =
      .ok (.ok 5, .ok 0, 0, some 10) ∧
    c37Scenario ["addi x31, x0, 5", "add x1, x31, x0", "halt"] =
      .ok (.ok 0, .ok 5, 0, some 5) := by decide!

/-- C38, on the code: after three iterations the second `sync` of core 1 has been executed
without a stall and is in its memory queue, while the second `sync` of core 0 is still in the
decode queue and has not called `arrive`. -/
theorem C38_second_sync_passes_early :
    c38Scenario = .ok ([([["addi x1, x0, 1"], ["sync"], [], ["sync"], []], ["", "F", "S", "D"]),
      ([["halt"], ["addi"], [], ["sync"], ["sync"]], ["", "F", "D", "E", "E"])],
      [true, true]) := by decide!

/-- C39, on the code: the second byte of the read, whose position 2^32 lies beyond the memory,
is the stored byte 7 of position 0, while the write leaves position 0 as it is. -/
theorem C39_read_wraps_around : c39Scenario = ([0, 7], [7, 8, 9, 10]) := by decide

/-- C40, on the code: address 4 of a 6-byte scratchpad passes the test, and both accesses reach
the bytes at positions 6 and 7, outside the storage. -/
theorem C40_spm_access_past_end :
    c40Scenario = .ok (.error .outOfBounds, .error .outOfBounds, true) := by decide!

/-- C36, on the code: the `add` taken from the decode queue is in no queue when the cycle
returns. -/
theorem C36_instruction_dropped_on_full_memory_queue :
    c36Scenario = .ok ([[], ["add"], [], ["lw", "addi"], []], [[], [], [], ["lw", "addi"], []],
      ["", "", "F", "S", "D", "E", "S"]) := by decide!


theorem Cache.new_counters {cs bs as lat : Int} {pol : ReplacementPolicy} {c : Cache}
    (h : Cache.new cs bs as lat pol = .ok c) :
    c.accesses = 0 ∧ c.hits = 0 ∧ c.misses = 0 := by
  unfold Cache.new at h
  split at h
  · cases h
  · split at h
    · cases h
    · split at h
      · cases h
      · simp only at h
        split at h
        · cases h
        · injection h with h
          subst h
          exact ⟨rfl, rfl, rfl⟩

theorem Cache.accesses_updateReplacementInfo (c : Cache) (si bi : Nat) :
    (c.updateReplacementInfo si bi).accesses = c.accesses :=
  (Cache.counters_updateReplacementInfo c si bi).1

theorem Cache.hits_updateReplacementInfo (c : Cache) (si bi : Nat) :
    (c.updateReplacementInfo si bi).hits = c.hits :=
  (Cache.counters_updateReplacementInfo c si bi).2.1

theorem Cache.misses_updateReplacementInfo (c : Cache) (si bi : Nat) :
    (c.updateReplacementInfo si bi).misses = c.misses :=
  (Cache.counters_updateReplacementInfo c si bi).2.2

theorem Cache.accesses_setBlock (c : Cache) (si bi : Nat) (b : CacheBlock) :
    (c.setBlock si bi b).accesses = c.accesses := rfl

theorem Cache.hits_setBlock (c : Cache) (si bi : Nat) (b : CacheBlock) :
    (c.setBlock si bi b).hits = c.hits := rfl

theorem Cache.misses_setBlock (c : Cache) (si bi : Nat) (b : CacheBlock) :
    (c.setBlock si bi b).misses = c.misses := rfl

/-- A `read` that returns has counted one access, and one hit or one miss. -/
theorem Cache.read_counters {σ : Type} {nl : Option (NextLevel σ)} {c : Cache} {s : σ}
    {a n : Nat} {r : (Int × List Nat) × Cache × σ} (h : Cache.read nl c s a n = .ok r) :
    r.2.1.accesses = c.accesses + 1 ∧ r.2.1.hits + r.2.1.misses = c.hits + c.misses + 1 := by
  unfold Cache.read at h
  simp only [] at h
  split at h
  · split at h
    · cases h
      simp only [Cache.accesses_updateReplacementInfo, Cache.hits_updateReplacementInfo,
        Cache.misses_updateReplacementInfo]
      refine ⟨?_, ?_⟩ <;> first | trivial | omega
    · cases h
  · simp only [bind, Except.bind, pure, Except.pure] at h
    split at h
    · cases h
    · split at h
      · cases h
      · rename_i v hv
        split at h
        · cases h
        · split at h
          · cases h
            obtain ⟨_, _, h1, h2, h3, _⟩ := Cache.selectVictim_spec hv
            simp only [Cache.accesses_updateReplacementInfo, Cache.hits_updateReplacementInfo,
              Cache.misses_updateReplacementInfo, Cache.accesses_setBlock, Cache.hits_setBlock,
              Cache.misses_setBlock, h1, h2, h3]
            refine ⟨?_, ?_⟩ <;> trivial
          · cases h

/-- A `write` that returns has counted one access, and one hit or one miss. -/
theorem Cache.write_counters {σ : Type} {nl : Option (NextLevel σ)} {c : Cache} {s : σ}
    {a : Nat} {d : List Nat} {r : Int × Cache × σ} (h : Cache.write nl c s a d = .ok r) :
    r.2.1.accesses = c.accesses + 1 ∧ r.2.1.hits + r.2.1.misses = c.hits + c.misses + 1 := by
  unfold Cache.write at h
  simp only [] at h
  split at h
  · split at h
    · cases h
      simp only [Cache.accesses_updateReplacementInfo, Cache.hits_updateReplacementInfo,
        Cache.misses_updateReplacementInfo, Cache.accesses_setBlock, Cache.hits_setBlock,
        Cache.misses_setBlock]
      refine ⟨?_, ?_⟩ <;> first | trivial | omega
    · cases h
  · simp only [bind, Except.bind, pure, Except.pure] at h
    split at h
    · cases h
    · split at h
      · cases h
      · rename_i v hv
        split at h
        · cases h
        · split at h
          · cases h
            obtain ⟨_, _, h1, h2, h3, _⟩ := Cache.selectVictim_spec hv
            simp only [Cache.accesses_updateReplacementInfo, Cache.hits_updateReplacementInfo,
              Cache.misses_updateReplacementInfo, Cache.accesses_setBlock, Cache.hits_setBlock,
              Cache.misses_setBlock, h1, h2, h3]
            refine ⟨?_, ?_⟩ <;> trivial
          · cases h

theorem Cache.counted_sum {σ : Type} {nl : Option (NextLevel σ)} {c : Cache}
    (hc : Cache.Counted nl c) : c.hits + c.misses = c.accesses := by
  induction hc with
  | fresh h =>
    obtain ⟨h1, h2, h3⟩ := Cache.new_counters h
    omega
  | reset c => rfl
  | read _ h ih =>
    have := Cache.read_counters h
    omega
  | write _ h ih =>
    have := Cache.write_counters h
    omega

/-- C34: in every cache state reached from construction, or from any state by
`resetStatistics`, through `read` and `write` calls, `hits + misses = accesses`; and a `read`
or `write` of bytes that lie within one block, when it returns, has increased `accesses` by
exactly 1 (and `hits + misses` with it). -/
theorem C34_hits_plus_misses_eq_accesses {σ : Type} (nl : Option (NextLevel σ)) (c : Cache)
    (hc : Cache.Counted nl c) :
    c.hits + c.misses = c.accesses ∧
    (∀ (s : σ) (a n : Nat) (r : (Int × List Nat) × Cache × σ),
      n ≤ c.blockSize - c.getBlockOffset a → Cache.read nl c s a n = .ok r →
        r.2.1.accesses = c.accesses + 1 ∧ r.2.1.hits + r.2.1.misses = r.2.1.accesses) ∧
    (∀ (s : σ) (a : Nat) (d : List Nat) (r : Int × Cache × σ),
      d.length ≤ c.blockSize - c.getBlockOffset a → Cache.write nl c s a d = .ok r →
        r.2.1.accesses = c.accesses + 1 ∧ r.2.1.hits + r.2.1.misses = r.2.1.accesses) := by
  have h0 := Cache.counted_sum hc
  refine ⟨h0, fun s a n r _ h => ?_, fun s a d r _ h => ?_⟩
  · have := Cache.read_counters h
    omega
  · have := Cache.write_counters h
    omega

/-- C34 at the sample cache after `resetStatistics` and one read miss, for the read of address
6 that hits. -/
theorem C34_hits_plus_misses_eq_accesses_witness :
    Cache.Counted (some memorySystem) sampleCacheRead.2.1 ∧
    Cache.read (some memorySystem) sampleCacheRead.2.1 sampleCacheRead.2.2 6 1 = .ok c30Hit ∧
    sampleCacheRead.2.1.accesses = 1 ∧ c30Hit.2.1.accesses = 1 + 1 ∧
    c30Hit.2.1.hits + c30Hit.2.1.misses = c30Hit.2.1.accesses :=
  ⟨Cache.Counted.read (Cache.Counted.reset sampleCache) sampleCacheRead_ok, by decide, by decide,
    ((C34_hits_plus_misses_eq_accesses (some memorySystem) sampleCacheRead.2.1
      (Cache.Counted.read (Cache.Counted.reset sampleCache) sampleCacheRead_ok)).2.1
      sampleCacheRead.2.2 6 1 c30Hit (by decide) (by decide))⟩


@[simp] theorem PipelinedCore.regs_stall (c : PipelinedCore) (i : Int) :
    (c.stall i).regs = c.regs := by
  simp [PipelinedCore.stall]

@[simp] theorem PipelinedCore.regs_pushMemory (c : PipelinedCore) (i : Instruction) :
    (c.pushMemory i).regs = c.regs := rfl

@[simp] theorem PipelinedCore.regs_flushYounger (c : PipelinedCore) :
    c.flushYounger.regs = c.regs := rfl

@[simp] theorem PipelinedCore.regs_finishExecute (c : PipelinedCore) (i : Instruction) :
    (c.finishExecute i).regs = c.regs := by
  unfold PipelinedCore.finishExecute
  split <;> simp

@[simp] theorem PipelinedCore.regs_finishMemory (c : PipelinedCore) (i : Instruction) :
    (c.finishMemory i).regs = c.regs := by
  unfold PipelinedCore.finishMemory
  split
  · simp [PipelinedCore.stall]
  · simp

@[simp] theorem PipelinedCore.regs_waitForMemory (c : PipelinedCore) (i : Instruction)
    (l : Int) (b : Bool) : (c.waitForMemory i l b).regs = c.regs := by
  simp [PipelinedCore.waitForMemory]

@[simp] theorem PipelinedCore.regs_finishArithmetic (c : PipelinedCore) (i : Instruction) :
    (c.finishArithmetic i).regs = c.regs := by
  unfold PipelinedCore.finishArithmetic
  split
  · split
    · rfl
    · simp
  · simp

/-- The decode stage does not touch the register paths. -/
theorem PipelinedCore.decode_regs {c c' : PipelinedCore} (h : c.decode = .ok c') :
    c'.regs = c.regs := by
  unfold PipelinedCore.decode at h
  split at h
  · cases h; rfl
  · split at h
    · cases h; rfl
    · split at h
      · cases h; rfl
      · split at h
        · cases h; simp
        · split at h
          · cases h; rfl
          · simp only [bind, Except.bind] at h
            split at h
            · cases h
            · split at h
              · cases h; simp
              · cases h; simp

theorem PipelinedCore.accessMemory_regs {c : PipelinedCore} {sh : Shared} {inst : Instruction}
    {r : (PipelinedCore × Instruction × Bool) × Shared}
    (h : c.accessMemory sh inst = .ok r) : r.1.1.regs = c.regs := by
  unfold PipelinedCore.accessMemory at h
  simp only [bind, Except.bind, pure, Except.pure] at h
  repeat' split at h
  all_goals (cases h <;> first | rfl | simp)

/-- The memory stage does not touch the register paths. -/
theorem PipelinedCore.memoryAccess_regs {c : PipelinedCore} {sh : Shared}
    {r : PipelinedCore × Shared} (h : c.memoryAccess sh = .ok r) : r.1.regs = c.regs := by
  unfold PipelinedCore.memoryAccess at h
  split at h
  · cases h; rfl
  · split at h
    · split at h
      · cases h; simp
      · cases h; simp
    · split at h
      · simp only [bind, Except.bind, pure, Except.pure] at h
        split at h
        · cases h
        · rename_i r0 hr0
          have := PipelinedCore.accessMemory_regs hr0
          split at h
          · cases h; rw [this]
          · cases h; simp [this]
      · cases h; simp

theorem PipelinedCore.executeSync_regs {c : PipelinedCore} {sh : Shared} {inst : Instruction}
    {r : PipelinedCore × Shared} (h : c.executeSync sh inst = .ok r) :
    r.1.regs = c.regs := by
  unfold PipelinedCore.executeSync at h
  simp only [bind, Except.bind, pure, Except.pure] at h
  split at h
  · cases h
  · split at h
    · cases h; simp
    · cases h; simp

theorem PipelinedCore.executeArith_regs {c c' : PipelinedCore} {inst : Instruction}
    {fd : Bool} (hf : c.regs.forwarding = false) (h : c.executeArith inst fd = .ok c') :
    c'.regs = c.regs := by
  unfold PipelinedCore.executeArith at h
  simp only [bind, Except.bind, pure, Except.pure] at h
  split at h
  · cases h
  · split at h
    · cases h
    · split at h
      · cases h
      · rename_i regs hregs
        cases h
        rw [PipelinedCore.regs_finishArithmetic]
        simp only [executeArithmeticWrite, hf, Bool.false_eq_true, false_and, if_false] at hregs
        cases hregs
        rfl

theorem PipelinedCore.executeLoad_regs {c c' : PipelinedCore} {inst : Instruction}
    (h : c.executeLoad inst = .ok c') : c'.regs = c.regs := by
  unfold PipelinedCore.executeLoad at h
  simp only [bind, Except.bind, pure, Except.pure] at h
  split at h
  · cases h
  · cases h; simp

theorem PipelinedCore.executeStore_regs {c c' : PipelinedCore} {inst : Instruction}
    (h : c.executeStore inst = .ok c') : c'.regs = c.regs := by
  unfold PipelinedCore.executeStore at h
  simp only [bind, Except.bind, pure, Except.pure] at h
  split at h
  · cases h
  · split at h
    · cases h
    · split at h
      · cases h
      · cases h; simp

theorem PipelinedCore.executeBranch_regs {c c' : PipelinedCore} {inst : Instruction}
    (h : c.executeBranch inst = .ok c') : c'.regs = c.regs := by
  unfold PipelinedCore.executeBranch at h
  simp only [bind, Except.bind, pure, Except.pure] at h
  split at h
  · cases h
  · split at h
    · cases h; split <;> rfl
    · cases h; split <;> rfl

theorem PipelinedCore.executeInvld_regs {c : PipelinedCore} {sh : Shared} {inst : Instruction}
    {r : PipelinedCore × Shared} (h : c.executeInvld sh inst = .ok r) :
    r.1.regs = c.regs := by
  unfold PipelinedCore.executeInvld at h
  split at h
  · cases h
  · cases h; simp

theorem PipelinedCore.executeInst_regs {c : PipelinedCore} {sh : Shared} {inst : Instruction}
    {fd : Bool} {r : PipelinedCore × Shared} (hf : c.regs.forwarding = false)
    (h : c.executeInst sh inst fd = .ok r) : r.1.regs = c.regs := by
  unfold PipelinedCore.executeInst at h
  split at h
  · cases h; rfl
  split at h
  · cases h; simp [PipelinedCore.executeHalt, PipelinedCore.flushYounger]
  split at h
  · exact PipelinedCore.executeSync_regs h
  split at h
  · obtain ⟨a, ha, rfl⟩ := Except.map_ok h
    exact PipelinedCore.executeArith_regs hf ha
  split at h
  · obtain ⟨a, ha, rfl⟩ := Except.map_ok h
    exact PipelinedCore.executeLoad_regs ha
  split at h
  · obtain ⟨a, ha, rfl⟩ := Except.map_ok h
    exact PipelinedCore.executeStore_regs ha
  split at h
  · obtain ⟨a, ha, rfl⟩ := Except.map_ok h
    exact PipelinedCore.executeBranch_regs ha
  split at h
  · cases h
    simp [PipelinedCore.executeJumpInst, PipelinedCore.flushYounger, PipelinedCore.pushMemory]
  split at h
  · cases h; simp [PipelinedCore.executeLa]
  split at h
  · exact PipelinedCore.executeInvld_regs h
  · cases h; simp

/-- Without forwarding the execute stage does not touch the register paths. -/
theorem PipelinedCore.execute_regs {c : PipelinedCore} {sh : Shared}
    {r : PipelinedCore × Shared} (hf : c.regs.forwarding = false) (h : c.execute sh = .ok r) :
    r.1.regs = c.regs := by
  unfold PipelinedCore.execute at h
  split at h
  · rw [PipelinedCore.executeInst_regs (by simpa using hf) h]; simp
  · split at h
    · cases h; rfl
    · split at h
      · cases h; simp
      · rw [PipelinedCore.executeInst_regs (by simpa using hf) h]; simp


theorem lookup_mapInsert_self (m : List (Int × Int)) (k v : Int) :
    (mapInsert m k v).lookup k = some v := by
  simp [mapInsert, List.lookup]

theorem lookup_filter_ne (k k' : Int) (h : k' ≠ k) :
    ∀ m : List (Int × Int), (m.filter (fun e => e.1 != k)).lookup k' = m.lookup k'
  | [] => rfl
  | e :: m => by
    by_cases he : e.1 = k
    · obtain ⟨a, b⟩ := e
      simp only at he
      subst he
      have hk : (k' == a) = false := beq_false_of_ne h
      simp only [List.filter, bne_self_eq_false, List.lookup, hk]
      exact lookup_filter_ne a k' h m
    · have hb : (e.1 != k) = true := bne_iff_ne.2 he
      obtain ⟨a, b⟩ := e
      simp only at hb
      simp only [List.filter, hb, List.lookup]
      cases (k' == a)
      · exact lookup_filter_ne k k' h m
      · rfl

theorem lookup_mapInsert_of_ne (m : List (Int × Int)) {k k' : Int} (v : Int) (h : k' ≠ k) :
    (mapInsert m k v).lookup k' = m.lookup k' := by
  have hk : (k' == k) = false := beq_false_of_ne h
  simp only [mapInsert, List.lookup, hk]
  exact lookup_filter_ne k k' h m

theorem mem_mapInsert_tail {m : List (Int × Int)} {k : Int} {e : Int × Int}
    (h : e ∈ m.filter (fun e => e.1 != k)) : e.1 ≠ k := by
  have := (List.mem_filter.1 h).2
  exact bne_iff_ne.1 this

/-- The end-of-cycle loop over entries whose keys differ from `rd` leaves register `rd` and
`registerAvailableCycle[rd]` as they are. -/
theorem commitPendingWrites_other (rd : Int) (hrd : 0 ≤ rd) :
    ∀ (l : List (Int × Int)) {s s' : CoreRegs}, (∀ e ∈ l, e.1 ≠ rd) →
      commitPendingWrites s l = .ok s' →
      s'.registers.getD rd.toNat 0 = s.registers.getD rd.toNat 0 ∧
      s'.registerAvailableCycle.lookup rd = s.registerAvailableCycle.lookup rd ∧
      s'.coreId = s.coreId
  | [], s, s', _, h => by cases h; exact ⟨rfl, rfl, rfl⟩
  | e :: es, s, s', hk, h => by
    simp only [commitPendingWrites, bind, Except.bind] at h
    split at h
    · cases h
    · rename_i s1 h1
      have hne : e.1 ≠ rd := hk e (List.mem_cons_self _ _)
      obtain ⟨g1, g2, g3⟩ := commitPendingWrites_other rd hrd es
        (fun x hx => hk x (List.mem_cons_of_mem _ hx)) h
      have k1 : s1.registers.getD rd.toNat 0 = s.registers.getD rd.toNat 0 ∧
          s1.registerAvailableCycle = s.registerAvailableCycle ∧ s1.coreId = s.coreId := by
        unfold setRegister at h1
        split at h1
        · cases h1
        · rename_i hin
          split at h1
          · cases h1
            refine ⟨?_, rfl, rfl⟩
            simp only [NUM_REGISTERS] at hin
            have : e.1.toNat ≠ rd.toNat := by omega
            simp only [List.getD_eq_getElem?_getD]
            rw [List.getElem?_set_ne this]
          · cases h1; exact ⟨rfl, rfl, rfl⟩
      refine ⟨g1.trans k1.1, ?_, g3.trans k1.2.2⟩
      rw [g2]
      simp only []
      rw [lookup_mapInsert_of_ne _ _ (Ne.symm hne), k1.2.1]

/-- The end-of-cycle commit when the pending writes are those `writeback` left for a register
`rd` in 1..30: register `rd` holds the value and `registerAvailableCycle[rd]` is the cycle
count of that moment. -/
theorem commitPendingWrites_head {s s' : CoreRegs} {pw : List (Int × Int)} {rd v : Int}
    (hrd : 0 < rd ∧ rd < 31) (hlen : s.registers.length = 32)
    (h : commitPendingWrites s (mapInsert pw rd v) = .ok s') :
    getRegister s' rd = .ok v ∧ s'.registerAvailableCycle.lookup rd = some s.cycleCount := by
  simp only [mapInsert, commitPendingWrites, bind, Except.bind] at h
  split at h
  · cases h
  · rename_i s1 h1
    have hs1 : s1 = { s with registers := s.registers.set rd.toNat v } := by
      unfold setRegister at h1
      simp only [NUM_REGISTERS] at h1
      rw [if_neg (by omega), if_pos (by omega)] at h1
      exact (Except.ok.inj h1).symm
    obtain ⟨g1, g2, _⟩ := commitPendingWrites_other rd (by omega) _
      (fun e he => mem_mapInsert_tail he) h
    constructor
    · unfold getRegister
      simp only [NUM_REGISTERS]
      rw [if_neg (by omega), if_neg (by omega), if_neg (by omega), g1, hs1]
      simp only [List.getD_eq_getElem?_getD]
      rw [List.getElem?_set_self (by omega)]
      rfl
    · rw [g2]
      simp only []
      simp [List.lookup, hs1]


/-- What `writeback` does to the register paths when it retires `inst`. -/
theorem PipelinedCore.writeback_retire {c : PipelinedCore} {sh : Shared} {inst : Instruction}
    {q : List Instruction} {r : PipelinedCore × Shared}
    (hq : c.writebackQueue = inst :: q) (hop : (inst.opcode == "halt") = false)
    (hx : inst.shouldExecute = true) (h : c.writeback sh = .ok r) :
    writebackCommit c.regs inst.hasResult inst.rd inst.resultValue = .ok r.1.regs := by
  unfold PipelinedCore.writeback at h
  rw [hq] at h
  simp only [hop, hx, Bool.false_eq_true, if_false, Bool.not_true, bind, Except.bind, pure,
    Except.pure] at h
  split at h
  · cases h
  · rename_i regs hregs
    rw [hregs]
    split at h
    · split at h
      · cases h
      · cases h; simp
    · cases h; simp

/-- The `writeback` of an instruction that is neither `halt` nor `sync` returns when its
register commit does. -/
theorem PipelinedCore.writeback_returns {c : PipelinedCore} {sh : Shared} {inst : Instruction}
    {q : List Instruction} {regs : CoreRegs}
    (hq : c.writebackQueue = inst :: q) (hop : (inst.opcode == "halt") = false)
    (hx : inst.shouldExecute = true) (hs : inst.isSync = false)
    (h : writebackCommit c.regs inst.hasResult inst.rd inst.resultValue = .ok regs) :
    ∃ r, c.writeback sh = .ok r := by
  unfold PipelinedCore.writeback
  rw [hq]
  simp only [hop, hx, hs, Bool.false_eq_true, if_false, Bool.not_true, bind, Except.bind, pure,
    Except.pure, h]
  exact ⟨_, rfl⟩

theorem writebackCommit_forwarding {s : CoreRegs} {rd v : Int} (hf : s.forwarding = true)
    (hrd : 0 < rd ∧ rd < 31) :
    writebackCommit s true rd v = .ok { s with
      registers := s.registers.set rd.toNat v
      registerAvailableCycle := mapInsert s.registerAvailableCycle rd (s.cycleCount + 1) } := by
  have h1 : ¬ (rd < 0 ∨ rd ≥ 32) := by omega
  have h2 : rd ≠ 0 ∧ rd ≠ 31 := by omega
  have h3 : rd ≥ 0 := by omega
  simp only [writebackCommit, setRegister, NUM_REGISTERS, hf, bind, Except.bind, pure,
    Except.pure, h1, h2, h3, and_self, if_true, if_false, ne_eq, not_false_eq_true]

theorem writebackCommit_pending {s : CoreRegs} {rd v : Int} (hf : s.forwarding = false)
    (hrd : 0 < rd ∧ rd < 31) :
    writebackCommit s true rd v =
      .ok { s with pendingWrites := mapInsert s.pendingWrites rd v } := by
  have h2 : rd ≠ 0 ∧ rd ≠ 31 := by omega
  have h3 : rd ≥ 0 := by omega
  simp only [writebackCommit, hf, h2, h3, and_self, if_true, if_false, ne_eq,
    not_false_eq_true, Bool.false_eq_true]

/-- C32 amended: when `writeback` retires an instruction with a result for a register `rd` in
1..30 in a cycle whose number is `k = cycleCount`: with forwarding, register `rd` holds the
result when the stage returns and `registerAvailableCycle[rd] = k + 1`; without forwarding, the
stage leaves the register file as it is and `pendingWrites[rd]` is the result, and when the
`clockCycle` returns register `rd` holds the result, `pendingWrites` is empty and
`registerAvailableCycle[rd] = k + 1`. The stage returns whenever the instruction is not a
`sync`. -/
theorem C32_writeback_register_commit (c : PipelinedCore) (sh : Shared) (inst : Instruction)
    (q : List Instruction) (hq : c.writebackQueue = inst :: q)
    (hop : (inst.opcode == "halt") = false) (hx : inst.shouldExecute = true)
    (hr : inst.hasResult = true) (hrd : 0 < inst.rd ∧ inst.rd < 31)
    (hlen : c.regs.registers.length = 32) :
    (inst.isSync = false → ∃ r, c.writeback sh = .ok r) ∧
    (c.regs.forwarding = true → ∀ r, c.writeback sh = .ok r →
      getRegister r.1.regs inst.rd = .ok inst.resultValue ∧
      r.1.regs.registerAvailableCycle.lookup inst.rd = some (c.regs.cycleCount + 1)) ∧
    (c.regs.forwarding = false →
      (∀ r, c.writeback sh = .ok r →
        r.1.regs.registers = c.regs.registers ∧
        r.1.regs.pendingWrites.lookup inst.rd = some inst.resultValue) ∧
      (c.halted = false → ∀ r, c.clockCycle sh = .ok r →
        getRegister r.1.regs inst.rd = .ok inst.resultValue ∧
        r.1.regs.pendingWrites = [] ∧
        r.1.regs.registerAvailableCycle.lookup inst.rd = some (c.regs.cycleCount + 1))) := by
  refine ⟨fun hs => ?_, fun hf r h => ?_, fun hf => ⟨fun r h => ?_, fun hh r h => ?_⟩⟩
  · cases hfw : c.regs.forwarding with
    | true =>
      exact PipelinedCore.writeback_returns hq hop hx hs
        (by rw [hr]; exact writebackCommit_forwarding hfw hrd)
    | false =>
      exact PipelinedCore.writeback_returns hq hop hx hs
        (by rw [hr]; exact writebackCommit_pending hfw hrd)
  · have h1 := PipelinedCore.writeback_retire hq hop hx h
    rw [hr, writebackCommit_forwarding hf hrd] at h1
    have h2 := (Except.ok.inj h1).symm
    rw [h2]
    constructor
    · unfold getRegister
      simp only [NUM_REGISTERS]
      rw [if_neg (by omega), if_neg (by omega), if_neg (by omega)]
      simp only [List.getD_eq_getElem?_getD]
      rw [List.getElem?_set_self (by omega)]
      rfl
    · exact lookup_mapInsert_self _ _ _
  · have h1 := PipelinedCore.writeback_retire hq hop hx h
    rw [hr, writebackCommit_pending hf hrd] at h1
    have h2 := (Except.ok.inj h1).symm
    rw [h2]
    exact ⟨rfl, lookup_mapInsert_self _ _ _⟩
  · unfold PipelinedCore.clockCycle at h
    rw [if_neg (by simp [hh])] at h
    simp only [bind, Except.bind, pure, Except.pure] at h
    split at h
    · cases h
    rename_i r1 h1
    split at h
    · cases h
    rename_i r2 h2
    split at h
    · cases h
    rename_i r3 h3
    split at h
    · cases h
    rename_i c4 h4
    split at h
    · cases h
    rename_i c7 h7
    have e := (Except.ok.inj h).symm
    subst e
    have w1 := PipelinedCore.writeback_retire (c := PipelinedCore.padRecord
      { c with cycleStallOccurred := false }) hq hop hx h1
    rw [hr] at w1
    have w1b : writebackCommit c.regs true inst.rd inst.resultValue = .ok r1.1.regs := w1
    rw [writebackCommit_pending hf hrd] at w1b
    have e1 := (Except.ok.inj w1b).symm
    have e2 := PipelinedCore.memoryAccess_regs h2
    have hf2 : r2.1.regs.forwarding = false := by rw [e2, e1]; exact hf
    have e3 := PipelinedCore.execute_regs hf2 h3
    have e4 := PipelinedCore.decode_regs h4
    have e5 : c4.regs = { c.regs with
        pendingWrites := (mapInsert c.regs.pendingWrites inst.rd inst.resultValue) } := by
      rw [e4, e3, e2, e1]
    have e6 : c4.countCycle.regs = { c4.regs with cycleCount := c4.regs.cycleCount + 1 } := by
      unfold PipelinedCore.countCycle
      simp only []
      split <;> rfl
    unfold PipelinedCore.commitPending at h7
    rw [e6, e5] at h7
    simp only [hf, Bool.not_false, if_true, bind, Except.bind, pure, Except.pure] at h7
    split at h7
    · cases h7
    rename_i regs hregs
    have e7 := (Except.ok.inj h7).symm
    subst e7
    obtain ⟨g1, g2⟩ := commitPendingWrites_head hrd (by exact hlen) hregs
    exact ⟨g1, rfl, g2⟩

/-- C32, on the code: without forwarding the `addi` with `rd = 1` and result 7 is retired in
the cycle numbered 3; when that `clockCycle` returns register x1 holds 7, the pending writes
are empty, and `registerAvailableCycle[1]` is 4, not 3. When the instruction retired is
`addi x32, x0, 7`, whose `rd` is 32, the `clockCycle` ends in the `std::out_of_range` of
`setRegister`. -/
theorem C32_counterexample :
    c32Scenario ["addi x1, x0, 7", "addi x2, x0, 1", "addi x3, x0, 1", "halt"] =
      .ok ([3, 1, 7], [true], .ok [7, 0, 4]) ∧
    c32Scenario ["addi x32, x0, 7", "addi x2, x0, 1", "addi x3, x0, 1", "halt"] =
      .ok ([3, 32, 7], [true], .error .outOfRange) := by decide!

/-- C32 amended, at a core without forwarding that retires `addi x1, x0, 7` in cycle 3. -/
theorem C32_writeback_register_commit_witness :
    c32Core.clockCycle c20Shared = .ok c32Result ∧
    getRegister c32Result.1.regs 1 = .ok 7 ∧ c32Result.1.regs.pendingWrites = [] ∧
    c32Result.1.regs.registerAvailableCycle.lookup 1 = some (3 + 1) :=
  ⟨by decide,
    ((C32_writeback_register_commit c32Core c20Shared c32Inst [] rfl (by decide) rfl rfl
      (by decide) (by decide)).2.2 (by decide)).2 (by decide) c32Result (by decide)⟩


/-- `MainMemory::read` when `address + size` does not exceed 2^32: each position inside the
memory gives the stored byte, each position at or beyond its size gives 0. -/
theorem MainMemory.read_no_wrap (m : MainMemory) (address size : Nat)
    (h : address + size ≤ 2 ^ 32) :
    m.read address size = (m.accessLatency, (List.range size).map (fun i =>
      if address + i < m.memory.length then m.memory.getD (address + i) 0 else 0)) := by
  unfold MainMemory.read
  refine congrArg (Prod.mk m.accessLatency) (List.map_congr_left fun i hi => ?_)
  rw [Nat.mod_eq_of_lt (by have := List.mem_range.1 hi; omega)]


/-- The label path of `decode`: on a core that is not halted, in a cycle without a recorded
stall and with fewer than 2 entries in the decode queue, a line containing a `:` at the front
of the fetch queue is removed, nothing is pushed to the decode queue, the other queues, the
registers and the trace stay as they are, and pc is incremented. -/
theorem PipelinedCore.decode_label_line (c : PipelinedCore) (entry : FetchEntry) (rest : List FetchEntry)
    (hq : c.fetchQueue = entry :: rest) (hh : c.halted = false)
    (hs : c.cycleStallOccurred = false) (hd : c.decodeQueue.length < 2)
    (hl : entry.rawInst.data.contains ':' = true) :
    ∃ c', c.decode = .ok c' ∧ c'.fetchQueue = rest ∧ c'.decodeQueue = c.decodeQueue ∧
      c'.executeQueue = c.executeQueue ∧ c'.memoryQueue = c.memoryQueue ∧
      c'.writebackQueue = c.writebackQueue ∧ c'.regs = c.regs ∧
      c'.pipelineRecord = c.pipelineRecord ∧ c'.pc = c.pc + 1 := by
  refine ⟨{ c with pc := c.pc + 1, fetchQueue := rest }, ?_, rfl, rfl, rfl, rfl, rfl, rfl, rfl, rfl⟩
  unfold PipelinedCore.decode
  rw [hq]
  simp only [hh, hs, hl, Bool.false_eq_true, if_false, if_true]
  rw [if_neg (by omega)]

/-- `ScratchpadMemory::loadWord` and `storeWord` throw their "Invalid SPM memory access" error
exactly when the address is not a multiple of 4 or is not below `size`. -/
theorem ScratchpadMemory.invalid_iff (m : ScratchpadMemory) (a : Nat) (v : Int) :
    (m.loadWord a = .error .invalidSpmAccess ↔ (a % 4 ≠ 0 ∨ a ≥ m.size % 2 ^ 32)) ∧
    (m.storeWord a v = .error .invalidSpmAccess ↔ (a % 4 ≠ 0 ∨ a ≥ m.size % 2 ^ 32)) := by
  unfold ScratchpadMemory.loadWord ScratchpadMemory.storeWord
  constructor
  · constructor
    · intro h
      by_contra hn
      rw [if_neg hn] at h
      split at h <;> cases h
    · intro h
      rw [if_pos h]
  · constructor
    · intro h
      by_contra hn
      rw [if_neg hn] at h
      split at h <;> cases h
    · intro h
      rw [if_pos h]


/-- `setWord` then `getWord` at an address with `a + 3` inside the memory: the word read is the
word written, and it is the word assembled from the four bytes `read(a, 4)` returns. -/
theorem MainMemory.getWord_setWord (m : MainMemory) (a : Nat) (v : Int)
    (ha : a + 3 < m.memory.length) (h32 : a + 3 < 2 ^ 32) (hv : -2 ^ 31 ≤ v ∧ v < 2 ^ 31) :
    ∃ m', m.setWord a v = .ok m' ∧ m'.getWord a = .ok v ∧
      bytesToWord (m'.read a 4).2 = v ∧ m'.memory.length = m.memory.length := by
  have hmod : (a + 3) % 2 ^ 32 = a + 3 := Nat.mod_eq_of_lt h32
  have hlen : a + 3 < (storeBytes m.memory a (wordToBytes v)).length := by
    rw [length_storeBytes]; exact ha
  have hs := sliceBytes_storeBytes (wordToBytes v) m.memory a (by rw [wordToBytes_length]; omega)
  rw [wordToBytes_length] at hs
  refine ⟨{ m with memory := storeBytes m.memory a (wordToBytes v) }, ?_, ?_, ?_, ?_⟩
  · simp only [MainMemory.setWord, hmod, if_pos ha]
  · simp only [MainMemory.getWord, hmod, if_pos hlen]
    rw [hs, bytesToWord_wordToBytes v hv]
  · rw [MainMemory.read_no_wrap _ _ _ (by omega)]
    have e : (List.range 4).map (fun i =>
        if a + i < (storeBytes m.memory a (wordToBytes v)).length then
          (storeBytes m.memory a (wordToBytes v)).getD (a + i) 0 else 0) =
        sliceBytes (storeBytes m.memory a (wordToBytes v)) a 4 := by
      unfold sliceBytes
      refine List.map_congr_left fun i hi => ?_
      rw [if_pos (by have := List.mem_range.1 hi; omega)]
    simp only []
    rw [e, hs, bytesToWord_wordToBytes v hv]
  · simp


/-- C33, on the code: in the run of `inner: addi x1, x0, 1; addi x2, x0, 2; halt` (what
`loadProgram` stores for a first text line `outer: inner: addi x1, x0, 1`) decode finds the
line with the `:` at the front of the fetch queue in the first `clockCycle`; it removes the
entry and pushes nothing, and pc goes from 1 to 2, so that the instruction at index 1 is never
fetched. -/
theorem C33_label_line_advances_pc :
    c33Scenario ["inner: addi x1, x0, 1", "addi x2, x0, 2", "halt"] 0 =
      .ok (1, [["inner: addi x1, x0, 1"], [], [], [], []], 2, [[], [], [], [], []]) := by
  decide!

/-- C23, on the code: with the load (fetch id 0, value 0) and the `addi` (fetch id 1, value 7)
both in the memory queue with a result for x1, `getForwardedValue(1)` is the value 0 of the
older one. The `beq x1, x0, skip` that follows is taken on that value and the run ends with
x2 = 0; without forwarding the same program ends with x1 = 7 and x2 = 1. -/
theorem C23_stale_value_forwarded :
    c23Scenario = .ok ([(0, true, 1, 0), (1, true, 1, 7)], .ok 0) ∧
    c23Run true = .ok (some [7, 0]) ∧ c23Run false = .ok (some [7, 1]) :=
  ⟨by decide!, by decide!, by decide!⟩

/-- C24, on the code: without forwarding the run of
`addi x1, x0, 3; addi x2, x0, 4; mul x3, x1, x2; halt` with latency 3 for `mul` ends with
x3 = 0, the `mul` having spent its three "E" cycles without being retired; with forwarding it
ends with x3 = 12; and when the uninitialised `cycleStallOccurred` is set at construction the
run ends with x3 = 0 and no trace row for the `mul`, with forwarding as well. -/
theorem C24_mul_result_lost_without_forwarding :
    c24Scenario false false =
      .ok (some (0, some ["", "", "F", "D", "S", "S", "E", "E", "E", "M"])) ∧
    c24Scenario true false = .ok (some (12, some ["", "", "F", "D", "E", "E", "E", "M"])) ∧
    c24Scenario true true = .ok (some (0, none)) :=
  ⟨by decide!, by decide!, by decide!⟩

/-- C29, on the code: the run of `inner: addi x1, x0, 1; addi x2, x0, 2; addi x3, x0, 3; halt`
ends after one cycle with the core not halted, pc = 3 inside the program of 4 lines, no
instruction retired and a line in the fetch queue; and when the uninitialised
`cycleStallOccurred` is set at construction the run of `addi x1, x0, 1; halt` ends after one
cycle with the core not halted and pc = 1. -/
theorem C29_run_ends_with_pc_inside_program :
    c29Scenario ["inner: addi x1, x0, 1", "addi x2, x0, 2", "addi x3, x0, 3", "halt"] false =
      .ok (some (false, [3, 4, 1, 0], [["addi x3, x0, 3"], [], [], [], []])) ∧
    c29Scenario ["addi x1, x0, 1", "halt"] true =
      .ok (some (false, [1, 2, 1, 0], [["addi x1, x0, 1"], [], [], [], []])) :=
  ⟨by decide!, by decide!⟩


theorem PipelinedCore.Reachable.clockCycles {c : PipelinedCore} (hc : PipelinedCore.Reachable c) :
    ∀ (k : Nat) (sh : Shared) (r : PipelinedCore × Shared), c.clockCycles sh k = .ok r →
      PipelinedCore.Reachable r.1 := by
  intro k
  induction k generalizing c with
  | zero =>
    intro sh r h
    cases h
    exact hc
  | succ k ih =>
    intro sh r h
    simp only [PipelinedCore.clockCycles, bind, Except.bind] at h
    split at h
    · cases h
    · rename_i r1 h1
      exact ih (PipelinedCore.Reachable.clock sh hc h1) _ _ h

/-- A loop `for k in 0 .. n-1` that returns has gone through a chain of `n + 1` states, each
step being the loop body at the index of the step. -/
theorem foldlM_range_chain {β : Type} (f : β → Nat → Except SimError β) :
    ∀ (n : Nat) (s s' : β), (List.range n).foldlM f s = .ok s' →
      ∃ hs : List β, hs.length = n + 1 ∧ hs[0]? = some s ∧ hs[n]? = some s' ∧
        ∀ k, k < n → ∃ x y, hs[k]? = some x ∧ hs[k + 1]? = some y ∧ f x k = .ok y := by
  intro n
  induction n with
  | zero =>
    intro s s' h
    cases h
    exact ⟨[s], rfl, rfl, rfl, fun k hk => absurd hk (Nat.not_lt_zero k)⟩
  | succ n ih =>
    intro s s' h
    rw [List.range_succ, List.foldlM_append] at h
    simp only [bind, Except.bind] at h
    split at h
    · cases h
    · rename_i s1 h1
      simp only [List.foldlM, bind, Except.bind, pure, Except.pure] at h
      split at h
      · cases h
      · rename_i s2 h2
        cases h
        obtain ⟨hs, hl, h0, hn, hstep⟩ := ih s s1 h1
        refine ⟨hs ++ [s'], by simp [hl], ?_, ?_, ?_⟩
        · rw [List.getElem?_append_left (by omega)]; exact h0
        · rw [List.getElem?_append_right (by omega), hl]; simp
        · intro k hk
          by_cases hkn : k < n
          · obtain ⟨x, y, hx, hy, hf⟩ := hstep k hkn
            refine ⟨x, y, ?_, ?_, hf⟩
            · rw [List.getElem?_append_left (by omega)]; exact hx
            · rw [List.getElem?_append_left (by omega)]; exact hy
          · have hk2 : k = n := by omega
            subst hk2
            refine ⟨s1, s', ?_, ?_, h2⟩
            · rw [List.getElem?_append_left (by omega)]; exact hn
            · rw [List.getElem?_append_right (by omega), hl]; simp

/-- C16: when `retire(c)` brings `retireCount` to `numCores`, the call is the loop
`flushL1D(0), ..., flushL1D(numCores - 1)` on the hierarchy followed by the reset: when it
returns, the barrier is as the constructor builds it (all flags false, both counters 0) and the
hierarchy has gone through one `flushL1D(k)` for each core id `k` in turn, each on the state the
previous one left. In every other case the call returns, with `arrived`, `arriveCount` and the
hierarchy as they were. -/
theorem C16_retire_completion (b : SyncMechanism) (h : MemoryHierarchy) (c : Nat)
    (hla : b.arrived.length = b.numCores.toNat) (hlr : b.retired.length = b.numCores.toNat) :
    ((b.markRetired c).retireCount = b.numCores →
      b.retire h c =
        ((List.range b.numCores.toNat).foldlM
          (fun (acc : MemoryHierarchy) (k : Nat) => acc.flushL1D (k : Int)) h).map
          (fun h2 => (SyncMechanism.new b.numCores, h2)) ∧
      ∀ r, b.retire h c = .ok r →
        r.1 = SyncMechanism.new b.numCores ∧
        (∀ k, k < b.numCores.toNat →
          r.1.arrived.getD k true = false ∧ r.1.retired.getD k true = false) ∧
        r.1.arriveCount = 0 ∧ r.1.retireCount = 0 ∧
        ∃ hs : List MemoryHierarchy, hs.length = b.numCores.toNat + 1 ∧ hs[0]? = some h ∧
          hs[b.numCores.toNat]? = some r.2 ∧
          ∀ k, k < b.numCores.toNat →
            ∃ x y, hs[k]? = some x ∧ hs[k + 1]? = some y ∧ x.flushL1D (k : Int) = .ok y) ∧
    ((b.markRetired c).retireCount ≠ b.numCores →
      b.retire h c = .ok (b.markRetired c, h) ∧ (b.markRetired c).arrived = b.arrived ∧
      (b.markRetired c).arriveCount = b.arriveCount) := by
  have hn := SyncMechanism.numCores_markRetired b c
  have hf := SyncMechanism.markRetired_frame b c
  constructor
  · intro heq
    have e : b.retire h c =
        ((List.range b.numCores.toNat).foldlM
          (fun (acc : MemoryHierarchy) (k : Nat) => acc.flushL1D (k : Int)) h).map
          (fun h2 => (SyncMechanism.new b.numCores, h2)) := by
      rw [SyncMechanism.retire_eq, if_pos (by rw [hn]; exact heq), hn,
        SyncMechanism.reset_eq_new _ (by rw [hf.1, hn]; exact hla)
          (by rw [hf.2.2, hn]; exact hlr), hn]
      unfold flushAllL1D
      rfl
    refine ⟨e, fun r hr => ?_⟩
    rw [e] at hr
    obtain ⟨h2, hfold, rfl⟩ := Except.map_ok hr
    refine ⟨rfl, fun k hk => ?_, rfl, rfl, foldlM_range_chain _ _ _ _ hfold⟩
    simp [SyncMechanism.new, List.getD_eq_getElem?_getD, List.getElem?_replicate, hk]
  · intro hne
    refine ⟨?_, hf.1, hf.2.1⟩
    rw [SyncMechanism.retire_eq, if_neg (by rw [hn]; exact hne)]

/-- C16 at a barrier for one core: `retire(0)` completes the barrier, returns, and its result
is that of `flushL1D(0)` on the hierarchy, whose L1D held a dirty block and has no valid block
afterwards, with the barrier as constructed. -/
theorem C16_retire_completion_witness :
    ((SyncMechanism.new 1).markRetired 0).retireCount = (SyncMechanism.new 1).numCores ∧
    (SyncMechanism.new 1).retire c13Hierarchy 0 = .ok c16Result ∧
    c13Hierarchy.flushL1D 0 = .ok c16Result.2 ∧
    (c13Hierarchy.l1DCaches.getD 0 default).dirtyBlocks ≠ [] ∧
    (c16Result.2.l1DCaches.getD 0 default).sets.all
      (fun set => set.blocks.all (fun blk => !blk.valid)) = true ∧
    c16Result.1 = SyncMechanism.new 1 := by
  have hr : (SyncMechanism.new 1).retire c13Hierarchy 0 = .ok c16Result := by decide
  obtain ⟨e1, _, _, _, hs, hl, h0, h1, hstep⟩ :=
    ((C16_retire_completion (SyncMechanism.new 1) c13Hierarchy 0 (by decide) (by decide)).1
      (by decide)).2 c16Result hr
  obtain ⟨x, y, hx, hy, hxy⟩ := hstep 0 (by decide)
  have ex : x = c13Hierarchy := by
    rw [h0] at hx; exact (Option.some.inj hx).symm
  have ey : y = c16Result.2 := by
    have : (SyncMechanism.new 1).numCores.toNat = 0 + 1 := by decide
    rw [this, hy] at h1; exact Option.some.inj h1
  subst ex
  subst ey
  exact ⟨by decide, hr, hxy, by decide, by decide, e1⟩


/-- The tag is the block number divided by the number of sets the index field can name. -/
theorem Cache.getTag_div (c : Cache) (x : Nat) :
    c.getTag x = x / 2 ^ c.blockOffsetBits / 2 ^ c.setIndexBits := by
  rw [getTag_eq, Nat.div_div_eq_div_mul]

/-- Two addresses have the same tag and set index exactly when they lie in the same aligned
block. -/
theorem Cache.same_block_iff (c : Cache) (x y : Nat) :
    (c.getTag x = c.getTag y ∧ c.getSetIndex x = c.getSetIndex y) ↔
      x / 2 ^ c.blockOffsetBits = y / 2 ^ c.blockOffsetBits := by
  rw [Cache.getTag_div, Cache.getTag_div, getSetIndex_eq, getSetIndex_eq]
  constructor
  · rintro ⟨h1, h2⟩
    rw [← Nat.div_add_mod (x / 2 ^ c.blockOffsetBits) (2 ^ c.setIndexBits),
      ← Nat.div_add_mod (y / 2 ^ c.blockOffsetBits) (2 ^ c.setIndexBits), h1, h2]
  · intro h
    rw [h]
    exact ⟨rfl, rfl⟩

/-- The address rebuilt from a tag within the tag field and a set index within the index
field: the block number is `tag * 2^setIndexBits + setIndex`. -/
theorem Cache.getAddress_of_bound (c : Cache) (t si : Nat)
    (hb : c.blockOffsetBits + c.setIndexBits ≤ 32)
    (ht : t < 2 ^ (32 - (c.blockOffsetBits + c.setIndexBits))) (hsi : si < 2 ^ c.setIndexBits) :
    c.getAddress t si = (t * 2 ^ c.setIndexBits + si) * 2 ^ c.blockOffsetBits ∧
    (t * 2 ^ c.setIndexBits + si) * 2 ^ c.blockOffsetBits < 2 ^ 32 := by
  have hpos1 : 0 < 2 ^ c.blockOffsetBits := Nat.two_pow_pos _
  have hpos2 : 0 < 2 ^ c.setIndexBits := Nat.two_pow_pos _
  have h32 : (2 : Nat) ^ 32 = 2 ^ (32 - (c.blockOffsetBits + c.setIndexBits)) *
      (2 ^ c.setIndexBits * 2 ^ c.blockOffsetBits) := by
    rw [← pow_add, ← pow_add]
    congr 1
    omega
  have hlt : (t * 2 ^ c.setIndexBits + si) * 2 ^ c.blockOffsetBits < 2 ^ 32 := by
    have h1 : t * 2 ^ c.setIndexBits + si < (t + 1) * 2 ^ c.setIndexBits := by
      rw [Nat.add_mul, Nat.one_mul]; omega
    have h2 : (t + 1) * 2 ^ c.setIndexBits ≤
        2 ^ (32 - (c.blockOffsetBits + c.setIndexBits)) * 2 ^ c.setIndexBits :=
      Nat.mul_le_mul_right _ ht
    calc (t * 2 ^ c.setIndexBits + si) * 2 ^ c.blockOffsetBits
        < (2 ^ (32 - (c.blockOffsetBits + c.setIndexBits)) * 2 ^ c.setIndexBits) *
            2 ^ c.blockOffsetBits :=
          Nat.mul_lt_mul_of_pos_right (lt_of_lt_of_le h1 h2) hpos1
      _ = 2 ^ 32 := by rw [h32, Nat.mul_assoc]
  refine ⟨?_, hlt⟩
  have hbn : (t * 2 ^ c.setIndexBits + si) * 2 ^ c.blockOffsetBits / 2 ^ c.blockOffsetBits =
      t * 2 ^ c.setIndexBits + si := Nat.mul_div_cancel _ hpos1
  have e1 : c.getTag ((t * 2 ^ c.setIndexBits + si) * 2 ^ c.blockOffsetBits) = t := by
    rw [Cache.getTag_div, hbn, Nat.mul_comm t, Nat.mul_add_div hpos2, Nat.div_eq_of_lt hsi]
    rfl
  have e2 : c.getSetIndex ((t * 2 ^ c.setIndexBits + si) * 2 ^ c.blockOffsetBits) = si := by
    rw [getSetIndex_eq, hbn, Nat.mul_comm t, Nat.mul_add_mod, Nat.mod_eq_of_lt hsi]
  have := Cache.getAddress_getTag c _ hlt
  rw [e1, e2, Nat.mul_mod_left, Nat.sub_zero] at this
  exact this

/-- The addresses of the block with a tag and set index as in `getAddress_of_bound`. -/
theorem Cache.mem_block_iff (c : Cache) (t si x : Nat)
    (hb : c.blockOffsetBits + c.setIndexBits ≤ 32)
    (ht : t < 2 ^ (32 - (c.blockOffsetBits + c.setIndexBits))) (hsi : si < 2 ^ c.setIndexBits) :
    (c.getAddress t si ≤ x ∧ x < c.getAddress t si + 2 ^ c.blockOffsetBits) ↔
      (c.getTag x = t ∧ c.getSetIndex x = si) := by
  obtain ⟨hA, hlt⟩ := Cache.getAddress_of_bound c t si hb ht hsi
  have hpos1 : 0 < 2 ^ c.blockOffsetBits := Nat.two_pow_pos _
  have hpos2 : 0 < 2 ^ c.setIndexBits := Nat.two_pow_pos _
  rw [hA, Cache.getTag_div, getSetIndex_eq]
  constructor
  · rintro ⟨h1, h2⟩
    have hx : x / 2 ^ c.blockOffsetBits = t * 2 ^ c.setIndexBits + si := by
      apply Nat.div_eq_of_lt_le
      · exact h1
      · rw [Nat.add_mul, Nat.one_mul]; exact h2
    rw [hx, Nat.mul_comm t, Nat.mul_add_div hpos2, Nat.div_eq_of_lt hsi, Nat.mul_add_mod,
      Nat.mod_eq_of_lt hsi]
    exact ⟨rfl, rfl⟩
  · rintro ⟨h1, h2⟩
    have hx : x / 2 ^ c.blockOffsetBits = t * 2 ^ c.setIndexBits + si := by
      rw [← Nat.div_add_mod (x / 2 ^ c.blockOffsetBits) (2 ^ c.setIndexBits), h1, h2,
        Nat.mul_comm]
    have := Nat.div_add_mod x (2 ^ c.blockOffsetBits)
    have hm := Nat.mod_lt x hpos1
    rw [hx] at this
    rw [Nat.mul_comm] at this
    constructor <;> omega

/-- The view of an address held by a valid block. -/
theorem Cache.view_of_core {c : Cache} (hu : c.UniqueTags) (m : MainMemory) {x bi : Nat}
    {dr : Bool} {D : List Nat}
    (h : c.coreAt (c.getSetIndex x) bi = some (c.getTag x, true, dr, D)) :
    c.findBlockInSet (c.getTag x) (c.getSetIndex x) = some bi ∧
    (c.getBlock (c.getSetIndex x) bi).data = D ∧ (c.getBlock (c.getSetIndex x) bi).dirty = dr ∧
    c.view m x = D.getD (c.getBlockOffset x) 0 := by
  have hf := Cache.found_of_coreAt hu h
  obtain ⟨b, hb, hcore⟩ := Cache.blockAt_of_coreAt h
  simp only [CacheBlock.core, Prod.mk.injEq] at hcore
  have hg := Cache.getBlock_of_blockAt hb
  refine ⟨hf, by rw [hg]; exact hcore.2.2.2, by rw [hg]; exact hcore.2.2.1, ?_⟩
  unfold Cache.view
  rw [hf]
  simp only []
  rw [hg, hcore.2.2.2]

/-- The contents of the slot found for an address. -/
theorem Cache.coreAt_of_find {c : Cache} {t si bi : Nat} (h : c.findBlockInSet t si = some bi) :
    c.coreAt si bi = some (t, true, (c.getBlock si bi).dirty, (c.getBlock si bi).data) := by
  obtain ⟨b, hb, hv, ht⟩ := Cache.findBlockInSet_some h
  unfold Cache.coreAt
  rw [hb, Cache.getBlock_of_blockAt hb]
  simp [CacheBlock.core, hv, ht]

/-- Replacing the contents of one slot does not change what is found for an address that
neither the old nor the new contents of the slot hold. -/
theorem Cache.find_replace {c c' : Cache} (hu : c.UniqueTags) (hu' : c'.UniqueTags)
    (si0 b0 t si : Nat)
    (hother : ∀ si' bi', ¬ (si' = si0 ∧ bi' = b0) → c'.coreAt si' bi' = c.coreAt si' bi')
    (hold : ∀ k, si = si0 → c.coreAt si0 b0 = some k → ¬ (k.2.1 = true ∧ k.1 = t))
    (hnew : ∀ k, si = si0 → c'.coreAt si0 b0 = some k → ¬ (k.2.1 = true ∧ k.1 = t)) :
    c'.findBlockInSet t si = c.findBlockInSet t si ∧
    ∀ bi, c.findBlockInSet t si = some bi →
      (c'.getBlock si bi).data = (c.getBlock si bi).data ∧
      (c'.getBlock si bi).dirty = (c.getBlock si bi).dirty := by
  have key : ∀ bi, c.findBlockInSet t si = some bi → ¬ (si = si0 ∧ bi = b0) := by
    intro bi hf hne
    have := Cache.coreAt_of_find hf
    rw [hne.1, hne.2] at this
    exact hold _ hne.1 this ⟨rfl, rfl⟩
  have key' : ∀ bi, c'.findBlockInSet t si = some bi → ¬ (si = si0 ∧ bi = b0) := by
    intro bi hf hne
    have := Cache.coreAt_of_find hf
    rw [hne.1, hne.2] at this
    exact hnew _ hne.1 this ⟨rfl, rfl⟩
  have e : c'.findBlockInSet t si = c.findBlockInSet t si := by
    cases hf : c.findBlockInSet t si with
    | some bi =>
      have h1 := Cache.coreAt_of_find hf
      rw [← hother si bi (key bi hf)] at h1
      exact Cache.found_of_coreAt hu' h1
    | none =>
      cases hf' : c'.findBlockInSet t si with
      | none => rfl
      | some bj =>
        have h1 := Cache.coreAt_of_find hf'
        rw [hother si bj (key' bj hf')] at h1
        rw [Cache.found_of_coreAt hu h1] at hf
        cases hf
  refine ⟨e, fun bi hf => ?_⟩
  have h1 := Cache.getBlock_core_congr (hother si bi (key bi hf))
  simp only [CacheBlock.core, Prod.mk.injEq] at h1
  exact ⟨h1.2.2.2, h1.2.2.1⟩

/-- An address held by the old contents of a slot, and not by its new contents, is no longer
found once the slot is replaced. -/
theorem Cache.find_evicted {c c' : Cache} (hu : c.UniqueTags)
    (si0 b0 t : Nat) {dr : Bool} {D : List Nat}
    (hother : ∀ si' bi', ¬ (si' = si0 ∧ bi' = b0) → c'.coreAt si' bi' = c.coreAt si' bi')
    (hold : c.coreAt si0 b0 = some (t, true, dr, D))
    (hnew : ∀ k, c'.coreAt si0 b0 = some k → ¬ (k.2.1 = true ∧ k.1 = t)) :
    c'.findBlockInSet t si0 = none := by
  cases hf' : c'.findBlockInSet t si0 with
  | none => rfl
  | some bj =>
    have h1 := Cache.coreAt_of_find hf'
    by_cases hj : bj = b0
    · rw [hj] at h1
      exact absurd ⟨rfl, rfl⟩ (hnew _ h1)
    · rw [hother si0 bj (fun h => hj h.2)] at h1
      have e1 := Cache.found_of_coreAt hu h1
      have e2 := Cache.found_of_coreAt hu hold
      rw [e1] at e2
      exact absurd (Option.some.inj e2) hj

/-- The fields of the configuration that the address decomposition uses. -/
theorem Cache.geom_fields {c c' : Cache} (h : c'.geom = c.geom) :
    c'.blockSize = c.blockSize ∧ c'.numSets = c.numSets ∧
    c'.setIndexBits = c.setIndexBits ∧ c'.blockOffsetBits = c.blockOffsetBits := by
  unfold Cache.geom at h
  simp only [Prod.mk.injEq] at h
  exact ⟨h.2.1, h.2.2.2.2.2.1, h.2.2.2.2.2.2.1, h.2.2.2.2.2.2.2.1⟩

/-- Power-of-two geometry is a property of the configuration. -/
theorem Cache.PowerOfTwo.of_geom {c c' : Cache} (h : c'.geom = c.geom) (hp : c.PowerOfTwo) :
    c'.PowerOfTwo := by
  obtain ⟨h1, h2, h3, h4⟩ := Cache.geom_fields h
  unfold Cache.PowerOfTwo at *
  rw [h1, h3, h4]
  exact hp

/-- The tag of a 32-bit address fits the tag field. -/
theorem Cache.getTag_lt (c : Cache) (x : Nat) (hx : x < 2 ^ 32)
    (hb : c.blockOffsetBits + c.setIndexBits ≤ 32) :
    c.getTag x < 2 ^ (32 - (c.blockOffsetBits + c.setIndexBits)) := by
  rw [getTag_eq, ← pow_add, Nat.div_lt_iff_lt_mul (Nat.two_pow_pos _), ← pow_add]
  have : 32 - (c.blockOffsetBits + c.setIndexBits) + (c.blockOffsetBits + c.setIndexBits) = 32 := by
    omega
  rw [this]
  exact hx

/-- The set index of an address fits the index field. -/
theorem Cache.getSetIndex_lt_pow (c : Cache) (x : Nat) : c.getSetIndex x < 2 ^ c.setIndexBits := by
  rw [getSetIndex_eq]
  exact Nat.mod_lt _ (Nat.two_pow_pos _)

/-- Replacing the contents of one slot by a block with a tag that fits the tag field keeps the
tags within the field. -/
theorem Cache.tagBound_replace {c c' : Cache} (ht : c.TagBound) (hg : c'.geom = c.geom)
    (si0 b0 t : Nat) {vl dr : Bool} {D : List Nat}
    (hother : ∀ si' bi', ¬ (si' = si0 ∧ bi' = b0) → c'.coreAt si' bi' = c.coreAt si' bi')
    (hnew : c'.coreAt si0 b0 = some (t, vl, dr, D)) (hsi : si0 < 2 ^ c.setIndexBits)
    (hb : t < 2 ^ (32 - (c.blockOffsetBits + c.setIndexBits))) : c'.TagBound := by
  intro si bi b hblk hv
  obtain ⟨_, _, e2, e1⟩ := Cache.geom_fields hg
  rw [e1, e2]
  have hcore : c'.coreAt si bi = some b.core := by
    unfold Cache.coreAt; rw [hblk]; rfl
  by_cases hh : si = si0 ∧ bi = b0
  · rw [hh.1, hh.2, hnew] at hcore
    have h1 := Option.some.inj hcore
    simp only [CacheBlock.core, Prod.mk.injEq] at h1
    rw [← h1.1, hh.1]
    exact ⟨hsi, hb⟩
  · rw [hother si bi hh] at hcore
    obtain ⟨b1, hb1, hc1⟩ := Cache.blockAt_of_coreAt hcore
    simp only [CacheBlock.core, Prod.mk.injEq] at hc1
    have := ht si bi b1 hb1 (by rw [hc1.2.1]; exact hv)
    rw [← hc1.1]
    exact this

/-- The address of the block that holds address `a`. -/
theorem blockBase_eq (a k : Nat) (ha : a < 2 ^ 32) (hk : k ≤ 32) :
    a &&& not32 ((1 <<< k) - 1) = a - a % 2 ^ k := by
  have hle : 2 ^ k ≤ 2 ^ 32 := Nat.pow_le_pow_right (by norm_num) hk
  have hpos : 0 < 2 ^ k := Nat.two_pow_pos _
  have hmask : not32 ((1 <<< k) - 1) = 2 ^ 32 - 2 ^ k := by
    unfold not32
    rw [Nat.one_shiftLeft, Nat.mod_eq_of_lt (by omega)]
    omega
  rw [hmask, and_mask_eq a k ha hk]

/-- Addresses in the same block: positions relative to an address and offsets in the block. -/
theorem same_block_offsets (B a x n : Nat) (he : x / B = a / B) :
    ((a ≤ x ∧ x < a + n) ↔ (a % B ≤ x % B ∧ x % B < a % B + n)) ∧ x - a = x % B - a % B ∧
    x - x % B = a - a % B := by
  have hx := Nat.div_add_mod x B
  have ha := Nat.div_add_mod a B
  rw [he] at hx
  generalize B * (a / B) = q at hx ha
  generalize x % B = rx at hx
  generalize a % B = ra at ha
  omega

/-- The effect of a victim write-back on main memory. -/
theorem Cache.victim_memory {c : Cache} {m m' : MainMemory} (hs : c.Sound m) {si bi : Nat}
    {V : CacheBlock} (hV : c.blockAt si bi = some V)
    (h : c.writeBackVictim (some memorySystem) m si V = .ok m') :
    m'.memory.length = m.memory.length ∧
    ∀ x, x < 2 ^ 32 → x < m.memory.length →
      m'.memory.getD x 0 =
        if V.valid = true ∧ c.getTag x = V.tag ∧ c.getSetIndex x = si then
          V.data.getD (c.getBlockOffset x) 0
        else m.memory.getD x 0 := by
  obtain ⟨hw, hu, hp, htb, hco⟩ := hs
  have hlenV := Cache.getBlock_data_length hw hV
  by_cases hv : V.valid = true
  · by_cases hd : V.dirty = true
    · rw [Cache.writeBackVictim_memory c hw hp.1 m si V hv hd hlenV] at h
      cases h
      refine ⟨length_checkedStore _ _ _, ?_⟩
      intro x hx hxm
      have hbnd := htb si bi V hV hv
      have hmem := Cache.mem_block_iff c V.tag si x hp.2 hbnd.2 hbnd.1
      show (checkedStore m.memory _ V.data).getD x 0 = _
      rw [getD_checkedStore]
      by_cases hin : c.getTag x = V.tag ∧ c.getSetIndex x = si
      · have hr := hmem.2 hin
        rw [if_pos ⟨hr.1, by rw [hlenV, hp.1]; exact hr.2, hxm⟩, if_pos ⟨hv, hin⟩]
        have hA : c.getAddress V.tag si = x - x % 2 ^ c.blockOffsetBits := by
          rw [← hin.1, ← hin.2]; exact Cache.getAddress_getTag c x hx
        rw [hA, getBlockOffset_eq]
        congr 1
        have := Nat.mod_le x (2 ^ c.blockOffsetBits)
        omega
      · rw [if_neg (fun hh => hin (hmem.1 ⟨hh.1, by
            have := hh.2.1; rw [hlenV, hp.1] at this; exact this⟩)),
          if_neg (fun hh => hin hh.2)]
    · have hd' : V.dirty = false := by simpa using hd
      unfold Cache.writeBackVictim at h
      simp only [hv, hd', Bool.and_false, Bool.false_eq_true, if_false] at h
      cases h
      refine ⟨rfl, ?_⟩
      intro x hx hxm
      by_cases hin : c.getTag x = V.tag ∧ c.getSetIndex x = si
      · rw [if_pos ⟨hv, hin⟩]
        have hcore : c.coreAt (c.getSetIndex x) bi = some (c.getTag x, true, false, V.data) := by
          rw [hin.1, hin.2]; unfold Cache.coreAt; rw [hV]
          simp [CacheBlock.core, hv, hd']
        obtain ⟨hf, hdata, hdirty, _⟩ := Cache.view_of_core hu m hcore
        have := hco x bi hx hxm hf hdirty
        rw [hdata] at this
        exact this.symm
      · rw [if_neg (fun hh => hin hh.2)]
  · have hv' : V.valid = false := by simpa using hv
    unfold Cache.writeBackVictim at h
    simp only [hv', Bool.false_and, Bool.false_eq_true, if_false] at h
    cases h
    refine ⟨rfl, ?_⟩
    intro x _ _
    rw [if_neg (fun hh => hv hh.1)]

/-- The view of memory after the contents of one slot are replaced by a valid block (dirty, or
holding the bytes of main memory) and the old contents, where they were a valid block with
another tag, are in main memory. -/
theorem Cache.view_replace {c c' : Cache} {m m' : MainMemory} (hs : c.Sound m)
    (hu' : c'.UniqueTags) (hg : c'.geom = c.geom) (si0 b0 t : Nat) (dr : Bool)
    (Dnew : List Nat) (V : CacheBlock) (hV : c.blockAt si0 b0 = some V)
    (hother : ∀ si' bi', ¬ (si' = si0 ∧ bi' = b0) → c'.coreAt si' bi' = c.coreAt si' bi')
    (hnew : c'.coreAt si0 b0 = some (t, true, dr, Dnew))
    (hclean : dr = false → ∀ x, x < 2 ^ 32 → x < m.memory.length →
      c.getTag x = t ∧ c.getSetIndex x = si0 →
      Dnew.getD (c.getBlockOffset x) 0 = m'.memory.getD x 0)
    (hlen : m'.memory.length = m.memory.length)
    (hm : ∀ x, x < 2 ^ 32 → x < m.memory.length →
      m'.memory.getD x 0 =
        if V.valid = true ∧ V.tag ≠ t ∧ c.getTag x = V.tag ∧ c.getSetIndex x = si0 then
          V.data.getD (c.getBlockOffset x) 0
        else m.memory.getD x 0) :
    c'.Coherent m' ∧
    ∀ x, x < 2 ^ 32 → x < m.memory.length →
      c'.view m' x =
        if c.getTag x = t ∧ c.getSetIndex x = si0 then Dnew.getD (c.getBlockOffset x) 0
        else c.view m x := by
  obtain ⟨hw, hu, hp, htb, hco⟩ := hs
  have hVcore : c.coreAt si0 b0 = some (V.tag, V.valid, V.dirty, V.data) := by
    unfold Cache.coreAt; rw [hV]; rfl
  -- the three cases for an address
  have caseA : ∀ x, c.getTag x = t ∧ c.getSetIndex x = si0 →
      c'.findBlockInSet (c'.getTag x) (c'.getSetIndex x) = some b0 ∧
      (c'.getBlock (c'.getSetIndex x) b0).dirty = dr ∧
      (c'.getBlock (c'.getSetIndex x) b0).data = Dnew ∧
      c'.view m' x = Dnew.getD (c.getBlockOffset x) 0 := by
    intro x hx
    obtain ⟨g1, g2, g3⟩ := Cache.geom_addr hg x
    have hcore : c'.coreAt (c'.getSetIndex x) b0 = some (c'.getTag x, true, dr, Dnew) := by
      rw [g1, g2, hx.1, hx.2]; exact hnew
    obtain ⟨hf, hdata, hdirty, hview⟩ := Cache.view_of_core hu' m' hcore
    exact ⟨hf, hdirty, hdata, by rw [hview, g3]⟩
  have caseB1 : ∀ x, ¬ (c.getTag x = t ∧ c.getSetIndex x = si0) →
      (V.valid = true ∧ c.getTag x = V.tag ∧ c.getSetIndex x = si0) →
      c'.findBlockInSet (c'.getTag x) (c'.getSetIndex x) = none ∧
      c.view m x = V.data.getD (c.getBlockOffset x) 0 ∧ V.tag ≠ t := by
    intro x hnA hB
    obtain ⟨g1, g2, g3⟩ := Cache.geom_addr hg x
    have hne : V.tag ≠ t := fun e => hnA ⟨by rw [hB.2.1, e], hB.2.2⟩
    have hold : c.coreAt si0 b0 = some (c.getTag x, true, V.dirty, V.data) := by
      rw [hVcore, hB.1, hB.2.1]
    refine ⟨?_, ?_, hne⟩
    · rw [g1, g2, hB.2.2]
      refine Cache.find_evicted hu si0 b0 (c.getTag x) hother hold ?_
      intro k hk hh
      rw [hnew] at hk
      have := Option.some.inj hk
      rw [← this] at hh
      exact hne (by rw [← hB.2.1]; exact hh.2.symm)
    · have hold2 : c.coreAt (c.getSetIndex x) b0 = some (c.getTag x, true, V.dirty, V.data) := by
        rw [hB.2.2]; exact hold
      exact (Cache.view_of_core hu m hold2).2.2.2
  have caseB2 : ∀ x, ¬ (c.getTag x = t ∧ c.getSetIndex x = si0) →
      ¬ (V.valid = true ∧ c.getTag x = V.tag ∧ c.getSetIndex x = si0) →
      c'.findBlockInSet (c'.getTag x) (c'.getSetIndex x) =
        c.findBlockInSet (c.getTag x) (c.getSetIndex x) ∧
      ∀ bi, c.findBlockInSet (c.getTag x) (c.getSetIndex x) = some bi →
        (c'.getBlock (c'.getSetIndex x) bi).data = (c.getBlock (c.getSetIndex x) bi).data ∧
        (c'.getBlock (c'.getSetIndex x) bi).dirty = (c.getBlock (c.getSetIndex x) bi).dirty := by
    intro x hnA hnB
    obtain ⟨g1, g2, g3⟩ := Cache.geom_addr hg x
    rw [g1, g2]
    refine Cache.find_replace hu hu' si0 b0 (c.getTag x) (c.getSetIndex x) hother ?_ ?_
    · intro k hsi hk hh
      rw [hVcore] at hk
      have := Option.some.inj hk
      rw [← this] at hh
      exact hnB ⟨hh.1, hh.2.symm, hsi⟩
    · intro k hsi hk hh
      rw [hnew] at hk
      have := Option.some.inj hk
      rw [← this] at hh
      exact hnA ⟨hh.2.symm, hsi⟩
  constructor
  · intro x bi hx hxm hf hdirty
    rw [hlen] at hxm
    obtain ⟨g1, g2, g3⟩ := Cache.geom_addr hg x
    by_cases hA : c.getTag x = t ∧ c.getSetIndex x = si0
    · obtain ⟨hf', hd', hdat, _⟩ := caseA x hA
      rw [hf'] at hf
      cases hf
      rw [hd'] at hdirty
      rw [hdat, g3]
      exact hclean hdirty x hx hxm hA
    · by_cases hB : V.valid = true ∧ c.getTag x = V.tag ∧ c.getSetIndex x = si0
      · rw [(caseB1 x hA hB).1] at hf
        cases hf
      · obtain ⟨e, hsame⟩ := caseB2 x hA hB
        rw [e] at hf
        obtain ⟨hdat, hdir⟩ := hsame bi hf
        rw [hdir] at hdirty
        rw [hdat, g3, hco x bi hx hxm hf hdirty, hm x hx hxm,
          if_neg (fun hh => hB ⟨hh.1, hh.2.2⟩)]
  · intro x hx hxm
    obtain ⟨g1, g2, g3⟩ := Cache.geom_addr hg x
    by_cases hA : c.getTag x = t ∧ c.getSetIndex x = si0
    · rw [if_pos hA]
      exact (caseA x hA).2.2.2
    · rw [if_neg hA]
      by_cases hB : V.valid = true ∧ c.getTag x = V.tag ∧ c.getSetIndex x = si0
      · obtain ⟨hnone, hview, hne⟩ := caseB1 x hA hB
        rw [hview]
        unfold Cache.view
        rw [hnone]
        simp only []
        rw [hm x hx hxm, if_pos ⟨hB.1, hne, hB.2⟩]
      · obtain ⟨e, hsame⟩ := caseB2 x hA hB
        unfold Cache.view
        rw [e]
        cases hf : c.findBlockInSet (c.getTag x) (c.getSetIndex x) with
        | some bi =>
          simp only []
          rw [(hsame bi hf).1, g3]
        | none =>
          simp only []
          rw [hm x hx hxm, if_neg (fun hh => hB ⟨hh.1, hh.2.2⟩)]

/-- The block of a 32-bit address ends at or below `2^32`. -/
theorem Cache.block_end_le (c : Cache) (hp : c.PowerOfTwo) (x : Nat) (hx : x < 2 ^ 32) :
    x - x % 2 ^ c.blockOffsetBits + 2 ^ c.blockOffsetBits ≤ 2 ^ 32 := by
  have hA := Cache.getAddress_getTag c x hx
  have hbound := Cache.getAddress_of_bound c (c.getTag x) (c.getSetIndex x) hp.2
    (Cache.getTag_lt c x hx hp.2) (Cache.getSetIndex_lt_pow c x)
  have hob : c.blockOffsetBits ≤ 32 := by have := hp.2; omega
  rw [← hA, hbound.1]
  have h32 : (2 : Nat) ^ 32 = 2 ^ (32 - c.blockOffsetBits) * 2 ^ c.blockOffsetBits := by
    rw [← pow_add]; congr 1; omega
  have hq : c.getTag x * 2 ^ c.setIndexBits + c.getSetIndex x < 2 ^ (32 - c.blockOffsetBits) := by
    have := hbound.2
    rw [h32] at this
    exact Nat.lt_of_mul_lt_mul_right this
  calc (c.getTag x * 2 ^ c.setIndexBits + c.getSetIndex x) * 2 ^ c.blockOffsetBits
        + 2 ^ c.blockOffsetBits
      = (c.getTag x * 2 ^ c.setIndexBits + c.getSetIndex x + 1) * 2 ^ c.blockOffsetBits := by
        ring
    _ ≤ 2 ^ (32 - c.blockOffsetBits) * 2 ^ c.blockOffsetBits :=
        Nat.mul_le_mul_right _ hq
    _ = 2 ^ 32 := h32.symm

/-- The block fetched from main memory on a miss at address `a` holds, for every address of
that block inside main memory, the byte of main memory. -/
theorem Cache.fetched_getD (c : Cache) (hp : c.PowerOfTwo) (m : MainMemory) (a x : Nat)
    (ha : a < 2 ^ 32) (hx : x < 2 ^ 32) (hxm : x < m.memory.length)
    (hin : c.getTag x = c.getTag a ∧ c.getSetIndex x = c.getSetIndex a) :
    (m.read (a &&& not32 ((1 <<< c.blockOffsetBits) - 1)) c.blockSize).2.getD
      (c.getBlockOffset x) 0 = m.memory.getD x 0 := by
  have hob : c.blockOffsetBits ≤ 32 := by have := hp.2; omega
  have hpos : 0 < 2 ^ c.blockOffsetBits := Nat.two_pow_pos _
  have he := (Cache.same_block_iff c x a).1 hin
  obtain ⟨_, _, hbase⟩ := same_block_offsets (2 ^ c.blockOffsetBits) a x 0 he
  have hxlt := Nat.mod_lt x hpos
  have hmle := Nat.mod_le x (2 ^ c.blockOffsetBits)
  have hend : (x - x % 2 ^ c.blockOffsetBits) + c.blockSize ≤ 2 ^ 32 := by
    rw [hp.1]; exact Cache.block_end_le c hp x hx
  rw [blockBase_eq a _ ha hob, ← hbase, MainMemory.read_no_wrap _ _ _ hend]
  simp only []
  rw [getBlockOffset_eq, List.getD_eq_getElem?_getD, List.getElem?_map,
    List.getElem?_range (by rw [hp.1]; exact hxlt)]
  simp only [Option.map_some', Option.getD_some]
  have e : x - x % 2 ^ c.blockOffsetBits + x % 2 ^ c.blockOffsetBits = x := by omega
  rw [e, if_pos hxm]

/-- A cache with the geometry and the block contents of a sound cache is sound. -/
theorem Cache.sound_of_same {c c' : Cache} {m : MainMemory} (hs : c.Sound m) (hw' : c'.WF)
    (hg : c'.geom = c.geom) (hsame : ∀ si bi, c'.coreAt si bi = c.coreAt si bi) :
    c'.Sound m := by
  obtain ⟨hw, hu, hp, htb, hco⟩ := hs
  refine ⟨hw', Cache.uniqueTags_of_same hsame hu, Cache.PowerOfTwo.of_geom hg hp, ?_, ?_⟩
  · intro si bi b hb hv
    obtain ⟨_, _, e2, e1⟩ := Cache.geom_fields hg
    rw [e1, e2]
    have hcore : c.coreAt si bi = some b.core := by
      rw [← hsame si bi]; unfold Cache.coreAt; rw [hb]; rfl
    obtain ⟨b1, hb1, hc1⟩ := Cache.blockAt_of_coreAt hcore
    simp only [CacheBlock.core, Prod.mk.injEq] at hc1
    have := htb si bi b1 hb1 (by rw [hc1.2.1]; exact hv)
    rw [← hc1.1]
    exact this
  · intro x bi hx hxm hf hd
    obtain ⟨g1, g2, g3⟩ := Cache.geom_addr hg x
    rw [g1, g2, Cache.findBlockInSet_congr (fun b => hsame _ b)] at hf
    have hcg := Cache.getBlock_core_congr (hsame (c.getSetIndex x) bi)
    simp only [CacheBlock.core, Prod.mk.injEq] at hcg
    rw [g2, hcg.2.2.1] at hd
    rw [g2, g3, hcg.2.2.2]
    exact hco x bi hx hxm hf hd

/-- A read through a sound cache over main memory leaves the cache sound and the view of
memory as it was. -/
theorem Cache.read_sound {c : Cache} {m : MainMemory} {a n : Nat}
    {r : (Int × List Nat) × Cache × MainMemory} (hs : c.Sound m) (ha : a < 2 ^ 32)
    (h : Cache.read (some memorySystem) c m a n = .ok r) :
    r.2.1.Sound r.2.2 ∧ r.2.1.geom = c.geom ∧ r.2.2.memory.length = m.memory.length ∧
    ∀ x, x < 2 ^ 32 → x < m.memory.length → r.2.1.view r.2.2 x = c.view m x := by
  have hn := Cache.read_within h
  have hs0 := hs
  obtain ⟨hw, hu, hp, htb, hco⟩ := hs
  have hw' := Cache.read_wf memorySystem_readLen h hw
  have hu' := Cache.read_uniqueTags h hu
  have htag := Cache.getTag_lt c a ha hp.2
  cases hf : c.findBlockInSet (c.getTag a) (c.getSetIndex a) with
  | some bi =>
    obtain ⟨c', hc', hg, hsame, _⟩ := Cache.read_hit (some memorySystem) c m a n bi hf hn
    rw [hc'] at h
    cases h
    refine ⟨Cache.sound_of_same hs0 hw' hg hsame, hg, rfl, ?_⟩
    intro x _ _
    obtain ⟨g1, g2, g3⟩ := Cache.geom_addr hg x
    unfold Cache.view
    rw [g1, g2, g3, Cache.findBlockInSet_congr (fun b => hsame _ b)]
    cases hfx : c.findBlockInSet (c.getTag x) (c.getSetIndex x) with
    | none => rfl
    | some bx =>
      have hcg := Cache.getBlock_core_congr (hsame (c.getSetIndex x) bx)
      simp only [CacheBlock.core, Prod.mk.injEq] at hcg
      simp only []
      rw [hcg.2.2.2]
  | none =>
    obtain ⟨fetched, v, hrd, hsel, hwb, hg, hsome, hcore, hoth⟩ :=
      Cache.read_miss_result memorySystem c m a n hw hf r h
    simp only [memorySystem] at hrd
    cases hrd
    obtain ⟨k, hk⟩ := Option.isSome_iff_exists.1 hsome
    obtain ⟨V, hV, _⟩ := Cache.blockAt_of_coreAt hk
    rw [Cache.getBlock_of_blockAt hV] at hwb
    obtain ⟨hlen, hmem⟩ := Cache.victim_memory hs0 hV hwb
    have hVne : V.valid = true → V.tag ≠ c.getTag a := fun hv e =>
      Cache.findBlockInSet_none hf v.1 V hV ⟨hv, e⟩
    obtain ⟨hcoh, hview⟩ := Cache.view_replace hs0 hu' hg (c.getSetIndex a) v.1 (c.getTag a)
      false _ V hV hoth hcore (by
        intro _ x hx hxm hin
        rw [hmem x hx hxm, if_neg (fun hh => hVne hh.1 (by rw [← hh.2.1, hin.1])),
          Cache.fetched_getD c hp m a x ha hx hxm hin]) hlen (by
        intro x hx hxm
        rw [hmem x hx hxm]
        by_cases hc : V.valid = true ∧ c.getTag x = V.tag ∧ c.getSetIndex x = c.getSetIndex a
        · rw [if_pos hc, if_pos ⟨hc.1, hVne hc.1, hc.2⟩]
        · rw [if_neg hc, if_neg (fun hh => hc ⟨hh.1, hh.2.2⟩)])
    refine ⟨⟨hw', hu', Cache.PowerOfTwo.of_geom hg hp,
      Cache.tagBound_replace htb hg _ _ _ hoth hcore (Cache.getSetIndex_lt_pow c a) htag,
      hcoh⟩, hg, hlen, ?_⟩
    intro x hx hxm
    rw [hview x hx hxm]
    by_cases hin : c.getTag x = c.getTag a ∧ c.getSetIndex x = c.getSetIndex a
    · rw [if_pos hin, Cache.fetched_getD c hp m a x ha hx hxm hin]
      unfold Cache.view
      rw [hin.1, hin.2, hf]
    · rw [if_neg hin]

/-- Inside main memory the L2 reads after the flush return what L1D held, for the block written
back first (and evicted from the single-block L2 by the second write-back) as for the last. -/
theorem c13InRange_eval :
    c13InRange = .ok ([7, 0, 0, 0], [9, 0, 0, 0], [7, 0, 0, 0], [9, 0, 0, 0]) := by
  decide!

end RiscvSim
